import Mathlib

/-!
# PaperChaincode: a shallow embedding of `paperchain.go`

The chaincode stores one JSON-encoded `PaperRecord` per paper hash in the
world state of a Hyperledger Fabric channel.  This development embeds

* Go strings and byte slices as lists of bytes (a Go string is an arbitrary
  byte sequence, not necessarily valid UTF-8),
* the parts of the Go standard library the chaincode calls
  (`unicode/utf8`, `encoding/json` for a struct of six string fields),
* the ledger stub (`GetState`, `PutState`, `GetStateByRange`, `SetEvent`)
  as an explicit in-memory state with an oracle for storage faults,
* the six transaction functions of `PaperChaincode`,

and proves the properties claimed of them.
-/

namespace PaperChain

/-! ## Bytes and strings -/

/-- One byte. -/
abbrev Byte := Fin 256

/-- Truncating conversion `byte(n)`: the low eight bits of `n`. -/
def byte (n : Nat) : Byte := ⟨n % 256, Nat.mod_lt n (by decide)⟩

/-- A Go `string`: an immutable sequence of bytes. -/
abbrev GoString := List Byte

/-- A Go `[]byte`. -/
abbrev Bytes := List Byte

/-- The bytes of an ASCII string constant of the source. -/
def ascii (s : String) : List Byte := s.toList.map (fun c => byte c.toNat)

/-! ## `unicode/utf8` -/

/-- The constant `utf8.RuneError`, U+FFFD. -/
def RuneError : Nat := 0xFFFD

/-- The constant `utf8.MaxRune`. -/
def MaxRune : Nat := 0x10FFFF

/-- The table `first` of package `utf8`: information about the first byte of
a UTF-8 sequence.  `0xF0` is ASCII, `0xF1` is invalid; otherwise the low
three bits are the size and the high four bits index `acceptRanges`. -/
def first (p0 : Nat) : Nat :=
  if p0 < 0x80 then 0xF0        -- as
  else if p0 < 0xC2 then 0xF1   -- xx
  else if p0 < 0xE0 then 0x02   -- s1
  else if p0 = 0xE0 then 0x13   -- s2
  else if p0 < 0xED then 0x03   -- s3
  else if p0 = 0xED then 0x23   -- s4
  else if p0 < 0xF0 then 0x03   -- s3
  else if p0 = 0xF0 then 0x34   -- s5
  else if p0 < 0xF4 then 0x04   -- s6
  else if p0 = 0xF4 then 0x44   -- s7
  else 0xF1                     -- xx

/-- The table `acceptRanges` of package `utf8`: the range `(lo, hi)` of valid
values for the second byte of a sequence. -/
def acceptRanges (i : Nat) : Nat × Nat :=
  if i = 0 then (0x80, 0xBF)
  else if i = 1 then (0xA0, 0xBF)
  else if i = 2 then (0x80, 0x9F)
  else if i = 3 then (0x90, 0xBF)
  else if i = 4 then (0x80, 0x8F)
  else (0, 0)

/-- The function `utf8.DecodeRune`: the first rune of `p` and its width in
bytes; `(RuneError, 0)` on empty input and `(RuneError, 1)` on an invalid
encoding.  Masks and shifts are written arithmetically: `b & 0x3F` is
`b % 64`, `x << 6` is `x * 64`, and `|` of disjoint bit fields is `+`. -/
def decodeRune (p : List Byte) : Nat × Nat :=
  match p with
  | [] => (RuneError, 0)
  | p0 :: t =>
    let x := first p0.val
    if 0xF0 ≤ x then
      -- mask := rune(x) << 31 >> 31 is all ones exactly when x is odd (xx)
      (if x % 2 = 1 then RuneError else p0.val, 1)
    else
      let sz := x % 8
      let accept := acceptRanges (x / 16)
      if p.length < sz then (RuneError, 1)
      else
        match t with
        | [] => (RuneError, 1)
        | b1 :: t1 =>
          if b1.val < accept.1 ∨ accept.2 < b1.val then (RuneError, 1)
          else if sz ≤ 2 then ((p0.val % 32) * 64 + b1.val % 64, 2)
          else
            match t1 with
            | [] => (RuneError, 1)
            | b2 :: t2 =>
              if b2.val < 0x80 ∨ 0xBF < b2.val then (RuneError, 1)
              else if sz ≤ 3 then
                ((p0.val % 16) * 4096 + (b1.val % 64) * 64 + b2.val % 64, 3)
              else
                match t2 with
                | [] => (RuneError, 1)
                | b3 :: _ =>
                  if b3.val < 0x80 ∨ 0xBF < b3.val then (RuneError, 1)
                  else
                    ((p0.val % 8) * 262144 + (b1.val % 64) * 4096
                      + (b2.val % 64) * 64 + b3.val % 64, 4)

/-- The three-byte arm of `utf8.EncodeRune`. -/
def encodeRune3 (r : Nat) : List Byte :=
  [byte (0xE0 + r / 4096), byte (0x80 + r / 64 % 64), byte (0x80 + r % 64)]

/-- The function `utf8.EncodeRune` (equivalently `utf8.AppendRune`): the
UTF-8 encoding of rune `r`.  Surrogates and values above `MaxRune` are
encoded as `RuneError`. -/
def encodeRune (r : Nat) : List Byte :=
  if r ≤ 0x7F then [byte r]
  else if r ≤ 0x7FF then [byte (0xC0 + r / 64), byte (0x80 + r % 64)]
  else if MaxRune < r ∨ (0xD800 ≤ r ∧ r ≤ 0xDFFF) then encodeRune3 RuneError
  else if r ≤ 0xFFFF then encodeRune3 r
  else
    [byte (0xF0 + r / 262144), byte (0x80 + r / 4096 % 64),
     byte (0x80 + r / 64 % 64), byte (0x80 + r % 64)]

/-- Well-formedness of a byte string as UTF-8 with the given fuel: the loop
`for len(s) > 0 { r, size := DecodeRune(s); if r == RuneError && size == 1
{ return false }; s = s[size:] }`. -/
def validUTF8Loop : Nat → List Byte → Bool
  | _, [] => true
  | 0, _ :: _ => false
  | fuel + 1, c :: rest =>
    if c.val < 0x80 then validUTF8Loop fuel rest
    else
      let d := decodeRune (c :: rest)
      if d.1 = RuneError ∧ d.2 = 1 then false
      else validUTF8Loop fuel (rest.drop (d.2 - 1))

/-- The predicate `utf8.Valid`: `s` consists entirely of valid UTF-8-encoded
runes. -/
def validUTF8 (s : List Byte) : Bool := validUTF8Loop s.length s

/-! ## `encoding/json`: encoding -/

/-- The entity stored on the ledger:
`type PaperRecord struct { StudentID, PaperHash, Timestamp, Author, AuthorID,
PaperDate string }`. -/
structure PaperRecord where
  StudentID : GoString
  PaperHash : GoString
  Timestamp : GoString
  Author : GoString
  AuthorID : GoString
  PaperDate : GoString
  deriving DecidableEq, Repr

/-- The constant `hex = "0123456789abcdef"`, indexed. -/
def hex (n : Nat) : Byte :=
  if n < 10 then byte (0x30 + n) else byte (0x61 + (n - 10))

/-- The table `htmlSafeSet`: the ASCII bytes that `appendString` copies
verbatim when HTML escaping is on (everything from space to DEL except
the double quote, ampersand, less-than, greater-than and backslash). -/
def htmlSafeSet (b : Nat) : Bool :=
  decide (0x20 ≤ b ∧ b < 0x80 ∧ b ≠ 0x22 ∧ b ≠ 0x26 ∧ b ≠ 0x3C ∧ b ≠ 0x3E ∧ b ≠ 0x5C)

/-- The `switch b` of `appendString` for an ASCII byte outside `htmlSafeSet`. -/
def escapeByte (b : Byte) : List Byte :=
  if b.val = 0x5C ∨ b.val = 0x22 then [0x5C, b]
  else if b.val = 0x08 then [0x5C, 0x62]
  else if b.val = 0x0C then [0x5C, 0x66]
  else if b.val = 0x0A then [0x5C, 0x6E]
  else if b.val = 0x0D then [0x5C, 0x72]
  else if b.val = 0x09 then [0x5C, 0x74]
  else [0x5C, 0x75, 0x30, 0x30, hex (b.val / 16), hex (b.val % 16)]

/-- The loop of `appendString(dst, src, escapeHTML = true)`.  The source
copies maximal unescaped runs `src[start:i]` at once; here every step
emits the bytes it has just passed over, which yields the same output. -/
def appendStringLoop : Nat → List Byte → List Byte
  | _, [] => []
  | 0, _ :: _ => []
  | fuel + 1, b :: rest =>
    if b.val < 0x80 then
      if htmlSafeSet b.val then b :: appendStringLoop fuel rest
      else escapeByte b ++ appendStringLoop fuel rest
    else
      let d := decodeRune ((b :: rest).take 4)
      if d.1 = RuneError ∧ d.2 = 1 then
        -- invalid UTF-8: backslash, u, f, f, f, d
        [0x5C, 0x75, 0x66, 0x66, 0x66, 0x64] ++ appendStringLoop fuel rest
      else if d.1 = 0x2028 ∨ d.1 = 0x2029 then
        -- backslash, u, 2, 0, 2, then hex[c&0xF]
        [0x5C, 0x75, 0x32, 0x30, 0x32, hex (d.1 % 16)]
          ++ appendStringLoop fuel (rest.drop (d.2 - 1))
      else
        (b :: rest).take d.2 ++ appendStringLoop fuel (rest.drop (d.2 - 1))

/-- The function `appendString` of `encoding/json` with `escapeHTML`
set, as `json.Marshal` calls it: `src` as a JSON string literal. -/
def appendString (src : GoString) : Bytes :=
  [0x22] ++ appendStringLoop src.length src ++ [0x22]

/-- JSON name of field `StudentID`. -/
def nameStudentId : List Byte := ascii "studentId"
/-- JSON name of field `PaperHash`. -/
def namePaperHash : List Byte := ascii "paperHash"
/-- JSON name of field `Timestamp`. -/
def nameTimestamp : List Byte := ascii "timestamp"
/-- JSON name of field `Author`. -/
def nameAuthor : List Byte := ascii "author"
/-- JSON name of field `AuthorID`. -/
def nameAuthorId : List Byte := ascii "authorId"
/-- JSON name of field `PaperDate`. -/
def namePaperDate : List Byte := ascii "paperDate"

/-- The pre-computed `nameQuoted` of a struct field: the quoted name and a
colon. -/
def nameQuoted (name : List Byte) : List Byte := [0x22] ++ name ++ [0x22, 0x3A]

/-- The struct encoder for `PaperRecord`: an object with the six fields in
declaration order, without whitespace. -/
def encodeRecord (r : PaperRecord) : Bytes :=
  [0x7B] ++ nameQuoted nameStudentId ++ appendString r.StudentID
  ++ [0x2C] ++ nameQuoted namePaperHash ++ appendString r.PaperHash
  ++ [0x2C] ++ nameQuoted nameTimestamp ++ appendString r.Timestamp
  ++ [0x2C] ++ nameQuoted nameAuthor ++ appendString r.Author
  ++ [0x2C] ++ nameQuoted nameAuthorId ++ appendString r.AuthorID
  ++ [0x2C] ++ nameQuoted namePaperDate ++ appendString r.PaperDate
  ++ [0x7D]

/-- The call `json.Marshal(paperRecord)`: the encoded bytes, or the text of
the error.  A struct of string fields has no failing encoder. -/
def jsonMarshal (r : PaperRecord) : Except GoString Bytes := .ok (encodeRecord r)

/-! ## `encoding/json`: the scanner -/

/-- The constants `parseObjectKey`, `parseObjectValue`, `parseArrayValue`. -/
inductive ParseState where
  | parseObjectKey
  | parseObjectValue
  | parseArrayValue
  deriving DecidableEq, Repr

/-- The opcodes returned by the scanner's step functions. -/
inductive Op where
  | scanContinue
  | scanBeginLiteral
  | scanBeginObject
  | scanObjectKey
  | scanObjectValue
  | scanEndObject
  | scanBeginArray
  | scanArrayValue
  | scanEndArray
  | scanSkipSpace
  | scanEnd
  | scanError
  deriving DecidableEq, Repr

/-- The step functions of the scanner, as data. -/
inductive StepFn where
  | stateBeginValueOrEmpty
  | stateBeginValue
  | stateBeginStringOrEmpty
  | stateBeginString
  | stateEndValue
  | stateEndTop
  | stateInString
  | stateInStringEsc
  | stateInStringEscU
  | stateInStringEscU1
  | stateInStringEscU12
  | stateInStringEscU123
  | stateNeg
  | state1
  | state0
  | stateDot
  | stateDot0
  | stateE
  | stateESign
  | stateE0
  | stateT
  | stateTr
  | stateTru
  | stateF
  | stateFa
  | stateFal
  | stateFals
  | stateN
  | stateNu
  | stateNul
  | stateError
  deriving DecidableEq, Repr

/-- The type `scanner`: a JSON scanning state machine.  The top of the
`parseState` stack is the head of the list (the source appends at the end).
`err` records whether `s.err` is set; the `bytes` counter only feeds the
offset of the error and is left out. -/
structure Scanner where
  step : StepFn
  endTop : Bool
  parseState : List ParseState
  err : Bool
  deriving DecidableEq, Repr

/-- The constant `maxNestingDepth`. -/
def maxNestingDepth : Nat := 10000

/-- The method `reset`. -/
def Scanner.reset : Scanner :=
  { step := .stateBeginValue, endTop := false, parseState := [], err := false }

/-- The method `error`: records a syntax error and kills the scanner. -/
def Scanner.error (s : Scanner) : Scanner × Op :=
  ({ s with step := .stateError, err := true }, .scanError)

/-- The method `pushParseState`. -/
def Scanner.pushParseState (s : Scanner) (newParseState : ParseState) (successState : Op) :
    Scanner × Op :=
  let s1 := { s with parseState := newParseState :: s.parseState }
  if s1.parseState.length ≤ maxNestingDepth then (s1, successState) else s1.error

/-- The method `popParseState`. -/
def Scanner.popParseState (s : Scanner) : Scanner :=
  let ps := s.parseState.tail
  if ps.length = 0 then { s with parseState := ps, step := .stateEndTop, endTop := true }
  else { s with parseState := ps, step := .stateEndValue }

/-- The function `isSpace`. -/
def isSpace (c : Byte) : Bool :=
  decide (c.val ≤ 0x20 ∧ (c.val = 0x20 ∨ c.val = 0x09 ∨ c.val = 0x0D ∨ c.val = 0x0A))

/-- Whether `c` is a decimal digit. -/
def isDigit (c : Byte) : Bool := decide (0x30 ≤ c.val ∧ c.val ≤ 0x39)

/-- Whether `c` is a digit from one to nine. -/
def isDigit19 (c : Byte) : Bool := decide (0x31 ≤ c.val ∧ c.val ≤ 0x39)

/-- Whether `c` is a hexadecimal digit. -/
def isHex (c : Byte) : Bool :=
  decide ((0x30 ≤ c.val ∧ c.val ≤ 0x39) ∨ (0x61 ≤ c.val ∧ c.val ≤ 0x66)
    ∨ (0x41 ≤ c.val ∧ c.val ≤ 0x46))

/-- The step function `stateEndTop`: only space may follow the top-level
value.  It returns `scanEnd` even when it records the error. -/
def stateEndTop (s : Scanner) (c : Byte) : Scanner × Op :=
  if !isSpace c then ((s.error).1, .scanEnd) else (s, .scanEnd)

/-- The step function `stateEndValue`: the state after completing a value. -/
def stateEndValue (s : Scanner) (c : Byte) : Scanner × Op :=
  match s.parseState with
  | [] => stateEndTop { s with step := .stateEndTop, endTop := true } c
  | ps :: below =>
    if isSpace c then ({ s with step := .stateEndValue }, .scanSkipSpace)
    else
      match ps with
      | .parseObjectKey =>
        if c.val = 0x3A then
          ({ s with parseState := .parseObjectValue :: below, step := .stateBeginValue },
            .scanObjectKey)
        else s.error
      | .parseObjectValue =>
        if c.val = 0x2C then
          ({ s with parseState := .parseObjectKey :: below, step := .stateBeginString },
            .scanObjectValue)
        else if c.val = 0x7D then (s.popParseState, .scanEndObject)
        else s.error
      | .parseArrayValue =>
        if c.val = 0x2C then ({ s with step := .stateBeginValue }, .scanArrayValue)
        else if c.val = 0x5D then (s.popParseState, .scanEndArray)
        else s.error

/-- The step function `stateBeginValue`: the state at the beginning of the
input or of a value. -/
def stateBeginValue (s : Scanner) (c : Byte) : Scanner × Op :=
  if isSpace c then (s, .scanSkipSpace)
  else if c.val = 0x7B then
    ({ s with step := .stateBeginStringOrEmpty }).pushParseState .parseObjectKey .scanBeginObject
  else if c.val = 0x5B then
    ({ s with step := .stateBeginValueOrEmpty }).pushParseState .parseArrayValue .scanBeginArray
  else if c.val = 0x22 then ({ s with step := .stateInString }, .scanBeginLiteral)
  else if c.val = 0x2D then ({ s with step := .stateNeg }, .scanBeginLiteral)
  else if c.val = 0x30 then ({ s with step := .state0 }, .scanBeginLiteral)
  else if c.val = 0x74 then ({ s with step := .stateT }, .scanBeginLiteral)
  else if c.val = 0x66 then ({ s with step := .stateF }, .scanBeginLiteral)
  else if c.val = 0x6E then ({ s with step := .stateN }, .scanBeginLiteral)
  else if isDigit19 c then ({ s with step := .state1 }, .scanBeginLiteral)
  else s.error

/-- The step function `stateBeginValueOrEmpty`: the state after `[`. -/
def stateBeginValueOrEmpty (s : Scanner) (c : Byte) : Scanner × Op :=
  if isSpace c then (s, .scanSkipSpace)
  else if c.val = 0x5D then stateEndValue s c
  else stateBeginValue s c

/-- The step function `stateBeginString`: the state after `{"key": value,`. -/
def stateBeginString (s : Scanner) (c : Byte) : Scanner × Op :=
  if isSpace c then (s, .scanSkipSpace)
  else if c.val = 0x22 then ({ s with step := .stateInString }, .scanBeginLiteral)
  else s.error

/-- The step function `stateBeginStringOrEmpty`: the state after `{`. -/
def stateBeginStringOrEmpty (s : Scanner) (c : Byte) : Scanner × Op :=
  if isSpace c then (s, .scanSkipSpace)
  else if c.val = 0x7D then
    stateEndValue { s with parseState := .parseObjectValue :: s.parseState.tail } c
  else stateBeginString s c

/-- The step function `state0`: after a leading zero of a number. -/
def state0 (s : Scanner) (c : Byte) : Scanner × Op :=
  if c.val = 0x2E then ({ s with step := .stateDot }, .scanContinue)
  else if c.val = 0x65 ∨ c.val = 0x45 then ({ s with step := .stateE }, .scanContinue)
  else stateEndValue s c

/-- The step function `stateESign`: after the sign of an exponent. -/
def stateESign (s : Scanner) (c : Byte) : Scanner × Op :=
  if isDigit c then ({ s with step := .stateE0 }, .scanContinue) else s.error

/-- Moves to step function `next` when `c` is the byte `want`, as the
states inside the literals `true`, `false` and `null` do. -/
def expectByte (s : Scanner) (c : Byte) (want : Nat) (next : StepFn) : Scanner × Op :=
  if c.val = want then ({ s with step := next }, .scanContinue) else s.error

/-- The call `s.step(s, c)`: dispatch on the current step function. -/
def Scanner.next (s : Scanner) (c : Byte) : Scanner × Op :=
  match s.step with
  | .stateBeginValueOrEmpty => stateBeginValueOrEmpty s c
  | .stateBeginValue => stateBeginValue s c
  | .stateBeginStringOrEmpty => stateBeginStringOrEmpty s c
  | .stateBeginString => stateBeginString s c
  | .stateEndValue => stateEndValue s c
  | .stateEndTop => stateEndTop s c
  | .stateInString =>
    if c.val = 0x22 then ({ s with step := .stateEndValue }, .scanContinue)
    else if c.val = 0x5C then ({ s with step := .stateInStringEsc }, .scanContinue)
    else if c.val < 0x20 then s.error
    else (s, .scanContinue)
  | .stateInStringEsc =>
    if c.val = 0x62 ∨ c.val = 0x66 ∨ c.val = 0x6E ∨ c.val = 0x72 ∨ c.val = 0x74
        ∨ c.val = 0x5C ∨ c.val = 0x2F ∨ c.val = 0x22 then
      ({ s with step := .stateInString }, .scanContinue)
    else if c.val = 0x75 then ({ s with step := .stateInStringEscU }, .scanContinue)
    else s.error
  | .stateInStringEscU =>
    if isHex c then ({ s with step := .stateInStringEscU1 }, .scanContinue) else s.error
  | .stateInStringEscU1 =>
    if isHex c then ({ s with step := .stateInStringEscU12 }, .scanContinue) else s.error
  | .stateInStringEscU12 =>
    if isHex c then ({ s with step := .stateInStringEscU123 }, .scanContinue) else s.error
  | .stateInStringEscU123 =>
    if isHex c then ({ s with step := .stateInString }, .scanContinue) else s.error
  | .stateNeg =>
    if c.val = 0x30 then ({ s with step := .state0 }, .scanContinue)
    else if isDigit19 c then ({ s with step := .state1 }, .scanContinue)
    else s.error
  | .state1 =>
    if isDigit c then ({ s with step := .state1 }, .scanContinue) else state0 s c
  | .state0 => state0 s c
  | .stateDot =>
    if isDigit c then ({ s with step := .stateDot0 }, .scanContinue) else s.error
  | .stateDot0 =>
    if isDigit c then (s, .scanContinue)
    else if c.val = 0x65 ∨ c.val = 0x45 then ({ s with step := .stateE }, .scanContinue)
    else stateEndValue s c
  | .stateE =>
    if c.val = 0x2B ∨ c.val = 0x2D then ({ s with step := .stateESign }, .scanContinue)
    else stateESign s c
  | .stateESign => stateESign s c
  | .stateE0 => if isDigit c then (s, .scanContinue) else stateEndValue s c
  | .stateT => expectByte s c 0x72 .stateTr
  | .stateTr => expectByte s c 0x75 .stateTru
  | .stateTru => expectByte s c 0x65 .stateEndValue
  | .stateF => expectByte s c 0x61 .stateFa
  | .stateFa => expectByte s c 0x6C .stateFal
  | .stateFal => expectByte s c 0x73 .stateFals
  | .stateFals => expectByte s c 0x65 .stateEndValue
  | .stateN => expectByte s c 0x75 .stateNu
  | .stateNu => expectByte s c 0x6C .stateNul
  | .stateNul => expectByte s c 0x6C .stateEndValue
  | .stateError => (s, .scanError)

/-- The method `eof`: tells the scanner that the end of input has been
reached. -/
def Scanner.eof (s : Scanner) : Op :=
  if s.err then .scanError
  else if s.endTop then .scanEnd
  else if (s.next 0x20).1.endTop then .scanEnd
  else .scanError

/-- The loop of `checkValid`: `none` when a step returns `scanError`. -/
def checkValidLoop (s : Scanner) : List Byte → Option Scanner
  | [] => some s
  | c :: rest =>
    let r := s.next c
    if r.2 = .scanError then none else checkValidLoop r.1 rest

/-- The function `checkValid`: whether `data` is one valid JSON value,
optionally surrounded by space. -/
def checkValid (data : Bytes) : Bool :=
  match checkValidLoop Scanner.reset data with
  | none => false
  | some s => decide (s.eof ≠ .scanError)

/-! ## `encoding/json`: decoding -/

/-- The value of a hexadecimal digit, as the `switch` in `getu4` computes
it; `none` when `c` is not one. -/
def hexVal (c : Byte) : Option Nat :=
  if 0x30 ≤ c.val ∧ c.val ≤ 0x39 then some (c.val - 0x30)
  else if 0x61 ≤ c.val ∧ c.val ≤ 0x66 then some (c.val - 0x61 + 10)
  else if 0x41 ≤ c.val ∧ c.val ≤ 0x46 then some (c.val - 0x41 + 10)
  else none

/-- The function `getu4`: the rune of a leading escape made of a backslash,
the letter u and four hexadecimal digits; `none` for the source's `-1`. -/
def getu4 (s : List Byte) : Option Nat :=
  match s with
  | b :: u :: h1 :: h2 :: h3 :: h4 :: _ =>
    if b.val ≠ 0x5C ∨ u.val ≠ 0x75 then none
    else
      match hexVal h1, hexVal h2, hexVal h3, hexVal h4 with
      | some d1, some d2, some d3, some d4 => some (((d1 * 16 + d2) * 16 + d3) * 16 + d4)
      | _, _, _, _ => none
  | _ => none

/-- The function `utf16.IsSurrogate`. -/
def isSurrogate (r : Nat) : Bool := decide (0xD800 ≤ r ∧ r < 0xE000)

/-- The function `utf16.DecodeRune`: the rune of a surrogate pair, or
U+FFFD when the pair is not valid.  The second half is `none` when `getu4`
returned `-1`. -/
def utf16DecodeRune (r1 : Nat) (r2 : Option Nat) : Nat :=
  match r2 with
  | none => 0xFFFD
  | some r2 =>
    if 0xD800 ≤ r1 ∧ r1 < 0xDC00 ∧ 0xDC00 ≤ r2 ∧ r2 < 0xE000 then
      (r1 - 0xD800) * 1024 + (r2 - 0xDC00) + 0x10000
    else 0xFFFD

/-- The first loop of `unquoteBytes`: the index `r` of the first byte that
needs unquoting (a backslash, a quote, a control character or invalid
UTF-8), or the length of `s` when there is none. -/
def unquoteScan : Nat → List Byte → Nat
  | _, [] => 0
  | 0, _ :: _ => 0
  | fuel + 1, c :: rest =>
    if c.val = 0x5C ∨ c.val = 0x22 ∨ c.val < 0x20 then 0
    else if c.val < 0x80 then 1 + unquoteScan fuel rest
    else
      let d := decodeRune (c :: rest)
      if d.1 = RuneError ∧ d.2 = 1 then 0
      else d.2 + unquoteScan fuel (rest.drop (d.2 - 1))

/-- One iteration of the second loop of `unquoteBytes` on the byte `c`
followed by `rest`: the bytes written to the output and the number of
bytes of `rest` consumed (the advance of the read index, less one), or
`none` where the source returns `ok = false`. -/
def unquoteStep (c : Byte) (rest : List Byte) : Option (List Byte × Nat) :=
  if c.val = 0x5C then
    match rest with
    | [] => none
    | e :: _ =>
      if e.val = 0x22 ∨ e.val = 0x5C ∨ e.val = 0x2F ∨ e.val = 0x27 then some ([e], 1)
      else if e.val = 0x62 then some ([0x08], 1)
      else if e.val = 0x66 then some ([0x0C], 1)
      else if e.val = 0x6E then some ([0x0A], 1)
      else if e.val = 0x72 then some ([0x0D], 1)
      else if e.val = 0x74 then some ([0x09], 1)
      else if e.val = 0x75 then
        match getu4 (c :: rest) with
        | none => none
        | some rr =>
          if isSurrogate rr then
            let dec := utf16DecodeRune rr (getu4 (rest.drop 5))
            if dec ≠ 0xFFFD then
              -- A valid pair; consume.
              some (encodeRune dec, 11)
            else
              -- Invalid surrogate; fall back to replacement rune.
              some (encodeRune 0xFFFD, 5)
          else some (encodeRune rr, 5)
      else none
  -- Quote, control characters are invalid.
  else if c.val = 0x22 ∨ c.val < 0x20 then none
  -- ASCII
  else if c.val < 0x80 then some ([c], 0)
  -- Coerce to well-formed UTF-8.
  else
    let d := decodeRune (c :: rest)
    some (encodeRune d.1, d.2 - 1)

/-- The second loop of `unquoteBytes`: the unquoted bytes of `s`, or `none`
where the source returns `ok = false`. -/
def unquoteLoop : Nat → List Byte → Option (List Byte)
  | _, [] => some []
  | 0, _ :: _ => none
  | fuel + 1, c :: rest =>
    match unquoteStep c rest with
    | none => none
    | some r => (unquoteLoop fuel (rest.drop r.2)).map (r.1 ++ ·)

/-- The function `unquoteBytes`: converts a quoted JSON string literal into
the bytes it denotes; `none` where the source returns `ok = false`. -/
def unquoteBytes (s : List Byte) : Option (List Byte) :=
  match s with
  | [] => none
  | q :: t =>
    if t.length < 1 ∨ q.val ≠ 0x22 ∨ (t.getLast?.map Fin.val) ≠ some 0x22 then none
    else
      let inner := t.dropLast
      let r := unquoteScan inner.length inner
      if r = inner.length then some inner
      else (unquoteLoop inner.length (inner.drop r)).map (inner.take r ++ ·)

/-- The fields of `PaperRecord`, in declaration order. -/
inductive Field where
  | StudentID
  | PaperHash
  | Timestamp
  | Author
  | AuthorID
  | PaperDate
  deriving DecidableEq, Repr

/-- The JSON name of a field, from its struct tag. -/
def Field.name : Field → List Byte
  | .StudentID => nameStudentId
  | .PaperHash => namePaperHash
  | .Timestamp => nameTimestamp
  | .Author => nameAuthor
  | .AuthorID => nameAuthorId
  | .PaperDate => namePaperDate

/-- The list `fields.list` of the struct, in declaration order. -/
def Field.list : List Field :=
  [.StudentID, .PaperHash, .Timestamp, .Author, .AuthorID, .PaperDate]

/-- The assignment `v.SetString` to one field of the record. -/
def PaperRecord.set (r : PaperRecord) (f : Field) (s : GoString) : PaperRecord :=
  match f with
  | .StudentID => { r with StudentID := s }
  | .PaperHash => { r with PaperHash := s }
  | .Timestamp => { r with Timestamp := s }
  | .Author => { r with Author := s }
  | .AuthorID => { r with AuthorID := s }
  | .PaperDate => { r with PaperDate := s }

/-- The function `equalFoldRight`: case-insensitive comparison of the ASCII
field name `s` with the key `t`, where the Kelvin sign U+212A in `t` matches
the letter k and the long s U+017F matches the letter s.  For an ASCII name
without those two letters it agrees with `simpleLetterEqualFold`, and it is
the comparison that the folded-name table of later releases implements. -/
def equalFoldRight : List Byte → List Byte → Bool
  | [], t => t.isEmpty
  | _ :: _, [] => false
  | sb :: s, tb :: t =>
    if tb.val < 0x80 then
      if sb ≠ tb then
        let sbUpper := sb.val &&& 0xDF
        if 0x41 ≤ sbUpper ∧ sbUpper ≤ 0x5A then
          if sbUpper ≠ tb.val &&& 0xDF then false else equalFoldRight s t
        else false
      else equalFoldRight s t
    else
      let d := decodeRune (tb :: t)
      if sb.val = 0x73 ∨ sb.val = 0x53 then
        if d.1 ≠ 0x17F then false else equalFoldRight s (t.drop (d.2 - 1))
      else if sb.val = 0x6B ∨ sb.val = 0x4B then
        if d.1 ≠ 0x212A then false else equalFoldRight s (t.drop (d.2 - 1))
      else false

/-- The field that an object key designates: an exact match of the name if
there is one, else the first field whose name matches case-insensitively;
`none` for an unknown key, which the decoder ignores. -/
def findField (key : List Byte) : Option Field :=
  match Field.list.find? (fun f => decide (f.name = key)) with
  | some f => some f
  | none => Field.list.find? (fun f => equalFoldRight f.name key)

/-- The type `decodeState`, for decoding into a `*PaperRecord`: `cur` is
`data[off-1]`, the byte read last, `rest` is `data[off:]`, `savedError`
records whether an error has been saved, `v` is the record being filled. -/
structure DecodeState where
  cur : Byte
  rest : List Byte
  scan : Scanner
  opcode : Op
  savedError : Bool
  v : PaperRecord
  deriving Repr

/-- The method `saveError`. -/
def DecodeState.saveError (d : DecodeState) : DecodeState := { d with savedError := true }

/-- The loop of `scanWhile` and of `scanNext` over the unread input. -/
def scanWhileLoop (op : Op) (s : Scanner) (cur : Byte) :
    List Byte → Scanner × Byte × List Byte × Op
  | [] => (s, cur, [], s.eof)
  | c :: rest =>
    let r := s.next c
    if r.2 ≠ op then (r.1, c, rest, r.2) else scanWhileLoop op r.1 c rest

/-- The method `scanWhile`: processes bytes until the scanner returns a code
other than `op`. -/
def DecodeState.scanWhile (d : DecodeState) (op : Op) : DecodeState :=
  let r := scanWhileLoop op d.scan d.cur d.rest
  { d with scan := r.1, cur := r.2.1, rest := r.2.2.1, opcode := r.2.2.2 }

/-- The method `scanNext`: processes the byte at `d.off`. -/
def DecodeState.scanNext (d : DecodeState) : DecodeState :=
  match d.rest with
  | [] => { d with opcode := d.scan.eof }
  | c :: rest =>
    let r := d.scan.next c
    { d with scan := r.1, cur := c, rest := rest, opcode := r.2 }

/-- The string arm of `rescanLiteral`: the bytes up to and including the
closing quote, and the bytes after it. -/
def rescanString : List Byte → List Byte × List Byte
  | [] => ([], [])
  | [c] => ([c], [])
  | c :: e :: rest =>
    if c.val = 0x5C then
      let r := rescanString rest
      (c :: e :: r.1, r.2)
    else if c.val = 0x22 then ([c], e :: rest)
    else
      let r := rescanString (e :: rest)
      (c :: r.1, r.2)

/-- The number arm of `rescanLiteral`: the longest run of digits, points,
exponent letters and signs, and the bytes after it. -/
def rescanNumber : List Byte → List Byte × List Byte
  | [] => ([], [])
  | c :: rest =>
    if isDigit c ∨ c.val = 0x2E ∨ c.val = 0x65 ∨ c.val = 0x45 ∨ c.val = 0x2B ∨ c.val = 0x2D then
      let r := rescanNumber rest
      (c :: r.1, r.2)
    else ([], c :: rest)

/-- The method `rescanLiteral`: called after the first byte of a literal has
been read; it reads to the end of the literal without the scanner and feeds
the byte after it to `stateEndValue`.  Returned with the item
`data[start:d.readIndex()]`, the literal itself. -/
def DecodeState.rescanLiteral (d : DecodeState) : List Byte × DecodeState :=
  let r : List Byte × List Byte :=
    if d.cur.val = 0x22 then rescanString d.rest
    else if isDigit d.cur ∨ d.cur.val = 0x2D then rescanNumber d.rest
    else if d.cur.val = 0x74 then (d.rest.take 3, d.rest.drop 3)
    else if d.cur.val = 0x66 then (d.rest.take 4, d.rest.drop 4)
    else if d.cur.val = 0x6E then (d.rest.take 3, d.rest.drop 3)
    else ([], d.rest)
  match r.2 with
  | [] => (d.cur :: r.1, { d with rest := [], opcode := .scanEnd })
  | c :: rest =>
    let e := stateEndValue d.scan c
    (d.cur :: r.1, { d with cur := c, rest := rest, scan := e.1, opcode := e.2 })

/-- The loop of `skip`: steps the scanner until the parse stack is shorter
than `depth`; `none` when the input ends first. -/
def skipLoop (depth : Nat) (s : Scanner) : List Byte → Option (Scanner × Byte × List Byte × Op)
  | [] => none
  | c :: rest =>
    let r := s.next c
    if r.1.parseState.length < depth then some (r.1, c, rest, r.2)
    else skipLoop depth r.1 rest

/-- The method `skip`: scans to the end of the array or object that has just
been opened. -/
def DecodeState.skip (d : DecodeState) : Option DecodeState :=
  (skipLoop d.scan.parseState.length d.scan d.rest).map fun r =>
    { d with scan := r.1, cur := r.2.1, rest := r.2.2.1, opcode := r.2.2.2 }

/-- The method `literalStore` for a target that is the record itself
(`field = none`) or one of its string fields: `null` is ignored, a string
is stored in a string field, every other combination saves an
`UnmarshalTypeError`.  The result is `none` where the source panics. -/
def DecodeState.literalStore (d : DecodeState) (item : List Byte) (field : Option Field) :
    Option DecodeState :=
  match item with
  | [] => some d.saveError
  | c :: _ =>
    if c.val = 0x6E then some d
    else if c.val = 0x74 ∨ c.val = 0x66 then some d.saveError
    else if c.val = 0x22 then
      match unquoteBytes item with
      | none => none
      | some s =>
        match field with
        | some f => some { d with v := d.v.set f s }
        | none => some d.saveError
    else if c.val ≠ 0x2D ∧ (c.val < 0x30 ∨ 0x39 < c.val) then none
    else some d.saveError

/-- The method `value` called on one member of the object: `field` is the
string field the key designates, or `none` for the invalid `reflect.Value`
of an unknown key, whose value is skipped.  An array or object for a string
field saves an `UnmarshalTypeError` and is skipped. -/
def DecodeState.valueMember (d : DecodeState) (field : Option Field) : Option DecodeState :=
  match d.opcode with
  | .scanBeginArray | .scanBeginObject =>
    ((if field.isSome then d.saveError else d).skip).map DecodeState.scanNext
  | .scanBeginLiteral =>
    let r := d.rescanLiteral
    if field.isSome then r.2.literalStore r.1 field else some r.2
  | _ => none

/-- The loop of the method `object` for the struct: one iteration per
member. -/
def objectLoop : Nat → DecodeState → Option DecodeState
  | 0, _ => none
  | fuel + 1, d =>
    -- Read opening " of string key or closing }.
    let d := d.scanWhile .scanSkipSpace
    if d.opcode = .scanEndObject then some d
    else if d.opcode ≠ .scanBeginLiteral then none
    else
      -- Read key.
      let r := d.rescanLiteral
      match unquoteBytes r.1 with
      | none => none
      | some key =>
        let d := r.2
        -- Figure out field corresponding to key.
        let f := findField key
        -- Read : before value.
        let d := if d.opcode = .scanSkipSpace then d.scanWhile .scanSkipSpace else d
        if d.opcode ≠ .scanObjectKey then none
        else
          let d := d.scanWhile .scanSkipSpace
          match d.valueMember f with
          | none => none
          | some d =>
            -- Next token must be , or }.
            let d := if d.opcode = .scanSkipSpace then d.scanWhile .scanSkipSpace else d
            if d.opcode = .scanEndObject then some d
            else if d.opcode ≠ .scanObjectValue then none
            else objectLoop fuel d

/-- The method `value` called on the `*PaperRecord` itself: an object fills
the record, an array saves an `UnmarshalTypeError` and is skipped, a
literal goes to `literalStore`. -/
def DecodeState.value (d : DecodeState) : Option DecodeState :=
  match d.opcode with
  | .scanBeginArray => (d.saveError.skip).map DecodeState.scanNext
  | .scanBeginObject => (objectLoop (d.rest.length + 1) d).map DecodeState.scanNext
  | .scanBeginLiteral =>
    let r := d.rescanLiteral
    r.2.literalStore r.1 none
  | _ => none

/-- The zero value of `PaperRecord`, as `var paperRecord PaperRecord`
declares it. -/
def PaperRecord.zero : PaperRecord := ⟨[], [], [], [], [], []⟩

/-- The call `json.Unmarshal(data, &paperRecord)` on a zero record: the
filled record when the returned error is nil, `none` when it is not (a
syntax error found by `checkValid`, or a saved `UnmarshalTypeError`). -/
def jsonUnmarshal (data : Bytes) : Option PaperRecord :=
  if !checkValid data then none
  else
    let d : DecodeState :=
      { cur := 0, rest := data, scan := Scanner.reset, opcode := .scanContinue,
        savedError := false, v := PaperRecord.zero }
    match (d.scanWhile .scanSkipSpace).value with
    | none => none
    | some d => if d.savedError then none else some d.v

/-! ## The ledger stub -/

/-- Modelled from the spec: the storage faults of the Ledger Adapter, which
the repository only consumes through `contractapi` (sections 4.3 and 6:
`read`, `write`, `scan` and `emit` each return a result or a fault).  Each
field gives the text of the error that the corresponding stub call returns,
or `none` when the call does not fault; `nextErr i` is for the call of
`Next` that fetches entry `i` of a scan.  `unmarshalErr data` is the text of
the error that `json.Unmarshal` returns on `data` when it fails. -/
structure Env where
  getStateErr : GoString → Option GoString
  putStateErr : GoString → Bytes → Option GoString
  setEventErr : GoString → Bytes → Option GoString
  getStateByRangeErr : Option GoString
  nextErr : Nat → Option GoString
  unmarshalErr : Bytes → GoString

/-- The environment in which no stub call faults. -/
def Env.noFault : Env :=
  { getStateErr := fun _ => none
    putStateErr := fun _ _ => none
    setEventErr := fun _ _ => none
    getStateByRangeErr := none
    nextErr := fun _ => none
    unmarshalErr := fun _ => ascii "invalid JSON" }

/-- Modelled from the spec: the transactional key-value store and event sink
behind `ctx.GetStub()` (sections 4.3 and 6).  `world` is the world state,
the key/value pairs in ascending order of key; `events` are the events
emitted so far, oldest first. -/
structure Stub where
  world : List (GoString × Bytes)
  events : List (GoString × Bytes)
  deriving DecidableEq, Repr

/-- The empty store. -/
def Stub.empty : Stub := { world := [], events := [] }

/-- Strict lexicographic order on keys, byte by byte. -/
def keyLt : List Byte → List Byte → Bool
  | [], [] => false
  | [], _ :: _ => true
  | _ :: _, [] => false
  | a :: s, b :: t => decide (a.val < b.val) || (decide (a.val = b.val) && keyLt s t)

/-- The value stored under `key`, or `none` when the key is absent. -/
def lookup (key : GoString) : List (GoString × Bytes) → Option Bytes
  | [] => none
  | (k, v) :: rest => if k = key then some v else lookup key rest

/-- The entry of `key` replaced by `value`, for a key that is present. -/
def replaceEntry (key : GoString) (value : Bytes) :
    List (GoString × Bytes) → List (GoString × Bytes)
  | [] => []
  | (k, v) :: rest =>
    if k = key then (key, value) :: rest else (k, v) :: replaceEntry key value rest

/-- The entry `(key, value)` inserted before the first entry with a larger
key, for a key that is absent. -/
def insertEntry (key : GoString) (value : Bytes) :
    List (GoString × Bytes) → List (GoString × Bytes)
  | [] => [(key, value)]
  | (k, v) :: rest =>
    if keyLt key k then (key, value) :: (k, v) :: rest
    else (k, v) :: insertEntry key value rest

/-- The world state with `value` stored under `key`, a point write: the
value is replaced when the key is present, and the entry is inserted in key
order when it is not.  No other entry changes. -/
def putEntry (key : GoString) (value : Bytes) (world : List (GoString × Bytes)) :
    List (GoString × Bytes) :=
  if (lookup key world).isSome then replaceEntry key value world
  else insertEntry key value world

/-- The stub call `GetState(key)`: the bytes under `key`, `none` (a nil
slice) when the key is absent, or the text of a storage fault. -/
def Stub.GetState (env : Env) (ctx : Stub) (key : GoString) : Except GoString (Option Bytes) :=
  match env.getStateErr key with
  | some err => .error err
  | none => .ok (lookup key ctx.world)

/-- The stub call `PutState(key, value)`: a point write, or the text of a
storage fault (then nothing is written). -/
def Stub.PutState (env : Env) (ctx : Stub) (key : GoString) (value : Bytes) :
    Except GoString Unit × Stub :=
  match env.putStateErr key value with
  | some err => (.error err, ctx)
  | none => (.ok (), { ctx with world := putEntry key value ctx.world })

/-- The stub call `SetEvent(name, payload)`: emits an event, or returns the
text of a fault (then nothing is emitted). -/
def Stub.SetEvent (env : Env) (ctx : Stub) (name : GoString) (payload : Bytes) :
    Except GoString Unit × Stub :=
  match env.setEventErr name payload with
  | some err => (.error err, ctx)
  | none => (.ok (), { ctx with events := ctx.events ++ [(name, payload)] })

/-- The stub call `GetStateByRange("", "")`: an iterator over the whole
world state in ascending order of key, or the text of a fault. -/
def Stub.GetStateByRange (env : Env) (ctx : Stub) : Except GoString (List (GoString × Bytes)) :=
  match env.getStateByRangeErr with
  | some err => .error err
  | none => .ok ctx.world

/-- Modelled from the spec: the host's treatment of the outcome of a
transaction function, which the repository leaves to the platform (section
7: the host treats any returned error as cause to abort and roll back the
entire enclosing transaction).  The writes and events of the call are kept
when it returns no error and discarded when it returns one. -/
def commit {α : Type} (before : Stub) (r : Except GoString α × Stub) : Stub :=
  match r.1 with
  | .ok _ => r.2
  | .error _ => before

/-! ## The chaincode -/

/-- The function `CreatePaperRecord`: creates a new paper record on the
blockchain.  Returns the error (its text) or nil, and the stub after the
call. -/
def CreatePaperRecord (env : Env) (ctx : Stub)
    (studentId paperHash timestamp author authorId paperDate : GoString) :
    Except GoString Unit × Stub :=
  -- Check if paper record already exists
  match ctx.GetState env paperHash with
  | .error err => (.error (ascii "failed to read from world state: " ++ err), ctx)
  | .ok existingRecord =>
    if existingRecord ≠ none then
      (.error (ascii "paper record with hash " ++ paperHash ++ ascii " already exists"), ctx)
    else
      -- Create new paper record
      let paperRecord : PaperRecord :=
        { StudentID := studentId, PaperHash := paperHash, Timestamp := timestamp,
          Author := author, AuthorID := authorId, PaperDate := paperDate }
      -- Convert to JSON
      match jsonMarshal paperRecord with
      | .error err => (.error (ascii "failed to marshal paper record: " ++ err), ctx)
      | .ok paperRecordJSON =>
        -- Save to blockchain
        match ctx.PutState env paperHash paperRecordJSON with
        | (.error err, ctx1) =>
          (.error (ascii "failed to put paper record to world state: " ++ err), ctx1)
        | (.ok _, ctx1) =>
          -- Emit event
          match ctx1.SetEvent env (ascii "PaperRecordCreated") paperRecordJSON with
          | (.error err, ctx2) => (.error (ascii "failed to emit event: " ++ err), ctx2)
          | (.ok _, ctx2) => (.ok (), ctx2)

/-- The function `GetPaperRecord`: retrieves a paper record from the
blockchain. -/
def GetPaperRecord (env : Env) (ctx : Stub) (paperHash : GoString) :
    Except GoString PaperRecord × Stub :=
  match ctx.GetState env paperHash with
  | .error err => (.error (ascii "failed to read from world state: " ++ err), ctx)
  | .ok none =>
    (.error (ascii "paper record with hash " ++ paperHash ++ ascii " does not exist"), ctx)
  | .ok (some paperRecordJSON) =>
    match jsonUnmarshal paperRecordJSON with
    | none =>
      (.error (ascii "failed to unmarshal paper record: " ++ env.unmarshalErr paperRecordJSON),
        ctx)
    | some paperRecord => (.ok paperRecord, ctx)

/-- The function `VerifyPaperRecord`: checks if a paper record exists on the
blockchain. -/
def VerifyPaperRecord (env : Env) (ctx : Stub) (paperHash : GoString) :
    Except GoString Bool × Stub :=
  match ctx.GetState env paperHash with
  | .error err => (.error (ascii "failed to read from world state: " ++ err), ctx)
  | .ok paperRecordJSON => (.ok (decide (paperRecordJSON ≠ none)), ctx)

/-- The loop of `GetAllPaperRecords` over the entries the iterator still
holds; `i` counts the calls of `Next` made so far and `paperRecords` is
the slice built so far. -/
def getAllLoop (env : Env) (i : Nat) (paperRecords : List PaperRecord) :
    List (GoString × Bytes) → Except GoString (List PaperRecord)
  | [] => .ok paperRecords
  | queryResponse :: rest =>
    match env.nextErr i with
    | some err => .error (ascii "failed to get next result: " ++ err)
    | none =>
      match jsonUnmarshal queryResponse.2 with
      | none =>
        -- Skip invalid records
        getAllLoop env (i + 1) paperRecords rest
      | some paperRecord => getAllLoop env (i + 1) (paperRecords ++ [paperRecord]) rest

/-- The function `GetAllPaperRecords`: retrieves all paper records from the
blockchain. -/
def GetAllPaperRecords (env : Env) (ctx : Stub) : Except GoString (List PaperRecord) × Stub :=
  -- Get all records using range query
  match ctx.GetStateByRange env with
  | .error err => (.error (ascii "failed to get state by range: " ++ err), ctx)
  | .ok resultsIterator => (getAllLoop env 0 [] resultsIterator, ctx)

/-- The function `UpdatePaperRecord`: updates an existing paper record. -/
def UpdatePaperRecord (env : Env) (ctx : Stub) (paperHash newTimestamp : GoString) :
    Except GoString Unit × Stub :=
  -- Check if paper record exists
  match ctx.GetState env paperHash with
  | .error err => (.error (ascii "failed to read from world state: " ++ err), ctx)
  | .ok none =>
    (.error (ascii "paper record with hash " ++ paperHash ++ ascii " does not exist"), ctx)
  | .ok (some existingRecordJSON) =>
    -- Unmarshal existing record
    match jsonUnmarshal existingRecordJSON with
    | none =>
      (.error (ascii "failed to unmarshal existing paper record: "
        ++ env.unmarshalErr existingRecordJSON), ctx)
    | some existingRecord =>
      -- Update timestamp
      let existingRecord := { existingRecord with Timestamp := newTimestamp }
      -- Marshal updated record
      match jsonMarshal existingRecord with
      | .error err => (.error (ascii "failed to marshal updated paper record: " ++ err), ctx)
      | .ok updatedRecordJSON =>
        -- Save updated record
        match ctx.PutState env paperHash updatedRecordJSON with
        | (.error err, ctx1) =>
          (.error (ascii "failed to put updated paper record to world state: " ++ err), ctx1)
        | (.ok _, ctx1) =>
          -- Emit event
          match ctx1.SetEvent env (ascii "PaperRecordUpdated") updatedRecordJSON with
          | (.error err, ctx2) => (.error (ascii "failed to emit event: " ++ err), ctx2)
          | (.ok _, ctx2) => (.ok (), ctx2)

/-- The function `InitLedger`: initializes the ledger; it does nothing. -/
def InitLedger (_env : Env) (ctx : Stub) : Except GoString Unit × Stub := (.ok (), ctx)

/-! ## Sequences of transactions -/

/-- One invocation of the chaincode: the transaction function and its
arguments. -/
inductive Call where
  | create (studentId paperHash timestamp author authorId paperDate : GoString)
  | get (paperHash : GoString)
  | verify (paperHash : GoString)
  | list
  | update (paperHash newTimestamp : GoString)
  | init

/-- The stub after a transaction that invokes `call`, under the host's
rule: the effects of the call are kept when it returns no error and
discarded when it returns one. -/
def Call.exec (env : Env) (ctx : Stub) : Call → Stub
  | .create studentId paperHash timestamp author authorId paperDate =>
    commit ctx (CreatePaperRecord env ctx studentId paperHash timestamp author authorId paperDate)
  | .get paperHash => commit ctx (GetPaperRecord env ctx paperHash)
  | .verify paperHash => commit ctx (VerifyPaperRecord env ctx paperHash)
  | .list => commit ctx (GetAllPaperRecords env ctx)
  | .update paperHash newTimestamp => commit ctx (UpdatePaperRecord env ctx paperHash newTimestamp)
  | .init => commit ctx (InitLedger env ctx)

/-- The stub after a sequence of transactions, each in its own
environment. -/
def execAll (ctx : Stub) : List (Env × Call) → Stub
  | [] => ctx
  | (env, call) :: rest => execAll (call.exec env ctx) rest

/-- The stub after a sequence of calls of `CreatePaperRecord`, one per
record of arguments, each in its own environment; `none` when one of the
calls returns an error. -/
def createAll (ctx : Stub) : List (Env × PaperRecord) → Option Stub
  | [] => some ctx
  | (env, r) :: rest =>
    match CreatePaperRecord env ctx r.StudentID r.PaperHash r.Timestamp r.Author r.AuthorID
        r.PaperDate with
    | (.ok _, ctx1) => createAll ctx1 rest
    | (.error _, _) => none

/-- The stub after a sequence of calls of `UpdatePaperRecord`, given as
environment, hash and new timestamp; a call that returns an error leaves no
trace. -/
def updateAll (ctx : Stub) : List (Env × GoString × GoString) → Stub
  | [] => ctx
  | (env, paperHash, newTimestamp) :: rest =>
    updateAll (commit ctx (UpdatePaperRecord env ctx paperHash newTimestamp)) rest

/-! ## Auxiliary notions for the proofs -/

/-- The loop of `coerceUTF8`. -/
def coerceUTF8Loop : Nat → List Byte → List Byte
  | _, [] => []
  | 0, _ :: _ => []
  | fuel + 1, c :: rest =>
    if c.val < 0x80 then c :: coerceUTF8Loop fuel rest
    else
      let d := decodeRune (c :: rest)
      if d.1 = RuneError ∧ d.2 = 1 then
        [0xEF, 0xBF, 0xBD] ++ coerceUTF8Loop fuel rest
      else (c :: rest).take d.2 ++ coerceUTF8Loop fuel (rest.drop (d.2 - 1))

/-- The string `s` coerced to valid UTF-8: every byte that does not begin a
valid encoding is replaced by the encoding of U+FFFD.  This is what a
string becomes when `json.Marshal` writes it and `json.Unmarshal` reads it
back. -/
def coerceUTF8 (s : GoString) : GoString := coerceUTF8Loop s.length s

/-- The record `r` with every field coerced to valid UTF-8. -/
def PaperRecord.coerce (r : PaperRecord) : PaperRecord :=
  { StudentID := coerceUTF8 r.StudentID, PaperHash := coerceUTF8 r.PaperHash,
    Timestamp := coerceUTF8 r.Timestamp, Author := coerceUTF8 r.Author,
    AuthorID := coerceUTF8 r.AuthorID, PaperDate := coerceUTF8 r.PaperDate }

/-- All six fields of `r` are valid UTF-8. -/
def PaperRecord.valid (r : PaperRecord) : Bool :=
  validUTF8 r.StudentID && validUTF8 r.PaperHash && validUTF8 r.Timestamp
    && validUTF8 r.Author && validUTF8 r.AuthorID && validUTF8 r.PaperDate

/-- What a successful `decodeRune` on a lead byte `c` at or above 0x80 looks
like: `c` is followed by one to three bytes `seq`, all at or above 0x80;
the result does not depend on what comes after them; and `encodeRune` of
the rune gives the same bytes back. -/
def DecodesTo (c : Byte) (rest : List Byte) : Prop :=
  ∃ (seq t : List Byte) (r : Nat), rest = seq ++ t ∧ 1 ≤ seq.length ∧ seq.length ≤ 3 ∧
    (∀ t', decodeRune (c :: (seq ++ t')) = (r, seq.length + 1)) ∧
    encodeRune r = c :: seq ∧ (∀ b ∈ seq, 0x80 ≤ b.val) ∧ 0x80 ≤ r

/-- Whether `e` is one of the single-letter escapes that the scanner accepts
after a backslash. -/
def isSimpleEscape (e : Byte) : Bool :=
  decide (e.val = 0x62 ∨ e.val = 0x66 ∨ e.val = 0x6E ∨ e.val = 0x72 ∨ e.val = 0x74
    ∨ e.val = 0x5C ∨ e.val = 0x2F ∨ e.val = 0x22)

/-- Whether `c` may stand unescaped inside a JSON string literal. -/
def isPlain (c : Byte) : Bool := decide (0x20 ≤ c.val ∧ c.val ≠ 0x22 ∧ c.val ≠ 0x5C)

/-- The inside of a well-formed JSON string literal: a sequence of plain
bytes, two-byte escapes, and escapes with four hexadecimal digits. -/
inductive StringBody : List Byte → Prop where
  | nil : StringBody []
  | plain (c : Byte) (q : List Byte) : isPlain c = true → StringBody q → StringBody (c :: q)
  | esc (e : Byte) (q : List Byte) : isSimpleEscape e = true → StringBody q →
      StringBody (0x5C :: e :: q)
  | escU (h1 h2 h3 h4 : Byte) (q : List Byte) : isHex h1 = true → isHex h2 = true →
      isHex h3 = true → isHex h4 = true → StringBody q →
      StringBody (0x5C :: 0x75 :: h1 :: h2 :: h3 :: h4 :: q)

/-- A chunk of bytes that the UTF-8 validity loop passes over in one step,
whatever follows it. -/
def ValidChunk (chunk : List Byte) : Prop :=
  1 ≤ chunk.length ∧ ∀ (f : Nat) (X : List Byte),
    validUTF8Loop (f + 1) (chunk ++ X) = validUTF8Loop f X

/-! ## The errors by kind, and example data -/

/-- The error `NotFound`: the text of the error that `GetPaperRecord` and
`UpdatePaperRecord` return for a key that is absent. -/
def errNotFound (paperHash : GoString) : GoString :=
  ascii "paper record with hash " ++ paperHash ++ ascii " does not exist"

/-- The error `AlreadyExists`: the text of the error that
`CreatePaperRecord` returns for a key that is present. -/
def errAlreadyExists (paperHash : GoString) : GoString :=
  ascii "paper record with hash " ++ paperHash ++ ascii " already exists"

/-- The error `Corrupt` of `GetPaperRecord`: the text of the error for
stored bytes that do not decode, `text` being the decoder's message. -/
def errCorrupt (text : GoString) : GoString :=
  ascii "failed to unmarshal paper record: " ++ text

/-- The record of the concrete scenario of the specification. -/
def scenario : PaperRecord :=
  { StudentID := ascii "S1", PaperHash := ascii "h1", Timestamp := ascii "2024-01-01T00:00:00Z",
    Author := ascii "Alice", AuthorID := ascii "A1", PaperDate := ascii "2023-12-01" }

/-- The scenario with an author name that is not valid UTF-8: the single
byte 0xFF. -/
def scenarioBadAuthor : PaperRecord := { scenario with Author := [0xFF] }

/-- The scenario with a paper hash that is not valid UTF-8: the single byte
0xFF. -/
def scenarioBadHash : PaperRecord := { scenario with PaperHash := [0xFF] }

/-- The encoding of U+FFFD, the replacement character. -/
def replacement : GoString := [0xEF, 0xBF, 0xBD]

/-- A store that holds the record of the scenario under its hash. -/
def scenarioStub : Stub :=
  { world := [(ascii "h1", encodeRecord scenario)],
    events := [(ascii "PaperRecordCreated", encodeRecord scenario)] }

/-- A second record, under the hash `h2`. -/
def scenarioSecond : PaperRecord :=
  { StudentID := ascii "S2", PaperHash := ascii "h2", Timestamp := ascii "2024-01-02T00:00:00Z",
    Author := ascii "Bob", AuthorID := ascii "A2", PaperDate := ascii "2023-12-02" }

/-- The store after the scenario's record and the second record have been
created, in this order, on the empty store. -/
def twoRecordStub : Stub :=
  { world := [(ascii "h1", encodeRecord scenario), (ascii "h2", encodeRecord scenarioSecond)],
    events := [(ascii "PaperRecordCreated", encodeRecord scenario),
               (ascii "PaperRecordCreated", encodeRecord scenarioSecond)] }

/-- The store after the scenario's record with the hash `0xFF` has been
created on the empty store. -/
def badHashStub : Stub :=
  { world := [([0xFF], encodeRecord scenarioBadHash)],
    events := [(ascii "PaperRecordCreated", encodeRecord scenarioBadHash)] }

/-! ## Invocations with their outcome -/

/-- The error that a transaction function returned: its text, or `none`
for nil. -/
def errorOf {α : Type} : Except GoString α → Option GoString
  | .ok _ => none
  | .error err => some err

/-- The invocation `call` as the chaincode runs it: the error it returns
(`none` for nil) and the stub as the call leaves it, before the host commits
or discards the transaction. -/
def Call.run (env : Env) (ctx : Stub) : Call → Option GoString × Stub
  | .create studentId paperHash timestamp author authorId paperDate =>
    let r := CreatePaperRecord env ctx studentId paperHash timestamp author authorId paperDate
    (errorOf r.1, r.2)
  | .get paperHash =>
    let r := GetPaperRecord env ctx paperHash
    (errorOf r.1, r.2)
  | .verify paperHash =>
    let r := VerifyPaperRecord env ctx paperHash
    (errorOf r.1, r.2)
  | .list =>
    let r := GetAllPaperRecords env ctx
    (errorOf r.1, r.2)
  | .update paperHash newTimestamp =>
    let r := UpdatePaperRecord env ctx paperHash newTimestamp
    (errorOf r.1, r.2)
  | .init =>
    let r := InitLedger env ctx
    (errorOf r.1, r.2)

/-- The text of the error that `CreatePaperRecord` and `UpdatePaperRecord`
return when the emission of the event faults. -/
def errEvent (text : GoString) : GoString := ascii "failed to emit event: " ++ text

/-- A store in which the key `h1` holds bytes that are not a record. -/
def corruptStub : Stub := { world := [(ascii "h1", ascii "not a record")], events := [] }

/-- An environment in which the emission of every event faults. -/
def Env.eventFault : Env :=
  { Env.noFault with setEventErr := fun _ _ => some (ascii "sink closed") }

/-! ## The kinds of error -/

/-- The taxonomy of errors of the specification (section 7), with the fault
of the event sink as a kind of its own. -/
inductive ErrKind where
  | notFound
  | alreadyExists
  | corrupt
  | storageFault
  | encodingFault
  | eventFault
  deriving DecidableEq, Repr

/-- The kind of failure of an invocation by the taxonomy of the
specification, decided from the situation in which the call runs and not
from the text of the error: a read, write or scan that faults is a
`storageFault`, a key absent where presence is required is `notFound`, a key
present where absence is required is `alreadyExists`, stored bytes that fail
to decode are `corrupt`, and a fault of the event sink is `eventFault`.
`none` when the invocation meets none of them. -/
def Call.kind (env : Env) (ctx : Stub) : Call → Option ErrKind
  | .create s h t a i d =>
    if (env.getStateErr h).isSome then some .storageFault
    else if (lookup h ctx.world).isSome then some .alreadyExists
    else if (env.putStateErr h (encodeRecord ⟨s, h, t, a, i, d⟩)).isSome then some .storageFault
    else if (env.setEventErr (ascii "PaperRecordCreated")
        (encodeRecord ⟨s, h, t, a, i, d⟩)).isSome then some .eventFault
    else none
  | .get h =>
    if (env.getStateErr h).isSome then some .storageFault
    else
      match lookup h ctx.world with
      | none => some .notFound
      | some b => if (jsonUnmarshal b).isNone then some .corrupt else none
  | .verify h => if (env.getStateErr h).isSome then some .storageFault else none
  | .list =>
    if env.getStateByRangeErr.isSome then some .storageFault
    else if (List.range ctx.world.length).any (fun i => (env.nextErr i).isSome) then
      some .storageFault
    else none
  | .update h t2 =>
    if (env.getStateErr h).isSome then some .storageFault
    else
      match lookup h ctx.world with
      | none => some .notFound
      | some b =>
        match jsonUnmarshal b with
        | none => some .corrupt
        | some r =>
          if (env.putStateErr h (encodeRecord { r with Timestamp := t2 })).isSome then
            some .storageFault
          else if (env.setEventErr (ascii "PaperRecordUpdated")
              (encodeRecord { r with Timestamp := t2 })).isSome then some .eventFault
          else none
  | .init => none

/-- The kind of an error read off its text alone: the texts that begin with
`p` are `notFound` when they end in ` does not exist` and `alreadyExists`
otherwise; the texts that begin with `failed to ` are told apart by the
letter that follows. -/
def classify (e : GoString) : ErrKind :=
  if (e.getD 0 0).val = 0x70 then
    if e.reverse.take 15 = (ascii " does not exist").reverse then .notFound else .alreadyExists
  else if (e.getD 10 0).val = 0x75 then .corrupt
  else if (e.getD 10 0).val = 0x6D then .encodingFault
  else if (e.getD 10 0).val = 0x65 then .eventFault
  else .storageFault

/-! ## Well-formed world states -/

/-- The entries of `world` stand in strictly ascending order of key, as the
ledger holds them. -/
def Ascending (world : List (GoString × Bytes)) : Prop :=
  (world.map Prod.fst).Pairwise (fun a b => keyLt a b = true)

/-- Every value of `world` decodes, and to a record whose `PaperHash` is the
key it is stored under, coerced to valid UTF-8. -/
def Decodable (world : List (GoString × Bytes)) : Prop :=
  ∀ e ∈ world, ∃ r, jsonUnmarshal e.2 = some r ∧ r.PaperHash = coerceUTF8 e.1

/-- Whether the paper hash that an invocation of `CreatePaperRecord` is
given is valid UTF-8; true of the other invocations. -/
def Call.validHash : Call → Bool
  | .create _ paperHash _ _ _ _ => validUTF8 paperHash
  | _ => true

/-- The invocation of `CreatePaperRecord` with the fields of `r` as its
arguments. -/
def Call.ofRecord (r : PaperRecord) : Call :=
  .create r.StudentID r.PaperHash r.Timestamp r.Author r.AuthorID r.PaperDate

/-- The scenario with another paper hash that is not valid UTF-8: the single
byte 0xFE. -/
def scenarioOtherHash : PaperRecord := { scenario with PaperHash := [0xFE] }

/-- Two invocations of `CreatePaperRecord` on hashes that are not valid
UTF-8: first the hash `0xFF`, then the hash `0xFE`. -/
def collidingCalls : List (Env × Call) :=
  [(Env.noFault, Call.ofRecord scenarioBadHash), (Env.noFault, Call.ofRecord scenarioOtherHash)]

/-- The store after `collidingCalls` on the empty store. -/
def collidingStub : Stub :=
  { world := [([0xFE], encodeRecord scenarioOtherHash), ([0xFF], encodeRecord scenarioBadHash)],
    events := [(ascii "PaperRecordCreated", encodeRecord scenarioBadHash),
               (ascii "PaperRecordCreated", encodeRecord scenarioOtherHash)] }

/-- The store of `twoRecordStub` with the bytes under `h1` overwritten by
bytes that are not a record. -/
def overwrittenStub : Stub :=
  { world := [(ascii "h1", ascii "not a record"), (ascii "h2", encodeRecord scenarioSecond)],
    events := twoRecordStub.events }

/-- The JSON text of an object that has the member `studentId` alone. -/
def partialText : Bytes := ascii "\x7b\"studentId\":\"S1\"\x7d"

/-- The JSON text `null`. -/
def nullText : Bytes := ascii "null"

/-! ## The scanner inside and after the top-level value -/

/-- The scanner is inside an object or array that is not closed yet. -/
def Scanner.inside (s : Scanner) : Prop :=
  s.parseState ≠ [] ∧ s.endTop = false ∧ s.err = false

/-- The scanner has seen the end of the top-level value. -/
def Scanner.done (s : Scanner) : Prop := s.endTop = true ∧ s.step = .stateEndTop

/-- The scanner has recorded a syntax error. -/
def Scanner.dead (s : Scanner) : Prop := s.err = true ∧ s.step = .stateError

/-- What one step of a scanner that is inside an object or array leads to,
on the byte `c`: the scanner stays inside, or dies, or sees the end of the
top-level value, and this on a closing brace or bracket only. -/
def stepOk (c : Byte) (r : Scanner × Op) : Prop :=
  r.1.inside ∨ (r.1.dead ∧ r.1.endTop = false) ∨ (r.1.done ∧ (c.val = 0x7D ∨ c.val = 0x5D))

/-! ## The grammar of JSON texts

The grammar of RFC 8259 over bytes.  The bytes inside a string are not
required to be valid UTF-8: a string body is any sequence of bytes from 0x20
on other than the quote and the backslash, and of escapes. -/

/-- A run of JSON whitespace: spaces, tabs, line feeds and carriage
returns. -/
def Spaces (w : List Byte) : Prop := ∀ c ∈ w, isSpace c = true

/-- A run of decimal digits, possibly empty. -/
def Digits (d : List Byte) : Prop := ∀ c ∈ d, isDigit c = true

/-- An optional minus sign. -/
def JSign (t : List Byte) : Prop := t = [] ∨ t = [0x2D]

/-- The integer part of a number: a zero, or a digit from one to nine
followed by digits. -/
def JInt (t : List Byte) : Prop :=
  t = [0x30] ∨ ∃ c d, isDigit19 c = true ∧ Digits d ∧ t = c :: d

/-- The fraction part of a number: nothing, or a point followed by one digit
or more. -/
def JFrac (t : List Byte) : Prop :=
  t = [] ∨ ∃ c d, isDigit c = true ∧ Digits d ∧ t = 0x2E :: c :: d

/-- The exponent part of a number: nothing, or the letter e in either case,
an optional sign, and one digit or more. -/
def JExp (t : List Byte) : Prop :=
  t = [] ∨ ∃ e sg c d, (e.val = 0x65 ∨ e.val = 0x45) ∧ (sg = [] ∨ sg = [0x2B] ∨ sg = [0x2D]) ∧
    isDigit c = true ∧ Digits d ∧ t = e :: (sg ++ c :: d)

/-- A JSON number. -/
def JNumber (t : List Byte) : Prop :=
  ∃ sg int frac exp, JSign sg ∧ JInt int ∧ JFrac frac ∧ JExp exp ∧ t = sg ++ int ++ frac ++ exp

/-- The string literal with the body `b`. -/
def quoted (b : List Byte) : List Byte := (0x22 : Byte) :: (b ++ [0x22])

/-- The text of one member of an object: a key, a colon and a value, with
whitespace around each. -/
def memberText (w1 kb w2 w3 v w4 : List Byte) : List Byte :=
  w1 ++ quoted kb ++ w2 ++ [0x3A] ++ w3 ++ v ++ w4

/-- The three sorts of text of the grammar: a value, an array from its
bracket to a comma, an object from its brace to a comma. -/
inductive Kind where
  | value
  | elems
  | members

/-- The grammar: `Gram .value v` says that `v` is the text of a JSON value,
without whitespace around it; `Gram .elems a` that `a` is an opening bracket
followed by elements that each end in a comma; `Gram .members o` that `o` is
an opening brace followed by members that each end in a comma. -/
inductive Gram : Kind → List Byte → Prop where
  | str (b : List Byte) : StringBody b → Gram .value (quoted b)
  | num (n : List Byte) : JNumber n → Gram .value n
  | litTrue : Gram .value [0x74, 0x72, 0x75, 0x65]
  | litFalse : Gram .value [0x66, 0x61, 0x6C, 0x73, 0x65]
  | litNull : Gram .value [0x6E, 0x75, 0x6C, 0x6C]
  | arrEmpty (w : List Byte) : Spaces w → Gram .value ((0x5B : Byte) :: (w ++ [0x5D]))
  | arr (a w1 v w2 : List Byte) : Gram .elems a → Spaces w1 → Gram .value v → Spaces w2 →
      Gram .value (a ++ (w1 ++ v ++ w2) ++ [0x5D])
  | objEmpty (w : List Byte) : Spaces w → Gram .value ((0x7B : Byte) :: (w ++ [0x7D]))
  | obj (o w1 kb w2 w3 v w4 : List Byte) : Gram .members o → Spaces w1 → StringBody kb →
      Spaces w2 → Spaces w3 → Gram .value v → Spaces w4 →
      Gram .value (o ++ memberText w1 kb w2 w3 v w4 ++ [0x7D])
  | elemsNil : Gram .elems [0x5B]
  | elemsCons (a w1 v w2 : List Byte) : Gram .elems a → Spaces w1 → Gram .value v → Spaces w2 →
      Gram .elems (a ++ (w1 ++ v ++ w2) ++ [0x2C])
  | membersNil : Gram .members [0x7B]
  | membersCons (o w1 kb w2 w3 v w4 : List Byte) : Gram .members o → Spaces w1 →
      StringBody kb → Spaces w2 → Spaces w3 → Gram .value v → Spaces w4 →
      Gram .members (o ++ memberText w1 kb w2 w3 v w4 ++ [0x2C])

/-- A JSON text: one value with whitespace around it. -/
def JsonText (data : List Byte) : Prop :=
  ∃ w1 v w2, Spaces w1 ∧ Gram .value v ∧ Spaces w2 ∧ data = w1 ++ v ++ w2

/-! ## The texts that decode to a record -/

/-- The field of the record that the key with the body `kb` designates, by
the decoder's matching of names: `none` for a key that designates none. -/
def keyField (kb : List Byte) : Option Field := (unquoteBytes (quoted kb)).bind findField

/-- The value `v` of a member with the key body `kb` fits the record: when
the key designates a field, the value is a string or `null`. -/
def FitsField (kb v : List Byte) : Prop :=
  (keyField kb).isSome = true → (∃ b, StringBody b ∧ v = quoted b) ∨ v = [0x6E, 0x75, 0x6C, 0x6C]

/-- An object from its brace to a comma, as `Gram .members`, in which the
value of every member fits the record. -/
inductive FitMembers : List Byte → Prop where
  | nil : FitMembers [0x7B]
  | cons (o w1 kb w2 w3 v w4 : List Byte) : FitMembers o → Spaces w1 → StringBody kb →
      Spaces w2 → Spaces w3 → Gram .value v → Spaces w4 → FitsField kb v →
      FitMembers (o ++ memberText w1 kb w2 w3 v w4 ++ [0x2C])

/-- The text of an object in which the value of every member fits the
record. -/
def FitObject (v : List Byte) : Prop :=
  (∃ w, Spaces w ∧ v = (0x7B : Byte) :: (w ++ [0x7D])) ∨
  ∃ o w1 kb w2 w3 x w4, FitMembers o ∧ Spaces w1 ∧ StringBody kb ∧ Spaces w2 ∧ Spaces w3 ∧
    Gram .value x ∧ Spaces w4 ∧ FitsField kb x ∧ v = o ++ memberText w1 kb w2 w3 x w4 ++ [0x7D]

/-- The texts that can decode to a record: a JSON text whose value is `null`
or an object in which every member whose key designates a field of the
record holds a string or `null`.  Members with other keys, repeated members
and missing members are allowed. -/
def RecordText (data : List Byte) : Prop :=
  ∃ w1 v w2, Spaces w1 ∧ Spaces w2 ∧ data = w1 ++ v ++ w2 ∧
    (v = [0x6E, 0x75, 0x6C, 0x6C] ∨ FitObject v)

/-! ## What the scanner has read, by state -/

/-- The text read so far ends where a value is expected, inside the open
arrays and objects that the parse stack `ps` lists: at the top level after
whitespace; in an array after its bracket or a comma; in an object after
the colon of a member. -/
inductive Open : List ParseState → List Byte → Prop where
  | top (w : List Byte) : Spaces w → Open [] w
  | arr (ps : List ParseState) (p a w : List Byte) : Open ps p → Gram .elems a → Spaces w →
      Open (.parseArrayValue :: ps) (p ++ a ++ w)
  | obj (ps : List ParseState) (p o w1 kb w2 w3 : List Byte) : Open ps p → Gram .members o →
      Spaces w1 → StringBody kb → Spaces w2 → Spaces w3 →
      Open (.parseObjectValue :: ps) (p ++ o ++ (w1 ++ quoted kb ++ w2 ++ [0x3A] ++ w3))

/-- The text read so far ends where a key is expected. -/
def KeyOpen (ps : List ParseState) (p : List Byte) : Prop :=
  ∃ ps1 p0 o w, ps = .parseObjectKey :: ps1 ∧ Open ps1 p0 ∧ Gram .members o ∧ Spaces w ∧
    p = p0 ++ o ++ w

/-- The text read so far ends after a key and whitespace. -/
def AfterKey (ps : List ParseState) (p : List Byte) : Prop :=
  ∃ ps1 p0 o w1 kb w2, ps = .parseObjectKey :: ps1 ∧ Open ps1 p0 ∧ Gram .members o ∧
    Spaces w1 ∧ StringBody kb ∧ Spaces w2 ∧ p = p0 ++ o ++ (w1 ++ quoted kb ++ w2)

/-- The text read so far ends after a value and whitespace. -/
def Done (ps : List ParseState) (p : List Byte) : Prop :=
  ∃ p1 v w, Open ps p1 ∧ Gram .value v ∧ Spaces w ∧ p = p1 ++ v ++ w

/-- The part of a string literal read so far, opening quote included, by the
state of the scanner. -/
def StrTok : StepFn → List Byte → Prop
  | .stateInString, t => ∃ b, StringBody b ∧ t = (0x22 : Byte) :: b
  | .stateInStringEsc, t => ∃ b, StringBody b ∧ t = (0x22 : Byte) :: (b ++ [0x5C])
  | .stateInStringEscU, t => ∃ b, StringBody b ∧ t = (0x22 : Byte) :: (b ++ [0x5C, 0x75])
  | .stateInStringEscU1, t =>
    ∃ b h1, StringBody b ∧ isHex h1 = true ∧ t = (0x22 : Byte) :: (b ++ [0x5C, 0x75, h1])
  | .stateInStringEscU12, t =>
    ∃ b h1 h2, StringBody b ∧ isHex h1 = true ∧ isHex h2 = true ∧
      t = (0x22 : Byte) :: (b ++ [0x5C, 0x75, h1, h2])
  | .stateInStringEscU123, t =>
    ∃ b h1 h2 h3, StringBody b ∧ isHex h1 = true ∧ isHex h2 = true ∧ isHex h3 = true ∧
      t = (0x22 : Byte) :: (b ++ [0x5C, 0x75, h1, h2, h3])
  | _, _ => False

/-- The part of a number read so far, by the state of the scanner. -/
def NumTok : StepFn → List Byte → Prop
  | .stateNeg, t => t = [0x2D]
  | .state0, t => ∃ sg, JSign sg ∧ t = sg ++ [0x30]
  | .state1, t => ∃ sg c d, JSign sg ∧ isDigit19 c = true ∧ Digits d ∧ t = sg ++ c :: d
  | .stateDot, t => ∃ sg int, JSign sg ∧ JInt int ∧ t = sg ++ int ++ [0x2E]
  | .stateDot0, t =>
    ∃ sg int c d, JSign sg ∧ JInt int ∧ isDigit c = true ∧ Digits d ∧
      t = sg ++ int ++ (0x2E :: c :: d)
  | .stateE, t =>
    ∃ sg int frac e, JSign sg ∧ JInt int ∧ JFrac frac ∧ (e.val = 0x65 ∨ e.val = 0x45) ∧
      t = sg ++ int ++ frac ++ [e]
  | .stateESign, t =>
    ∃ sg int frac e x, JSign sg ∧ JInt int ∧ JFrac frac ∧ (e.val = 0x65 ∨ e.val = 0x45) ∧
      (x.val = 0x2B ∨ x.val = 0x2D) ∧ t = sg ++ int ++ frac ++ [e, x]
  | .stateE0, t =>
    ∃ sg int frac e x c d, JSign sg ∧ JInt int ∧ JFrac frac ∧ (e.val = 0x65 ∨ e.val = 0x45) ∧
      (x = [] ∨ x = [0x2B] ∨ x = [0x2D]) ∧ isDigit c = true ∧ Digits d ∧
      t = sg ++ int ++ frac ++ (e :: (x ++ c :: d))
  | _, _ => False

/-- The part of `true`, `false` or `null` read so far, by the state of the
scanner. -/
def LitTok : StepFn → List Byte → Prop
  | .stateT, t => t = [0x74]
  | .stateTr, t => t = [0x74, 0x72]
  | .stateTru, t => t = [0x74, 0x72, 0x75]
  | .stateF, t => t = [0x66]
  | .stateFa, t => t = [0x66, 0x61]
  | .stateFal, t => t = [0x66, 0x61, 0x6C]
  | .stateFals, t => t = [0x66, 0x61, 0x6C, 0x73]
  | .stateN, t => t = [0x6E]
  | .stateNu, t => t = [0x6E, 0x75]
  | .stateNul, t => t = [0x6E, 0x75, 0x6C]
  | _, _ => False

/-- The text read so far ends inside a token that began where a value or,
for a string, a key was expected. -/
def InToken (st : StepFn) (ps : List ParseState) (p : List Byte) : Prop :=
  ∃ p1 tok, p = p1 ++ tok ∧
    (((Open ps p1 ∨ KeyOpen ps p1) ∧ StrTok st tok) ∨
      (Open ps p1 ∧ (NumTok st tok ∨ LitTok st tok)))

/-- What the text `p` that a scanner without error has read is like, by the
state `s` of the scanner. -/
def Inv (s : Scanner) (p : List Byte) : Prop :=
  s.err = false ∧
  match s.step with
  | .stateBeginValue => s.endTop = false ∧ Open s.parseState p
  | .stateBeginValueOrEmpty =>
    s.endTop = false ∧ ∃ ps p0 w, s.parseState = .parseArrayValue :: ps ∧ Open ps p0 ∧
      Spaces w ∧ p = p0 ++ ((0x5B : Byte) :: w)
  | .stateBeginStringOrEmpty =>
    s.endTop = false ∧ ∃ ps p0 w, s.parseState = .parseObjectKey :: ps ∧ Open ps p0 ∧
      Spaces w ∧ p = p0 ++ ((0x7B : Byte) :: w)
  | .stateBeginString => s.endTop = false ∧ KeyOpen s.parseState p
  | .stateEndValue => s.endTop = false ∧ (AfterKey s.parseState p ∨ Done s.parseState p)
  | .stateEndTop => s.endTop = true ∧ s.parseState = [] ∧ Done [] p
  | .stateError => False
  | st => s.endTop = false ∧ InToken st s.parseState p

/-- The outcome of a step of the scanner on a text that extends to `p`: the
scanner is dead, or it is in a state that describes `p`. -/
def Good (r : Scanner × Op) (p : List Byte) : Prop := r.1.dead ∨ Inv r.1 p

/-! ## The decoder on a JSON text -/

/-- A byte that may follow a value: whitespace, a comma, a colon, a closing
bracket or a closing brace. -/
def Delim (c : Byte) : Prop :=
  isSpace c = true ∨ c.val = 0x2C ∨ c.val = 0x3A ∨ c.val = 0x5D ∨ c.val = 0x7D

/-- The scanner `s` has read a value inside the stack `ps`: a delimiter
takes it where it takes the state `stateEndValue`. -/
def EndLike (ps : List ParseState) (s : Scanner) : Prop :=
  s.parseState = ps ∧ s.endTop = false ∧ s.err = false ∧
  ∀ c, Delim c → s.next c = Scanner.next ⟨.stateEndValue, false, ps, false⟩ c

/-- The loop of `skip` passes over the text `seg` from the state `s` to the
state `s1` without returning, or it runs to the end of the input. -/
def Passes (depth : Nat) (s : Scanner) (seg : List Byte) (s1 : Scanner) : Prop :=
  ∀ Y, skipLoop depth s (seg ++ Y) = none ∨ skipLoop depth s (seg ++ Y) = skipLoop depth s1 Y

/-- The loop of `skip` returns at the end of the text `seg`, in the state
`s1` and with the rest of the input unread, or it runs to the end of the
input. -/
def Exits (depth : Nat) (s : Scanner) (seg : List Byte) (s1 : Scanner) : Prop :=
  ∀ Y, skipLoop depth s (seg ++ Y) = none ∨
    ∃ last op, skipLoop depth s (seg ++ Y) = some (s1, last, Y, op)

/-- The result of a part of the decoder is a failure: nothing, or a state
with a saved error. -/
def Bad (r : Option DecodeState) : Prop := ∀ d, r = some d → d.savedError = true

/-- The end of one iteration of the loop of `object`, after the value of a
member: the next token must be a comma, after which the loop goes on, or the
closing brace. -/
def objectNext (fuel : Nat) (d : DecodeState) : Option DecodeState :=
  let d := if d.opcode = .scanSkipSpace then d.scanWhile .scanSkipSpace else d
  if d.opcode = .scanEndObject then some d
  else if d.opcode ≠ .scanObjectValue then none
  else objectLoop fuel d

/-- What the loop of `skip` does on the text of an array, of an object or of
a value, by the sort of the text: it passes over it, to a state that expects
the next element, the next member, or the delimiter after the value. -/
def SkipSpec : Kind → List Byte → Prop
  | .value, v =>
    ∀ (depth : Nat) (st : StepFn) (top : ParseState) (below : List ParseState),
      depth ≤ below.length + 1 → st = .stateBeginValue ∨ st = .stateBeginValueOrEmpty →
      ∃ s1, EndLike (top :: below) s1 ∧ Passes depth ⟨st, false, top :: below, false⟩ v s1
  | .elems, a =>
    ∀ (depth : Nat) (st : StepFn) (ps : List ParseState),
      depth ≤ ps.length + 1 → st = .stateBeginValue ∨ st = .stateBeginValueOrEmpty →
      ∃ st1, (st1 = .stateBeginValue ∨ st1 = .stateBeginValueOrEmpty) ∧
        Passes depth ⟨st, false, ps, false⟩ a ⟨st1, false, .parseArrayValue :: ps, false⟩
  | .members, o =>
    ∀ (depth : Nat) (st : StepFn) (ps : List ParseState),
      depth ≤ ps.length + 1 → st = .stateBeginValue ∨ st = .stateBeginValueOrEmpty →
      ∃ st1, (st1 = .stateBeginString ∨ st1 = .stateBeginStringOrEmpty) ∧
        Passes depth ⟨st, false, ps, false⟩ o ⟨st1, false, .parseObjectKey :: ps, false⟩

/-- The JSON text of an empty array. -/
def arrayText : Bytes := ascii "[]"

/-- The JSON text of the number twelve. -/
def numberText : Bytes := ascii "12"

/-- The JSON text of the string `x`. -/
def stringText : Bytes := ascii "\"x\""

/-- The JSON text of an object whose member `studentId` holds a number. -/
def mistypedText : Bytes := ascii "\x7b\"studentId\":1\x7d"

/-! ## Facts about `unicode/utf8` -/

@[simp] theorem byte_val (n : Nat) : (byte n).val = n % 256 := rfl

theorem byte_eq_of_val {b : Byte} {n : Nat} (h : n = b.val) : byte n = b := by
  apply Fin.ext; simp [h]

theorem first_ascii {p0 : Nat} (h : p0 < 0x80) : first p0 = 0xF0 := by
  unfold first; simp only [h, if_true]

theorem first_cont {p0 : Nat} (h1 : 0x80 ≤ p0) (h2 : p0 < 0xC2) : first p0 = 0xF1 := by
  unfold first
  rw [if_neg (by omega), if_pos (by omega)]

theorem first_two {p0 : Nat} (h1 : 0xC2 ≤ p0) (h2 : p0 < 0xE0) : first p0 = 0x02 := by
  unfold first
  rw [if_neg (by omega), if_neg (by omega), if_pos (by omega)]

theorem first_three {p0 : Nat} (h1 : 0xE1 ≤ p0) (h2 : p0 < 0xF0) (h3 : p0 ≠ 0xED) :
    first p0 = 0x03 := by
  unfold first
  rw [if_neg (by omega), if_neg (by omega), if_neg (by omega), if_neg (by omega)]
  by_cases h : p0 < 0xED
  · rw [if_pos h]
  · rw [if_neg h, if_neg h3, if_pos h2]

theorem first_four {p0 : Nat} (h1 : 0xF1 ≤ p0) (h2 : p0 < 0xF4) : first p0 = 0x04 := by
  unfold first
  repeat rw [if_neg (show ¬ _ by omega)]
  exact if_pos (by omega)

theorem first_high {p0 : Nat} (h1 : 0xF5 ≤ p0) : first p0 = 0xF1 := by
  unfold first
  repeat rw [if_neg (show ¬ _ by omega)]

/-- The shape of a lead byte at or above 0x80. -/
theorem lead_cases (p0 : Nat) :
    (p0 < 0xC2 ∨ 0xF5 ≤ p0) ∨ (0xC2 ≤ p0 ∧ p0 < 0xE0) ∨ p0 = 0xE0 ∨
    (0xE1 ≤ p0 ∧ p0 < 0xF0 ∧ p0 ≠ 0xED) ∨ p0 = 0xED ∨ p0 = 0xF0 ∨
    (0xF1 ≤ p0 ∧ p0 < 0xF4) ∨ p0 = 0xF4 := by
  by_cases h1 : p0 < 0xC2
  · exact Or.inl (Or.inl h1)
  by_cases h2 : p0 < 0xE0
  · exact Or.inr (Or.inl ⟨by omega, h2⟩)
  by_cases h3 : p0 = 0xE0
  · exact Or.inr (Or.inr (Or.inl h3))
  by_cases h4 : p0 = 0xED
  · exact Or.inr (Or.inr (Or.inr (Or.inr (Or.inl h4))))
  by_cases h5 : p0 < 0xF0
  · exact Or.inr (Or.inr (Or.inr (Or.inl ⟨by omega, h5, h4⟩)))
  by_cases h6 : p0 = 0xF0
  · exact Or.inr (Or.inr (Or.inr (Or.inr (Or.inr (Or.inl h6)))))
  by_cases h7 : p0 < 0xF4
  · exact Or.inr (Or.inr (Or.inr (Or.inr (Or.inr (Or.inr (Or.inl ⟨by omega, h7⟩))))))
  by_cases h8 : p0 = 0xF4
  · exact Or.inr (Or.inr (Or.inr (Or.inr (Or.inr (Or.inr (Or.inr h8))))))
  · exact Or.inl (Or.inr (by omega))

/-- Decoding a single-byte lead: ASCII or invalid. -/
theorem decodeRune_single (c : Byte) (t : List Byte) (x : Nat) (hx : first c.val = x)
    (h : 0xF0 ≤ x) :
    decodeRune (c :: t) = (if x % 2 = 1 then RuneError else c.val, 1) := by
  subst hx
  simp only [decodeRune, h, if_true]

/-- Unfolding of `decodeRune` on a multi-byte lead. -/
theorem decodeRune_multi (c : Byte) (t : List Byte) (x : Nat) (hx : first c.val = x)
    (h : ¬ 0xF0 ≤ x) :
    decodeRune (c :: t) =
      if (c :: t).length < x % 8 then (RuneError, 1)
      else
        match t with
        | [] => (RuneError, 1)
        | b1 :: t1 =>
          if b1.val < (acceptRanges (x / 16)).1 ∨ (acceptRanges (x / 16)).2 < b1.val then
            (RuneError, 1)
          else if x % 8 ≤ 2 then ((c.val % 32) * 64 + b1.val % 64, 2)
          else
            match t1 with
            | [] => (RuneError, 1)
            | b2 :: t2 =>
              if b2.val < 0x80 ∨ 0xBF < b2.val then (RuneError, 1)
              else if x % 8 ≤ 3 then
                ((c.val % 16) * 4096 + (b1.val % 64) * 64 + b2.val % 64, 3)
              else
                match t2 with
                | [] => (RuneError, 1)
                | b3 :: _ =>
                  if b3.val < 0x80 ∨ 0xBF < b3.val then (RuneError, 1)
                  else
                    ((c.val % 8) * 262144 + (b1.val % 64) * 4096
                      + (b2.val % 64) * 64 + b3.val % 64, 4) := by
  subst hx
  simp only [decodeRune, h, if_false] <;> rfl

/-- A lead byte that `first` marks invalid decodes to the error rune. -/
theorem decodeRune_bad_lead (c : Byte) (rest : List Byte) (h : first c.val = 0xF1) :
    decodeRune (c :: rest) = (RuneError, 1) := by
  rw [decodeRune_single c rest _ h (by omega)]
  rfl

/-- Decoding an ASCII byte. -/
theorem decodeRune_ascii (c : Byte) (rest : List Byte) (h : c.val < 0x80) :
    decodeRune (c :: rest) = (c.val, 1) := by
  rw [decodeRune_single c rest _ (first_ascii h) (by omega)]
  rfl

/-- A multi-byte sequence that is cut short decodes to the error rune. -/
theorem decodeRune_short (c : Byte) (t : List Byte) (x : Nat) (hx : first c.val = x)
    (h : ¬ 0xF0 ≤ x) (hlen : t.length + 1 < x % 8) : decodeRune (c :: t) = (RuneError, 1) := by
  rw [decodeRune_multi c t x hx h]
  have : (c :: t).length < x % 8 := by simpa using hlen
  simp only [this, if_true]

theorem encodeRune_two (c b1 : Byte) (h1 : 0xC2 ≤ c.val) (h2 : c.val < 0xE0)
    (hb1 : 0x80 ≤ b1.val) (hb2 : b1.val ≤ 0xBF) :
    encodeRune ((c.val % 32) * 64 + b1.val % 64) = [c, b1] := by
  have hr1 : ¬ (c.val % 32 * 64 + b1.val % 64 ≤ 0x7F) := by omega
  have hr2 : c.val % 32 * 64 + b1.val % 64 ≤ 0x7FF := by omega
  simp only [encodeRune, hr1, hr2, if_true, if_false]
  congr 1
  · apply byte_eq_of_val; omega
  · congr 1; apply byte_eq_of_val; omega

theorem encodeRune_three (c b1 b2 : Byte) (h1 : 0xE0 ≤ c.val) (h2 : c.val < 0xF0)
    (hb1 : 0x80 ≤ b1.val) (hb2 : b1.val ≤ 0xBF) (hb3 : 0x80 ≤ b2.val) (hb4 : b2.val ≤ 0xBF)
    (hmin : c.val = 0xE0 → 0xA0 ≤ b1.val) (hmax : c.val = 0xED → b1.val ≤ 0x9F) :
    encodeRune ((c.val % 16) * 4096 + (b1.val % 64) * 64 + b2.val % 64) = [c, b1, b2] := by
  generalize hr : c.val % 16 * 4096 + b1.val % 64 * 64 + b2.val % 64 = r
  have hr1 : ¬ (r ≤ 0x7F) := by omega
  have hr2 : ¬ (r ≤ 0x7FF) := by omega
  have hr3 : ¬ (MaxRune < r ∨ (0xD800 ≤ r ∧ r ≤ 0xDFFF)) := by unfold MaxRune; omega
  have hr4 : r ≤ 0xFFFF := by omega
  have e1 : 0xE0 + r / 4096 = c.val := by omega
  have e2 : 0x80 + r / 64 % 64 = b1.val := by omega
  have e3 : 0x80 + r % 64 = b2.val := by omega
  simp only [encodeRune, encodeRune3, hr1, hr2, hr3, hr4, if_true, if_false, e1, e2, e3,
    byte_eq_of_val rfl]

theorem encodeRune_four (c b1 b2 b3 : Byte) (h1 : 0xF0 ≤ c.val) (h2 : c.val ≤ 0xF4)
    (hb1 : 0x80 ≤ b1.val) (hb2 : b1.val ≤ 0xBF) (hb3 : 0x80 ≤ b2.val) (hb4 : b2.val ≤ 0xBF)
    (hb5 : 0x80 ≤ b3.val) (hb6 : b3.val ≤ 0xBF)
    (hmin : c.val = 0xF0 → 0x90 ≤ b1.val) (hmax : c.val = 0xF4 → b1.val ≤ 0x8F) :
    encodeRune ((c.val % 8) * 262144 + (b1.val % 64) * 4096 + (b2.val % 64) * 64 + b3.val % 64)
      = [c, b1, b2, b3] := by
  generalize hr : c.val % 8 * 262144 + b1.val % 64 * 4096 + b2.val % 64 * 64 + b3.val % 64 = r
  have hr1 : ¬ (r ≤ 0x7F) := by omega
  have hr2 : ¬ (r ≤ 0x7FF) := by omega
  have hr3 : ¬ (MaxRune < r ∨ (0xD800 ≤ r ∧ r ≤ 0xDFFF)) := by unfold MaxRune; omega
  have hr4 : ¬ (r ≤ 0xFFFF) := by omega
  have e1 : 0xF0 + r / 262144 = c.val := by omega
  have e2 : 0x80 + r / 4096 % 64 = b1.val := by omega
  have e3 : 0x80 + r / 64 % 64 = b2.val := by omega
  have e4 : 0x80 + r % 64 = b3.val := by omega
  simp only [encodeRune, hr1, hr2, hr3, hr4, if_true, if_false, e1, e2, e3, e4,
    byte_eq_of_val rfl]

/-- Decoding with a lead byte whose `first` entry announces two bytes. -/
theorem decodeRune_two (c : Byte) (rest : List Byte) (h1 : 0xC2 ≤ c.val) (h2 : c.val < 0xE0)
    (hv : ¬ ((decodeRune (c :: rest)).1 = RuneError ∧ (decodeRune (c :: rest)).2 = 1)) :
    DecodesTo c rest := by
  have hf := first_two h1 h2
  have hm := fun t => decodeRune_multi c t 0x02 hf (by omega)
  have hacc : acceptRanges (0x02 / 16) = (0x80, 0xBF) := rfl
  rcases rest with _ | ⟨b1, t⟩
  · exfalso; apply hv; rw [decodeRune_short c [] 0x02 hf (by omega) (by simp)]; exact ⟨rfl, rfl⟩
  · have hb := b1.isLt
    by_cases hb1 : b1.val < 0x80 ∨ 0xBF < b1.val
    · exfalso; apply hv
      have hd' : decodeRune (c :: b1 :: t) = (RuneError, 1) := by
        rw [hm, hacc]
        have hl : ¬ ((c :: b1 :: t).length < 2 % 8) := by simp
        simp only [hl, hb1, if_true, if_false]
      rw [hd']; exact ⟨rfl, rfl⟩
    · have hd : ∀ t', decodeRune (c :: ([b1] ++ t')) = ((c.val % 32) * 64 + b1.val % 64, 2) := by
        intro t'
        show decodeRune (c :: b1 :: t') = _
        rw [hm, hacc]
        have hl : ¬ ((c :: b1 :: t').length < 2 % 8) := by simp
        have h22 : 2 % 8 ≤ 2 := by omega
        simp only [hl, if_false, hb1, h22, if_true]
      exact ⟨[b1], t, _, rfl, by simp, by simp, hd,
        encodeRune_two c b1 h1 h2 (by omega) (by omega), by simp; omega, by omega⟩

/-- Decoding with a lead byte whose `first` entry announces three bytes. -/
theorem decodeRune_three (c : Byte) (rest : List Byte) (x lo hi : Nat)
    (hx : first c.val = x) (hx8 : x % 8 = 3) (hxlt : x < 0xF0)
    (hacc : acceptRanges (x / 16) = (lo, hi)) (hlo : 0x80 ≤ lo) (hhi : hi ≤ 0xBF)
    (hc1 : 0xE0 ≤ c.val) (hc2 : c.val < 0xF0)
    (hmin : c.val = 0xE0 → 0xA0 ≤ lo) (hmax : c.val = 0xED → hi ≤ 0x9F)
    (hv : ¬ ((decodeRune (c :: rest)).1 = RuneError ∧ (decodeRune (c :: rest)).2 = 1)) :
    DecodesTo c rest := by
  have hx' : ¬ (0xF0 ≤ x) := by omega
  have hm := fun t => decodeRune_multi c t x hx hx'
  have h32 : ¬ (3 ≤ 2) := by omega
  rcases rest with _ | ⟨b1, _ | ⟨b2, t⟩⟩
  · exfalso; apply hv; rw [decodeRune_short c [] x hx hx' (by simp; omega)]; exact ⟨rfl, rfl⟩
  · exfalso; apply hv; rw [decodeRune_short c [b1] x hx hx' (by simp; omega)]; exact ⟨rfl, rfl⟩
  · have hb := b1.isLt
    have hb' := b2.isLt
    have hl : ∀ t', ¬ ((c :: b1 :: b2 :: t').length < 3) := by intro t'; simp
    by_cases hb1 : b1.val < lo ∨ hi < b1.val
    · exfalso; apply hv
      have hd' : decodeRune (c :: b1 :: b2 :: t) = (RuneError, 1) := by
        rw [hm, hx8, hacc]
        simp only [hl, hb1, if_true, if_false]
      rw [hd']; exact ⟨rfl, rfl⟩
    by_cases hb2 : b2.val < 0x80 ∨ 0xBF < b2.val
    · exfalso; apply hv
      have hd' : decodeRune (c :: b1 :: b2 :: t) = (RuneError, 1) := by
        rw [hm, hx8, hacc]
        simp only [hl, hb1, hb2, h32, if_true, if_false]
      rw [hd']; exact ⟨rfl, rfl⟩
    have hd : ∀ t', decodeRune (c :: ([b1, b2] ++ t'))
        = ((c.val % 16) * 4096 + (b1.val % 64) * 64 + b2.val % 64, 3) := by
      intro t'
      show decodeRune (c :: b1 :: b2 :: t') = _
      rw [hm, hx8, hacc]
      simp only [hl, hb1, hb2, h32, if_true, if_false, le_refl]
    exact ⟨[b1, b2], t, _, rfl, by simp, by simp, hd,
      encodeRune_three c b1 b2 hc1 hc2 (by omega) (by omega) (by omega) (by omega)
        (fun h => by have := hmin h; omega) (fun h => by have := hmax h; omega),
      by simp; omega, by omega⟩

/-- Decoding with a lead byte whose `first` entry announces four bytes. -/
theorem decodeRune_four (c : Byte) (rest : List Byte) (x lo hi : Nat)
    (hx : first c.val = x) (hx8 : x % 8 = 4) (hxlt : x < 0xF0)
    (hacc : acceptRanges (x / 16) = (lo, hi)) (hlo : 0x80 ≤ lo) (hhi : hi ≤ 0xBF)
    (hc1 : 0xF0 ≤ c.val) (hc2 : c.val ≤ 0xF4)
    (hmin : c.val = 0xF0 → 0x90 ≤ lo) (hmax : c.val = 0xF4 → hi ≤ 0x8F)
    (hv : ¬ ((decodeRune (c :: rest)).1 = RuneError ∧ (decodeRune (c :: rest)).2 = 1)) :
    DecodesTo c rest := by
  have hx' : ¬ (0xF0 ≤ x) := by omega
  have hm := fun t => decodeRune_multi c t x hx hx'
  have h42 : ¬ (4 ≤ 2) := by omega
  have h43 : ¬ (4 ≤ 3) := by omega
  rcases rest with _ | ⟨b1, _ | ⟨b2, _ | ⟨b3, t⟩⟩⟩
  · exfalso; apply hv; rw [decodeRune_short c [] x hx hx' (by simp; omega)]; exact ⟨rfl, rfl⟩
  · exfalso; apply hv; rw [decodeRune_short c [b1] x hx hx' (by simp; omega)]; exact ⟨rfl, rfl⟩
  · exfalso; apply hv; rw [decodeRune_short c [b1, b2] x hx hx' (by simp; omega)]
    exact ⟨rfl, rfl⟩
  · have hb := b1.isLt
    have hb' := b2.isLt
    have hb'' := b3.isLt
    have hl : ∀ t', ¬ ((c :: b1 :: b2 :: b3 :: t').length < 4) := by intro t'; simp
    by_cases hb1 : b1.val < lo ∨ hi < b1.val
    · exfalso; apply hv
      have hd' : decodeRune (c :: b1 :: b2 :: b3 :: t) = (RuneError, 1) := by
        rw [hm, hx8, hacc]
        simp only [hl, hb1, if_true, if_false]
      rw [hd']; exact ⟨rfl, rfl⟩
    by_cases hb2 : b2.val < 0x80 ∨ 0xBF < b2.val
    · exfalso; apply hv
      have hd' : decodeRune (c :: b1 :: b2 :: b3 :: t) = (RuneError, 1) := by
        rw [hm, hx8, hacc]
        simp only [hl, hb1, hb2, h42, if_true, if_false]
      rw [hd']; exact ⟨rfl, rfl⟩
    by_cases hb3 : b3.val < 0x80 ∨ 0xBF < b3.val
    · exfalso; apply hv
      have hd' : decodeRune (c :: b1 :: b2 :: b3 :: t) = (RuneError, 1) := by
        rw [hm, hx8, hacc]
        simp only [hl, hb1, hb2, hb3, h42, h43, if_true, if_false]
      rw [hd']; exact ⟨rfl, rfl⟩
    have hd : ∀ t', decodeRune (c :: ([b1, b2, b3] ++ t'))
        = ((c.val % 8) * 262144 + (b1.val % 64) * 4096 + (b2.val % 64) * 64 + b3.val % 64, 4) := by
      intro t'
      show decodeRune (c :: b1 :: b2 :: b3 :: t') = _
      rw [hm, hx8, hacc]
      simp only [hl, hb1, hb2, hb3, h42, h43, if_true, if_false]
    exact ⟨[b1, b2, b3], t, _, rfl, by simp, by simp, hd,
      encodeRune_four c b1 b2 b3 hc1 hc2 (by omega) (by omega) (by omega) (by omega) (by omega)
        (by omega) (fun h => by have := hmin h; omega) (fun h => by have := hmax h; omega),
      by simp; omega, by omega⟩

/-- A lead byte at or above 0x80 that does not decode to an error begins a
well-formed multi-byte sequence. -/
theorem decodeRune_valid (c : Byte) (rest : List Byte) (hc : 0x80 ≤ c.val)
    (hv : ¬ ((decodeRune (c :: rest)).1 = RuneError ∧ (decodeRune (c :: rest)).2 = 1)) :
    DecodesTo c rest := by
  have hc256 := c.isLt
  rcases lead_cases c.val with h | h | h | h | h | h | h | h
  · exfalso; apply hv
    have hf : first c.val = 0xF1 := by
      rcases h with h | h
      · exact first_cont hc h
      · exact first_high h
    rw [decodeRune_bad_lead c rest hf]; exact ⟨rfl, rfl⟩
  · exact decodeRune_two c rest h.1 h.2 hv
  · exact decodeRune_three c rest 0x13 0xA0 0xBF (by rw [h]; rfl) rfl (by omega) rfl
      (by omega) (by omega) (by omega) (by omega) (by omega) (by omega) hv
  · exact decodeRune_three c rest 0x03 0x80 0xBF (first_three h.1 h.2.1 h.2.2) rfl (by omega) rfl
      (by omega) (by omega) (by omega) (by omega) (by omega) (by omega) hv
  · exact decodeRune_three c rest 0x23 0x80 0x9F (by rw [h]; rfl) rfl (by omega) rfl
      (by omega) (by omega) (by omega) (by omega) (by omega) (by omega) hv
  · exact decodeRune_four c rest 0x34 0x90 0xBF (by rw [h]; rfl) rfl (by omega) rfl
      (by omega) (by omega) (by omega) (by omega) (by omega) (by omega) hv
  · exact decodeRune_four c rest 0x04 0x80 0xBF (first_four h.1 h.2) rfl (by omega) rfl
      (by omega) (by omega) (by omega) (by omega) (by omega) (by omega) hv
  · exact decodeRune_four c rest 0x44 0x80 0x8F (by rw [h]; rfl) rfl (by omega) rfl
      (by omega) (by omega) (by omega) (by omega) (by omega) (by omega) hv

/-! ## Strings through `appendString` and `unquoteBytes` -/

theorem first_mod8 (p0 : Nat) : 0xF0 ≤ first p0 ∨ (first p0 < 0xF0 ∧ first p0 % 8 ≤ 4) := by
  by_cases h0 : p0 < 0x80
  · left; rw [first_ascii h0]
  rcases lead_cases p0 with h | h | h | h | h | h | h | h
  · left
    rcases h with h | h
    · rw [first_cont (by omega) h]; decide
    · rw [first_high h]; decide
  · right; rw [first_two h.1 h.2]; decide
  · right; rw [h]; decide
  · right; rw [first_three h.1 h.2.1 h.2.2]; decide
  · right; rw [h]; decide
  · right; rw [h]; decide
  · right; rw [first_four h.1 h.2]; decide
  · right; rw [h]; decide

/-- `decodeRune` looks at no more than four bytes. -/
theorem decodeRune_take4 (c : Byte) (rest : List Byte) :
    decodeRune ((c :: rest).take 4) = decodeRune (c :: rest) := by
  rcases rest with _ | ⟨b1, _ | ⟨b2, _ | ⟨b3, t⟩⟩⟩
  · rfl
  · rfl
  · rfl
  · show decodeRune [c, b1, b2, b3] = decodeRune (c :: b1 :: b2 :: b3 :: t)
    rcases first_mod8 c.val with h | h
    · rw [decodeRune_single c _ _ rfl h, decodeRune_single c _ _ rfl h]
    · have hx : ¬ 0xF0 ≤ first c.val := by omega
      rw [decodeRune_multi c _ _ rfl hx, decodeRune_multi c _ _ rfl hx]
      have h1 : ¬ ([c, b1, b2, b3].length < first c.val % 8) := by
        simp only [List.length_cons, List.length_nil]; omega
      have h2 : ¬ ((c :: b1 :: b2 :: b3 :: t).length < first c.val % 8) := by
        simp only [List.length_cons]; omega
      simp only [h1, h2, if_false]

theorem unquoteLoop_nil (f : Nat) : unquoteLoop f [] = some [] := by
  cases f <;> rfl

theorem unquoteLoop_cons (f : Nat) (c : Byte) (rest : List Byte) :
    unquoteLoop (f + 1) (c :: rest) =
      match unquoteStep c rest with
      | none => none
      | some r => (unquoteLoop f (rest.drop r.2)).map (r.1 ++ ·) := rfl

/-- One step of the unquoting loop. -/
theorem unquoteLoop_step (f : Nat) (c : Byte) (rest out : List Byte) (k : Nat)
    (h : unquoteStep c rest = some (out, k)) :
    unquoteLoop (f + 1) (c :: rest) = (unquoteLoop f (rest.drop k)).map (out ++ ·) := by
  rw [unquoteLoop_cons, h]

/-- The unquoting loop does not depend on the fuel once there is enough. -/
theorem unquoteLoop_fuel : ∀ (f2 f3 : Nat) (q : List Byte), q.length ≤ f2 → q.length ≤ f3 →
    unquoteLoop f2 q = unquoteLoop f3 q := by
  intro f2
  induction f2 with
  | zero =>
    intro f3 q h2 h3
    have : q = [] := List.length_eq_zero.mp (by omega)
    subst this
    rw [unquoteLoop_nil, unquoteLoop_nil]
  | succ n ih =>
    intro f3 q h2 h3
    rcases q with _ | ⟨c, rest⟩
    · rw [unquoteLoop_nil, unquoteLoop_nil]
    rcases f3 with _ | m
    · simp at h3
    simp only [List.length_cons] at h2 h3
    rw [unquoteLoop_cons, unquoteLoop_cons]
    cases hs : unquoteStep c rest with
    | none => rfl
    | some r =>
      have hl : (rest.drop r.2).length ≤ rest.length := by
        rw [List.length_drop]; omega
      show (unquoteLoop n _).map _ = (unquoteLoop m _).map _
      rw [ih m _ (by omega) (by omega)]

theorem hexVal_hex (a : Nat) (h : a < 16) : hexVal (hex a) = some a := by
  unfold hex hexVal
  by_cases h10 : a < 10
  · rw [if_pos h10]
    have : (byte (0x30 + a)).val = 0x30 + a := by rw [byte_val]; omega
    rw [this, if_pos (by omega)]
    congr 1; omega
  · rw [if_neg h10]
    have : (byte (0x61 + (a - 10))).val = 0x61 + (a - 10) := by rw [byte_val]; omega
    rw [this, if_neg (by omega), if_pos (by omega)]
    congr 1; omega

theorem getu4_hex (a b : Nat) (ha : a < 16) (hb : b < 16) (t : List Byte) :
    getu4 (0x5C :: 0x75 :: 0x30 :: 0x30 :: hex a :: hex b :: t) = some (a * 16 + b) := by
  unfold getu4
  have h0 : hexVal (0x30 : Byte) = some 0 := rfl
  simp only [hexVal_hex a ha, hexVal_hex b hb, h0]
  simp
  exact ⟨rfl, rfl⟩

/-- An ordinary ASCII byte is copied. -/
theorem unquoteStep_plain (c : Byte) (rest : List Byte) (h1 : c.val ≠ 0x5C) (h2 : c.val ≠ 0x22)
    (h3 : 0x20 ≤ c.val) (h4 : c.val < 0x80) : unquoteStep c rest = some ([c], 0) := by
  unfold unquoteStep
  rw [if_neg h1, if_neg (by omega), if_pos h4]

/-- A well-formed multi-byte sequence is decoded and encoded again. -/
theorem unquoteStep_rune (c : Byte) (rest : List Byte) (h : 0x80 ≤ c.val) :
    unquoteStep c rest
      = some (encodeRune (decodeRune (c :: rest)).1, (decodeRune (c :: rest)).2 - 1) := by
  unfold unquoteStep
  rw [if_neg (by omega), if_neg (by omega), if_neg (by omega)]

/-- The escapes that `escapeByte` writes are read back as the byte. -/
theorem unquoteStep_escapeByte (c : Byte) (t : List Byte) (h4 : c.val < 0x80)
    (hs : htmlSafeSet c.val = false) :
    ∃ e tl, escapeByte c ++ t = (0x5C : Byte) :: (e :: tl) ∧
      ∃ k, unquoteStep 0x5C (e :: tl) = some ([c], k) ∧ (e :: tl).drop k = t := by
  have h5c : ((0x5C : Byte)).val = 0x5C := rfl
  unfold escapeByte
  by_cases c1 : c.val = 0x5C ∨ c.val = 0x22
  · rw [if_pos c1]
    refine ⟨c, t, rfl, 1, ?_, rfl⟩
    unfold unquoteStep
    rw [if_pos h5c]
    show (if c.val = 0x22 ∨ c.val = 0x5C ∨ c.val = 0x2F ∨ c.val = 0x27 then _ else _) = _
    rw [if_pos (by omega)]
  rw [if_neg c1]
  by_cases c2 : c.val = 0x08
  · rw [if_pos c2]
    refine ⟨0x62, t, rfl, 1, ?_, rfl⟩
    have : c = 0x08 := Fin.ext c2
    subst this; rfl
  rw [if_neg c2]
  by_cases c3 : c.val = 0x0C
  · rw [if_pos c3]
    refine ⟨0x66, t, rfl, 1, ?_, rfl⟩
    have : c = 0x0C := Fin.ext c3
    subst this; rfl
  rw [if_neg c3]
  by_cases c4 : c.val = 0x0A
  · rw [if_pos c4]
    refine ⟨0x6E, t, rfl, 1, ?_, rfl⟩
    have : c = 0x0A := Fin.ext c4
    subst this; rfl
  rw [if_neg c4]
  by_cases c5 : c.val = 0x0D
  · rw [if_pos c5]
    refine ⟨0x72, t, rfl, 1, ?_, rfl⟩
    have : c = 0x0D := Fin.ext c5
    subst this; rfl
  rw [if_neg c5]
  by_cases c6 : c.val = 0x09
  · rw [if_pos c6]
    refine ⟨0x74, t, rfl, 1, ?_, rfl⟩
    have : c = 0x09 := Fin.ext c6
    subst this; rfl
  rw [if_neg c6]
  refine ⟨0x75, 0x30 :: 0x30 :: hex (c.val / 16) :: hex (c.val % 16) :: t, rfl, 5, ?_, rfl⟩
  unfold unquoteStep
  rw [if_pos h5c]
  show (if ((0x75 : Byte)).val = 0x22 ∨ _ then _ else _) = _
  have hg := getu4_hex (c.val / 16) (c.val % 16) (by omega) (by omega) t
  have hv : c.val / 16 * 16 + c.val % 16 = c.val := by omega
  rw [hv] at hg
  have hu : ((0x75 : Byte)).val = 0x75 := rfl
  simp only [hu, hg]
  have hns : isSurrogate c.val = false := by
    unfold isSurrogate; simp only [decide_eq_false_iff_not]; omega
  have he : encodeRune c.val = [c] := by
    unfold encodeRune
    rw [if_pos (by omega)]
    rw [byte_eq_of_val rfl]
  simp [hns, he]

theorem appendStringLoop_nil (f : Nat) : appendStringLoop f [] = [] := by
  cases f <;> rfl

theorem coerceUTF8Loop_nil (f : Nat) : coerceUTF8Loop f [] = [] := by
  cases f <;> rfl

theorem validUTF8Loop_nil (f : Nat) : validUTF8Loop f [] = true := by
  cases f <;> rfl

theorem unquoteScan_nil (f : Nat) : unquoteScan f [] = 0 := by
  cases f <;> rfl

theorem drop_seq (seq t : List Byte) : (seq ++ t).drop (seq.length + 1 - 1) = t := by
  simp

theorem take_seq (c : Byte) (seq t : List Byte) :
    (c :: (seq ++ t)).take (seq.length + 1) = c :: seq := by
  simp

/-! ### One step of each loop, by the shape of the first byte -/

theorem appendStringLoop_ascii (f : Nat) (c : Byte) (rest : List Byte) (h : c.val < 0x80) :
    appendStringLoop (f + 1) (c :: rest) =
      if htmlSafeSet c.val then c :: appendStringLoop f rest
      else escapeByte c ++ appendStringLoop f rest := by
  rw [appendStringLoop, if_pos h]

theorem appendStringLoop_invalid (f : Nat) (c : Byte) (rest : List Byte) (h : ¬ c.val < 0x80)
    (hv : (decodeRune (c :: rest)).1 = RuneError ∧ (decodeRune (c :: rest)).2 = 1) :
    appendStringLoop (f + 1) (c :: rest) =
      [0x5C, 0x75, 0x66, 0x66, 0x66, 0x64] ++ appendStringLoop f rest := by
  rw [appendStringLoop, if_neg h]
  simp only [decodeRune_take4, hv, and_self, if_true]

theorem appendStringLoop_rune (f : Nat) (c : Byte) (seq t : List Byte) (r : Nat)
    (h : ¬ c.val < 0x80) (hl : 1 ≤ seq.length)
    (hd : decodeRune (c :: (seq ++ t)) = (r, seq.length + 1)) :
    appendStringLoop (f + 1) (c :: (seq ++ t)) =
      if r = 0x2028 ∨ r = 0x2029 then
        [0x5C, 0x75, 0x32, 0x30, 0x32, hex (r % 16)] ++ appendStringLoop f t
      else (c :: seq) ++ appendStringLoop f t := by
  rw [appendStringLoop, if_neg h]
  have h1 : ¬ (r = RuneError ∧ seq.length + 1 = 1) := by omega
  simp only [decodeRune_take4, hd, h1, if_false, drop_seq, take_seq]

theorem coerceUTF8Loop_ascii (f : Nat) (c : Byte) (rest : List Byte) (h : c.val < 0x80) :
    coerceUTF8Loop (f + 1) (c :: rest) = c :: coerceUTF8Loop f rest := by
  rw [coerceUTF8Loop, if_pos h]

theorem coerceUTF8Loop_invalid (f : Nat) (c : Byte) (rest : List Byte) (h : ¬ c.val < 0x80)
    (hv : (decodeRune (c :: rest)).1 = RuneError ∧ (decodeRune (c :: rest)).2 = 1) :
    coerceUTF8Loop (f + 1) (c :: rest) = [0xEF, 0xBF, 0xBD] ++ coerceUTF8Loop f rest := by
  rw [coerceUTF8Loop, if_neg h]
  simp only [hv, and_self, if_true]

theorem coerceUTF8Loop_rune (f : Nat) (c : Byte) (seq t : List Byte) (r : Nat)
    (h : ¬ c.val < 0x80) (hl : 1 ≤ seq.length)
    (hd : decodeRune (c :: (seq ++ t)) = (r, seq.length + 1)) :
    coerceUTF8Loop (f + 1) (c :: (seq ++ t)) = (c :: seq) ++ coerceUTF8Loop f t := by
  rw [coerceUTF8Loop, if_neg h]
  have h1 : ¬ (r = RuneError ∧ seq.length + 1 = 1) := by omega
  simp only [hd, h1, if_false, drop_seq, take_seq]

theorem validUTF8Loop_ascii (f : Nat) (c : Byte) (rest : List Byte) (h : c.val < 0x80) :
    validUTF8Loop (f + 1) (c :: rest) = validUTF8Loop f rest := by
  rw [validUTF8Loop, if_pos h]

theorem validUTF8Loop_invalid (f : Nat) (c : Byte) (rest : List Byte) (h : ¬ c.val < 0x80)
    (hv : (decodeRune (c :: rest)).1 = RuneError ∧ (decodeRune (c :: rest)).2 = 1) :
    validUTF8Loop (f + 1) (c :: rest) = false := by
  rw [validUTF8Loop, if_neg h]
  simp only [hv, and_self, if_true]

theorem validUTF8Loop_rune (f : Nat) (c : Byte) (seq t : List Byte) (r : Nat)
    (h : ¬ c.val < 0x80) (hl : 1 ≤ seq.length)
    (hd : decodeRune (c :: (seq ++ t)) = (r, seq.length + 1)) :
    validUTF8Loop (f + 1) (c :: (seq ++ t)) = validUTF8Loop f t := by
  rw [validUTF8Loop, if_neg h]
  have h1 : ¬ (r = RuneError ∧ seq.length + 1 = 1) := by omega
  simp only [hd, h1, if_false, drop_seq]

/-- The three shapes of a non-empty string. -/
theorem head_cases (c : Byte) (rest : List Byte) :
    c.val < 0x80 ∨
    (¬ c.val < 0x80 ∧ (decodeRune (c :: rest)).1 = RuneError ∧ (decodeRune (c :: rest)).2 = 1) ∨
    (¬ c.val < 0x80 ∧ DecodesTo c rest) := by
  by_cases h : c.val < 0x80
  · exact Or.inl h
  by_cases hv : (decodeRune (c :: rest)).1 = RuneError ∧ (decodeRune (c :: rest)).2 = 1
  · exact Or.inr (Or.inl ⟨h, hv⟩)
  · exact Or.inr (Or.inr ⟨h, decodeRune_valid c rest (by omega) hv⟩)

/-- A valid string is not changed by coercion. -/
theorem coerceUTF8Loop_valid : ∀ (f : Nat) (s : List Byte), s.length ≤ f →
    validUTF8Loop f s = true → coerceUTF8Loop f s = s := by
  intro f
  induction f with
  | zero =>
    intro s hl _
    have : s = [] := List.length_eq_zero.mp (by omega)
    subst this; rfl
  | succ n ih =>
    intro s hl hv
    rcases s with _ | ⟨c, rest⟩
    · rfl
    simp only [List.length_cons] at hl
    rcases head_cases c rest with h | ⟨h, hbad⟩ | ⟨h, seq, t, r, rfl, h1, h3, hd, he, hb, hr⟩
    · rw [validUTF8Loop_ascii n c rest h] at hv
      rw [coerceUTF8Loop_ascii n c rest h, ih rest (by omega) hv]
    · rw [validUTF8Loop_invalid n c rest h hbad] at hv
      exact absurd hv (by simp)
    · rw [validUTF8Loop_rune n c seq t r h h1 (hd t)] at hv
      rw [coerceUTF8Loop_rune n c seq t r h h1 (hd t),
        ih t (by simp only [List.length_append] at hl; omega) hv]
      simp

/-- A valid string is not changed by coercion. -/
theorem coerceUTF8_valid (s : GoString) (h : validUTF8 s = true) : coerceUTF8 s = s :=
  coerceUTF8Loop_valid s.length s (le_refl _) h

theorem unquoteStep_seq (c : Byte) (seq X : List Byte) (r : Nat) (h : ¬ c.val < 0x80)
    (hd : decodeRune (c :: (seq ++ X)) = (r, seq.length + 1)) (he : encodeRune r = c :: seq) :
    unquoteStep c (seq ++ X) = some (c :: seq, seq.length) := by
  rw [unquoteStep_rune c _ (by omega), hd, he]
  rfl

theorem escapeByte_length (c : Byte) : 1 ≤ (escapeByte c).length := by
  unfold escapeByte
  split_ifs <;> simp

/-- The unquoting loop reads the output of the quoting loop back as the
coerced string. -/
theorem unquoteLoop_appendStringLoop : ∀ (f : Nat) (s : List Byte), s.length ≤ f →
    ∀ f2, (appendStringLoop f s).length ≤ f2 →
    unquoteLoop f2 (appendStringLoop f s) = some (coerceUTF8Loop f s) := by
  intro f
  induction f with
  | zero =>
    intro s hl f2 _
    have : s = [] := List.length_eq_zero.mp (by omega)
    subst this
    rw [appendStringLoop_nil, unquoteLoop_nil, coerceUTF8Loop_nil]
  | succ n ih =>
    intro s hl f2 hf2
    rcases s with _ | ⟨c, rest⟩
    · rw [appendStringLoop_nil, unquoteLoop_nil, coerceUTF8Loop_nil]
    simp only [List.length_cons] at hl
    rcases head_cases c rest with h | ⟨h, hbad⟩ | ⟨h, seq, t, r, rfl, h1, h3, hd, he, hb, hr⟩
    · -- ASCII
      rw [appendStringLoop_ascii n c rest h] at hf2 ⊢
      rw [coerceUTF8Loop_ascii n c rest h]
      by_cases hs : htmlSafeSet c.val = true
      · rw [if_pos hs] at hf2 ⊢
        simp only [List.length_cons] at hf2
        obtain ⟨g, rfl⟩ : ∃ g, f2 = g + 1 := ⟨f2 - 1, by omega⟩
        have hsafe : 0x20 ≤ c.val ∧ c.val ≠ 0x22 ∧ c.val ≠ 0x5C := by
          unfold htmlSafeSet at hs
          simp only [decide_eq_true_eq] at hs
          omega
        rw [unquoteLoop_step g c _ [c] 0
          (unquoteStep_plain c _ hsafe.2.2 hsafe.2.1 hsafe.1 h)]
        rw [List.drop_zero, ih rest (by omega) g (by omega)]
        rfl
      · rw [if_neg hs] at hf2 ⊢
        have hs' : htmlSafeSet c.val = false := by simpa using hs
        obtain ⟨e, tl, heq, k, hstep, hdrop⟩ :=
          unquoteStep_escapeByte c (appendStringLoop n rest) h hs'
        have hlen := escapeByte_length c
        simp only [List.length_append] at hf2
        obtain ⟨g, rfl⟩ : ∃ g, f2 = g + 1 := ⟨f2 - 1, by omega⟩
        rw [heq, unquoteLoop_step g _ _ [c] k hstep, hdrop]
        have hlen2 : (appendStringLoop n rest).length ≤ g := by
          have := congrArg List.length heq
          have hk : ((e :: tl).drop k).length = (appendStringLoop n rest).length := by rw [hdrop]
          simp only [List.length_append, List.length_cons, List.length_drop] at this hk
          omega
        rw [ih rest (by omega) g hlen2]
        rfl
    · -- invalid byte
      rw [appendStringLoop_invalid n c rest h hbad] at hf2 ⊢
      rw [coerceUTF8Loop_invalid n c rest h hbad]
      simp only [List.length_append, List.length_cons, List.length_nil] at hf2
      obtain ⟨g, rfl⟩ : ∃ g, f2 = g + 1 := ⟨f2 - 1, by omega⟩
      have hstep : unquoteStep 0x5C
          ([0x75, 0x66, 0x66, 0x66, 0x64] ++ appendStringLoop n rest)
          = some ([0xEF, 0xBF, 0xBD], 5) := rfl
      show unquoteLoop (g + 1)
        ((0x5C : Byte) :: ([0x75, 0x66, 0x66, 0x66, 0x64] ++ appendStringLoop n rest)) = _
      rw [unquoteLoop_step g _ _ _ 5 hstep]
      have hdrop : ([(0x75 : Byte), 0x66, 0x66, 0x66, 0x64] ++ appendStringLoop n rest).drop 5
          = appendStringLoop n rest := rfl
      rw [hdrop, ih rest (by omega) g (by omega)]
      rfl
    · -- a well-formed sequence
      have hlt : t.length ≤ n := by simp only [List.length_append] at hl; omega
      rw [appendStringLoop_rune n c seq t r h h1 (hd t)] at hf2 ⊢
      rw [coerceUTF8Loop_rune n c seq t r h h1 (hd t)]
      by_cases h28 : r = 0x2028 ∨ r = 0x2029
      · rw [if_pos h28] at hf2 ⊢
        simp only [List.length_append, List.length_cons, List.length_nil] at hf2
        obtain ⟨g, rfl⟩ : ∃ g, f2 = g + 1 := ⟨f2 - 1, by omega⟩
        have hstep : unquoteStep 0x5C
            ([0x75, 0x32, 0x30, 0x32, hex (r % 16)] ++ appendStringLoop n t)
            = some (c :: seq, 5) := by
          rw [← he]
          rcases h28 with h28 | h28 <;> subst h28 <;> rfl
        show unquoteLoop (g + 1)
          ((0x5C : Byte) :: ([0x75, 0x32, 0x30, 0x32, hex (r % 16)] ++ appendStringLoop n t)) = _
        rw [unquoteLoop_step g _ _ _ 5 hstep]
        have hdrop : ([(0x75 : Byte), 0x32, 0x30, 0x32, hex (r % 16)]
            ++ appendStringLoop n t).drop 5 = appendStringLoop n t := rfl
        rw [hdrop, ih t hlt g (by omega)]
        rfl
      · rw [if_neg h28] at hf2 ⊢
        simp only [List.length_append, List.length_cons] at hf2
        obtain ⟨g, rfl⟩ : ∃ g, f2 = g + 1 := ⟨f2 - 1, by omega⟩
        show unquoteLoop (g + 1) (c :: (seq ++ appendStringLoop n t)) = _
        rw [unquoteLoop_step g _ _ _ _ (unquoteStep_seq c seq _ r h (hd _) he)]
        rw [List.drop_left, ih t hlt g (by omega)]
        rfl

theorem unquoteScan_cons (f : Nat) (c : Byte) (rest : List Byte) :
    unquoteScan (f + 1) (c :: rest) =
      if c.val = 0x5C ∨ c.val = 0x22 ∨ c.val < 0x20 then 0
      else if c.val < 0x80 then 1 + unquoteScan f rest
      else
        if (decodeRune (c :: rest)).1 = RuneError ∧ (decodeRune (c :: rest)).2 = 1 then 0
        else (decodeRune (c :: rest)).2
          + unquoteScan f (rest.drop ((decodeRune (c :: rest)).2 - 1)) := rfl

/-- The two loops of `unquoteBytes` together do what the second loop does
alone: the bytes that the first loop passes over are bytes that the second
loop copies. -/
theorem unquoteLoop_scan : ∀ (f : Nat) (q : List Byte), q.length ≤ f → ∀ f2 f3, q.length ≤ f2 →
    (q.drop (unquoteScan f q)).length ≤ f3 →
    (unquoteLoop f3 (q.drop (unquoteScan f q))).map (q.take (unquoteScan f q) ++ ·)
      = unquoteLoop f2 q := by
  intro f
  induction f with
  | zero =>
    intro q hl f2 f3 _ _
    have : q = [] := List.length_eq_zero.mp (by omega)
    subst this
    rw [unquoteScan_nil]
    simp [unquoteLoop_nil]
  | succ n ih =>
    intro q hl f2 f3 hf2 hf3
    rcases q with _ | ⟨c, rest⟩
    · rw [unquoteScan_nil]
      simp [unquoteLoop_nil]
    simp only [List.length_cons] at hl hf2
    have zero_case : unquoteScan (n + 1) (c :: rest) = 0 →
        (unquoteLoop f3 ((c :: rest).drop (unquoteScan (n + 1) (c :: rest)))).map
          ((c :: rest).take (unquoteScan (n + 1) (c :: rest)) ++ ·)
        = unquoteLoop f2 (c :: rest) := by
      intro h0
      rw [h0] at hf3 ⊢
      simp only [List.drop_zero, List.take_zero, List.nil_append] at hf3 ⊢
      rw [unquoteLoop_fuel f3 f2 _ hf3 (by simpa using hf2)]
      cases unquoteLoop f2 (c :: rest) <;> rfl
    obtain ⟨g, rfl⟩ : ∃ g, f2 = g + 1 := ⟨f2 - 1, by omega⟩
    by_cases hsp : c.val = 0x5C ∨ c.val = 0x22 ∨ c.val < 0x20
    · apply zero_case
      rw [unquoteScan_cons, if_pos hsp]
    rcases head_cases c rest with h | ⟨h, hbad⟩ | ⟨h, seq, t, r, rfl, h1, h3, hd, he, hb, hr⟩
    · have hsc : unquoteScan (n + 1) (c :: rest) = 1 + unquoteScan n rest := by
        rw [unquoteScan_cons, if_neg hsp, if_pos h]
      rw [hsc] at hf3 ⊢
      have e1 : (c :: rest).drop (1 + unquoteScan n rest) = rest.drop (unquoteScan n rest) := by
        rw [Nat.add_comm]; rfl
      have e2 : (c :: rest).take (1 + unquoteScan n rest)
          = c :: rest.take (unquoteScan n rest) := by
        rw [Nat.add_comm]; rfl
      rw [e1] at hf3 ⊢
      rw [e2, unquoteLoop_step g c rest [c] 0
        (unquoteStep_plain c rest (by omega) (by omega) (by omega) h), List.drop_zero,
        ← ih rest (by omega) g f3 (by omega) hf3]
      cases unquoteLoop f3 (rest.drop (unquoteScan n rest)) <;> rfl
    · apply zero_case
      rw [unquoteScan_cons, if_neg hsp, if_neg h, if_pos hbad]
    · have hlt : t.length ≤ n := by simp only [List.length_append] at hl; omega
      have hsc : unquoteScan (n + 1) (c :: (seq ++ t)) = (seq.length + 1) + unquoteScan n t := by
        have hnb : ¬ ((decodeRune (c :: (seq ++ t))).1 = RuneError
            ∧ (decodeRune (c :: (seq ++ t))).2 = 1) := by
          rw [hd t]; simp only; omega
        rw [unquoteScan_cons, if_neg hsp, if_neg h, if_neg hnb, hd t]
        simp only [drop_seq]
      rw [hsc] at hf3 ⊢
      have e1 : (c :: (seq ++ t)).drop (seq.length + 1 + unquoteScan n t)
          = t.drop (unquoteScan n t) := by
        have : c :: (seq ++ t) = (c :: seq) ++ t := rfl
        rw [this, List.drop_append_eq_append_drop]
        simp
      have e2 : (c :: (seq ++ t)).take (seq.length + 1 + unquoteScan n t)
          = (c :: seq) ++ t.take (unquoteScan n t) := by
        have : c :: (seq ++ t) = (c :: seq) ++ t := rfl
        rw [this, List.take_append_eq_append_take]
        have hk : (c :: seq).take (seq.length + 1 + unquoteScan n t) = c :: seq :=
          List.take_of_length_le (by simp only [List.length_cons]; omega)
        rw [hk]
        simp
      rw [e1] at hf3 ⊢
      have hlen2 : t.length ≤ g := by simp only [List.length_append] at hf2; omega
      rw [e2, unquoteLoop_step g c _ _ _ (unquoteStep_seq c seq t r h (hd t) he),
        List.drop_left, ← ih t hlt g f3 hlen2 hf3]
      cases unquoteLoop f3 (t.drop (unquoteScan n t)) <;> simp

/-- On a literal in quotes, `unquoteBytes` is the unquoting loop over what is
between the quotes. -/
theorem unquoteBytes_quoted (A : List Byte) :
    unquoteBytes ((0x22 : Byte) :: (A ++ [0x22])) = unquoteLoop A.length A := by
  unfold unquoteBytes
  have h1 : ¬ ((A ++ [(0x22 : Byte)]).length < 1 ∨ ((0x22 : Byte)).val ≠ 0x22
      ∨ ((A ++ [(0x22 : Byte)]).getLast?.map Fin.val) ≠ some 0x22) := by
    simp
    rfl
  simp only [h1, if_false, List.dropLast_concat]
  have key := unquoteLoop_scan A.length A (le_refl _) A.length A.length (le_refl _)
    (by rw [List.length_drop]; omega)
  by_cases hr : unquoteScan A.length A = A.length
  · rw [if_pos hr]
    rw [← key, hr]
    simp [unquoteLoop_nil]
  · rw [if_neg hr]
    exact key

/-- Reading back a string that `appendString` has written gives the string
coerced to valid UTF-8. -/
theorem unquoteBytes_appendString (s : GoString) :
    unquoteBytes (appendString s) = some (coerceUTF8 s) := by
  have : appendString s = (0x22 : Byte) :: (appendStringLoop s.length s ++ [0x22]) := rfl
  rw [this, unquoteBytes_quoted]
  exact unquoteLoop_appendStringLoop s.length s (le_refl _) _ (le_refl _)

/-! ## The scanner and the literal re-scanner over string literals -/

theorem isHex_hex (a : Nat) (h : a < 16) : isHex (hex a) = true := by
  unfold isHex hex
  by_cases h10 : a < 10
  · rw [if_pos h10]
    have : (byte (0x30 + a)).val = 0x30 + a := by rw [byte_val]; omega
    rw [this]; simp only [decide_eq_true_eq]; omega
  · rw [if_neg h10]
    have : (byte (0x61 + (a - 10))).val = 0x61 + (a - 10) := by rw [byte_val]; omega
    rw [this]; simp only [decide_eq_true_eq]; omega

theorem StringBody.append {p q : List Byte} (hp : StringBody p) (hq : StringBody q) :
    StringBody (p ++ q) := by
  induction hp with
  | nil => exact hq
  | plain c p' hc _ ih => exact StringBody.plain c _ hc ih
  | esc e p' he _ ih => exact StringBody.esc e _ he ih
  | escU h1 h2 h3 h4 p' a1 a2 a3 a4 _ ih => exact StringBody.escU h1 h2 h3 h4 _ a1 a2 a3 a4 ih

theorem StringBody.of_plain : ∀ (q : List Byte), (∀ c ∈ q, isPlain c = true) → StringBody q
  | [], _ => StringBody.nil
  | c :: q, h =>
    StringBody.plain c q (h c (List.mem_cons_self _ _))
      (StringBody.of_plain q (fun x hx => h x (List.mem_cons_of_mem _ hx)))

theorem stringBody_escapeByte (c : Byte) (h : c.val < 0x80) : StringBody (escapeByte c) := by
  unfold escapeByte
  split_ifs with h1 h2 h3 h4 h5 h6
  · refine StringBody.esc c [] ?_ StringBody.nil
    unfold isSimpleEscape; simp only [decide_eq_true_eq]; omega
  · exact StringBody.esc _ [] (by decide) StringBody.nil
  · exact StringBody.esc _ [] (by decide) StringBody.nil
  · exact StringBody.esc _ [] (by decide) StringBody.nil
  · exact StringBody.esc _ [] (by decide) StringBody.nil
  · exact StringBody.esc _ [] (by decide) StringBody.nil
  · exact StringBody.escU _ _ _ _ [] (by decide) (by decide) (isHex_hex _ (by omega))
      (isHex_hex _ (by omega)) StringBody.nil

/-- What `appendString` writes between the quotes is the inside of a
well-formed string literal, whatever the string. -/
theorem stringBody_appendStringLoop : ∀ (f : Nat) (s : List Byte),
    StringBody (appendStringLoop f s) := by
  intro f
  induction f with
  | zero =>
    intro s
    cases s <;> exact StringBody.nil
  | succ n ih =>
    intro s
    rcases s with _ | ⟨c, rest⟩
    · exact StringBody.nil
    rcases head_cases c rest with h | ⟨h, hbad⟩ | ⟨h, seq, t, r, rfl, h1, h3, hd, he, hb, hr⟩
    · rw [appendStringLoop_ascii n c rest h]
      by_cases hs : htmlSafeSet c.val = true
      · rw [if_pos hs]
        refine StringBody.plain c _ ?_ (ih rest)
        unfold htmlSafeSet at hs
        unfold isPlain
        simp only [decide_eq_true_eq] at hs ⊢
        omega
      · rw [if_neg hs]
        exact (stringBody_escapeByte c h).append (ih rest)
    · rw [appendStringLoop_invalid n c rest h hbad]
      exact StringBody.escU _ _ _ _ _ (by decide) (by decide) (by decide) (by decide) (ih rest)
    · rw [appendStringLoop_rune n c seq t r h h1 (hd t)]
      by_cases h28 : r = 0x2028 ∨ r = 0x2029
      · rw [if_pos h28]
        refine StringBody.escU _ _ _ _ _ (by decide) (by decide) (by decide)
          (isHex_hex _ (by omega)) (ih t)
      · rw [if_neg h28]
        have hp : ∀ x ∈ c :: seq, isPlain x = true := by
          intro x hx
          have hx80 : 0x80 ≤ x.val := by
            rcases List.mem_cons.mp hx with rfl | hx
            · omega
            · exact hb x hx
          unfold isPlain
          simp only [decide_eq_true_eq]
          omega
        exact (StringBody.of_plain _ hp).append (ih t)

/-- Inside a string the scanner passes over a well-formed body without an
error and without leaving the string. -/
theorem checkValidLoop_stringBody {q : List Byte} (hq : StringBody q) :
    ∀ (e : Bool) (ps : List ParseState) (er : Bool) (rest : List Byte),
    checkValidLoop ⟨.stateInString, e, ps, er⟩ (q ++ rest)
      = checkValidLoop ⟨.stateInString, e, ps, er⟩ rest := by
  induction hq with
  | nil => intro e ps er rest; rfl
  | plain c q hc _ ih =>
    intro e ps er rest
    unfold isPlain at hc
    simp only [decide_eq_true_eq] at hc
    have hstep : (Scanner.next ⟨.stateInString, e, ps, er⟩ c)
        = (⟨.stateInString, e, ps, er⟩, .scanContinue) := by
      simp only [Scanner.next]
      rw [if_neg hc.2.1, if_neg hc.2.2, if_neg (by omega)]
    show checkValidLoop _ (c :: (q ++ rest)) = _
    rw [checkValidLoop, hstep]
    simp only [reduceCtorEq, if_false]
    exact ih e ps er rest
  | esc x q hx _ ih =>
    intro e ps er rest
    unfold isSimpleEscape at hx
    simp only [decide_eq_true_eq] at hx
    have hstep1 : (Scanner.next ⟨.stateInString, e, ps, er⟩ (0x5C : Byte))
        = (⟨.stateInStringEsc, e, ps, er⟩, .scanContinue) := rfl
    have hstep2 : (Scanner.next ⟨.stateInStringEsc, e, ps, er⟩ x)
        = (⟨.stateInString, e, ps, er⟩, .scanContinue) := by
      simp only [Scanner.next]
      rw [if_pos hx]
    show checkValidLoop _ ((0x5C : Byte) :: x :: (q ++ rest)) = _
    rw [checkValidLoop, hstep1]
    simp only [reduceCtorEq, if_false]
    rw [checkValidLoop, hstep2]
    simp only [reduceCtorEq, if_false]
    exact ih e ps er rest
  | escU h1 h2 h3 h4 q a1 a2 a3 a4 _ ih =>
    intro e ps er rest
    have hstep1 : (Scanner.next ⟨.stateInString, e, ps, er⟩ (0x5C : Byte))
        = (⟨.stateInStringEsc, e, ps, er⟩, .scanContinue) := rfl
    have hstep2 : (Scanner.next ⟨.stateInStringEsc, e, ps, er⟩ (0x75 : Byte))
        = (⟨.stateInStringEscU, e, ps, er⟩, .scanContinue) := rfl
    have hs3 : (Scanner.next ⟨.stateInStringEscU, e, ps, er⟩ h1)
        = (⟨.stateInStringEscU1, e, ps, er⟩, .scanContinue) := by
      simp only [Scanner.next, a1, if_true]
    have hs4 : (Scanner.next ⟨.stateInStringEscU1, e, ps, er⟩ h2)
        = (⟨.stateInStringEscU12, e, ps, er⟩, .scanContinue) := by
      simp only [Scanner.next, a2, if_true]
    have hs5 : (Scanner.next ⟨.stateInStringEscU12, e, ps, er⟩ h3)
        = (⟨.stateInStringEscU123, e, ps, er⟩, .scanContinue) := by
      simp only [Scanner.next, a3, if_true]
    have hs6 : (Scanner.next ⟨.stateInStringEscU123, e, ps, er⟩ h4)
        = (⟨.stateInString, e, ps, er⟩, .scanContinue) := by
      simp only [Scanner.next, a4, if_true]
    show checkValidLoop _ ((0x5C : Byte) :: 0x75 :: h1 :: h2 :: h3 :: h4 :: (q ++ rest)) = _
    rw [checkValidLoop, hstep1]
    simp only [reduceCtorEq, if_false]
    rw [checkValidLoop, hstep2]
    simp only [reduceCtorEq, if_false]
    rw [checkValidLoop, hs3]
    simp only [reduceCtorEq, if_false]
    rw [checkValidLoop, hs4]
    simp only [reduceCtorEq, if_false]
    rw [checkValidLoop, hs5]
    simp only [reduceCtorEq, if_false]
    rw [checkValidLoop, hs6]
    simp only [reduceCtorEq, if_false]
    exact ih e ps er rest

theorem rescanString_plain (c : Byte) (X : List Byte) (h1 : c.val ≠ 0x5C) (h2 : c.val ≠ 0x22) :
    rescanString (c :: X) = (c :: (rescanString X).1, (rescanString X).2) := by
  cases X with
  | nil => rfl
  | cons e tl => rw [rescanString, if_neg h1, if_neg h2]

theorem rescanString_pair (e : Byte) (X : List Byte) :
    rescanString ((0x5C : Byte) :: e :: X)
      = ((0x5C : Byte) :: e :: (rescanString X).1, (rescanString X).2) := by
  rw [rescanString, if_pos (show ((0x5C : Byte)).val = 0x5C from rfl)]

theorem rescanString_quote (X : List Byte) : rescanString ((0x22 : Byte) :: X) = ([0x22], X) := by
  cases X with
  | nil => rfl
  | cons e tl => rfl

theorem isPlain_of_isHex (h : Byte) (hh : isHex h = true) : h.val ≠ 0x5C ∧ h.val ≠ 0x22 := by
  unfold isHex at hh
  simp only [decide_eq_true_eq] at hh
  omega

/-- The literal re-scanner finds the closing quote after a well-formed
body. -/
theorem rescanString_stringBody {q : List Byte} (hq : StringBody q) :
    ∀ (rest : List Byte), rescanString (q ++ (0x22 : Byte) :: rest) = (q ++ [0x22], rest) := by
  induction hq with
  | nil =>
    intro rest
    exact rescanString_quote rest
  | plain c q hc _ ih =>
    intro rest
    unfold isPlain at hc
    simp only [decide_eq_true_eq] at hc
    show rescanString (c :: (q ++ (0x22 : Byte) :: rest)) = _
    rw [rescanString_plain c _ hc.2.2 hc.2.1, ih rest]
    rfl
  | esc x q hx _ ih =>
    intro rest
    show rescanString ((0x5C : Byte) :: x :: (q ++ (0x22 : Byte) :: rest)) = _
    rw [rescanString_pair, ih rest]
    rfl
  | escU h1 h2 h3 h4 q a1 a2 a3 a4 _ ih =>
    intro rest
    show rescanString ((0x5C : Byte) :: 0x75 :: h1 :: h2 :: h3 :: h4
      :: (q ++ (0x22 : Byte) :: rest)) = _
    rw [rescanString_pair,
      rescanString_plain h1 _ (isPlain_of_isHex h1 a1).1 (isPlain_of_isHex h1 a1).2,
      rescanString_plain h2 _ (isPlain_of_isHex h2 a2).1 (isPlain_of_isHex h2 a2).2,
      rescanString_plain h3 _ (isPlain_of_isHex h3 a3).1 (isPlain_of_isHex h3 a3).2,
      rescanString_plain h4 _ (isPlain_of_isHex h4 a4).1 (isPlain_of_isHex h4 a4).2,
      ih rest]
    rfl

/-! ## A record through `json.Marshal` and `json.Unmarshal` -/

/-- The text of one member of the object: the quoted name, a colon, and the
value as a string literal. -/
theorem member_text (n : List Byte) (v : GoString) (rest : List Byte) :
    nameQuoted n ++ appendString v ++ rest
      = nameQuoted n ++ ((0x22 : Byte) :: (appendStringLoop v.length v
          ++ ((0x22 : Byte) :: rest))) := by
  simp [appendString]

theorem checkValidLoop_name (st : StepFn)
    (hst : st = .stateBeginStringOrEmpty ∨ st = .stateBeginString) (fld : Field)
    (X : List Byte) :
    checkValidLoop ⟨st, false, [.parseObjectKey], false⟩
        (nameQuoted fld.name ++ ((0x22 : Byte) :: X))
      = checkValidLoop ⟨.stateInString, false, [.parseObjectValue], false⟩ X := by
  rcases hst with rfl | rfl <;> cases fld <;> rfl

/-- The scanner passes over one member of the object. -/
theorem checkValidLoop_member (st : StepFn)
    (hst : st = .stateBeginStringOrEmpty ∨ st = .stateBeginString) (fld : Field)
    (v : GoString) (rest : List Byte) :
    checkValidLoop ⟨st, false, [.parseObjectKey], false⟩
        (nameQuoted fld.name ++ appendString v ++ rest)
      = checkValidLoop ⟨.stateEndValue, false, [.parseObjectValue], false⟩ rest := by
  rw [member_text, checkValidLoop_name st hst,
    checkValidLoop_stringBody (stringBody_appendStringLoop _ _)]
  rfl

/-- The text of an encoded record, member by member. -/
theorem encodeRecord_text (r : PaperRecord) :
    encodeRecord r = (0x7B : Byte) ::
      (nameQuoted Field.StudentID.name ++ appendString r.StudentID ++ ((0x2C : Byte) ::
      (nameQuoted Field.PaperHash.name ++ appendString r.PaperHash ++ ((0x2C : Byte) ::
      (nameQuoted Field.Timestamp.name ++ appendString r.Timestamp ++ ((0x2C : Byte) ::
      (nameQuoted Field.Author.name ++ appendString r.Author ++ ((0x2C : Byte) ::
      (nameQuoted Field.AuthorID.name ++ appendString r.AuthorID ++ ((0x2C : Byte) ::
      (nameQuoted Field.PaperDate.name ++ appendString r.PaperDate
        ++ [(0x7D : Byte)]))))))))))) := by
  simp [encodeRecord, Field.name]

/-- The output of `json.Marshal` on a record is valid JSON, whatever the
strings. -/
theorem checkValid_encodeRecord (r : PaperRecord) : checkValid (encodeRecord r) = true := by
  unfold checkValid
  have h0 : ∀ X, checkValidLoop Scanner.reset ((0x7B : Byte) :: X)
      = checkValidLoop ⟨.stateBeginStringOrEmpty, false, [.parseObjectKey], false⟩ X :=
    fun X => rfl
  have hc : ∀ X, checkValidLoop ⟨.stateEndValue, false, [.parseObjectValue], false⟩
      ((0x2C : Byte) :: X)
      = checkValidLoop ⟨.stateBeginString, false, [.parseObjectKey], false⟩ X :=
    fun X => rfl
  have he : checkValidLoop ⟨.stateEndValue, false, [.parseObjectValue], false⟩ [(0x7D : Byte)]
      = some ⟨.stateEndTop, true, [], false⟩ := rfl
  rw [encodeRecord_text, h0,
    checkValidLoop_member _ (Or.inl rfl), hc,
    checkValidLoop_member _ (Or.inr rfl), hc,
    checkValidLoop_member _ (Or.inr rfl), hc,
    checkValidLoop_member _ (Or.inr rfl), hc,
    checkValidLoop_member _ (Or.inr rfl), hc,
    checkValidLoop_member _ (Or.inr rfl), he]
  rfl

theorem objectLoop_succ (fuel : Nat) (d : DecodeState) :
    objectLoop (fuel + 1) d =
      (let d := d.scanWhile .scanSkipSpace
      if d.opcode = .scanEndObject then some d
      else if d.opcode ≠ .scanBeginLiteral then none
      else
        let r := d.rescanLiteral
        match unquoteBytes r.1 with
        | none => none
        | some key =>
          let d := r.2
          let f := findField key
          let d := if d.opcode = .scanSkipSpace then d.scanWhile .scanSkipSpace else d
          if d.opcode ≠ .scanObjectKey then none
          else
            let d := d.scanWhile .scanSkipSpace
            match d.valueMember f with
            | none => none
            | some d =>
              let d := if d.opcode = .scanSkipSpace then d.scanWhile .scanSkipSpace else d
              if d.opcode = .scanEndObject then some d
              else if d.opcode ≠ .scanObjectValue then none
              else objectLoop fuel d) := rfl

theorem findField_name (fld : Field) : findField fld.name = some fld := by
  cases fld <;> decide

theorem unquoteBytes_name (fld : Field) :
    unquoteBytes ((0x22 : Byte) :: (fld.name ++ [0x22])) = some fld.name := by
  cases fld <;> decide

theorem decode_key1 (st : StepFn)
    (hst : st = .stateBeginStringOrEmpty ∨ st = .stateBeginString) (fld : Field)
    (cur : Byte) (op : Op) (se : Bool) (v : PaperRecord) (X : List Byte) :
    DecodeState.scanWhile
      { cur := cur, rest := nameQuoted fld.name ++ ((0x22 : Byte) :: X),
        scan := ⟨st, false, [.parseObjectKey], false⟩, opcode := op, savedError := se, v := v }
      .scanSkipSpace =
      { cur := 0x22, rest := fld.name ++ ((0x22 : Byte) :: 0x3A :: 0x22 :: X),
        scan := ⟨.stateInString, false, [.parseObjectKey], false⟩,
        opcode := .scanBeginLiteral, savedError := se, v := v } := by
  rcases hst with rfl | rfl <;> cases fld <;> rfl

theorem decode_key2 (fld : Field) (se : Bool) (v : PaperRecord) (X : List Byte) :
    DecodeState.rescanLiteral
      { cur := 0x22, rest := fld.name ++ ((0x22 : Byte) :: 0x3A :: 0x22 :: X),
        scan := ⟨.stateInString, false, [.parseObjectKey], false⟩,
        opcode := .scanBeginLiteral, savedError := se, v := v } =
      ((0x22 : Byte) :: (fld.name ++ [0x22]),
        { cur := 0x3A, rest := (0x22 : Byte) :: X,
          scan := ⟨.stateBeginValue, false, [.parseObjectValue], false⟩,
          opcode := .scanObjectKey, savedError := se, v := v }) := by
  cases fld <;> rfl

theorem decode_key3 (se : Bool) (v : PaperRecord) (X : List Byte) :
    DecodeState.scanWhile
        { cur := 0x3A, rest := (0x22 : Byte) :: X,
          scan := ⟨.stateBeginValue, false, [.parseObjectValue], false⟩,
          opcode := .scanObjectKey, savedError := se, v := v } .scanSkipSpace =
      { cur := 0x22, rest := X, scan := ⟨.stateInString, false, [.parseObjectValue], false⟩,
        opcode := .scanBeginLiteral, savedError := se, v := v } := rfl

/-- Re-scanning the string literal that is the value of a member. -/
theorem decode_value (s : GoString) (sep : Byte) (tail : List Byte) (se : Bool)
    (v : PaperRecord) :
    DecodeState.rescanLiteral
      { cur := 0x22, rest := appendStringLoop s.length s ++ ((0x22 : Byte) :: sep :: tail),
        scan := ⟨.stateInString, false, [.parseObjectValue], false⟩,
        opcode := .scanBeginLiteral, savedError := se, v := v } =
      (appendString s,
        { cur := sep, rest := tail,
          scan := (stateEndValue ⟨.stateInString, false, [.parseObjectValue], false⟩ sep).1,
          opcode := (stateEndValue ⟨.stateInString, false, [.parseObjectValue], false⟩ sep).2,
          savedError := se, v := v }) := by
  unfold DecodeState.rescanLiteral
  simp only [show ((0x22 : Byte)).val = 0x22 from rfl, if_true,
    rescanString_stringBody (stringBody_appendStringLoop _ _)]
  rfl

/-- Storing a string literal written by `appendString` in a field. -/
theorem literalStore_appendString (d : DecodeState) (s : GoString) (fld : Field) :
    d.literalStore (appendString s) (some fld)
      = some { d with v := d.v.set fld (coerceUTF8 s) } := by
  have h : appendString s = (0x22 : Byte) :: (appendStringLoop s.length s ++ [0x22]) := rfl
  unfold DecodeState.literalStore
  rw [h]
  simp only [show ((0x22 : Byte)).val = 0x22 from rfl]
  rw [← h, unquoteBytes_appendString]
  rfl

/-- One iteration of the object loop over a member that is followed by a
comma. -/
theorem objectLoop_member_comma (fuel : Nat) (st : StepFn)
    (hst : st = .stateBeginStringOrEmpty ∨ st = .stateBeginString) (fld : Field)
    (s : GoString) (tail : List Byte) (cur : Byte) (op : Op) (v : PaperRecord) :
    objectLoop (fuel + 1)
      { cur := cur, rest := nameQuoted fld.name ++ appendString s ++ ((0x2C : Byte) :: tail),
        scan := ⟨st, false, [.parseObjectKey], false⟩, opcode := op, savedError := false,
        v := v }
    = objectLoop fuel
      { cur := 0x2C, rest := tail, scan := ⟨.stateBeginString, false, [.parseObjectKey], false⟩,
        opcode := .scanObjectValue, savedError := false, v := v.set fld (coerceUTF8 s) } := by
  rw [objectLoop_succ, member_text, decode_key1 st hst]
  simp only [reduceCtorEq, if_false, ne_eq, not_true_eq_false, decode_key2, unquoteBytes_name,
    findField_name, decode_key3, DecodeState.valueMember, decode_value, Option.isSome_some,
    if_true, literalStore_appendString]
  rfl

/-- One iteration of the object loop over a member that is followed by the
closing brace. -/
theorem objectLoop_member_brace (fuel : Nat) (st : StepFn)
    (hst : st = .stateBeginStringOrEmpty ∨ st = .stateBeginString) (fld : Field)
    (s : GoString) (tail : List Byte) (cur : Byte) (op : Op) (v : PaperRecord) :
    objectLoop (fuel + 1)
      { cur := cur, rest := nameQuoted fld.name ++ appendString s ++ ((0x7D : Byte) :: tail),
        scan := ⟨st, false, [.parseObjectKey], false⟩, opcode := op, savedError := false,
        v := v }
    = some
      { cur := 0x7D, rest := tail, scan := ⟨.stateEndTop, true, [], false⟩,
        opcode := .scanEndObject, savedError := false, v := v.set fld (coerceUTF8 s) } := by
  rw [objectLoop_succ, member_text, decode_key1 st hst]
  simp only [reduceCtorEq, if_false, ne_eq, not_true_eq_false, decode_key2, unquoteBytes_name,
    findField_name, decode_key3, DecodeState.valueMember, decode_value, Option.isSome_some,
    if_true, literalStore_appendString]
  rfl

/-- The object loop over the text of an encoded record fills the six
fields. -/
theorem objectLoop_record (r v : PaperRecord) (fuel : Nat) (h : 6 ≤ fuel) (cur : Byte)
    (op : Op) :
    objectLoop fuel
      { cur := cur,
        rest :=
          nameQuoted Field.StudentID.name ++ appendString r.StudentID ++ ((0x2C : Byte) ::
          (nameQuoted Field.PaperHash.name ++ appendString r.PaperHash ++ ((0x2C : Byte) ::
          (nameQuoted Field.Timestamp.name ++ appendString r.Timestamp ++ ((0x2C : Byte) ::
          (nameQuoted Field.Author.name ++ appendString r.Author ++ ((0x2C : Byte) ::
          (nameQuoted Field.AuthorID.name ++ appendString r.AuthorID ++ ((0x2C : Byte) ::
          (nameQuoted Field.PaperDate.name ++ appendString r.PaperDate
            ++ [(0x7D : Byte)])))))))))),
        scan := ⟨.stateBeginStringOrEmpty, false, [.parseObjectKey], false⟩, opcode := op,
        savedError := false, v := v }
    = some
      { cur := 0x7D, rest := [], scan := ⟨.stateEndTop, true, [], false⟩,
        opcode := .scanEndObject, savedError := false, v := r.coerce } := by
  obtain ⟨k, rfl⟩ : ∃ k, fuel = k + 1 + 1 + 1 + 1 + 1 + 1 := ⟨fuel - 6, by omega⟩
  rw [objectLoop_member_comma _ _ (Or.inl rfl), objectLoop_member_comma _ _ (Or.inr rfl),
    objectLoop_member_comma _ _ (Or.inr rfl), objectLoop_member_comma _ _ (Or.inr rfl),
    objectLoop_member_comma _ _ (Or.inr rfl), objectLoop_member_brace _ _ (Or.inr rfl)]
  rfl

theorem encodeRecord_length (r : PaperRecord) : 6 ≤ (encodeRecord r).length := by
  simp [encodeRecord, nameQuoted]
  omega

/-- Decoding the encoding of a record succeeds and gives the record with
its strings coerced to valid UTF-8. -/
theorem jsonUnmarshal_encodeRecord (r : PaperRecord) :
    jsonUnmarshal (encodeRecord r) = some r.coerce := by
  unfold jsonUnmarshal
  rw [checkValid_encodeRecord]
  have hlen := encodeRecord_length r
  rw [encodeRecord_text] at hlen ⊢
  simp only [Bool.not_true, Bool.false_eq_true, if_false]
  have h1 : ∀ X : List Byte, DecodeState.scanWhile
      { cur := 0, rest := (0x7B : Byte) :: X, scan := Scanner.reset, opcode := .scanContinue,
        savedError := false, v := PaperRecord.zero } .scanSkipSpace =
      { cur := 0x7B, rest := X,
        scan := ⟨.stateBeginStringOrEmpty, false, [.parseObjectKey], false⟩,
        opcode := .scanBeginObject, savedError := false, v := PaperRecord.zero } := fun X => rfl
  rw [h1]
  unfold DecodeState.value
  simp only
  rw [objectLoop_record r _ _ (by simp only [List.length_cons] at hlen; omega)]
  rfl

/-- A record of valid UTF-8 strings is not changed by coercion. -/
theorem PaperRecord.coerce_valid (r : PaperRecord) (h : r.valid = true) : r.coerce = r := by
  unfold PaperRecord.valid at h
  simp only [Bool.and_eq_true] at h
  obtain ⟨⟨⟨⟨⟨h1, h2⟩, h3⟩, h4⟩, h5⟩, h6⟩ := h
  unfold PaperRecord.coerce
  rw [coerceUTF8_valid _ h1, coerceUTF8_valid _ h2, coerceUTF8_valid _ h3,
    coerceUTF8_valid _ h4, coerceUTF8_valid _ h5, coerceUTF8_valid _ h6]

/-! ## Every string that the decoder produces is valid UTF-8 -/

theorem decodeRune_two_eq (c b1 : Byte) (t : List Byte) (h1 : 0xC2 ≤ c.val) (h2 : c.val < 0xE0)
    (hb1 : 0x80 ≤ b1.val) (hb2 : b1.val ≤ 0xBF) :
    decodeRune (c :: b1 :: t) = ((c.val % 32) * 64 + b1.val % 64, 2) := by
  rw [decodeRune_multi c _ 0x02 (first_two h1 h2) (by omega)]
  have hacc : acceptRanges (0x02 / 16) = (0x80, 0xBF) := rfl
  have hl : ¬ ((c :: b1 :: t).length < 2 % 8) := by simp
  have hb : ¬ (b1.val < 0x80 ∨ 0xBF < b1.val) := by omega
  have h22 : 2 % 8 ≤ 2 := by omega
  rw [hacc]
  simp only [hl, hb, h22, if_true, if_false]

theorem decodeRune_three_eq (c b1 b2 : Byte) (t : List Byte) (h1 : 0xE0 ≤ c.val)
    (h2 : c.val < 0xF0) (hb1 : 0x80 ≤ b1.val) (hb2 : b1.val ≤ 0xBF)
    (hmin : c.val = 0xE0 → 0xA0 ≤ b1.val) (hmax : c.val = 0xED → b1.val ≤ 0x9F)
    (hb3 : 0x80 ≤ b2.val) (hb4 : b2.val ≤ 0xBF) :
    decodeRune (c :: b1 :: b2 :: t)
      = ((c.val % 16) * 4096 + (b1.val % 64) * 64 + b2.val % 64, 3) := by
  have hl : ¬ ((c :: b1 :: b2 :: t).length < 3) := by simp
  have h32 : ¬ (3 ≤ 2) := by omega
  have hb' : ¬ (b2.val < 0x80 ∨ 0xBF < b2.val) := by omega
  have fin : ∀ x lo hi, first c.val = x → x % 8 = 3 → x < 0xF0 →
      acceptRanges (x / 16) = (lo, hi) → lo ≤ b1.val → b1.val ≤ hi →
      decodeRune (c :: b1 :: b2 :: t)
        = ((c.val % 16) * 4096 + (b1.val % 64) * 64 + b2.val % 64, 3) := by
    intro x lo hi hx hx8 hxlt hacc hlo hhi
    have hb : ¬ (b1.val < lo ∨ hi < b1.val) := by omega
    rw [decodeRune_multi c _ x hx (by omega), hx8, hacc]
    simp only [hl, hb, hb', h32, if_true, if_false, le_refl]
  by_cases e0 : c.val = 0xE0
  · exact fin 0x13 0xA0 0xBF (by rw [e0]; rfl) rfl (by omega) rfl (hmin e0) hb2
  by_cases ed : c.val = 0xED
  · exact fin 0x23 0x80 0x9F (by rw [ed]; rfl) rfl (by omega) rfl hb1 (hmax ed)
  · exact fin 0x03 0x80 0xBF (first_three (by omega) h2 ed) rfl (by omega) rfl hb1 hb2

theorem decodeRune_four_eq (c b1 b2 b3 : Byte) (t : List Byte) (h1 : 0xF0 ≤ c.val)
    (h2 : c.val ≤ 0xF4) (hb1 : 0x80 ≤ b1.val) (hb2 : b1.val ≤ 0xBF)
    (hmin : c.val = 0xF0 → 0x90 ≤ b1.val) (hmax : c.val = 0xF4 → b1.val ≤ 0x8F)
    (hb3 : 0x80 ≤ b2.val) (hb4 : b2.val ≤ 0xBF) (hb5 : 0x80 ≤ b3.val) (hb6 : b3.val ≤ 0xBF) :
    decodeRune (c :: b1 :: b2 :: b3 :: t)
      = ((c.val % 8) * 262144 + (b1.val % 64) * 4096 + (b2.val % 64) * 64 + b3.val % 64, 4) := by
  have hl : ¬ ((c :: b1 :: b2 :: b3 :: t).length < 4) := by simp
  have h42 : ¬ (4 ≤ 2) := by omega
  have h43 : ¬ (4 ≤ 3) := by omega
  have hb' : ¬ (b2.val < 0x80 ∨ 0xBF < b2.val) := by omega
  have hb'' : ¬ (b3.val < 0x80 ∨ 0xBF < b3.val) := by omega
  have fin : ∀ x lo hi, first c.val = x → x % 8 = 4 → x < 0xF0 →
      acceptRanges (x / 16) = (lo, hi) → lo ≤ b1.val → b1.val ≤ hi →
      decodeRune (c :: b1 :: b2 :: b3 :: t)
        = ((c.val % 8) * 262144 + (b1.val % 64) * 4096 + (b2.val % 64) * 64
            + b3.val % 64, 4) := by
    intro x lo hi hx hx8 hxlt hacc hlo hhi
    have hb : ¬ (b1.val < lo ∨ hi < b1.val) := by omega
    rw [decodeRune_multi c _ x hx (by omega), hx8, hacc]
    simp only [hl, hb, hb', hb'', h42, h43, if_true, if_false]
  by_cases e0 : c.val = 0xF0
  · exact fin 0x34 0x90 0xBF (by rw [e0]; rfl) rfl (by omega) rfl (hmin e0) hb2
  by_cases e4 : c.val = 0xF4
  · exact fin 0x44 0x80 0x8F (by rw [e4]; rfl) rfl (by omega) rfl hb1 (hmax e4)
  · exact fin 0x04 0x80 0xBF (first_four (by omega) (by omega)) rfl (by omega) rfl hb1 hb2

theorem validChunk_ascii (b : Byte) (h : b.val < 0x80) : ValidChunk [b] :=
  ⟨by simp, fun f X => validUTF8Loop_ascii f b X h⟩

theorem validChunk_of_decode (c : Byte) (seq : List Byte) (h : ¬ c.val < 0x80)
    (hl : 1 ≤ seq.length) (hd : ∀ t, ∃ r, decodeRune (c :: (seq ++ t)) = (r, seq.length + 1)) :
    ValidChunk (c :: seq) := by
  refine ⟨by simp, fun f X => ?_⟩
  obtain ⟨r, hr⟩ := hd X
  exact validUTF8Loop_rune f c seq X r h hl hr

theorem validChunk_encodeRune3 (r : Nat) (h1 : 0x800 ≤ r) (h2 : r ≤ 0xFFFF)
    (h3 : ¬ (0xD800 ≤ r ∧ r ≤ 0xDFFF)) : ValidChunk (encodeRune3 r) := by
  unfold encodeRune3
  refine validChunk_of_decode _ _ (by rw [byte_val]; omega) (by simp) (fun t => ?_)
  refine ⟨_, decodeRune_three_eq _ _ _ t (by rw [byte_val]; omega) (by rw [byte_val]; omega)
    (by rw [byte_val]; omega) (by rw [byte_val]; omega)
    (by simp only [byte_val]; omega) (by simp only [byte_val]; omega)
    (by rw [byte_val]; omega) (by rw [byte_val]; omega)⟩

/-- Whatever the rune, `encodeRune` writes one valid UTF-8 sequence. -/
theorem validChunk_encodeRune (r : Nat) : ValidChunk (encodeRune r) := by
  unfold encodeRune
  by_cases h1 : r ≤ 0x7F
  · rw [if_pos h1]
    exact validChunk_ascii _ (by rw [byte_val]; omega)
  rw [if_neg h1]
  by_cases h2 : r ≤ 0x7FF
  · rw [if_pos h2]
    refine validChunk_of_decode _ _ (by rw [byte_val]; omega) (by simp) (fun t => ?_)
    refine ⟨_, decodeRune_two_eq _ _ t (by rw [byte_val]; omega) (by rw [byte_val]; omega)
      (by rw [byte_val]; omega) (by rw [byte_val]; omega)⟩
  rw [if_neg h2]
  by_cases h3 : MaxRune < r ∨ (0xD800 ≤ r ∧ r ≤ 0xDFFF)
  · rw [if_pos h3]
    exact validChunk_encodeRune3 RuneError (by decide) (by decide) (by decide)
  rw [if_neg h3]
  unfold MaxRune at h3
  by_cases h4 : r ≤ 0xFFFF
  · rw [if_pos h4]
    exact validChunk_encodeRune3 r (by omega) h4 (by omega)
  rw [if_neg h4]
  refine validChunk_of_decode _ _ (by rw [byte_val]; omega) (by simp) (fun t => ?_)
  refine ⟨_, decodeRune_four_eq _ _ _ _ t (by rw [byte_val]; omega) (by rw [byte_val]; omega)
    (by rw [byte_val]; omega) (by rw [byte_val]; omega)
    (by simp only [byte_val]; omega) (by simp only [byte_val]; omega)
    (by rw [byte_val]; omega) (by rw [byte_val]; omega)
    (by rw [byte_val]; omega) (by rw [byte_val]; omega)⟩

/-- What one step of the unquoting loop writes is a single ASCII byte or the
encoding of a rune. -/
theorem unquoteStep_chunk (c : Byte) (rest : List Byte) (chunk : List Byte) (k : Nat)
    (h : unquoteStep c rest = some (chunk, k)) : ValidChunk chunk := by
  unfold unquoteStep at h
  by_cases h1 : c.val = 0x5C
  · rw [if_pos h1] at h
    cases rest with
    | nil => exact absurd h (by simp)
    | cons e rest2 =>
      simp only at h
      by_cases e1 : e.val = 0x22 ∨ e.val = 0x5C ∨ e.val = 0x2F ∨ e.val = 0x27
      · rw [if_pos e1] at h
        simp only [Option.some.injEq, Prod.mk.injEq] at h
        rw [← h.1]
        exact validChunk_ascii e (by omega)
      rw [if_neg e1] at h
      by_cases e2 : e.val = 0x62
      · rw [if_pos e2] at h
        simp only [Option.some.injEq, Prod.mk.injEq] at h
        rw [← h.1]; exact validChunk_ascii _ (by decide)
      rw [if_neg e2] at h
      by_cases e3 : e.val = 0x66
      · rw [if_pos e3] at h
        simp only [Option.some.injEq, Prod.mk.injEq] at h
        rw [← h.1]; exact validChunk_ascii _ (by decide)
      rw [if_neg e3] at h
      by_cases e4 : e.val = 0x6E
      · rw [if_pos e4] at h
        simp only [Option.some.injEq, Prod.mk.injEq] at h
        rw [← h.1]; exact validChunk_ascii _ (by decide)
      rw [if_neg e4] at h
      by_cases e5 : e.val = 0x72
      · rw [if_pos e5] at h
        simp only [Option.some.injEq, Prod.mk.injEq] at h
        rw [← h.1]; exact validChunk_ascii _ (by decide)
      rw [if_neg e5] at h
      by_cases e6 : e.val = 0x74
      · rw [if_pos e6] at h
        simp only [Option.some.injEq, Prod.mk.injEq] at h
        rw [← h.1]; exact validChunk_ascii _ (by decide)
      rw [if_neg e6] at h
      by_cases e7 : e.val = 0x75
      · rw [if_pos e7] at h
        cases hg : getu4 (c :: e :: rest2) with
        | none => rw [hg] at h; exact absurd h (by simp)
        | some rr =>
          rw [hg] at h
          simp only at h
          by_cases hs : isSurrogate rr = true
          · rw [if_pos hs] at h
            by_cases hdec : utf16DecodeRune rr (getu4 ((e :: rest2).drop 5)) ≠ 0xFFFD
            · rw [if_pos hdec] at h
              simp only [Option.some.injEq, Prod.mk.injEq] at h
              rw [← h.1]; exact validChunk_encodeRune _
            · rw [if_neg hdec] at h
              simp only [Option.some.injEq, Prod.mk.injEq] at h
              rw [← h.1]; exact validChunk_encodeRune _
          · rw [if_neg hs] at h
            simp only [Option.some.injEq, Prod.mk.injEq] at h
            rw [← h.1]; exact validChunk_encodeRune _
      · rw [if_neg e7] at h
        exact absurd h (by simp)
  rw [if_neg h1] at h
  by_cases h2 : c.val = 0x22 ∨ c.val < 0x20
  · rw [if_pos h2] at h
    exact absurd h (by simp)
  rw [if_neg h2] at h
  by_cases h3 : c.val < 0x80
  · rw [if_pos h3] at h
    simp only [Option.some.injEq, Prod.mk.injEq] at h
    rw [← h.1]; exact validChunk_ascii c h3
  · rw [if_neg h3] at h
    simp only [Option.some.injEq, Prod.mk.injEq] at h
    rw [← h.1]; exact validChunk_encodeRune _

/-- The output of the unquoting loop is valid UTF-8. -/
theorem unquoteLoop_valid : ∀ (f : Nat) (q out : List Byte), unquoteLoop f q = some out →
    ∀ f2, out.length ≤ f2 → validUTF8Loop f2 out = true := by
  intro f
  induction f with
  | zero =>
    intro q out h f2 _
    cases q with
    | nil =>
      rw [unquoteLoop_nil] at h
      simp only [Option.some.injEq] at h
      subst h
      exact validUTF8Loop_nil f2
    | cons c rest => exact absurd h (by simp [unquoteLoop])
  | succ n ih =>
    intro q out h f2 hf2
    cases q with
    | nil =>
      rw [unquoteLoop_nil] at h
      simp only [Option.some.injEq] at h
      subst h
      exact validUTF8Loop_nil f2
    | cons c rest =>
      rw [unquoteLoop_cons] at h
      cases hs : unquoteStep c rest with
      | none => rw [hs] at h; exact absurd h (by simp)
      | some r =>
        obtain ⟨chunk, k⟩ := r
        rw [hs] at h
        simp only at h
        cases hl : unquoteLoop n (rest.drop k) with
        | none => rw [hl] at h; exact absurd h (by simp)
        | some out' =>
          rw [hl] at h
          simp only [Option.map_some', Option.some.injEq] at h
          subst h
          obtain ⟨hc1, hc2⟩ := unquoteStep_chunk c rest chunk k hs
          simp only [List.length_append] at hf2
          obtain ⟨g, rfl⟩ : ∃ g, f2 = g + 1 := ⟨f2 - 1, by omega⟩
          rw [hc2 g out']
          exact ih _ out' hl g (by omega)

/-- What `unquoteBytes` returns is valid UTF-8. -/
theorem unquoteBytes_valid (item s : List Byte) (h : unquoteBytes item = some s) :
    validUTF8 s = true := by
  cases item with
  | nil => exact absurd h (by simp [unquoteBytes])
  | cons q t =>
    by_cases hq : t.length < 1 ∨ q.val ≠ 0x22 ∨ (t.getLast?.map Fin.val) ≠ some 0x22
    · simp only [unquoteBytes, hq, if_true] at h
      exact absurd h (by simp)
    · have hq' := hq
      simp only [not_or, not_lt, ne_eq, not_not] at hq'
      obtain ⟨hlen, hq0, hlast⟩ := hq'
      have hne : t ≠ [] := by
        intro h0; subst h0; simp at hlen
      have ht : t = t.dropLast ++ [(0x22 : Byte)] := by
        have h1 := List.dropLast_append_getLast? (l := t)
        cases hgl : t.getLast? with
        | none => rw [hgl] at hlast; exact absurd hlast (by simp)
        | some x =>
          rw [hgl] at hlast
          simp only [Option.map_some', Option.some.injEq] at hlast
          have hx : x = (0x22 : Byte) := Fin.ext hlast
          have := h1 x hgl
          rw [hx] at this
          exact this.symm
      have hq22 : q = (0x22 : Byte) := Fin.ext hq0
      rw [hq22, ht, unquoteBytes_quoted] at h
      exact unquoteLoop_valid _ _ _ h _ (le_refl _)

theorem PaperRecord.valid_set (r : PaperRecord) (f : Field) (s : GoString)
    (hr : r.valid = true) (hs : validUTF8 s = true) : (r.set f s).valid = true := by
  unfold PaperRecord.valid at hr ⊢
  simp only [Bool.and_eq_true] at hr ⊢
  obtain ⟨⟨⟨⟨⟨h1, h2⟩, h3⟩, h4⟩, h5⟩, h6⟩ := hr
  cases f <;> simp only [PaperRecord.set] <;> exact ⟨⟨⟨⟨⟨by assumption, by assumption⟩,
    by assumption⟩, by assumption⟩, by assumption⟩, by assumption⟩

theorem scanWhile_v (d : DecodeState) (op : Op) : (d.scanWhile op).v = d.v := rfl

theorem scanNext_v (d : DecodeState) : d.scanNext.v = d.v := by
  unfold DecodeState.scanNext
  split <;> rfl

theorem rescanLiteral_v (d : DecodeState) : d.rescanLiteral.2.v = d.v := by
  unfold DecodeState.rescanLiteral
  generalize (if d.cur.val = 0x22 then rescanString d.rest
    else if isDigit d.cur = true ∨ d.cur.val = 0x2D then rescanNumber d.rest
    else if d.cur.val = 0x74 then (d.rest.take 3, d.rest.drop 3)
    else if d.cur.val = 0x66 then (d.rest.take 4, d.rest.drop 4)
    else if d.cur.val = 0x6E then (d.rest.take 3, d.rest.drop 3)
    else ([], d.rest)) = r
  obtain ⟨r1, r2⟩ := r
  cases r2 <;> rfl

theorem skip_v (d d' : DecodeState) (h : d.skip = some d') : d'.v = d.v := by
  unfold DecodeState.skip at h
  cases hs : skipLoop d.scan.parseState.length d.scan d.rest with
  | none => rw [hs] at h; exact absurd h (by simp)
  | some r =>
    rw [hs] at h
    simp only [Option.map_some', Option.some.injEq] at h
    rw [← h]

theorem literalStore_valid (d d' : DecodeState) (item : List Byte) (field : Option Field)
    (hv : d.v.valid = true) (h : d.literalStore item field = some d') : d'.v.valid = true := by
  unfold DecodeState.literalStore at h
  cases item with
  | nil =>
    simp only [Option.some.injEq] at h
    rw [← h]; exact hv
  | cons c t =>
    simp only at h
    by_cases h1 : c.val = 0x6E
    · rw [if_pos h1] at h
      simp only [Option.some.injEq] at h
      rw [← h]; exact hv
    rw [if_neg h1] at h
    by_cases h2 : c.val = 0x74 ∨ c.val = 0x66
    · rw [if_pos h2] at h
      simp only [Option.some.injEq] at h
      rw [← h]; exact hv
    rw [if_neg h2] at h
    by_cases h3 : c.val = 0x22
    · rw [if_pos h3] at h
      cases hu : unquoteBytes (c :: t) with
      | none => rw [hu] at h; exact absurd h (by simp)
      | some s =>
        rw [hu] at h
        cases field with
        | none =>
          simp only [Option.some.injEq] at h
          rw [← h]; exact hv
        | some f =>
          simp only [Option.some.injEq] at h
          rw [← h]
          exact PaperRecord.valid_set _ f s hv (unquoteBytes_valid _ _ hu)
    rw [if_neg h3] at h
    by_cases h4 : c.val ≠ 0x2D ∧ (c.val < 0x30 ∨ 0x39 < c.val)
    · rw [if_pos h4] at h
      exact absurd h (by simp)
    · rw [if_neg h4] at h
      simp only [Option.some.injEq] at h
      rw [← h]; exact hv

theorem valueMember_valid (d d' : DecodeState) (field : Option Field)
    (hv : d.v.valid = true) (h : d.valueMember field = some d') : d'.v.valid = true := by
  unfold DecodeState.valueMember at h
  split at h
  · cases hs : (if field.isSome = true then d.saveError else d).skip with
    | none => rw [hs] at h; exact absurd h (by simp)
    | some d1 =>
      rw [hs] at h
      simp only [Option.map_some', Option.some.injEq] at h
      rw [← h, scanNext_v, skip_v _ _ hs]
      split <;> exact hv
  · cases hs : (if field.isSome = true then d.saveError else d).skip with
    | none => rw [hs] at h; exact absurd h (by simp)
    | some d1 =>
      rw [hs] at h
      simp only [Option.map_some', Option.some.injEq] at h
      rw [← h, scanNext_v, skip_v _ _ hs]
      split <;> exact hv
  · simp only at h
    have hv2 : d.rescanLiteral.2.v.valid = true := by rw [rescanLiteral_v]; exact hv
    by_cases hf : field.isSome = true
    · rw [if_pos hf] at h
      exact literalStore_valid _ _ _ _ hv2 h
    · rw [if_neg hf] at h
      simp only [Option.some.injEq] at h
      rw [← h]; exact hv2
  · exact absurd h (by simp)

theorem ite_scanWhile_v (d : DecodeState) (op : Op) :
    (if d.opcode = .scanSkipSpace then d.scanWhile op else d).v = d.v := by
  split <;> rfl

/-- The object loop keeps the strings of the record valid. -/
theorem objectLoop_valid : ∀ (fuel : Nat) (d d' : DecodeState), d.v.valid = true →
    objectLoop fuel d = some d' → d'.v.valid = true := by
  intro fuel
  induction fuel with
  | zero => intro d d' _ h; exact absurd h (by simp [objectLoop])
  | succ n ih =>
    intro d d' hv h
    rw [objectLoop_succ] at h
    simp only at h
    by_cases c1 : (d.scanWhile .scanSkipSpace).opcode = .scanEndObject
    · rw [if_pos c1] at h
      simp only [Option.some.injEq] at h
      rw [← h]; exact hv
    rw [if_neg c1] at h
    by_cases c2 : (d.scanWhile .scanSkipSpace).opcode ≠ .scanBeginLiteral
    · rw [if_pos c2] at h; exact absurd h (by simp)
    rw [if_neg c2] at h
    cases hu : unquoteBytes (d.scanWhile .scanSkipSpace).rescanLiteral.1 with
    | none => rw [hu] at h; exact absurd h (by simp)
    | some key =>
      rw [hu] at h
      simp only at h
      generalize hd2 : (if (d.scanWhile .scanSkipSpace).rescanLiteral.2.opcode = .scanSkipSpace
        then (d.scanWhile .scanSkipSpace).rescanLiteral.2.scanWhile .scanSkipSpace
        else (d.scanWhile .scanSkipSpace).rescanLiteral.2) = d2 at h
      have hv2 : d2.v.valid = true := by
        rw [← hd2, ite_scanWhile_v, rescanLiteral_v]; exact hv
      by_cases c3 : d2.opcode ≠ .scanObjectKey
      · rw [if_pos c3] at h; exact absurd h (by simp)
      rw [if_neg c3] at h
      cases hm : (d2.scanWhile .scanSkipSpace).valueMember (findField key) with
      | none => rw [hm] at h; exact absurd h (by simp)
      | some d3 =>
        rw [hm] at h
        simp only at h
        have hv3 : d3.v.valid = true :=
          valueMember_valid (d2.scanWhile .scanSkipSpace) d3 _ hv2 hm
        generalize hd4 : (if d3.opcode = .scanSkipSpace then d3.scanWhile .scanSkipSpace
          else d3) = d4 at h
        have hv4 : d4.v.valid = true := by rw [← hd4, ite_scanWhile_v]; exact hv3
        by_cases c4 : d4.opcode = .scanEndObject
        · rw [if_pos c4] at h
          simp only [Option.some.injEq] at h
          rw [← h]; exact hv4
        rw [if_neg c4] at h
        by_cases c5 : d4.opcode ≠ .scanObjectValue
        · rw [if_pos c5] at h; exact absurd h (by simp)
        rw [if_neg c5] at h
        exact ih d4 d' hv4 h

theorem value_valid (d d' : DecodeState) (hv : d.v.valid = true) (h : d.value = some d') :
    d'.v.valid = true := by
  unfold DecodeState.value at h
  split at h
  · cases hs : d.saveError.skip with
    | none => rw [hs] at h; exact absurd h (by simp)
    | some d1 =>
      rw [hs] at h
      simp only [Option.map_some', Option.some.injEq] at h
      rw [← h, scanNext_v, skip_v _ _ hs]; exact hv
  · cases hs : objectLoop (d.rest.length + 1) d with
    | none => rw [hs] at h; exact absurd h (by simp)
    | some d1 =>
      rw [hs] at h
      simp only [Option.map_some', Option.some.injEq] at h
      rw [← h, scanNext_v]; exact objectLoop_valid _ _ _ hv hs
  · simp only at h
    exact literalStore_valid _ _ _ _ (by rw [rescanLiteral_v]; exact hv) h
  · exact absurd h (by simp)

/-- Every record that `json.Unmarshal` returns consists of valid UTF-8
strings. -/
theorem jsonUnmarshal_valid (data : Bytes) (r : PaperRecord) (h : jsonUnmarshal data = some r) :
    r.valid = true := by
  unfold jsonUnmarshal at h
  by_cases hc : (!checkValid data) = true
  · rw [if_pos hc] at h; exact absurd h (by simp)
  rw [if_neg hc] at h
  simp only at h
  split at h
  · exact absurd h (by simp)
  · rename_i d' hd'
    by_cases hse : d'.savedError = true
    · rw [if_pos hse] at h; exact absurd h (by simp)
    · rw [if_neg hse] at h
      simp only [Option.some.injEq] at h
      rw [← h]
      exact value_valid _ _ (show PaperRecord.zero.valid = true by decide) hd'

/-- Encoding and decoding again does not change a record that came out of
the decoder. -/
theorem jsonUnmarshal_stable (data : Bytes) (r : PaperRecord) (t2 : GoString)
    (h : jsonUnmarshal data = some r) (ht : validUTF8 t2 = true) :
    jsonUnmarshal (encodeRecord { r with Timestamp := t2 }) = some { r with Timestamp := t2 } := by
  rw [jsonUnmarshal_encodeRecord]
  have hv := jsonUnmarshal_valid data r h
  congr 1
  apply PaperRecord.coerce_valid
  unfold PaperRecord.valid at hv ⊢
  simp only [Bool.and_eq_true] at hv ⊢
  obtain ⟨⟨⟨⟨⟨h1, h2⟩, h3⟩, h4⟩, h5⟩, h6⟩ := hv
  exact ⟨⟨⟨⟨⟨h1, h2⟩, ht⟩, h4⟩, h5⟩, h6⟩

/-! ## The world state -/

theorem lookup_replaceEntry_self (k : GoString) (v : Bytes) :
    ∀ w : List (GoString × Bytes), (lookup k w).isSome = true →
      lookup k (replaceEntry k v w) = some v
  | [], h => by simp [lookup] at h
  | (k', v') :: rest, h => by
    by_cases hk : k' = k
    · simp only [replaceEntry, hk, if_true, lookup]
    · simp only [replaceEntry, hk, if_false, lookup] at h ⊢
      exact lookup_replaceEntry_self k v rest h

theorem lookup_insertEntry_self (k : GoString) (v : Bytes) :
    ∀ w : List (GoString × Bytes), lookup k w = none → lookup k (insertEntry k v w) = some v
  | [], _ => by simp [insertEntry, lookup]
  | (k', v') :: rest, h => by
    by_cases hk : k' = k
    · simp [lookup, hk] at h
    · simp only [lookup, hk, if_false] at h
      by_cases hlt : keyLt k k' = true
      · simp only [insertEntry, hlt, if_true, lookup]
      · simp only [insertEntry, hlt, if_false, lookup, hk, Bool.false_eq_true]
        exact lookup_insertEntry_self k v rest h

/-- A read after a write of the same key returns the value written. -/
theorem lookup_putEntry_self (k : GoString) (v : Bytes) (w : List (GoString × Bytes)) :
    lookup k (putEntry k v w) = some v := by
  unfold putEntry
  by_cases h : (lookup k w).isSome = true
  · rw [if_pos h]; exact lookup_replaceEntry_self k v w h
  · rw [if_neg h]
    exact lookup_insertEntry_self k v w (by simpa using h)

theorem lookup_replaceEntry_other (k k' : GoString) (v : Bytes) (hne : k' ≠ k) :
    ∀ w : List (GoString × Bytes), lookup k' (replaceEntry k v w) = lookup k' w
  | [] => rfl
  | (k0, v0) :: rest => by
    by_cases hk : k0 = k
    · have h2 : ¬ k0 = k' := by rw [hk]; exact fun h => hne h.symm
      have h3 : ¬ k = k' := fun h => hne h.symm
      simp only [replaceEntry, hk, if_true, lookup, h3, if_false]
    · simp only [replaceEntry, hk, if_false, lookup]
      rw [lookup_replaceEntry_other k k' v hne rest]

theorem lookup_insertEntry_other (k k' : GoString) (v : Bytes) (hne : k' ≠ k) :
    ∀ w : List (GoString × Bytes), lookup k' (insertEntry k v w) = lookup k' w
  | [] => by
    have h3 : ¬ k = k' := fun h => hne h.symm
    simp only [insertEntry, lookup, h3, if_false]
  | (k0, v0) :: rest => by
    have h3 : ¬ k = k' := fun h => hne h.symm
    by_cases hlt : keyLt k k0 = true
    · simp only [insertEntry, hlt, if_true, lookup, h3, if_false]
    · simp only [insertEntry, hlt, if_false, lookup, Bool.false_eq_true]
      rw [lookup_insertEntry_other k k' v hne rest]

/-- A write leaves every other key as it was. -/
theorem lookup_putEntry_other (k k' : GoString) (v : Bytes) (hne : k' ≠ k)
    (w : List (GoString × Bytes)) : lookup k' (putEntry k v w) = lookup k' w := by
  unfold putEntry
  split
  · exact lookup_replaceEntry_other k k' v hne w
  · exact lookup_insertEntry_other k k' v hne w

theorem insertEntry_perm (k : GoString) (v : Bytes) :
    ∀ w : List (GoString × Bytes), (insertEntry k v w).Perm ((k, v) :: w)
  | [] => List.Perm.refl _
  | (k0, v0) :: rest => by
    by_cases hlt : keyLt k k0 = true
    · simp only [insertEntry, hlt, if_true]
      exact List.Perm.refl _
    · simp only [insertEntry, hlt, if_false, Bool.false_eq_true]
      exact ((insertEntry_perm k v rest).cons (k0, v0)).trans (List.Perm.swap _ _ _)

/-- A write to an absent key adds one entry and changes no other. -/
theorem putEntry_perm (k : GoString) (v : Bytes) (w : List (GoString × Bytes))
    (h : lookup k w = none) : (putEntry k v w).Perm ((k, v) :: w) := by
  unfold putEntry
  rw [h]
  exact insertEntry_perm k v w

/-- A write to a present key changes the value of one entry in place. -/
theorem replaceEntry_split (k : GoString) (v old : Bytes) :
    ∀ w : List (GoString × Bytes), lookup k w = some old →
      ∃ l1 l2, w = l1 ++ (k, old) :: l2 ∧ replaceEntry k v w = l1 ++ (k, v) :: l2
  | [], h => by simp [lookup] at h
  | (k0, v0) :: rest, h => by
    by_cases hk : k0 = k
    · simp only [lookup, hk, if_true, Option.some.injEq] at h
      subst hk; subst h
      exact ⟨[], rest, rfl, by simp [replaceEntry]⟩
    · simp only [lookup, hk, if_false] at h
      obtain ⟨l1, l2, h1, h2⟩ := replaceEntry_split k v old rest h
      refine ⟨(k0, v0) :: l1, l2, by rw [h1]; rfl, ?_⟩
      simp only [replaceEntry, hk, if_false, h2]
      rfl

theorem putEntry_split (k : GoString) (v old : Bytes) (w : List (GoString × Bytes))
    (h : lookup k w = some old) :
    ∃ l1 l2, w = l1 ++ (k, old) :: l2 ∧ putEntry k v w = l1 ++ (k, v) :: l2 := by
  unfold putEntry
  rw [h]
  exact replaceEntry_split k v old w h

/-! ## The transaction functions -/

/-- The stub after a successful `CreatePaperRecord` or `UpdatePaperRecord`:
one write and one event. -/
theorem create_ok (env : Env) (ctx : Stub) (s h t a i d : GoString)
    (habs : lookup h ctx.world = none) (hread : env.getStateErr h = none)
    (hwrite : env.putStateErr h (encodeRecord ⟨s, h, t, a, i, d⟩) = none)
    (hevent : env.setEventErr (ascii "PaperRecordCreated") (encodeRecord ⟨s, h, t, a, i, d⟩)
      = none) :
    CreatePaperRecord env ctx s h t a i d =
      (.ok (), { world := putEntry h (encodeRecord ⟨s, h, t, a, i, d⟩) ctx.world,
                 events := ctx.events
                   ++ [(ascii "PaperRecordCreated", encodeRecord ⟨s, h, t, a, i, d⟩)] }) := by
  simp only [CreatePaperRecord, Stub.GetState, hread, habs, ne_eq, not_true_eq_false, if_false,
    jsonMarshal, Stub.PutState, hwrite, Stub.SetEvent, hevent]

/-- A successful `CreatePaperRecord` found the key absent, did not fault,
and left one write and one event. -/
theorem create_inv (env : Env) (ctx : Stub) (s h t a i d : GoString)
    (hok : (CreatePaperRecord env ctx s h t a i d).1 = .ok ()) :
    lookup h ctx.world = none ∧ env.getStateErr h = none ∧
    env.putStateErr h (encodeRecord ⟨s, h, t, a, i, d⟩) = none ∧
    env.setEventErr (ascii "PaperRecordCreated") (encodeRecord ⟨s, h, t, a, i, d⟩) = none := by
  unfold CreatePaperRecord Stub.GetState at hok
  cases hread : env.getStateErr h with
  | some e => rw [hread] at hok; simp at hok
  | none =>
    rw [hread] at hok
    simp only at hok
    cases habs : lookup h ctx.world with
    | some b => rw [habs] at hok; simp at hok
    | none =>
      rw [habs] at hok
      simp only [ne_eq, not_true_eq_false, if_false, jsonMarshal, Stub.PutState] at hok
      cases hwrite : env.putStateErr h (encodeRecord ⟨s, h, t, a, i, d⟩) with
      | some e => rw [hwrite] at hok; simp at hok
      | none =>
        rw [hwrite] at hok
        simp only [Stub.SetEvent] at hok
        cases hevent : env.setEventErr (ascii "PaperRecordCreated")
            (encodeRecord ⟨s, h, t, a, i, d⟩) with
        | some e => rw [hevent] at hok; simp at hok
        | none => exact ⟨rfl, rfl, rfl, rfl⟩

/-- `CreatePaperRecord` on a key that is present. -/
theorem create_exists (env : Env) (ctx : Stub) (s h t a i d : GoString) (b : Bytes)
    (hpres : lookup h ctx.world = some b) (hread : env.getStateErr h = none) :
    CreatePaperRecord env ctx s h t a i d =
      (.error (ascii "paper record with hash " ++ h ++ ascii " already exists"), ctx) := by
  simp only [CreatePaperRecord, Stub.GetState, hread, hpres, ne_eq, reduceCtorEq,
    not_false_eq_true, if_true]

/-- `GetPaperRecord` on a key whose bytes decode. -/
theorem get_ok (env : Env) (ctx : Stub) (h : GoString) (b : Bytes) (r : PaperRecord)
    (hpres : lookup h ctx.world = some b) (hread : env.getStateErr h = none)
    (hdec : jsonUnmarshal b = some r) : GetPaperRecord env ctx h = (.ok r, ctx) := by
  simp only [GetPaperRecord, Stub.GetState, hread, hpres, hdec]

/-- `GetPaperRecord` on a key that is absent. -/
theorem get_absent (env : Env) (ctx : Stub) (h : GoString)
    (habs : lookup h ctx.world = none) (hread : env.getStateErr h = none) :
    GetPaperRecord env ctx h =
      (.error (ascii "paper record with hash " ++ h ++ ascii " does not exist"), ctx) := by
  simp only [GetPaperRecord, Stub.GetState, hread, habs]

/-- `GetPaperRecord` on a key whose bytes do not decode. -/
theorem get_corrupt (env : Env) (ctx : Stub) (h : GoString) (b : Bytes)
    (hpres : lookup h ctx.world = some b) (hread : env.getStateErr h = none)
    (hdec : jsonUnmarshal b = none) :
    GetPaperRecord env ctx h =
      (.error (ascii "failed to unmarshal paper record: " ++ env.unmarshalErr b), ctx) := by
  simp only [GetPaperRecord, Stub.GetState, hread, hpres, hdec]

/-- `VerifyPaperRecord` when the read does not fault. -/
theorem verify_ok (env : Env) (ctx : Stub) (h : GoString) (hread : env.getStateErr h = none) :
    VerifyPaperRecord env ctx h = (.ok (lookup h ctx.world).isSome, ctx) := by
  simp only [VerifyPaperRecord, Stub.GetState, hread]
  cases lookup h ctx.world <;> simp

/-- `UpdatePaperRecord` on a key that is absent. -/
theorem update_absent (env : Env) (ctx : Stub) (h t2 : GoString)
    (habs : lookup h ctx.world = none) (hread : env.getStateErr h = none) :
    UpdatePaperRecord env ctx h t2 =
      (.error (ascii "paper record with hash " ++ h ++ ascii " does not exist"), ctx) := by
  simp only [UpdatePaperRecord, Stub.GetState, hread, habs]

/-- The stub after a successful `UpdatePaperRecord`. -/
theorem update_ok (env : Env) (ctx : Stub) (h t2 : GoString) (b : Bytes) (r : PaperRecord)
    (hpres : lookup h ctx.world = some b) (hdec : jsonUnmarshal b = some r)
    (hread : env.getStateErr h = none)
    (hwrite : env.putStateErr h (encodeRecord { r with Timestamp := t2 }) = none)
    (hevent : env.setEventErr (ascii "PaperRecordUpdated")
      (encodeRecord { r with Timestamp := t2 }) = none) :
    UpdatePaperRecord env ctx h t2 =
      (.ok (), { world := putEntry h (encodeRecord { r with Timestamp := t2 }) ctx.world,
                 events := ctx.events
                   ++ [(ascii "PaperRecordUpdated", encodeRecord { r with Timestamp := t2 })] })
    := by
  simp only [UpdatePaperRecord, Stub.GetState, hread, hpres, hdec, jsonMarshal, Stub.PutState,
    hwrite, Stub.SetEvent, hevent]

/-- The world state after a transaction that calls `UpdatePaperRecord`: as
before, or with the timestamp of the record under the key replaced. -/
theorem update_world (env : Env) (ctx : Stub) (h t2 : GoString) :
    (commit ctx (UpdatePaperRecord env ctx h t2)).world = ctx.world ∨
    ∃ b r, lookup h ctx.world = some b ∧ jsonUnmarshal b = some r ∧
      (commit ctx (UpdatePaperRecord env ctx h t2)).world
        = putEntry h (encodeRecord { r with Timestamp := t2 }) ctx.world := by
  unfold UpdatePaperRecord Stub.GetState
  cases hread : env.getStateErr h with
  | some e => left; rfl
  | none =>
    simp only
    cases hl : lookup h ctx.world with
    | none => left; rfl
    | some b =>
      simp only
      cases hd : jsonUnmarshal b with
      | none => left; rfl
      | some r =>
        simp only [jsonMarshal, Stub.PutState]
        cases hw : env.putStateErr h (encodeRecord { r with Timestamp := t2 }) with
        | some e => left; rfl
        | none =>
          simp only [Stub.SetEvent]
          cases he : env.setEventErr (ascii "PaperRecordUpdated")
              (encodeRecord { r with Timestamp := t2 }) with
          | some e => left; rfl
          | none => right; exact ⟨b, r, rfl, hd, rfl⟩

/-- The world state after a transaction that calls `CreatePaperRecord`: as
before, or with a record written under a key that was absent. -/
theorem create_world (env : Env) (ctx : Stub) (s h t a i d : GoString) :
    (commit ctx (CreatePaperRecord env ctx s h t a i d)).world = ctx.world ∨
    (lookup h ctx.world = none ∧
      (commit ctx (CreatePaperRecord env ctx s h t a i d)).world
        = putEntry h (encodeRecord ⟨s, h, t, a, i, d⟩) ctx.world) := by
  cases hr : (CreatePaperRecord env ctx s h t a i d).1 with
  | error e => left; unfold commit; rw [hr]
  | ok u =>
    obtain ⟨h1, h2, h3, h4⟩ := create_inv env ctx s h t a i d hr
    right
    refine ⟨h1, ?_⟩
    unfold commit
    rw [hr, create_ok env ctx s h t a i d h1 h2 h3 h4]

/-- The loop of `GetAllPaperRecords` when no call of `Next` faults: the
records that decode, in the order of the scan. -/
theorem getAllLoop_ok (env : Env) (hnext : ∀ i, env.nextErr i = none) :
    ∀ (w : List (GoString × Bytes)) (i : Nat) (acc : List PaperRecord),
      getAllLoop env i acc w = .ok (acc ++ w.filterMap (fun e => jsonUnmarshal e.2))
  | [], i, acc => by simp [getAllLoop]
  | e :: rest, i, acc => by
    rw [getAllLoop, hnext i]
    simp only
    cases hd : jsonUnmarshal e.2 with
    | none =>
      simp only
      rw [getAllLoop_ok env hnext rest (i + 1) acc]
      simp [List.filterMap_cons, hd]
    | some r =>
      simp only
      rw [getAllLoop_ok env hnext rest (i + 1) (acc ++ [r])]
      simp [List.filterMap_cons, hd]

/-- `GetAllPaperRecords` when the scan does not fault. -/
theorem getAll_ok (env : Env) (ctx : Stub) (hrange : env.getStateByRangeErr = none)
    (hnext : ∀ i, env.nextErr i = none) :
    GetAllPaperRecords env ctx
      = (.ok (ctx.world.filterMap (fun e => jsonUnmarshal e.2)), ctx) := by
  simp only [GetAllPaperRecords, Stub.GetStateByRange, hrange, getAllLoop_ok env hnext,
    List.nil_append]

/-! ## Sequences of transactions -/

theorem get_stub (env : Env) (ctx : Stub) (h : GoString) : (GetPaperRecord env ctx h).2 = ctx := by
  unfold GetPaperRecord
  split
  · rfl
  · rfl
  · split <;> rfl

theorem verify_stub (env : Env) (ctx : Stub) (h : GoString) :
    (VerifyPaperRecord env ctx h).2 = ctx := by
  unfold VerifyPaperRecord
  split <;> rfl

theorem getAll_stub (env : Env) (ctx : Stub) : (GetAllPaperRecords env ctx).2 = ctx := by
  unfold GetAllPaperRecords
  split <;> rfl

theorem commit_same {α : Type} (ctx : Stub) (r : Except GoString α × Stub) (h : r.2 = ctx) :
    commit ctx r = ctx := by
  unfold commit
  split
  · exact h
  · rfl

/-- What a transaction does to the world state: nothing, or the write of a
new record under an absent key, or the write of a record with a new
timestamp under a present key. -/
theorem exec_world (env : Env) (ctx : Stub) (call : Call) :
    (call.exec env ctx).world = ctx.world ∨
    (∃ s h t a i d, lookup h ctx.world = none ∧
      (call.exec env ctx).world = putEntry h (encodeRecord ⟨s, h, t, a, i, d⟩) ctx.world) ∨
    (∃ h t2 b r, lookup h ctx.world = some b ∧ jsonUnmarshal b = some r ∧
      (call.exec env ctx).world
        = putEntry h (encodeRecord { r with Timestamp := t2 }) ctx.world) := by
  cases call with
  | create s h t a i d =>
    rcases create_world env ctx s h t a i d with h1 | ⟨h1, h2⟩
    · exact Or.inl h1
    · exact Or.inr (Or.inl ⟨s, h, t, a, i, d, h1, h2⟩)
  | get h => left; show (commit ctx _).world = _; rw [commit_same _ _ (get_stub env ctx h)]
  | verify h => left; show (commit ctx _).world = _; rw [commit_same _ _ (verify_stub env ctx h)]
  | list => left; show (commit ctx _).world = _; rw [commit_same _ _ (getAll_stub env ctx)]
  | update h t2 =>
    rcases update_world env ctx h t2 with h1 | ⟨b, r, h1, h2, h3⟩
    · exact Or.inl h1
    · exact Or.inr (Or.inr ⟨h, t2, b, r, h1, h2, h3⟩)
  | init => left; rfl

/-- A key that is present stays present through a write. -/
theorem lookup_putEntry_isSome (k k' : GoString) (v : Bytes) (w : List (GoString × Bytes))
    (h : (lookup k' w).isSome = true) : (lookup k' (putEntry k v w)).isSome = true := by
  by_cases hk : k' = k
  · rw [hk, lookup_putEntry_self]; rfl
  · rw [lookup_putEntry_other k k' v hk]; exact h

/-- A key that is present stays present through a sequence of calls of
`UpdatePaperRecord`. -/
theorem updateAll_present (k : GoString) :
    ∀ (updates : List (Env × GoString × GoString)) (ctx : Stub),
      (lookup k ctx.world).isSome = true → (lookup k (updateAll ctx updates).world).isSome = true
  | [], ctx, h => h
  | (env, h', t2) :: rest, ctx, h => by
    apply updateAll_present k rest
    rcases update_world env ctx h' t2 with h1 | ⟨b, r, _, _, h3⟩
    · rw [h1]; exact h
    · rw [h3]; exact lookup_putEntry_isSome _ _ _ _ h

/-- The record stored under `h` keeps its identity fields through any
transaction, when those fields are valid UTF-8. -/
theorem exec_identity (env : Env) (ctx : Stub) (call : Call) (s h a i d : GoString)
    (hs : validUTF8 s = true) (hh : validUTF8 h = true) (ha : validUTF8 a = true)
    (hi : validUTF8 i = true) (hd : validUTF8 d = true)
    (hinv : ∃ ts, lookup h ctx.world = some (encodeRecord ⟨s, h, ts, a, i, d⟩)) :
    ∃ ts, lookup h (call.exec env ctx).world = some (encodeRecord ⟨s, h, ts, a, i, d⟩) := by
  obtain ⟨ts, hts⟩ := hinv
  rcases exec_world env ctx call with h1 | ⟨s', h', t', a', i', d', habs, h2⟩ | ⟨h', t2, b, r, hb, hr, h2⟩
  · exact ⟨ts, by rw [h1]; exact hts⟩
  · have hne : h ≠ h' := by
      intro heq; rw [heq] at hts; rw [hts] at habs; exact absurd habs (by simp)
    exact ⟨ts, by rw [h2, lookup_putEntry_other _ _ _ hne]; exact hts⟩
  · by_cases heq : h = h'
    · subst heq
      rw [hts] at hb
      simp only [Option.some.injEq] at hb
      subst hb
      rw [jsonUnmarshal_encodeRecord] at hr
      simp only [Option.some.injEq] at hr
      subst hr
      refine ⟨t2, ?_⟩
      rw [h2, lookup_putEntry_self]
      simp only [PaperRecord.coerce, coerceUTF8_valid _ hs, coerceUTF8_valid _ hh,
        coerceUTF8_valid _ ha, coerceUTF8_valid _ hi, coerceUTF8_valid _ hd]
    · exact ⟨ts, by rw [h2, lookup_putEntry_other _ _ _ heq]; exact hts⟩

theorem execAll_identity (s h a i d : GoString)
    (hs : validUTF8 s = true) (hh : validUTF8 h = true) (ha : validUTF8 a = true)
    (hi : validUTF8 i = true) (hd : validUTF8 d = true) :
    ∀ (calls : List (Env × Call)) (ctx : Stub),
      (∃ ts, lookup h ctx.world = some (encodeRecord ⟨s, h, ts, a, i, d⟩)) →
      ∃ ts, lookup h (execAll ctx calls).world = some (encodeRecord ⟨s, h, ts, a, i, d⟩)
  | [], ctx, hinv => hinv
  | (env, call) :: rest, ctx, hinv =>
    execAll_identity s h a i d hs hh ha hi hd rest _
      (exec_identity env ctx call s h a i d hs hh ha hi hd hinv)

/-- The entry that a call of `CreatePaperRecord` with the arguments `r`
writes. -/
theorem createAll_perm : ∀ (calls : List (Env × PaperRecord)) (ctx ctx' : Stub),
    createAll ctx calls = some ctx' →
    ctx'.world.Perm (calls.map (fun c => (c.2.PaperHash, encodeRecord c.2)) ++ ctx.world)
  | [], ctx, ctx', h => by
    simp only [createAll, Option.some.injEq] at h
    rw [h]; exact List.Perm.refl _
  | (env, r) :: rest, ctx, ctx', h => by
    rw [createAll] at h
    cases hr : (CreatePaperRecord env ctx r.StudentID r.PaperHash r.Timestamp r.Author
        r.AuthorID r.PaperDate).1 with
    | error e =>
      generalize hc : CreatePaperRecord env ctx r.StudentID r.PaperHash r.Timestamp r.Author
        r.AuthorID r.PaperDate = res at h hr
      obtain ⟨res1, res2⟩ := res
      simp only at hr
      subst hr
      simp at h
    | ok u =>
      obtain ⟨h1, h2, h3, h4⟩ := create_inv env ctx _ _ _ _ _ _ hr
      rw [create_ok env ctx _ _ _ _ _ _ h1 h2 h3 h4] at h
      simp only at h
      have ih := createAll_perm rest _ ctx' h
      simp only at ih
      have hp := putEntry_perm r.PaperHash (encodeRecord r) ctx.world h1
      simp only [List.map_cons, List.cons_append]
      exact ih.trans ((List.Perm.append_left _ hp).trans List.perm_middle)

theorem filterMap_entries : ∀ (calls : List (Env × PaperRecord)),
    (calls.map (fun c => (c.2.PaperHash, encodeRecord c.2))).filterMap
        (fun e : GoString × Bytes => jsonUnmarshal e.2)
      = calls.map (fun c => c.2.coerce)
  | [] => rfl
  | c :: rest => by
    simp only [List.map_cons, List.filterMap_cons, jsonUnmarshal_encodeRecord]
    rw [filterMap_entries rest]

/-- Listing a store filled by calls of `CreatePaperRecord` alone gives, up
to order, the records created, coerced to valid UTF-8. -/
theorem createAll_list (calls : List (Env × PaperRecord)) (ctx : Stub)
    (h : createAll Stub.empty calls = some ctx) :
    (ctx.world.filterMap (fun e => jsonUnmarshal e.2)).Perm (calls.map (fun c => c.2.coerce)) := by
  have hp := createAll_perm calls Stub.empty ctx h
  simp only [Stub.empty, List.append_nil] at hp
  have h2 := hp.filterMap (fun e : GoString × Bytes => jsonUnmarshal e.2)
  rw [filterMap_entries] at h2
  exact h2

/-- Every entry of a store filled by calls of `CreatePaperRecord` alone is
the encoding of the arguments of one of the calls, under its hash. -/
theorem createAll_mem (calls : List (Env × PaperRecord)) (ctx : Stub)
    (h : createAll Stub.empty calls = some ctx) (e : GoString × Bytes) :
    e ∈ ctx.world ↔ ∃ c ∈ calls, e = (c.2.PaperHash, encodeRecord c.2) := by
  have hp := createAll_perm calls Stub.empty ctx h
  simp only [Stub.empty, List.append_nil] at hp
  rw [hp.mem_iff, List.mem_map]
  constructor
  · rintro ⟨c, hc, rfl⟩; exact ⟨c, hc, rfl⟩
  · rintro ⟨c, hc, rfl⟩; exact ⟨c, hc, rfl⟩

theorem lookup_isSome_of_mem (k : GoString) :
    ∀ (w : List (GoString × Bytes)) (v : Bytes), (k, v) ∈ w → (lookup k w).isSome = true
  | [], v, h => by simp at h
  | (k0, v0) :: rest, v, h => by
    by_cases hk : k0 = k
    · simp [lookup, hk]
    · simp only [lookup, hk, if_false]
      rcases List.mem_cons.mp h with h1 | h1
      · simp only [Prod.mk.injEq] at h1
        exact absurd h1.1.symm hk
      · exact lookup_isSome_of_mem k rest v h1

theorem mem_of_lookup (k : GoString) (v : Bytes) :
    ∀ (w : List (GoString × Bytes)), lookup k w = some v → (k, v) ∈ w
  | [], h => by simp [lookup] at h
  | (k0, v0) :: rest, h => by
    by_cases hk : k0 = k
    · simp only [lookup, hk, if_true, Option.some.injEq] at h
      rw [hk, h]; exact List.mem_cons_self _ _
    · simp only [lookup, hk, if_false] at h
      exact List.mem_cons_of_mem _ (mem_of_lookup k v rest h)

/-! ## The claims -/

theorem coerce_scenarioBadAuthor :
    scenarioBadAuthor.coerce = { scenario with Author := replacement } := by decide

theorem coerce_scenarioBadHash :
    scenarioBadHash.coerce = { scenario with PaperHash := replacement } := by decide

theorem errCorrupt_ne_errNotFound (text h : GoString) : errCorrupt text ≠ errNotFound h := by
  intro heq
  have h1 : (errCorrupt text).head? = some 0x66 := rfl
  have h2 : (errNotFound h).head? = some 0x70 := rfl
  rw [heq, h2] at h1
  exact absurd h1 (by decide)

/-- Reading a key after a successful `CreatePaperRecord` on it gives the
arguments coerced to valid UTF-8. -/
theorem create_get_coerce (env env2 : Env) (ctx : Stub) (s h t a i d : GoString)
    (habsent : lookup h ctx.world = none) (hread : env.getStateErr h = none)
    (hwrite : env.putStateErr h (encodeRecord ⟨s, h, t, a, i, d⟩) = none)
    (hevent : env.setEventErr (ascii "PaperRecordCreated") (encodeRecord ⟨s, h, t, a, i, d⟩)
      = none)
    (hread2 : env2.getStateErr h = none) :
    (CreatePaperRecord env ctx s h t a i d).1 = .ok () ∧
    lookup h (CreatePaperRecord env ctx s h t a i d).2.world
      = some (encodeRecord ⟨s, h, t, a, i, d⟩) ∧
    (GetPaperRecord env2 (CreatePaperRecord env ctx s h t a i d).2 h).1
      = .ok (PaperRecord.coerce ⟨s, h, t, a, i, d⟩) := by
  rw [create_ok env ctx _ _ _ _ _ _ habsent hread hwrite hevent]
  have hl : lookup h (putEntry h (encodeRecord ⟨s, h, t, a, i, d⟩) ctx.world)
      = some (encodeRecord ⟨s, h, t, a, i, d⟩) := lookup_putEntry_self _ _ _
  refine ⟨rfl, hl, ?_⟩
  rw [get_ok env2 _ h (encodeRecord ⟨s, h, t, a, i, d⟩) _ hl hread2
    (jsonUnmarshal_encodeRecord _)]

/-- C1, as amended: for every ledger state in which key `h` is absent and
for all argument strings that are valid UTF-8, `CreatePaperRecord` succeeds
(when none of its three stub calls faults), and `GetPaperRecord(h)` on the
resulting state succeeds and returns the record whose six fields are
exactly the six arguments. -/
theorem create_then_get (env : Env) (ctx : Stub)
    (studentId h timestamp author authorId paperDate : GoString)
    (habsent : lookup h ctx.world = none)
    (hvalid : PaperRecord.valid ⟨studentId, h, timestamp, author, authorId, paperDate⟩ = true)
    (hread : env.getStateErr h = none)
    (hwrite : env.putStateErr h
      (encodeRecord ⟨studentId, h, timestamp, author, authorId, paperDate⟩) = none)
    (hevent : env.setEventErr (ascii "PaperRecordCreated")
      (encodeRecord ⟨studentId, h, timestamp, author, authorId, paperDate⟩) = none) :
    (CreatePaperRecord env ctx studentId h timestamp author authorId paperDate).1 = .ok () ∧
    (GetPaperRecord env
        (CreatePaperRecord env ctx studentId h timestamp author authorId paperDate).2 h).1
      = .ok ⟨studentId, h, timestamp, author, authorId, paperDate⟩ := by
  obtain ⟨h1, _, h3⟩ := create_get_coerce env env ctx studentId h timestamp author authorId
    paperDate habsent hread hwrite hevent hread
  rw [PaperRecord.coerce_valid _ hvalid] at h3
  exact ⟨h1, h3⟩

/-- Witness of C1: the scenario of the specification on the empty store. -/
theorem create_then_get_witness :
    (CreatePaperRecord Env.noFault Stub.empty (ascii "S1") (ascii "h1")
        (ascii "2024-01-01T00:00:00Z") (ascii "Alice") (ascii "A1") (ascii "2023-12-01")).1
      = .ok () ∧
    (GetPaperRecord Env.noFault
        (CreatePaperRecord Env.noFault Stub.empty (ascii "S1") (ascii "h1")
          (ascii "2024-01-01T00:00:00Z") (ascii "Alice") (ascii "A1") (ascii "2023-12-01")).2
        (ascii "h1")).1 = .ok scenario :=
  create_then_get Env.noFault Stub.empty (ascii "S1") (ascii "h1")
    (ascii "2024-01-01T00:00:00Z") (ascii "Alice") (ascii "A1") (ascii "2023-12-01")
    rfl (by decide) rfl rfl rfl

/-- Counterexample to C1 as stated: on the empty store, without any fault,
creating the scenario's record with the author name `0xFF` succeeds, and
`GetPaperRecord` then returns U+FFFD as the author, not the argument. -/
theorem create_then_get_counterexample :
    lookup (ascii "h1") Stub.empty.world = none ∧
    (CreatePaperRecord Env.noFault Stub.empty (ascii "S1") (ascii "h1")
        (ascii "2024-01-01T00:00:00Z") [0xFF] (ascii "A1") (ascii "2023-12-01")).1 = .ok () ∧
    (GetPaperRecord Env.noFault
        (CreatePaperRecord Env.noFault Stub.empty (ascii "S1") (ascii "h1")
          (ascii "2024-01-01T00:00:00Z") [0xFF] (ascii "A1") (ascii "2023-12-01")).2
        (ascii "h1")).1 = .ok { scenario with Author := replacement } ∧
    ({ scenario with Author := replacement } : PaperRecord) ≠ scenarioBadAuthor := by
  obtain ⟨h1, _, h3⟩ := create_get_coerce Env.noFault Env.noFault Stub.empty (ascii "S1")
    (ascii "h1") (ascii "2024-01-01T00:00:00Z") [0xFF] (ascii "A1") (ascii "2023-12-01")
    rfl rfl rfl rfl rfl
  exact ⟨rfl, h1, h3.trans (congrArg Except.ok coerce_scenarioBadAuthor), by decide⟩

theorem jsonUnmarshal_scenario : jsonUnmarshal (encodeRecord scenario) = some scenario :=
  (jsonUnmarshal_encodeRecord scenario).trans
    (congrArg some (PaperRecord.coerce_valid scenario (by decide)))

/-- A second `CreatePaperRecord` on the key of a successful one. -/
theorem second_create_fails (env1 env2 envG : Env) (ctx : Stub)
    (s1 h t1 a1 i1 d1 s2 t2 a2 i2 d2 : GoString)
    (hfirst : (CreatePaperRecord env1 ctx s1 h t1 a1 i1 d1).1 = .ok ())
    (hread : env2.getStateErr h = none) (hreadG : envG.getStateErr h = none) :
    CreatePaperRecord env2 (CreatePaperRecord env1 ctx s1 h t1 a1 i1 d1).2 s2 h t2 a2 i2 d2
      = (.error (errAlreadyExists h), (CreatePaperRecord env1 ctx s1 h t1 a1 i1 d1).2) ∧
    lookup h (CreatePaperRecord env1 ctx s1 h t1 a1 i1 d1).2.world
      = some (encodeRecord ⟨s1, h, t1, a1, i1, d1⟩) ∧
    (GetPaperRecord envG (CreatePaperRecord env1 ctx s1 h t1 a1 i1 d1).2 h).1
      = .ok (PaperRecord.coerce ⟨s1, h, t1, a1, i1, d1⟩) := by
  obtain ⟨h1, h2, h3, h4⟩ := create_inv env1 ctx s1 h t1 a1 i1 d1 hfirst
  obtain ⟨_, hl, hg⟩ := create_get_coerce env1 envG ctx s1 h t1 a1 i1 d1 h1 h2 h3 h4 hreadG
  exact ⟨create_exists env2 _ s2 h t2 a2 i2 d2 _ hl hread, hl, hg⟩

/-- C2, as amended: a successful `CreatePaperRecord` with hash `h` followed
immediately by a second `CreatePaperRecord` with the same hash and any
other arguments makes the second call fail with the AlreadyExists error
(its read of the key not faulting); the second call performs no write and
emits no event (the stub after it is the stub before it); and the bytes
stored under `h` remain the encoding of the first call's input, which
`GetPaperRecord` reads back as exactly that input when the six arguments of
the first call are valid UTF-8. -/
theorem create_twice (env1 env2 envG : Env) (ctx : Stub)
    (s1 h t1 a1 i1 d1 s2 t2 a2 i2 d2 : GoString)
    (hfirst : (CreatePaperRecord env1 ctx s1 h t1 a1 i1 d1).1 = .ok ())
    (hread : env2.getStateErr h = none) (hreadG : envG.getStateErr h = none) :
    CreatePaperRecord env2 (CreatePaperRecord env1 ctx s1 h t1 a1 i1 d1).2 s2 h t2 a2 i2 d2
      = (.error (errAlreadyExists h), (CreatePaperRecord env1 ctx s1 h t1 a1 i1 d1).2) ∧
    lookup h
        (CreatePaperRecord env2 (CreatePaperRecord env1 ctx s1 h t1 a1 i1 d1).2
          s2 h t2 a2 i2 d2).2.world
      = some (encodeRecord ⟨s1, h, t1, a1, i1, d1⟩) ∧
    (PaperRecord.valid ⟨s1, h, t1, a1, i1, d1⟩ = true →
      (GetPaperRecord envG
          (CreatePaperRecord env2 (CreatePaperRecord env1 ctx s1 h t1 a1 i1 d1).2
            s2 h t2 a2 i2 d2).2 h).1
        = .ok ⟨s1, h, t1, a1, i1, d1⟩) := by
  obtain ⟨e1, e2, e3⟩ :=
    second_create_fails env1 env2 envG ctx s1 h t1 a1 i1 d1 s2 t2 a2 i2 d2 hfirst hread hreadG
  rw [e1]
  refine ⟨rfl, e2, fun hv => ?_⟩
  rw [PaperRecord.coerce_valid _ hv] at e3
  exact e3

/-- Witness of C2: the scenario created twice on the empty store. -/
theorem create_twice_witness :
    CreatePaperRecord Env.noFault
        (CreatePaperRecord Env.noFault Stub.empty (ascii "S1") (ascii "h1")
          (ascii "2024-01-01T00:00:00Z") (ascii "Alice") (ascii "A1") (ascii "2023-12-01")).2
        (ascii "S2") (ascii "h1") (ascii "t") (ascii "Bob") (ascii "A2") (ascii "d")
      = (.error (errAlreadyExists (ascii "h1")),
          (CreatePaperRecord Env.noFault Stub.empty (ascii "S1") (ascii "h1")
            (ascii "2024-01-01T00:00:00Z") (ascii "Alice") (ascii "A1")
            (ascii "2023-12-01")).2) ∧
    lookup (ascii "h1")
        (CreatePaperRecord Env.noFault
          (CreatePaperRecord Env.noFault Stub.empty (ascii "S1") (ascii "h1")
            (ascii "2024-01-01T00:00:00Z") (ascii "Alice") (ascii "A1") (ascii "2023-12-01")).2
          (ascii "S2") (ascii "h1") (ascii "t") (ascii "Bob") (ascii "A2") (ascii "d")).2.world
      = some (encodeRecord scenario) ∧
    (PaperRecord.valid scenario = true →
      (GetPaperRecord Env.noFault
          (CreatePaperRecord Env.noFault
            (CreatePaperRecord Env.noFault Stub.empty (ascii "S1") (ascii "h1")
              (ascii "2024-01-01T00:00:00Z") (ascii "Alice") (ascii "A1")
              (ascii "2023-12-01")).2
            (ascii "S2") (ascii "h1") (ascii "t") (ascii "Bob") (ascii "A2") (ascii "d")).2
          (ascii "h1")).1
        = .ok scenario) :=
  create_twice Env.noFault Env.noFault Env.noFault Stub.empty (ascii "S1") (ascii "h1")
    (ascii "2024-01-01T00:00:00Z") (ascii "Alice") (ascii "A1") (ascii "2023-12-01")
    (ascii "S2") (ascii "t") (ascii "Bob") (ascii "A2") (ascii "d") rfl rfl rfl

/-- Counterexample to C2 as stated: after the scenario's record with the
author name `0xFF` is created and a second creation under the same hash has
failed, the record that `GetPaperRecord` finds under the hash has U+FFFD as
its author, so it is not equal to the first call's input. -/
theorem create_twice_counterexample :
    (CreatePaperRecord Env.noFault Stub.empty (ascii "S1") (ascii "h1")
        (ascii "2024-01-01T00:00:00Z") [0xFF] (ascii "A1") (ascii "2023-12-01")).1 = .ok () ∧
    (CreatePaperRecord Env.noFault
        (CreatePaperRecord Env.noFault Stub.empty (ascii "S1") (ascii "h1")
          (ascii "2024-01-01T00:00:00Z") [0xFF] (ascii "A1") (ascii "2023-12-01")).2
        (ascii "S1") (ascii "h1") (ascii "2024-01-01T00:00:00Z") [0xFF] (ascii "A1")
        (ascii "2023-12-01")).1 = .error (errAlreadyExists (ascii "h1")) ∧
    (GetPaperRecord Env.noFault
        (CreatePaperRecord Env.noFault
          (CreatePaperRecord Env.noFault Stub.empty (ascii "S1") (ascii "h1")
            (ascii "2024-01-01T00:00:00Z") [0xFF] (ascii "A1") (ascii "2023-12-01")).2
          (ascii "S1") (ascii "h1") (ascii "2024-01-01T00:00:00Z") [0xFF] (ascii "A1")
          (ascii "2023-12-01")).2 (ascii "h1")).1
      = .ok { scenario with Author := replacement } ∧
    ({ scenario with Author := replacement } : PaperRecord) ≠ scenarioBadAuthor := by
  obtain ⟨e1, _, e3⟩ := second_create_fails Env.noFault Env.noFault Env.noFault Stub.empty
    (ascii "S1") (ascii "h1") (ascii "2024-01-01T00:00:00Z") [0xFF] (ascii "A1")
    (ascii "2023-12-01") (ascii "S1") (ascii "2024-01-01T00:00:00Z") [0xFF] (ascii "A1")
    (ascii "2023-12-01") rfl rfl rfl
  refine ⟨rfl, by rw [e1], ?_, by decide⟩
  rw [e1]
  exact e3.trans (congrArg Except.ok coerce_scenarioBadAuthor)

/-- The record under a key after a successful `UpdatePaperRecord`. -/
theorem update_aux (env : Env) (ctx : Stub) (h t2 : GoString) (b : Bytes) (r : PaperRecord)
    (hpres : lookup h ctx.world = some b) (hdec : jsonUnmarshal b = some r)
    (hread : env.getStateErr h = none)
    (hwrite : env.putStateErr h (encodeRecord { r with Timestamp := t2 }) = none)
    (hevent : env.setEventErr (ascii "PaperRecordUpdated")
      (encodeRecord { r with Timestamp := t2 }) = none) :
    (UpdatePaperRecord env ctx h t2).1 = .ok () ∧
    (lookup h (UpdatePaperRecord env ctx h t2).2.world).bind jsonUnmarshal
      = some { r with Timestamp := coerceUTF8 t2 } := by
  rw [update_ok env ctx h t2 b r hpres hdec hread hwrite hevent]
  refine ⟨rfl, ?_⟩
  have hl : lookup h (putEntry h (encodeRecord { r with Timestamp := t2 }) ctx.world)
      = some (encodeRecord { r with Timestamp := t2 }) := lookup_putEntry_self _ _ _
  dsimp only
  rw [hl, Option.some_bind, jsonUnmarshal_encodeRecord]
  have hv := jsonUnmarshal_valid b r hdec
  unfold PaperRecord.valid at hv
  simp only [Bool.and_eq_true] at hv
  obtain ⟨⟨⟨⟨⟨h1, h2⟩, h3⟩, h4⟩, h5⟩, h6⟩ := hv
  simp only [PaperRecord.coerce, coerceUTF8_valid _ h1, coerceUTF8_valid _ h2,
    coerceUTF8_valid _ h4, coerceUTF8_valid _ h5, coerceUTF8_valid _ h6]

/-- C3, as amended: for every ledger state in which key `h` holds bytes that
decode to a record `r`, and for every string `t2` that is valid UTF-8,
`UpdatePaperRecord(h, t2)` succeeds (when none of its three stub calls
faults), and the bytes then stored under `h` decode to a record with
`timestamp = t2` and with `studentId`, `paperHash`, `author`, `authorId`
and `paperDate` each equal to the corresponding field of `r`. -/
theorem update_changes_only_timestamp (env : Env) (ctx : Stub) (h t2 : GoString) (b : Bytes)
    (r : PaperRecord)
    (hpres : lookup h ctx.world = some b) (hdec : jsonUnmarshal b = some r)
    (hvalid : validUTF8 t2 = true)
    (hread : env.getStateErr h = none)
    (hwrite : env.putStateErr h (encodeRecord { r with Timestamp := t2 }) = none)
    (hevent : env.setEventErr (ascii "PaperRecordUpdated")
      (encodeRecord { r with Timestamp := t2 }) = none) :
    (UpdatePaperRecord env ctx h t2).1 = .ok () ∧
    ∃ r', (lookup h (UpdatePaperRecord env ctx h t2).2.world).bind jsonUnmarshal = some r' ∧
      r'.Timestamp = t2 ∧ r'.StudentID = r.StudentID ∧ r'.PaperHash = r.PaperHash ∧
      r'.Author = r.Author ∧ r'.AuthorID = r.AuthorID ∧ r'.PaperDate = r.PaperDate := by
  obtain ⟨h1, h2⟩ := update_aux env ctx h t2 b r hpres hdec hread hwrite hevent
  exact ⟨h1, _, h2, coerceUTF8_valid t2 hvalid, rfl, rfl, rfl, rfl, rfl⟩

/-- Witness of C3: the scenario's record given the timestamp of the
scenario's update. -/
theorem update_changes_only_timestamp_witness :
    (UpdatePaperRecord Env.noFault scenarioStub (ascii "h1") (ascii "2024-02-01T00:00:00Z")).1
      = .ok () ∧
    ∃ r', (lookup (ascii "h1") (UpdatePaperRecord Env.noFault scenarioStub (ascii "h1")
        (ascii "2024-02-01T00:00:00Z")).2.world).bind jsonUnmarshal = some r' ∧
      r'.Timestamp = ascii "2024-02-01T00:00:00Z" ∧ r'.StudentID = scenario.StudentID ∧
      r'.PaperHash = scenario.PaperHash ∧ r'.Author = scenario.Author ∧
      r'.AuthorID = scenario.AuthorID ∧ r'.PaperDate = scenario.PaperDate :=
  update_changes_only_timestamp Env.noFault scenarioStub (ascii "h1")
    (ascii "2024-02-01T00:00:00Z") (encodeRecord scenario) scenario rfl jsonUnmarshal_scenario
    (by decide) rfl rfl rfl

/-- Counterexample to C3 as stated: the store holds the scenario's record
under `h1`; `UpdatePaperRecord(h1, t2)` with `t2` the single byte `0xFF`
succeeds, and the record then stored has U+FFFD as its timestamp, not
`t2`. -/
theorem update_changes_only_timestamp_counterexample :
    lookup (ascii "h1") scenarioStub.world = some (encodeRecord scenario) ∧
    jsonUnmarshal (encodeRecord scenario) = some scenario ∧
    (UpdatePaperRecord Env.noFault scenarioStub (ascii "h1") [0xFF]).1 = .ok () ∧
    (lookup (ascii "h1") (UpdatePaperRecord Env.noFault scenarioStub (ascii "h1")
        [0xFF]).2.world).bind jsonUnmarshal = some { scenario with Timestamp := replacement } ∧
    replacement ≠ [0xFF] := by
  obtain ⟨h1, h2⟩ := update_aux Env.noFault scenarioStub (ascii "h1") [0xFF]
    (encodeRecord scenario) scenario rfl jsonUnmarshal_scenario rfl rfl rfl
  exact ⟨rfl, jsonUnmarshal_scenario, h1, h2, by decide⟩

/-- C4: for every ledger state in which key `h` is absent and every string
`t2`, `UpdatePaperRecord(h, t2)` fails with the NotFound error, performs no
write and emits no event (the stub after the call is the stub before it),
and a subsequent `GetPaperRecord(h)` still fails with NotFound.  The reads
of the two calls are taken not to fault. -/
theorem update_absent_not_found (env envG : Env) (ctx : Stub) (h t2 : GoString)
    (habsent : lookup h ctx.world = none) (hread : env.getStateErr h = none)
    (hreadG : envG.getStateErr h = none) :
    UpdatePaperRecord env ctx h t2 = (.error (errNotFound h), ctx) ∧
    (GetPaperRecord envG (UpdatePaperRecord env ctx h t2).2 h).1 = .error (errNotFound h) := by
  have hu := update_absent env ctx h t2 habsent hread
  refine ⟨hu, ?_⟩
  rw [hu, get_absent envG ctx h habsent hreadG]
  rfl

/-- Witness of C4: an update of `h1` on the empty store. -/
theorem update_absent_not_found_witness :
    UpdatePaperRecord Env.noFault Stub.empty (ascii "h1") (ascii "2024-02-01T00:00:00Z")
      = (.error (errNotFound (ascii "h1")), Stub.empty) ∧
    (GetPaperRecord Env.noFault
        (UpdatePaperRecord Env.noFault Stub.empty (ascii "h1")
          (ascii "2024-02-01T00:00:00Z")).2 (ascii "h1")).1
      = .error (errNotFound (ascii "h1")) :=
  update_absent_not_found Env.noFault Env.noFault Stub.empty (ascii "h1")
    (ascii "2024-02-01T00:00:00Z") rfl rfl rfl

/-- C5: for every ledger state and key `h` whose read does not fault,
`GetPaperRecord(h)` fails with NotFound if and only if `h` is absent, fails
with Corrupt if and only if `h` is present and its stored bytes fail to
decode, and otherwise returns exactly the decoding of the stored bytes; no
Corrupt error is equal to a NotFound error. -/
theorem get_outcomes (env : Env) (ctx : Stub) (h : GoString)
    (hread : env.getStateErr h = none) :
    ((GetPaperRecord env ctx h).1 = .error (errNotFound h) ↔ lookup h ctx.world = none) ∧
    ((∃ text, (GetPaperRecord env ctx h).1 = .error (errCorrupt text)) ↔
      ∃ b, lookup h ctx.world = some b ∧ jsonUnmarshal b = none) ∧
    (∀ b r, lookup h ctx.world = some b → jsonUnmarshal b = some r →
      (GetPaperRecord env ctx h).1 = .ok r) ∧
    (∀ text h', errCorrupt text ≠ errNotFound h') := by
  refine ⟨?_, ?_, ?_, errCorrupt_ne_errNotFound⟩
  · constructor
    · intro hres
      cases hl : lookup h ctx.world with
      | none => rfl
      | some b =>
        cases hd : jsonUnmarshal b with
        | none =>
          rw [get_corrupt env ctx h b hl hread hd] at hres
          simp only [Except.error.injEq] at hres
          exact absurd hres (errCorrupt_ne_errNotFound _ _)
        | some r =>
          rw [get_ok env ctx h b r hl hread hd] at hres
          exact absurd hres (by simp)
    · intro hl
      rw [get_absent env ctx h hl hread]
      rfl
  · constructor
    · rintro ⟨text, hres⟩
      cases hl : lookup h ctx.world with
      | none =>
        rw [get_absent env ctx h hl hread] at hres
        simp only [Except.error.injEq] at hres
        exact absurd hres.symm (errCorrupt_ne_errNotFound _ _)
      | some b =>
        cases hd : jsonUnmarshal b with
        | none => exact ⟨b, rfl, hd⟩
        | some r =>
          rw [get_ok env ctx h b r hl hread hd] at hres
          exact absurd hres (by simp)
    · rintro ⟨b, hl, hd⟩
      exact ⟨env.unmarshalErr b, by rw [get_corrupt env ctx h b hl hread hd]; rfl⟩
  · intro b r hl hd
    rw [get_ok env ctx h b r hl hread hd]

/-- Witness of C5: reading `h1` in the store of the scenario. -/
theorem get_outcomes_witness :
    ((GetPaperRecord Env.noFault scenarioStub (ascii "h1")).1 = .error (errNotFound (ascii "h1"))
      ↔ lookup (ascii "h1") scenarioStub.world = none) ∧
    ((∃ text, (GetPaperRecord Env.noFault scenarioStub (ascii "h1")).1
        = .error (errCorrupt text)) ↔
      ∃ b, lookup (ascii "h1") scenarioStub.world = some b ∧ jsonUnmarshal b = none) ∧
    (∀ b r, lookup (ascii "h1") scenarioStub.world = some b → jsonUnmarshal b = some r →
      (GetPaperRecord Env.noFault scenarioStub (ascii "h1")).1 = .ok r) ∧
    (∀ text h', errCorrupt text ≠ errNotFound h') :=
  get_outcomes Env.noFault scenarioStub (ascii "h1") rfl

/-- C6: starting from a state in which key `h` is absent,
`VerifyPaperRecord(h)` returns false; after a successful
`CreatePaperRecord` with hash `h` it returns true; and it still returns
true after any finite sequence of subsequent `UpdatePaperRecord`
transactions, on `h` or on any other key, successful or failing.  The reads
of `VerifyPaperRecord` are taken not to fault. -/
theorem verify_before_and_after (envV envC : Env) (ctx : Stub) (s h t a i d : GoString)
    (updates : List (Env × GoString × GoString))
    (habsent : lookup h ctx.world = none) (hread : envV.getStateErr h = none)
    (hcreate : (CreatePaperRecord envC ctx s h t a i d).1 = .ok ()) :
    (VerifyPaperRecord envV ctx h).1 = .ok false ∧
    (VerifyPaperRecord envV (CreatePaperRecord envC ctx s h t a i d).2 h).1 = .ok true ∧
    (VerifyPaperRecord envV (updateAll (CreatePaperRecord envC ctx s h t a i d).2 updates) h).1
      = .ok true := by
  obtain ⟨h1, h2, h3, h4⟩ := create_inv envC ctx s h t a i d hcreate
  obtain ⟨_, hl, _⟩ := create_get_coerce envC envV ctx s h t a i d h1 h2 h3 h4 hread
  have hp : (lookup h (CreatePaperRecord envC ctx s h t a i d).2.world).isSome = true := by
    rw [hl]; rfl
  refine ⟨?_, ?_, ?_⟩
  · rw [verify_ok envV ctx h hread, habsent]; rfl
  · rw [verify_ok envV _ h hread, hp]
  · rw [verify_ok envV _ h hread, updateAll_present h updates _ hp]

/-- Witness of C6: the scenario followed by a successful update of `h1` and
a failing update of the absent key `h2`. -/
theorem verify_before_and_after_witness :
    (VerifyPaperRecord Env.noFault Stub.empty (ascii "h1")).1 = .ok false ∧
    (VerifyPaperRecord Env.noFault
        (CreatePaperRecord Env.noFault Stub.empty (ascii "S1") (ascii "h1")
          (ascii "2024-01-01T00:00:00Z") (ascii "Alice") (ascii "A1") (ascii "2023-12-01")).2
        (ascii "h1")).1 = .ok true ∧
    (VerifyPaperRecord Env.noFault
        (updateAll
          (CreatePaperRecord Env.noFault Stub.empty (ascii "S1") (ascii "h1")
            (ascii "2024-01-01T00:00:00Z") (ascii "Alice") (ascii "A1") (ascii "2023-12-01")).2
          [(Env.noFault, ascii "h1", ascii "2024-02-01T00:00:00Z"),
           (Env.noFault, ascii "h2", ascii "2024-03-01T00:00:00Z")])
        (ascii "h1")).1 = .ok true :=
  verify_before_and_after Env.noFault Env.noFault Stub.empty (ascii "S1") (ascii "h1")
    (ascii "2024-01-01T00:00:00Z") (ascii "Alice") (ascii "A1") (ascii "2023-12-01")
    [(Env.noFault, ascii "h1", ascii "2024-02-01T00:00:00Z"),
     (Env.noFault, ascii "h2", ascii "2024-03-01T00:00:00Z")] rfl rfl rfl

/-- C7, as amended: once a record has been created under hash `h` with
fields `(studentId, h, timestamp, author, authorId, paperDate)` of which
`studentId`, `h`, `author`, `authorId` and `paperDate` are valid UTF-8,
then after any finite sequence of further transactions (Create, Update,
Get, Verify, List, InitLedger with arbitrary arguments, successful or
failing) `GetPaperRecord(h)`, its read not faulting, returns a record whose
`studentId`, `paperHash`, `author`, `authorId` and `paperDate` equal the
values given at creation; only `timestamp` may differ. -/
theorem identity_fields_never_change (envC envG : Env) (ctx : Stub) (s h t a i d : GoString)
    (calls : List (Env × Call))
    (hcreate : (CreatePaperRecord envC ctx s h t a i d).1 = .ok ())
    (hs : validUTF8 s = true) (hh : validUTF8 h = true) (ha : validUTF8 a = true)
    (hi : validUTF8 i = true) (hd : validUTF8 d = true)
    (hread : envG.getStateErr h = none) :
    ∃ r, (GetPaperRecord envG (execAll (CreatePaperRecord envC ctx s h t a i d).2 calls) h).1
        = .ok r ∧
      r.StudentID = s ∧ r.PaperHash = h ∧ r.Author = a ∧ r.AuthorID = i ∧ r.PaperDate = d := by
  obtain ⟨h1, h2, h3, h4⟩ := create_inv envC ctx s h t a i d hcreate
  obtain ⟨_, hl, _⟩ := create_get_coerce envC envG ctx s h t a i d h1 h2 h3 h4 hread
  obtain ⟨ts, hts⟩ := execAll_identity s h a i d hs hh ha hi hd calls _ ⟨t, hl⟩
  refine ⟨PaperRecord.coerce ⟨s, h, ts, a, i, d⟩, ?_, ?_⟩
  · rw [get_ok envG _ h _ _ hts hread (jsonUnmarshal_encodeRecord _)]
  · exact ⟨coerceUTF8_valid s hs, coerceUTF8_valid h hh, coerceUTF8_valid a ha,
      coerceUTF8_valid i hi, coerceUTF8_valid d hd⟩

/-- Witness of C7: the scenario followed by an update of `h1`, a second
creation under `h1`, a creation under `h2` and a listing. -/
theorem identity_fields_never_change_witness :
    ∃ r, (GetPaperRecord Env.noFault
        (execAll
          (CreatePaperRecord Env.noFault Stub.empty (ascii "S1") (ascii "h1")
            (ascii "2024-01-01T00:00:00Z") (ascii "Alice") (ascii "A1") (ascii "2023-12-01")).2
          [(Env.noFault, Call.update (ascii "h1") (ascii "2024-02-01T00:00:00Z")),
           (Env.noFault, Call.create (ascii "S2") (ascii "h1") (ascii "t") (ascii "Bob")
              (ascii "A2") (ascii "d")),
           (Env.noFault, Call.create (ascii "S2") (ascii "h2") (ascii "t") (ascii "Bob")
              (ascii "A2") (ascii "d")),
           (Env.noFault, Call.list)])
        (ascii "h1")).1 = .ok r ∧
      r.StudentID = ascii "S1" ∧ r.PaperHash = ascii "h1" ∧ r.Author = ascii "Alice" ∧
      r.AuthorID = ascii "A1" ∧ r.PaperDate = ascii "2023-12-01" :=
  identity_fields_never_change Env.noFault Env.noFault Stub.empty (ascii "S1") (ascii "h1")
    (ascii "2024-01-01T00:00:00Z") (ascii "Alice") (ascii "A1") (ascii "2023-12-01")
    [(Env.noFault, Call.update (ascii "h1") (ascii "2024-02-01T00:00:00Z")),
     (Env.noFault, Call.create (ascii "S2") (ascii "h1") (ascii "t") (ascii "Bob")
        (ascii "A2") (ascii "d")),
     (Env.noFault, Call.create (ascii "S2") (ascii "h2") (ascii "t") (ascii "Bob")
        (ascii "A2") (ascii "d")),
     (Env.noFault, Call.list)]
    rfl (by decide) (by decide) (by decide) (by decide) (by decide) rfl

/-- Counterexample to C7 as stated: the scenario's record is created with
the author name `0xFF` and no further operation takes place;
`GetPaperRecord` returns U+FFFD as the author, not the value given at
creation. -/
theorem identity_fields_never_change_counterexample :
    (CreatePaperRecord Env.noFault Stub.empty (ascii "S1") (ascii "h1")
        (ascii "2024-01-01T00:00:00Z") [0xFF] (ascii "A1") (ascii "2023-12-01")).1 = .ok () ∧
    (GetPaperRecord Env.noFault
        (execAll
          (CreatePaperRecord Env.noFault Stub.empty (ascii "S1") (ascii "h1")
            (ascii "2024-01-01T00:00:00Z") [0xFF] (ascii "A1") (ascii "2023-12-01")).2 [])
        (ascii "h1")).1 = .ok { scenario with Author := replacement } ∧
    ({ scenario with Author := replacement } : PaperRecord).Author ≠ [0xFF] := by
  obtain ⟨h1, _, h3⟩ := create_get_coerce Env.noFault Env.noFault Stub.empty (ascii "S1")
    (ascii "h1") (ascii "2024-01-01T00:00:00Z") [0xFF] (ascii "A1") (ascii "2023-12-01")
    rfl rfl rfl rfl rfl
  exact ⟨h1, h3.trans (congrArg Except.ok coerce_scenarioBadAuthor), by decide⟩

/-- C8, as amended: starting from the empty store, after N successful
`CreatePaperRecord` calls (their hashes are then pairwise distinct),
`GetAllPaperRecords`, its scan not faulting, succeeds and yields exactly N
records; and when the N hashes are valid UTF-8, the set of `paperHash`
values of the yielded records equals the set of the N hashes created. -/
theorem list_after_creates (calls : List (Env × PaperRecord)) (ctx : Stub) (envL : Env)
    (hcreated : createAll Stub.empty calls = some ctx)
    (hrange : envL.getStateByRangeErr = none) (hnext : ∀ i, envL.nextErr i = none) :
    ∃ recs, (GetAllPaperRecords envL ctx).1 = .ok recs ∧ recs.length = calls.length ∧
      ((∀ c ∈ calls, validUTF8 c.2.PaperHash = true) →
        ∀ h, h ∈ recs.map PaperRecord.PaperHash ↔ h ∈ calls.map (fun c => c.2.PaperHash)) := by
  have hp := createAll_list calls ctx hcreated
  refine ⟨_, by rw [getAll_ok envL ctx hrange hnext], ?_, ?_⟩
  · rw [hp.length_eq, List.length_map]
  · intro hv h
    rw [(hp.map PaperRecord.PaperHash).mem_iff]
    simp only [List.mem_map]
    constructor
    · rintro ⟨r, ⟨c, hc, rfl⟩, rfl⟩
      exact ⟨c, hc, (coerceUTF8_valid _ (hv c hc)).symm⟩
    · rintro ⟨c, hc, rfl⟩
      exact ⟨c.2.coerce, ⟨c, hc, rfl⟩, coerceUTF8_valid _ (hv c hc)⟩

/-- Witness of C8: the two records created on the empty store. -/
theorem list_after_creates_witness :
    ∃ recs, (GetAllPaperRecords Env.noFault twoRecordStub).1 = .ok recs ∧
      recs.length = [(Env.noFault, scenario), (Env.noFault, scenarioSecond)].length ∧
      ((∀ c ∈ [(Env.noFault, scenario), (Env.noFault, scenarioSecond)],
          validUTF8 c.2.PaperHash = true) →
        ∀ h, h ∈ recs.map PaperRecord.PaperHash ↔
          h ∈ [(Env.noFault, scenario), (Env.noFault, scenarioSecond)].map
            (fun c => c.2.PaperHash)) :=
  list_after_creates [(Env.noFault, scenario), (Env.noFault, scenarioSecond)] twoRecordStub
    Env.noFault rfl rfl (fun _ => rfl)

/-- Counterexample to C8 as stated: one record is created on the empty
store under the hash `0xFF`; the listing yields one record, whose
`paperHash` is U+FFFD, so the hash created is not among the `paperHash`
values yielded. -/
theorem list_after_creates_counterexample :
    createAll Stub.empty [(Env.noFault, scenarioBadHash)] = some badHashStub ∧
    (GetAllPaperRecords Env.noFault badHashStub).1
      = .ok [{ scenario with PaperHash := replacement }] ∧
    ¬ (∀ h, h ∈ [({ scenario with PaperHash := replacement } : PaperRecord)].map
          PaperRecord.PaperHash ↔
        h ∈ [(Env.noFault, scenarioBadHash)].map (fun c => c.2.PaperHash)) := by
  refine ⟨rfl, ?_, ?_⟩
  · rw [getAll_ok Env.noFault badHashStub rfl (fun _ => rfl)]
    show Except.ok ([(([0xFF] : GoString), encodeRecord scenarioBadHash)].filterMap
      (fun e => jsonUnmarshal e.2)) = _
    simp only [List.filterMap_cons, jsonUnmarshal_encodeRecord, List.filterMap_nil,
      coerce_scenarioBadHash]
  · intro hall
    have h1 := (hall [0xFF]).mpr (by simp [scenarioBadHash])
    revert h1
    decide

/-- C9, as amended: after N successful `CreatePaperRecord` calls on the empty
store, if the bytes stored under one of the hashes created are then
overwritten directly in the ledger by any bytes `bad`, `GetAllPaperRecords`,
its scan not faulting, does not fail.  Before the overwrite it yields N
records, which are, up to order, the N records created as the codec reads
them back, with the record created under that hash at the place of its key.
After it, the records of all the other entries are as before and in the
same order; when `bad` fails to decode the overwritten entry is skipped and
exactly N−1 records are yielded, and when `bad` decodes the record it
decodes to is yielded at the place of the key. -/
theorem list_skips_corrupted (calls : List (Env × PaperRecord)) (ctx : Stub) (envL : Env)
    (k : GoString) (bad : Bytes)
    (hcreated : createAll Stub.empty calls = some ctx)
    (hk : k ∈ calls.map (fun c => c.2.PaperHash))
    (hrange : envL.getStateByRangeErr = none) (hnext : ∀ i, envL.nextErr i = none) :
    ∃ (c : Env × PaperRecord) (w1 w2 : List (GoString × Bytes)),
      c ∈ calls ∧ c.2.PaperHash = k ∧
      ctx.world = w1 ++ (k, encodeRecord c.2) :: w2 ∧
      putEntry k bad ctx.world = w1 ++ (k, bad) :: w2 ∧
      (GetAllPaperRecords envL ctx).1
        = .ok (w1.filterMap (fun e => jsonUnmarshal e.2) ++ c.2.coerce ::
            w2.filterMap (fun e => jsonUnmarshal e.2)) ∧
      (w1.filterMap (fun e => jsonUnmarshal e.2) ++ c.2.coerce ::
          w2.filterMap (fun e => jsonUnmarshal e.2)).Perm
        (calls.map (fun c0 => c0.2.coerce)) ∧
      (w1.filterMap (fun e => jsonUnmarshal e.2)).length
        + (w2.filterMap (fun e => jsonUnmarshal e.2)).length + 1 = calls.length ∧
      (jsonUnmarshal bad = none →
        (GetAllPaperRecords envL { ctx with world := putEntry k bad ctx.world }).1
          = .ok (w1.filterMap (fun e => jsonUnmarshal e.2) ++
              w2.filterMap (fun e => jsonUnmarshal e.2))) ∧
      (∀ r, jsonUnmarshal bad = some r →
        (GetAllPaperRecords envL { ctx with world := putEntry k bad ctx.world }).1
          = .ok (w1.filterMap (fun e => jsonUnmarshal e.2) ++ r ::
              w2.filterMap (fun e => jsonUnmarshal e.2))) := by
  have hp := createAll_list calls ctx hcreated
  obtain ⟨c, hc, hck⟩ := List.mem_map.mp hk
  have hmem : (k, encodeRecord c.2) ∈ ctx.world :=
    (createAll_mem calls ctx hcreated _).mpr ⟨c, hc, by rw [hck]⟩
  have hsome := lookup_isSome_of_mem k ctx.world _ hmem
  obtain ⟨old, hold⟩ := Option.isSome_iff_exists.mp hsome
  obtain ⟨c', hc', hce⟩ := (createAll_mem calls ctx hcreated _).mp (mem_of_lookup k old _ hold)
  simp only [Prod.mk.injEq] at hce
  obtain ⟨hk', hold'⟩ := hce
  obtain ⟨l1, l2, hw, hw'⟩ := putEntry_split k bad old ctx.world hold
  have hlen : (ctx.world.filterMap (fun e => jsonUnmarshal e.2)).length = calls.length := by
    rw [hp.length_eq, List.length_map]
  have hrecs : ctx.world.filterMap (fun e => jsonUnmarshal e.2)
      = l1.filterMap (fun e => jsonUnmarshal e.2) ++ c'.2.coerce ::
          l2.filterMap (fun e => jsonUnmarshal e.2) := by
    rw [hw, List.filterMap_append, List.filterMap_cons]
    simp only [hold', jsonUnmarshal_encodeRecord]
  refine ⟨c', l1, l2, hc', hk'.symm, by rw [hw, hold'], hw', ?_, ?_, ?_, ?_, ?_⟩
  · rw [getAll_ok envL ctx hrange hnext, hrecs]
  · rw [← hrecs]
    exact hp
  · rw [← hlen, hrecs]
    simp only [List.length_append, List.length_cons]
    omega
  · intro hbad
    rw [getAll_ok envL _ hrange hnext]
    show Except.ok ((putEntry k bad ctx.world).filterMap (fun e => jsonUnmarshal e.2)) = _
    rw [hw', List.filterMap_append, List.filterMap_cons]
    simp only [hbad]
  · intro r hr
    rw [getAll_ok envL _ hrange hnext]
    show Except.ok ((putEntry k bad ctx.world).filterMap (fun e => jsonUnmarshal e.2)) = _
    rw [hw', List.filterMap_append, List.filterMap_cons]
    simp only [hr]

/-- Witness of C9: the two records created on the empty store, and the
bytes under `h1` overwritten by the four bytes `oops`. -/
theorem list_skips_corrupted_witness :
    ∃ (c : Env × PaperRecord) (w1 w2 : List (GoString × Bytes)),
      c ∈ [(Env.noFault, scenario), (Env.noFault, scenarioSecond)] ∧
      c.2.PaperHash = ascii "h1" ∧
      twoRecordStub.world = w1 ++ (ascii "h1", encodeRecord c.2) :: w2 ∧
      putEntry (ascii "h1") (ascii "oops") twoRecordStub.world
        = w1 ++ (ascii "h1", ascii "oops") :: w2 ∧
      (GetAllPaperRecords Env.noFault twoRecordStub).1
        = .ok (w1.filterMap (fun e => jsonUnmarshal e.2) ++ c.2.coerce ::
            w2.filterMap (fun e => jsonUnmarshal e.2)) ∧
      (w1.filterMap (fun e => jsonUnmarshal e.2) ++ c.2.coerce ::
          w2.filterMap (fun e => jsonUnmarshal e.2)).Perm
        ([(Env.noFault, scenario), (Env.noFault, scenarioSecond)].map
          (fun c0 => c0.2.coerce)) ∧
      (w1.filterMap (fun e => jsonUnmarshal e.2)).length
        + (w2.filterMap (fun e => jsonUnmarshal e.2)).length + 1
        = [(Env.noFault, scenario), (Env.noFault, scenarioSecond)].length ∧
      (jsonUnmarshal (ascii "oops") = none →
        (GetAllPaperRecords Env.noFault
          { twoRecordStub with
            world := putEntry (ascii "h1") (ascii "oops") twoRecordStub.world }).1
          = .ok (w1.filterMap (fun e => jsonUnmarshal e.2) ++
              w2.filterMap (fun e => jsonUnmarshal e.2))) ∧
      (∀ r, jsonUnmarshal (ascii "oops") = some r →
        (GetAllPaperRecords Env.noFault
          { twoRecordStub with
            world := putEntry (ascii "h1") (ascii "oops") twoRecordStub.world }).1
          = .ok (w1.filterMap (fun e => jsonUnmarshal e.2) ++ r ::
              w2.filterMap (fun e => jsonUnmarshal e.2))) :=
  list_skips_corrupted [(Env.noFault, scenario), (Env.noFault, scenarioSecond)] twoRecordStub
    Env.noFault (ascii "h1") (ascii "oops") rfl (by decide) rfl (fun _ => rfl)

set_option maxRecDepth 1000000 in
/-- Counterexample to C9 as stated: two records are created on the empty
store, and the bytes under `h1` are then overwritten by the four bytes
`null`, which are not the encoding of the record created.  The listing
yields two records, not one: the overwritten entry is not skipped, it is
listed as the record with empty fields, which is neither of the records
created. -/
theorem list_skips_corrupted_counterexample :
    createAll Stub.empty [(Env.noFault, scenario), (Env.noFault, scenarioSecond)]
      = some twoRecordStub ∧
    encodeRecord scenario ≠ ascii "null" ∧
    (GetAllPaperRecords Env.noFault
      { twoRecordStub with
        world := putEntry (ascii "h1") (ascii "null") twoRecordStub.world }).1
      = .ok [PaperRecord.zero, scenarioSecond] ∧
    [PaperRecord.zero, scenarioSecond].length
      ≠ [(Env.noFault, scenario), (Env.noFault, scenarioSecond)].length - 1 ∧
    PaperRecord.zero ≠ scenario ∧ PaperRecord.zero ≠ scenarioSecond := by
  refine ⟨rfl, ?_, ?_, by decide, by decide, by decide⟩
  · intro h
    have hl := congrArg List.length h
    revert hl
    decide
  · rw [getAll_ok Env.noFault _ rfl (fun _ => rfl)]
    show Except.ok ([(ascii "h1", ascii "null"),
      (ascii "h2", encodeRecord scenarioSecond)].filterMap (fun e => jsonUnmarshal e.2)) = _
    have h1 : jsonUnmarshal (ascii "null") = some PaperRecord.zero := by decide
    simp only [List.filterMap_cons, h1, jsonUnmarshal_encodeRecord, List.filterMap_nil,
      PaperRecord.coerce_valid scenarioSecond (by decide)]

/-- C10, as amended: the record codec round-trips every field exactly for
every `PaperRecord` whose six fields are valid UTF-8: encoding succeeds,
and decoding the encoding succeeds and returns the record itself. -/
theorem codec_roundtrip (r : PaperRecord) (hvalid : r.valid = true) :
    ∃ data, jsonMarshal r = .ok data ∧ jsonUnmarshal data = some r :=
  ⟨encodeRecord r, rfl,
    (jsonUnmarshal_encodeRecord r).trans (congrArg some (PaperRecord.coerce_valid r hvalid))⟩

/-- Witness of C10: the record of the scenario. -/
theorem codec_roundtrip_witness :
    ∃ data, jsonMarshal scenario = .ok data ∧ jsonUnmarshal data = some scenario :=
  codec_roundtrip scenario (by decide)

/-- Counterexample to C10 as stated: the scenario's record with the author
name `0xFF` encodes, and its encoding decodes to a record whose author is
U+FFFD, which is not the record encoded. -/
theorem codec_roundtrip_counterexample :
    jsonMarshal scenarioBadAuthor = .ok (encodeRecord scenarioBadAuthor) ∧
    jsonUnmarshal (encodeRecord scenarioBadAuthor)
      = some { scenario with Author := replacement } ∧
    ({ scenario with Author := replacement } : PaperRecord) ≠ scenarioBadAuthor :=
  ⟨rfl, (jsonUnmarshal_encodeRecord scenarioBadAuthor).trans
    (congrArg some coerce_scenarioBadAuthor), by decide⟩

/-! ## Outcomes of the two writing functions -/

/-- The three ways `CreatePaperRecord` can end: an error before any write,
a fault at the emission of the event after the write, or success. -/
theorem create_cases (env : Env) (ctx : Stub) (s h t a i d : GoString) :
    (∃ e, CreatePaperRecord env ctx s h t a i d = (.error e, ctx)) ∨
    (∃ text, lookup h ctx.world = none ∧ CreatePaperRecord env ctx s h t a i d =
      (.error (errEvent text),
        { ctx with world := putEntry h (encodeRecord ⟨s, h, t, a, i, d⟩) ctx.world })) ∨
    (lookup h ctx.world = none ∧ CreatePaperRecord env ctx s h t a i d =
      (.ok (), { world := putEntry h (encodeRecord ⟨s, h, t, a, i, d⟩) ctx.world,
                 events := ctx.events
                   ++ [(ascii "PaperRecordCreated", encodeRecord ⟨s, h, t, a, i, d⟩)] })) := by
  unfold CreatePaperRecord Stub.GetState
  cases hread : env.getStateErr h with
  | some e => exact Or.inl ⟨_, rfl⟩
  | none =>
    simp only
    cases hl : lookup h ctx.world with
    | some b =>
      left
      simp only [ne_eq, reduceCtorEq, not_false_eq_true, if_true]
      exact ⟨_, rfl⟩
    | none =>
      simp only [ne_eq, not_true_eq_false, if_false, jsonMarshal, Stub.PutState]
      cases hw : env.putStateErr h (encodeRecord ⟨s, h, t, a, i, d⟩) with
      | some e => exact Or.inl ⟨_, rfl⟩
      | none =>
        simp only [Stub.SetEvent]
        cases he : env.setEventErr (ascii "PaperRecordCreated")
            (encodeRecord ⟨s, h, t, a, i, d⟩) with
        | some e => exact Or.inr (Or.inl ⟨e, trivial, rfl⟩)
        | none => exact Or.inr (Or.inr ⟨trivial, rfl⟩)

/-- The three ways `UpdatePaperRecord` can end: an error before any write,
a fault at the emission of the event after the write, or success. -/
theorem update_cases (env : Env) (ctx : Stub) (h t2 : GoString) :
    (∃ e, UpdatePaperRecord env ctx h t2 = (.error e, ctx)) ∨
    (∃ b r text, lookup h ctx.world = some b ∧ jsonUnmarshal b = some r ∧
      UpdatePaperRecord env ctx h t2 =
        (.error (errEvent text),
          { ctx with world := putEntry h (encodeRecord { r with Timestamp := t2 }) ctx.world })) ∨
    (∃ b r, lookup h ctx.world = some b ∧ jsonUnmarshal b = some r ∧
      UpdatePaperRecord env ctx h t2 =
        (.ok (), { world := putEntry h (encodeRecord { r with Timestamp := t2 }) ctx.world,
                   events := ctx.events
                     ++ [(ascii "PaperRecordUpdated", encodeRecord { r with Timestamp := t2 })] }))
    := by
  unfold UpdatePaperRecord Stub.GetState
  cases hread : env.getStateErr h with
  | some e => exact Or.inl ⟨_, rfl⟩
  | none =>
    simp only
    cases hl : lookup h ctx.world with
    | none => exact Or.inl ⟨_, rfl⟩
    | some b =>
      simp only
      cases hd : jsonUnmarshal b with
      | none => exact Or.inl ⟨_, rfl⟩
      | some r =>
        simp only [jsonMarshal, Stub.PutState]
        cases hw : env.putStateErr h (encodeRecord { r with Timestamp := t2 }) with
        | some e => exact Or.inl ⟨_, rfl⟩
        | none =>
          simp only [Stub.SetEvent]
          cases he : env.setEventErr (ascii "PaperRecordUpdated")
              (encodeRecord { r with Timestamp := t2 }) with
          | some e => exact Or.inr (Or.inl ⟨b, r, e, rfl, hd, rfl⟩)
          | none => exact Or.inr (Or.inr ⟨b, r, rfl, hd, rfl⟩)

/-- What the host keeps of an invocation: the stub as the call left it when
the call returned nil, the stub of before when it returned an error. -/
theorem exec_eq_run (env : Env) (ctx : Stub) (call : Call) :
    call.exec env ctx
      = match (call.run env ctx).1 with
        | none => (call.run env ctx).2
        | some _ => ctx := by
  cases call <;> simp only [Call.exec, Call.run, commit] <;> split <;> rename_i heq <;>
    simp [errorOf, heq]

/-- The stub as a failing invocation leaves it: untouched, or, when the
error is the fault of the event sink, with the write of the call pending. -/
theorem run_error_stub (env : Env) (ctx : Stub) (call : Call) (e : GoString)
    (herr : (call.run env ctx).1 = some e) :
    (call.run env ctx).2.events = ctx.events ∧
    ((call.run env ctx).2 = ctx ∨ ∃ text, e = errEvent text) := by
  cases call with
  | create s h t a i d =>
    simp only [Call.run] at herr ⊢
    rcases create_cases env ctx s h t a i d with ⟨e', h1⟩ | ⟨text, _, h1⟩ | ⟨_, h1⟩
    · rw [h1]; exact ⟨rfl, Or.inl rfl⟩
    · rw [h1] at herr ⊢
      simp only [errorOf, Option.some.injEq] at herr
      exact ⟨rfl, Or.inr ⟨text, herr.symm⟩⟩
    · rw [h1] at herr; simp [errorOf] at herr
  | get h => exact ⟨congrArg Stub.events (get_stub env ctx h), Or.inl (get_stub env ctx h)⟩
  | verify h =>
    exact ⟨congrArg Stub.events (verify_stub env ctx h), Or.inl (verify_stub env ctx h)⟩
  | list => exact ⟨congrArg Stub.events (getAll_stub env ctx), Or.inl (getAll_stub env ctx)⟩
  | update h t2 =>
    simp only [Call.run] at herr ⊢
    rcases update_cases env ctx h t2 with ⟨e', h1⟩ | ⟨b, r, text, _, _, h1⟩ | ⟨b, r, _, _, h1⟩
    · rw [h1]; exact ⟨rfl, Or.inl rfl⟩
    · rw [h1] at herr ⊢
      simp only [errorOf, Option.some.injEq] at herr
      exact ⟨rfl, Or.inr ⟨text, herr.symm⟩⟩
    · rw [h1] at herr; simp [errorOf] at herr
  | init => exact ⟨rfl, Or.inl rfl⟩

/-- C12: whenever a store operation (any of the six, with any arguments, in
any ledger state and under any faults) returns an error, the ledger state
after the failed transaction equals the ledger state before it.  The call
itself leaves the stub untouched and emits nothing, except when the error is
the fault of the event emission of `CreatePaperRecord` or
`UpdatePaperRecord`: there the write of the call is pending, and it is the
host's rollback that discards it. -/
theorem failed_call_no_partial_write (env : Env) (ctx : Stub) (call : Call) (e : GoString)
    (herr : (call.run env ctx).1 = some e) :
    call.exec env ctx = ctx ∧
    (call.run env ctx).2.events = ctx.events ∧
    ((call.run env ctx).2 = ctx ∨ ∃ text, e = errEvent text) := by
  refine ⟨?_, run_error_stub env ctx call e herr⟩
  rw [exec_eq_run, herr]

/-- Witness of C12: on the empty store, with an event sink that faults,
`CreatePaperRecord` writes the record, fails at the emission of the event,
and the store is empty after the transaction. -/
theorem failed_call_no_partial_write_witness :
    ((Call.create (ascii "S1") (ascii "h1") (ascii "t") (ascii "Alice") (ascii "A1")
        (ascii "d")).run Env.eventFault Stub.empty).1 = some (errEvent (ascii "sink closed")) ∧
    (Call.create (ascii "S1") (ascii "h1") (ascii "t") (ascii "Alice") (ascii "A1")
        (ascii "d")).exec Env.eventFault Stub.empty = Stub.empty :=
  ⟨rfl, (failed_call_no_partial_write Env.eventFault Stub.empty
    (Call.create (ascii "S1") (ascii "h1") (ascii "t") (ascii "Alice") (ascii "A1") (ascii "d"))
    (errEvent (ascii "sink closed")) rfl).1⟩

/-- C13: for every ledger state in which key `h` holds any bytes at all,
`VerifyPaperRecord(h)` returns true without error as soon as the read does
not fault, whether or not the bytes decode; it returns an error if and only
if the underlying read faults; and it leaves the stub as it found it: no
write and no event. -/
theorem verify_does_not_decode (env : Env) (ctx : Stub) (h : GoString) (b : Bytes)
    (hpres : lookup h ctx.world = some b) :
    (env.getStateErr h = none → (VerifyPaperRecord env ctx h).1 = .ok true) ∧
    ((∃ e, (VerifyPaperRecord env ctx h).1 = .error e) ↔ env.getStateErr h ≠ none) ∧
    (VerifyPaperRecord env ctx h).2 = ctx := by
  refine ⟨?_, ?_, verify_stub env ctx h⟩
  · intro hread
    rw [verify_ok env ctx h hread, hpres]
    rfl
  · unfold VerifyPaperRecord Stub.GetState
    cases hread : env.getStateErr h with
    | some e => simp
    | none => simp

set_option maxRecDepth 1000000 in
/-- Witness of C13: a store in which `h1` holds bytes that do not decode. -/
theorem verify_does_not_decode_witness :
    jsonUnmarshal (ascii "not a record") = none ∧
    (VerifyPaperRecord Env.noFault corruptStub (ascii "h1")).1 = .ok true :=
  ⟨by decide,
    (verify_does_not_decode Env.noFault corruptStub (ascii "h1") (ascii "not a record")
      (by decide)).1 rfl⟩

/-- A key that is present is present in the stub as any invocation leaves
it. -/
theorem run_present (env : Env) (ctx : Stub) (call : Call) (k : GoString)
    (hpres : (lookup k ctx.world).isSome = true) :
    (lookup k (call.run env ctx).2.world).isSome = true := by
  cases call with
  | create s h t a i d =>
    simp only [Call.run]
    rcases create_cases env ctx s h t a i d with ⟨e', h1⟩ | ⟨text, _, h1⟩ | ⟨_, h1⟩
    · rw [h1]; exact hpres
    · rw [h1]; exact lookup_putEntry_isSome _ _ _ _ hpres
    · rw [h1]; exact lookup_putEntry_isSome _ _ _ _ hpres
  | get h => simp only [Call.run, get_stub]; exact hpres
  | verify h => simp only [Call.run, verify_stub]; exact hpres
  | list => simp only [Call.run, getAll_stub]; exact hpres
  | update h t2 =>
    simp only [Call.run]
    rcases update_cases env ctx h t2 with ⟨e', h1⟩ | ⟨b, r, text, _, _, h1⟩ | ⟨b, r, _, _, h1⟩
    · rw [h1]; exact hpres
    · rw [h1]; exact lookup_putEntry_isSome _ _ _ _ hpres
    · rw [h1]; exact lookup_putEntry_isSome _ _ _ _ hpres
  | init => exact hpres

/-- A key that is present is present after any transaction. -/
theorem exec_present (env : Env) (ctx : Stub) (call : Call) (k : GoString)
    (hpres : (lookup k ctx.world).isSome = true) :
    (lookup k (call.exec env ctx).world).isSome = true := by
  rw [exec_eq_run]
  split
  · exact run_present env ctx call k hpres
  · exact hpres

/-- A key that is present is present after any sequence of transactions. -/
theorem execAll_present (k : GoString) :
    ∀ (calls : List (Env × Call)) (ctx : Stub),
      (lookup k ctx.world).isSome = true → (lookup k (execAll ctx calls).world).isSome = true
  | [], ctx, h => h
  | (env, call) :: rest, ctx, h =>
    execAll_present k rest _ (exec_present env ctx call k h)

/-- C14: for every ledger state, every key `k` present in it and every store
operation with arbitrary arguments and arbitrary faults, `k` is still
present in the stub as the call leaves it and in the state the host keeps,
whether the operation succeeds or fails; hence `k` is still present after
any finite sequence of operations. -/
theorem present_never_absent (ctx : Stub) (k : GoString)
    (hpres : (lookup k ctx.world).isSome = true) :
    (∀ (env : Env) (call : Call),
      (lookup k (call.run env ctx).2.world).isSome = true ∧
      (lookup k (call.exec env ctx).world).isSome = true) ∧
    (∀ calls : List (Env × Call), (lookup k (execAll ctx calls).world).isSome = true) :=
  ⟨fun env call => ⟨run_present env ctx call k hpres, exec_present env ctx call k hpres⟩,
    fun calls => execAll_present k calls ctx hpres⟩

/-- Witness of C14: the store of the scenario, through an update, a
creation that fails and a listing. -/
theorem present_never_absent_witness :
    (lookup (ascii "h1") (execAll scenarioStub
      [(Env.noFault, Call.update (ascii "h1") (ascii "t2")),
       (Env.eventFault, Call.create (ascii "S2") (ascii "h1") (ascii "t") (ascii "B")
          (ascii "A2") (ascii "d")),
       (Env.noFault, Call.list)]).world).isSome = true :=
  (present_never_absent scenarioStub (ascii "h1") (by decide)).2 _

/-- C16: a successful `CreatePaperRecord` appends exactly one event, named
`PaperRecordCreated`, and a successful `UpdatePaperRecord` appends exactly
one event, named `PaperRecordUpdated`; in both cases the payload is the
encoded record that the call wrote, byte for byte the value stored under
`paperHash` after the call.  `GetPaperRecord`, `VerifyPaperRecord`,
`GetAllPaperRecords` and `InitLedger` emit no event. -/
theorem mutation_emits_one_event (env : Env) (ctx : Stub) :
    (∀ s h t a i d : GoString, (CreatePaperRecord env ctx s h t a i d).1 = .ok () →
      (CreatePaperRecord env ctx s h t a i d).2.events
        = ctx.events ++ [(ascii "PaperRecordCreated", encodeRecord ⟨s, h, t, a, i, d⟩)] ∧
      lookup h (CreatePaperRecord env ctx s h t a i d).2.world
        = some (encodeRecord ⟨s, h, t, a, i, d⟩)) ∧
    (∀ h t2 : GoString, (UpdatePaperRecord env ctx h t2).1 = .ok () →
      ∃ b r, lookup h ctx.world = some b ∧ jsonUnmarshal b = some r ∧
        (UpdatePaperRecord env ctx h t2).2.events
          = ctx.events
            ++ [(ascii "PaperRecordUpdated", encodeRecord { r with Timestamp := t2 })] ∧
        lookup h (UpdatePaperRecord env ctx h t2).2.world
          = some (encodeRecord { r with Timestamp := t2 })) ∧
    (∀ h, (GetPaperRecord env ctx h).2.events = ctx.events) ∧
    (∀ h, (VerifyPaperRecord env ctx h).2.events = ctx.events) ∧
    (GetAllPaperRecords env ctx).2.events = ctx.events ∧
    (InitLedger env ctx).2.events = ctx.events := by
  refine ⟨?_, ?_, fun h => by rw [get_stub], fun h => by rw [verify_stub], by rw [getAll_stub],
    rfl⟩
  · intro s h t a i d hok
    rcases create_cases env ctx s h t a i d with ⟨e', h1⟩ | ⟨text, _, h1⟩ | ⟨_, h1⟩
    · rw [h1] at hok; simp at hok
    · rw [h1] at hok; simp at hok
    · rw [h1]; exact ⟨rfl, lookup_putEntry_self _ _ _⟩
  · intro h t2 hok
    rcases update_cases env ctx h t2 with ⟨e', h1⟩ | ⟨b, r, text, _, _, h1⟩ | ⟨b, r, hl, hd, h1⟩
    · rw [h1] at hok; simp at hok
    · rw [h1] at hok; simp at hok
    · rw [h1]; exact ⟨b, r, hl, hd, rfl, lookup_putEntry_self _ _ _⟩

/-- C17: for every ledger state, `CreatePaperRecord` and `UpdatePaperRecord`
called with hash `h` leave the stored bytes of every key `k ≠ h` as they
were, whatever the outcome of the call (a present key keeps its bytes, an
absent key stays absent), and `GetPaperRecord`, `VerifyPaperRecord`,
`GetAllPaperRecords` and `InitLedger` leave the whole stub as it was. -/
theorem writes_touch_one_key (env : Env) (ctx : Stub) :
    (∀ s h t a i d k : GoString, k ≠ h →
      lookup k (CreatePaperRecord env ctx s h t a i d).2.world = lookup k ctx.world) ∧
    (∀ h t2 k : GoString, k ≠ h →
      lookup k (UpdatePaperRecord env ctx h t2).2.world = lookup k ctx.world) ∧
    (∀ h, (GetPaperRecord env ctx h).2 = ctx) ∧
    (∀ h, (VerifyPaperRecord env ctx h).2 = ctx) ∧
    (GetAllPaperRecords env ctx).2 = ctx ∧
    (InitLedger env ctx).2 = ctx := by
  refine ⟨?_, ?_, get_stub env ctx, verify_stub env ctx, getAll_stub env ctx, rfl⟩
  · intro s h t a i d k hne
    rcases create_cases env ctx s h t a i d with ⟨e', h1⟩ | ⟨text, _, h1⟩ | ⟨_, h1⟩
    · rw [h1]
    · rw [h1]; exact lookup_putEntry_other h k _ hne _
    · rw [h1]; exact lookup_putEntry_other h k _ hne _
  · intro h t2 k hne
    rcases update_cases env ctx h t2 with ⟨e', h1⟩ | ⟨b, r, text, _, _, h1⟩ | ⟨b, r, _, _, h1⟩
    · rw [h1]
    · rw [h1]; exact lookup_putEntry_other h k _ hne _
    · rw [h1]; exact lookup_putEntry_other h k _ hne _

/-! ## The texts of the errors -/

theorem take_suffix (S X : List Byte) (h : S.length = 15) : List.take 15 (S ++ X) = S :=
  List.take_left' h

/-- The text of `NotFound` is read as `notFound`, whatever the hash. -/
theorem classify_notFound (h : GoString) :
    classify (ascii "paper record with hash " ++ h ++ ascii " does not exist") = .notFound := by
  have h0 : ((ascii "paper record with hash " ++ h ++ ascii " does not exist").getD 0 0).val
      = 0x70 := rfl
  unfold classify
  rw [if_pos h0, List.reverse_append, take_suffix (ascii " does not exist").reverse _ rfl,
    if_pos rfl]

/-- The text of `AlreadyExists` is read as `alreadyExists`, whatever the
hash. -/
theorem classify_alreadyExists (h : GoString) :
    classify (ascii "paper record with hash " ++ h ++ ascii " already exists")
      = .alreadyExists := by
  have h0 : ((ascii "paper record with hash " ++ h ++ ascii " already exists").getD 0 0).val
      = 0x70 := rfl
  unfold classify
  rw [if_pos h0, List.reverse_append, take_suffix (ascii " already exists").reverse _ rfl,
    if_neg (by decide)]

/-- The loop of `GetAllPaperRecords` when one of the calls of `Next` it makes
faults. -/
theorem getAllLoop_fault (env : Env) :
    ∀ (w : List (GoString × Bytes)) (i : Nat) (acc : List PaperRecord),
      (∃ j, j < w.length ∧ (env.nextErr (i + j)).isSome = true) →
      ∃ text, getAllLoop env i acc w = .error (ascii "failed to get next result: " ++ text)
  | [], i, acc, ⟨j, hj, _⟩ => by simp at hj
  | e :: rest, i, acc, ⟨j, hj, hf⟩ => by
    rw [getAllLoop]
    cases hn : env.nextErr i with
    | some err => exact ⟨err, rfl⟩
    | none =>
      have hj0 : j ≠ 0 := by
        intro h0
        rw [h0, Nat.add_zero, hn] at hf
        simp at hf
      obtain ⟨j', rfl⟩ := Nat.exists_eq_succ_of_ne_zero hj0
      have hex : ∃ j, j < rest.length ∧ (env.nextErr (i + 1 + j)).isSome = true := by
        refine ⟨j', ?_, ?_⟩
        · simp only [List.length_cons] at hj; omega
        · rw [show i + 1 + j' = i + Nat.succ j' by omega]; exact hf
      simp only
      cases jsonUnmarshal e.2 with
      | none => exact getAllLoop_fault env rest (i + 1) acc hex
      | some r => exact getAllLoop_fault env rest (i + 1) (acc ++ [r]) hex

/-- The loop of `GetAllPaperRecords` when none of the calls of `Next` it
makes faults. -/
theorem getAllLoop_sound (env : Env) :
    ∀ (w : List (GoString × Bytes)) (i : Nat) (acc : List PaperRecord),
      (∀ j, j < w.length → env.nextErr (i + j) = none) →
      getAllLoop env i acc w = .ok (acc ++ w.filterMap (fun e => jsonUnmarshal e.2))
  | [], i, acc, _ => by simp [getAllLoop]
  | e :: rest, i, acc, hn => by
    have h0 : env.nextErr i = none := by
      have := hn 0 (by simp)
      rwa [Nat.add_zero] at this
    have hrest : ∀ j, j < rest.length → env.nextErr (i + 1 + j) = none := by
      intro j hj
      rw [show i + 1 + j = i + (j + 1) by omega]
      exact hn (j + 1) (by simp only [List.length_cons]; omega)
    rw [getAllLoop, h0]
    simp only
    cases hd : jsonUnmarshal e.2 with
    | none =>
      simp only
      rw [getAllLoop_sound env rest (i + 1) acc hrest]
      simp [List.filterMap_cons, hd]
    | some r =>
      simp only
      rw [getAllLoop_sound env rest (i + 1) (acc ++ [r]) hrest]
      simp [List.filterMap_cons, hd]

/-- The kind of failure of a call of `CreatePaperRecord` can be read off the
text of the error it returns. -/
theorem create_kind (env : Env) (ctx : Stub) (s h t a i d : GoString) :
    (Call.create s h t a i d).kind env ctx
      = ((Call.create s h t a i d).run env ctx).1.map classify := by
  simp only [Call.kind, Call.run, CreatePaperRecord, Stub.GetState]
  cases hread : env.getStateErr h with
  | some e => rfl
  | none =>
    simp only [Option.isSome_none, Bool.false_eq_true, if_false]
    cases hl : lookup h ctx.world with
    | some b =>
      simp only [Option.isSome_some, if_true, ne_eq, reduceCtorEq, not_false_eq_true, errorOf,
        Option.map_some', classify_alreadyExists]
    | none =>
      simp only [Option.isSome_none, Bool.false_eq_true, if_false, ne_eq, not_true_eq_false,
        jsonMarshal, Stub.PutState]
      cases hw : env.putStateErr h (encodeRecord ⟨s, h, t, a, i, d⟩) with
      | some e => rfl
      | none =>
        simp only [Option.isSome_none, Bool.false_eq_true, if_false, Stub.SetEvent]
        cases he : env.setEventErr (ascii "PaperRecordCreated")
            (encodeRecord ⟨s, h, t, a, i, d⟩) with
        | some e => rfl
        | none => rfl

/-- The kind of failure of a call of `GetPaperRecord` can be read off the
text of the error it returns. -/
theorem get_kind (env : Env) (ctx : Stub) (h : GoString) :
    (Call.get h).kind env ctx = ((Call.get h).run env ctx).1.map classify := by
  simp only [Call.kind, Call.run, GetPaperRecord, Stub.GetState]
  cases hread : env.getStateErr h with
  | some e => rfl
  | none =>
    simp only [Option.isSome_none, Bool.false_eq_true, if_false]
    cases hl : lookup h ctx.world with
    | none => simp only [errorOf, Option.map_some', classify_notFound]
    | some b =>
      simp only
      cases hd : jsonUnmarshal b with
      | none => rfl
      | some r => rfl

/-- The kind of failure of a call of `UpdatePaperRecord` can be read off the
text of the error it returns. -/
theorem update_kind (env : Env) (ctx : Stub) (h t2 : GoString) :
    (Call.update h t2).kind env ctx = ((Call.update h t2).run env ctx).1.map classify := by
  simp only [Call.kind, Call.run, UpdatePaperRecord, Stub.GetState]
  cases hread : env.getStateErr h with
  | some e => rfl
  | none =>
    simp only [Option.isSome_none, Bool.false_eq_true, if_false]
    cases hl : lookup h ctx.world with
    | none => simp only [errorOf, Option.map_some', classify_notFound]
    | some b =>
      simp only
      cases hd : jsonUnmarshal b with
      | none => rfl
      | some r =>
        simp only [jsonMarshal, Stub.PutState]
        cases hw : env.putStateErr h (encodeRecord { r with Timestamp := t2 }) with
        | some e => rfl
        | none =>
          simp only [Option.isSome_none, Bool.false_eq_true, if_false, Stub.SetEvent]
          cases he : env.setEventErr (ascii "PaperRecordUpdated")
              (encodeRecord { r with Timestamp := t2 }) with
          | some e => rfl
          | none => rfl

/-- The kind of failure of a call of `GetAllPaperRecords` can be read off the
text of the error it returns. -/
theorem list_kind (env : Env) (ctx : Stub) :
    Call.list.kind env ctx = (Call.list.run env ctx).1.map classify := by
  simp only [Call.kind, Call.run, GetAllPaperRecords, Stub.GetStateByRange]
  cases hrange : env.getStateByRangeErr with
  | some e => rfl
  | none =>
    simp only [Option.isSome_none, Bool.false_eq_true, if_false]
    by_cases hany : (List.range ctx.world.length).any (fun i => (env.nextErr i).isSome) = true
    · rw [if_pos hany]
      obtain ⟨j, hj, hf⟩ := List.any_eq_true.mp hany
      obtain ⟨text, ht⟩ := getAllLoop_fault env ctx.world 0 []
        ⟨j, List.mem_range.mp hj, by rw [Nat.zero_add]; exact hf⟩
      rw [ht]
      rfl
    · rw [if_neg hany]
      have hnone : ∀ j, j < ctx.world.length → env.nextErr (0 + j) = none := by
        intro j hj
        rw [Nat.zero_add]
        cases hn : env.nextErr j with
        | none => rfl
        | some err =>
          exact absurd (List.any_eq_true.mpr ⟨j, List.mem_range.mpr hj, by rw [hn]; rfl⟩) hany
      rw [getAllLoop_sound env ctx.world 0 [] hnone]
      rfl

/-- The kind of failure of any invocation can be read off the text of the
error it returns, and an invocation returns an error exactly when it meets
one of the kinds. -/
theorem run_kind (env : Env) (ctx : Stub) (call : Call) :
    call.kind env ctx = (call.run env ctx).1.map classify := by
  cases call with
  | create s h t a i d => exact create_kind env ctx s h t a i d
  | get h => exact get_kind env ctx h
  | verify h =>
    simp only [Call.kind, Call.run, VerifyPaperRecord, Stub.GetState]
    cases hread : env.getStateErr h with
    | some e => rfl
    | none => rfl
  | list => exact list_kind env ctx
  | update h t2 => exact update_kind env ctx h t2
  | init => rfl

/-- C18: the kind of an error is determined by the error returned alone.
Whenever two invocations, of any of the six operations, with any arguments,
in any ledger states and under any faults with any fault texts, return the
same error, they failed for the same kind of reason; so a NotFound, a
Corrupt, an AlreadyExists and a StorageFault error are pairwise different,
whatever the paper hash and the underlying fault message.  An invocation
meets one of the kinds exactly when it returns an error. -/
theorem error_determines_kind (env1 env2 : Env) (ctx1 ctx2 : Stub) (call1 call2 : Call)
    (e : GoString) (h1 : (call1.run env1 ctx1).1 = some e)
    (h2 : (call2.run env2 ctx2).1 = some e) :
    (∃ k, call1.kind env1 ctx1 = some k ∧ call2.kind env2 ctx2 = some k) ∧
    (∀ (env : Env) (ctx : Stub) (call : Call),
      (call.kind env ctx).isSome = ((call.run env ctx).1).isSome) := by
  refine ⟨⟨classify e, ?_, ?_⟩, ?_⟩
  · rw [run_kind, h1]; rfl
  · rw [run_kind, h2]; rfl
  · intro env ctx call
    rw [run_kind]
    cases (call.run env ctx).1 <;> rfl

/-- Witness of C18: `GetPaperRecord` and `UpdatePaperRecord` on the empty
store return the same NotFound error for `h1`. -/
theorem error_determines_kind_witness :
    (∃ k, (Call.get (ascii "h1")).kind Env.noFault Stub.empty = some k ∧
      (Call.update (ascii "h1") (ascii "t2")).kind Env.eventFault Stub.empty = some k) :=
  (error_determines_kind Env.noFault Env.eventFault Stub.empty Stub.empty
    (Call.get (ascii "h1")) (Call.update (ascii "h1") (ascii "t2")) (errNotFound (ascii "h1"))
    rfl rfl).1

/-! ## The order of the keys -/

theorem keyLt_irrefl : ∀ a : List Byte, keyLt a a = false
  | [] => rfl
  | x :: s => by simp [keyLt, keyLt_irrefl s]

theorem keyLt_trans : ∀ a b c : List Byte,
    keyLt a b = true → keyLt b c = true → keyLt a c = true
  | [], [], _, h1, _ => by simp [keyLt] at h1
  | [], _ :: _, [], _, h2 => by simp [keyLt] at h2
  | [], _ :: _, _ :: _, _, _ => rfl
  | _ :: _, [], _, h1, _ => by simp [keyLt] at h1
  | _ :: _, _ :: _, [], _, h2 => by simp [keyLt] at h2
  | x :: s, y :: t, z :: u, h1, h2 => by
    simp only [keyLt, Bool.or_eq_true, Bool.and_eq_true, decide_eq_true_eq] at h1 h2 ⊢
    rcases h1 with h1 | ⟨h1, h1'⟩
    · rcases h2 with h2 | ⟨h2, _⟩
      · left; omega
      · left; omega
    · rcases h2 with h2 | ⟨h2, h2'⟩
      · left; omega
      · right; exact ⟨by omega, keyLt_trans s t u h1' h2'⟩

theorem keyLt_total : ∀ a b : List Byte, a ≠ b → keyLt a b = true ∨ keyLt b a = true
  | [], [], h => absurd rfl h
  | [], _ :: _, _ => Or.inl rfl
  | _ :: _, [], _ => Or.inr rfl
  | x :: s, y :: t, h => by
    simp only [keyLt, Bool.or_eq_true, Bool.and_eq_true, decide_eq_true_eq]
    by_cases hxy : x.val < y.val
    · exact Or.inl (Or.inl hxy)
    by_cases hyx : y.val < x.val
    · exact Or.inr (Or.inl hyx)
    have hv : x.val = y.val := by omega
    have hx : x = y := Fin.ext hv
    have hst : s ≠ t := fun hst => h (by rw [hx, hst])
    rcases keyLt_total s t hst with h1 | h1
    · exact Or.inl (Or.inr ⟨hv, h1⟩)
    · exact Or.inr (Or.inr ⟨hv.symm, h1⟩)

theorem lookup_none_ne (k : GoString) :
    ∀ (w : List (GoString × Bytes)), lookup k w = none → ∀ e ∈ w, e.1 ≠ k
  | [], _, e, he => by simp at he
  | (k0, v0) :: rest, h, e, he => by
    by_cases hk : k0 = k
    · simp [lookup, hk] at h
    · simp only [lookup, hk, if_false] at h
      rcases List.mem_cons.mp he with h1 | h1
      · rw [h1]; exact hk
      · exact lookup_none_ne k rest h e h1

/-- A write under an absent key keeps the order of the keys. -/
theorem insertEntry_ascending (k : GoString) (v : Bytes) :
    ∀ w : List (GoString × Bytes), Ascending w → lookup k w = none →
      Ascending (insertEntry k v w)
  | [], _, _ => by simp [insertEntry, Ascending]
  | (k0, v0) :: rest, hs, habs => by
    have hs' := hs
    unfold Ascending at hs'
    rw [List.map_cons, List.pairwise_cons] at hs'
    obtain ⟨hhead, htail⟩ := hs'
    by_cases hlt : keyLt k k0 = true
    · simp only [insertEntry, hlt, if_true]
      unfold Ascending
      rw [List.map_cons, List.pairwise_cons]
      refine ⟨?_, hs⟩
      intro b hb
      rw [List.map_cons] at hb
      rcases List.mem_cons.mp hb with h1 | h1
      · rw [h1]; exact hlt
      · exact keyLt_trans k k0 b hlt (hhead b h1)
    · simp only [insertEntry, hlt, if_false, Bool.false_eq_true]
      have hne : k0 ≠ k := lookup_none_ne k _ habs (k0, v0) (List.mem_cons_self _ _)
      have habs' : lookup k rest = none := by
        simp only [lookup, hne, if_false] at habs
        exact habs
      unfold Ascending
      rw [List.map_cons, List.pairwise_cons]
      refine ⟨?_, insertEntry_ascending k v rest htail habs'⟩
      intro b hb
      obtain ⟨e, he, rfl⟩ := List.mem_map.mp hb
      rcases List.mem_cons.mp ((insertEntry_perm k v rest).mem_iff.mp he) with h1 | h1
      · rw [h1]
        rcases keyLt_total k0 k hne with h2 | h2
        · exact h2
        · exact absurd h2 hlt
      · exact hhead e.1 (List.mem_map.mpr ⟨e, h1, rfl⟩)

/-- A write under a present key keeps the keys as they are. -/
theorem replaceEntry_keys (k : GoString) (v : Bytes) :
    ∀ w : List (GoString × Bytes), (replaceEntry k v w).map Prod.fst = w.map Prod.fst
  | [] => rfl
  | (k0, v0) :: rest => by
    by_cases hk : k0 = k
    · simp [replaceEntry, hk]
    · simp [replaceEntry, hk, replaceEntry_keys k v rest]

/-- A point write keeps the order of the keys. -/
theorem putEntry_ascending (k : GoString) (v : Bytes) (w : List (GoString × Bytes))
    (hs : Ascending w) : Ascending (putEntry k v w) := by
  unfold putEntry
  cases hl : lookup k w with
  | none => simpa using insertEntry_ascending k v w hs hl
  | some b =>
    simp only [Option.isSome_some, if_true]
    unfold Ascending
    rw [replaceEntry_keys]
    exact hs

/-- The entries after a point write: the entry written and entries of
before. -/
theorem mem_putEntry (k : GoString) (v : Bytes) (w : List (GoString × Bytes))
    (e : GoString × Bytes) (he : e ∈ putEntry k v w) : e = (k, v) ∨ e ∈ w := by
  cases hl : lookup k w with
  | none =>
    rcases List.mem_cons.mp ((putEntry_perm k v w hl).mem_iff.mp he) with h1 | h1
    · exact Or.inl h1
    · exact Or.inr h1
  | some old =>
    obtain ⟨l1, l2, hw, hp⟩ := putEntry_split k v old w hl
    rw [hp] at he
    rw [hw]
    simp only [List.mem_append, List.mem_cons] at he ⊢
    rcases he with h1 | h1 | h1
    · exact Or.inr (Or.inl h1)
    · exact Or.inl h1
    · exact Or.inr (Or.inr (Or.inr h1))

/-! ## What a transaction does to the world state -/

/-- The world state that the host keeps after a transaction: as before, or
with the record of a `CreatePaperRecord` written under its hash, which was
absent, or with the record of an `UpdatePaperRecord` written under its hash,
which was present. -/
theorem exec_cases (env : Env) (ctx : Stub) (call : Call) :
    (call.exec env ctx).world = ctx.world ∨
    (∃ s h t a i d, call = .create s h t a i d ∧ lookup h ctx.world = none ∧
      (call.exec env ctx).world = putEntry h (encodeRecord ⟨s, h, t, a, i, d⟩) ctx.world) ∨
    (∃ h t2 b r, call = .update h t2 ∧ lookup h ctx.world = some b ∧ jsonUnmarshal b = some r ∧
      (call.exec env ctx).world
        = putEntry h (encodeRecord { r with Timestamp := t2 }) ctx.world) := by
  cases call with
  | create s h t a i d =>
    rcases create_world env ctx s h t a i d with h1 | ⟨h1, h2⟩
    · exact Or.inl h1
    · exact Or.inr (Or.inl ⟨s, h, t, a, i, d, rfl, h1, h2⟩)
  | get h => left; show (commit ctx _).world = _; rw [commit_same _ _ (get_stub env ctx h)]
  | verify h => left; show (commit ctx _).world = _; rw [commit_same _ _ (verify_stub env ctx h)]
  | list => left; show (commit ctx _).world = _; rw [commit_same _ _ (getAll_stub env ctx)]
  | update h t2 =>
    rcases update_world env ctx h t2 with h1 | ⟨b, r, h1, h2, h3⟩
    · exact Or.inl h1
    · exact Or.inr (Or.inr ⟨h, t2, b, r, rfl, h1, h2, h3⟩)
  | init => left; rfl

/-- A transaction keeps the keys in ascending order. -/
theorem exec_ascending (env : Env) (ctx : Stub) (call : Call) (hs : Ascending ctx.world) :
    Ascending (call.exec env ctx).world := by
  rcases exec_cases env ctx call with h1 | ⟨s, h, t, a, i, d, _, _, h1⟩ | ⟨h, t2, b, r, _, _, _, h1⟩
  · rw [h1]; exact hs
  · rw [h1]; exact putEntry_ascending _ _ _ hs
  · rw [h1]; exact putEntry_ascending _ _ _ hs

/-- The keys stand in ascending order after any sequence of transactions. -/
theorem execAll_ascending :
    ∀ (calls : List (Env × Call)) (ctx : Stub), Ascending ctx.world →
      Ascending (execAll ctx calls).world
  | [], _, hs => hs
  | (env, call) :: rest, ctx, hs => execAll_ascending rest _ (exec_ascending env ctx call hs)

/-- The record that the decoder returns is a fixed point of the coercion. -/
theorem decoded_hash_valid (data : Bytes) (r : PaperRecord) (h : jsonUnmarshal data = some r) :
    coerceUTF8 r.PaperHash = r.PaperHash := by
  have hv := jsonUnmarshal_valid data r h
  unfold PaperRecord.valid at hv
  simp only [Bool.and_eq_true] at hv
  exact coerceUTF8_valid _ hv.1.1.1.1.2

/-- A transaction keeps every stored value decodable, with the hash of the
record equal to the key coerced to valid UTF-8. -/
theorem exec_decodable (env : Env) (ctx : Stub) (call : Call) (hd : Decodable ctx.world) :
    Decodable (call.exec env ctx).world := by
  rcases exec_cases env ctx call with h1 | ⟨s, h, t, a, i, d, _, _, h1⟩ |
    ⟨h, t2, b, r, _, hl, hr, h1⟩
  · rw [h1]; exact hd
  · rw [h1]
    intro e he
    rcases mem_putEntry _ _ _ e he with h2 | h2
    · rw [h2]
      exact ⟨_, jsonUnmarshal_encodeRecord _, rfl⟩
    · exact hd e h2
  · rw [h1]
    intro e he
    rcases mem_putEntry _ _ _ e he with h2 | h2
    · rw [h2]
      refine ⟨_, jsonUnmarshal_encodeRecord _, ?_⟩
      obtain ⟨r', hr', hh⟩ := hd (h, b) (mem_of_lookup h b _ hl)
      simp only at hr' hh
      rw [hr] at hr'
      have hrr : r = r' := Option.some.inj hr'
      subst hrr
      show coerceUTF8 r.PaperHash = coerceUTF8 h
      rw [decoded_hash_valid b r hr, hh]
    · exact hd e h2

/-- Every stored value is decodable after any sequence of transactions. -/
theorem execAll_decodable :
    ∀ (calls : List (Env × Call)) (ctx : Stub), Decodable ctx.world →
      Decodable (execAll ctx calls).world
  | [], _, hd => hd
  | (env, call) :: rest, ctx, hd => execAll_decodable rest _ (exec_decodable env ctx call hd)

/-- A transaction whose hash is valid UTF-8 keeps every key valid UTF-8. -/
theorem exec_keysValid (env : Env) (ctx : Stub) (call : Call)
    (hc : call.validHash = true) (hk : ∀ e ∈ ctx.world, validUTF8 e.1 = true) :
    ∀ e ∈ (call.exec env ctx).world, validUTF8 e.1 = true := by
  rcases exec_cases env ctx call with h1 | ⟨s, h, t, a, i, d, hcall, _, h1⟩ |
    ⟨h, t2, b, r, _, hl, _, h1⟩
  · rw [h1]; exact hk
  · rw [h1]
    intro e he
    rcases mem_putEntry _ _ _ e he with h2 | h2
    · rw [h2]
      rw [hcall] at hc
      exact hc
    · exact hk e h2
  · rw [h1]
    intro e he
    rcases mem_putEntry _ _ _ e he with h2 | h2
    · rw [h2]
      exact hk (h, b) (mem_of_lookup h b _ hl)
    · exact hk e h2

/-- Every key is valid UTF-8 after a sequence of transactions whose hashes
are. -/
theorem execAll_keysValid :
    ∀ (calls : List (Env × Call)) (ctx : Stub),
      (∀ c ∈ calls, c.2.validHash = true) → (∀ e ∈ ctx.world, validUTF8 e.1 = true) →
      ∀ e ∈ (execAll ctx calls).world, validUTF8 e.1 = true
  | [], _, _, hk => hk
  | (env, call) :: rest, ctx, hc, hk =>
    execAll_keysValid rest _ (fun c hcm => hc c (List.mem_cons_of_mem _ hcm))
      (exec_keysValid env ctx call (hc (env, call) (List.mem_cons_self _ _)) hk)

/-! ## The listing -/

/-- The entries that decode and the records they decode to, side by side. -/
theorem filter_forall₂ :
    ∀ w : List (GoString × Bytes),
      List.Forall₂ (fun e r => jsonUnmarshal e.2 = some r)
        (w.filter (fun e => (jsonUnmarshal e.2).isSome))
        (w.filterMap (fun e => jsonUnmarshal e.2))
  | [] => List.Forall₂.nil
  | e :: rest => by
    cases hd : jsonUnmarshal e.2 with
    | none =>
      simp only [List.filter_cons, hd, Option.isSome_none, Bool.false_eq_true, if_false,
        List.filterMap_cons]
      exact filter_forall₂ rest
    | some r =>
      simp only [List.filter_cons, hd, Option.isSome_some, if_true, List.filterMap_cons]
      exact List.Forall₂.cons hd (filter_forall₂ rest)

/-- A part of an ascending world state is ascending. -/
theorem ascending_filter (w : List (GoString × Bytes)) (p : GoString × Bytes → Bool)
    (hs : Ascending w) : Ascending (w.filter p) :=
  List.Pairwise.sublist ((List.filter_sublist w).map Prod.fst) hs

/-- A listing that succeeds is the records that decode, in the order of the
scan. -/
theorem getAll_inv (env : Env) (ctx : Stub) (recs : List PaperRecord)
    (h : (GetAllPaperRecords env ctx).1 = .ok recs) :
    recs = ctx.world.filterMap (fun e => jsonUnmarshal e.2) := by
  unfold GetAllPaperRecords Stub.GetStateByRange at h
  cases hrange : env.getStateByRangeErr with
  | some e => rw [hrange] at h; simp at h
  | none =>
    rw [hrange] at h
    simp only at h
    by_cases hf : ∃ j, j < ctx.world.length ∧ (env.nextErr (0 + j)).isSome = true
    · obtain ⟨text, ht⟩ := getAllLoop_fault env ctx.world 0 [] hf
      rw [ht] at h
      simp at h
    · have hnone : ∀ j, j < ctx.world.length → env.nextErr (0 + j) = none := by
        intro j hj
        cases hn : env.nextErr (0 + j) with
        | none => rfl
        | some err => exact absurd ⟨j, hj, by rw [hn]; rfl⟩ hf
      rw [getAllLoop_sound env ctx.world 0 [] hnone] at h
      simp only [List.nil_append, Except.ok.injEq] at h
      exact h.symm

/-- C19: for every ledger state whose scan does not fault,
`GetAllPaperRecords` succeeds and returns the records of exactly the entries
of the full scan whose bytes decode, one record per such entry and in the
order of the scan: an entry is left out if and only if its bytes fail to
decode, and the keys of the entries kept stand in ascending order, the order
in which the ledger holds its keys and which every transaction preserves. -/
theorem list_is_ordered_scan (env : Env) (ctx : Stub) (hrange : env.getStateByRangeErr = none)
    (hnext : ∀ i, env.nextErr i = none) :
    (GetAllPaperRecords env ctx).1 = .ok (ctx.world.filterMap (fun e => jsonUnmarshal e.2)) ∧
    List.Forall₂ (fun e r => jsonUnmarshal e.2 = some r)
      (ctx.world.filter (fun e => (jsonUnmarshal e.2).isSome))
      (ctx.world.filterMap (fun e => jsonUnmarshal e.2)) ∧
    (∀ e ∈ ctx.world,
      e ∉ ctx.world.filter (fun e => (jsonUnmarshal e.2).isSome) ↔ jsonUnmarshal e.2 = none) ∧
    (Ascending ctx.world →
      Ascending (ctx.world.filter (fun e => (jsonUnmarshal e.2).isSome))) ∧
    (∀ (env1 : Env) (call : Call), Ascending ctx.world → Ascending (call.exec env1 ctx).world) ∧
    (∀ calls : List (Env × Call), Ascending (execAll Stub.empty calls).world) := by
  refine ⟨?_, filter_forall₂ ctx.world, ?_, ascending_filter ctx.world _,
    fun env1 call hs => exec_ascending env1 ctx call hs,
    fun calls => execAll_ascending calls Stub.empty List.Pairwise.nil⟩
  · rw [getAll_ok env ctx hrange hnext]
  · intro e he
    rw [List.mem_filter]
    cases jsonUnmarshal e.2 <;> simp [he]

set_option maxRecDepth 1000000 in
/-- Witness of C19: a store of two entries of which the first does not
decode; the listing is the record of the second. -/
theorem list_is_ordered_scan_witness :
    (GetAllPaperRecords Env.noFault overwrittenStub).1 = .ok [scenarioSecond] ∧
    Ascending overwrittenStub.world :=
  ⟨(list_is_ordered_scan Env.noFault overwrittenStub rfl (fun _ => rfl)).1.trans (by
      show Except.ok ([(ascii "h1", ascii "not a record"),
        (ascii "h2", encodeRecord scenarioSecond)].filterMap (fun e => jsonUnmarshal e.2)) = _
      have h1 : jsonUnmarshal (ascii "not a record") = none := by decide
      simp only [List.filterMap_cons, h1, jsonUnmarshal_encodeRecord, List.filterMap_nil,
        PaperRecord.coerce_valid scenarioSecond (by decide)]),
    by unfold Ascending; decide⟩

/-! ## Reachable states -/

/-- The hashes of the records listed from a world state whose values all
decode: the keys, coerced to valid UTF-8. -/
theorem listed_hashes :
    ∀ w : List (GoString × Bytes), Decodable w →
      (w.filterMap (fun e => jsonUnmarshal e.2)).map PaperRecord.PaperHash
        = w.map (fun e => coerceUTF8 e.1)
  | [], _ => rfl
  | e :: rest, hd => by
    obtain ⟨r, hr, hh⟩ := hd e (List.mem_cons_self _ _)
    have ih := listed_hashes rest (fun e' he' => hd e' (List.mem_cons_of_mem _ he'))
    simp only [List.filterMap_cons, hr, List.map_cons, ih, hh]

/-- The listing of a world state whose values all decode skips no entry. -/
theorem listed_length :
    ∀ w : List (GoString × Bytes), Decodable w →
      (w.filterMap (fun e => jsonUnmarshal e.2)).length = w.length
  | [], _ => rfl
  | e :: rest, hd => by
    obtain ⟨r, hr, _⟩ := hd e (List.mem_cons_self _ _)
    have ih := listed_length rest (fun e' he' => hd e' (List.mem_cons_of_mem _ he'))
    simp only [List.filterMap_cons, hr, List.length_cons, ih]

/-- The keys of an ascending world state are pairwise distinct. -/
theorem ascending_nodup (w : List (GoString × Bytes)) (hs : Ascending w) :
    (w.map Prod.fst).Nodup := by
  unfold Ascending at hs
  refine List.Pairwise.imp ?_ hs
  intro a b hab heq
  rw [heq, keyLt_irrefl] at hab
  exact absurd hab (by simp)

theorem decodable_nil : Decodable [] := fun e he => absurd he (List.not_mem_nil e)

/-- C15: in every ledger state reachable from the empty store by a finite
sequence of store operations, under any faults, the storage keys are
pairwise distinct and a listing that succeeds yields one record per key,
whose `paperHash` is the key coerced to valid UTF-8; when the hashes given
to `CreatePaperRecord` are valid UTF-8, no two records of the listing have
the same `paperHash`. -/
theorem listed_hashes_distinct (calls : List (Env × Call)) (envL : Env)
    (recs : List PaperRecord)
    (hlist : (GetAllPaperRecords envL (execAll Stub.empty calls)).1 = .ok recs) :
    ((execAll Stub.empty calls).world.map Prod.fst).Nodup ∧
    recs.map PaperRecord.PaperHash
      = (execAll Stub.empty calls).world.map (fun e => coerceUTF8 e.1) ∧
    ((∀ c ∈ calls, c.2.validHash = true) → (recs.map PaperRecord.PaperHash).Nodup) := by
  have hs := execAll_ascending calls Stub.empty List.Pairwise.nil
  have hd := execAll_decodable calls Stub.empty decodable_nil
  have hrecs := getAll_inv envL _ recs hlist
  have hmap := listed_hashes _ hd
  rw [← hrecs] at hmap
  refine ⟨ascending_nodup _ hs, hmap, ?_⟩
  intro hvalid
  have hk := execAll_keysValid calls Stub.empty hvalid (fun e he => absurd he (List.not_mem_nil e))
  have hsame : (execAll Stub.empty calls).world.map (fun e => coerceUTF8 e.1)
      = (execAll Stub.empty calls).world.map Prod.fst :=
    List.map_congr_left (fun e he => coerceUTF8_valid _ (hk e he))
  rw [hmap, hsame]
  exact ascending_nodup _ hs

/-- Witness of C15: the scenario's record and the second record, created on
the empty store. -/
theorem listed_hashes_distinct_witness :
    ([scenario, scenarioSecond].map PaperRecord.PaperHash).Nodup :=
  (listed_hashes_distinct
    [(Env.noFault, Call.ofRecord scenario), (Env.noFault, Call.ofRecord scenarioSecond)]
    Env.noFault [scenario, scenarioSecond] (by
      show (GetAllPaperRecords Env.noFault twoRecordStub).1 = _
      rw [getAll_ok Env.noFault twoRecordStub rfl (fun _ => rfl)]
      show Except.ok ([(ascii "h1", encodeRecord scenario),
        (ascii "h2", encodeRecord scenarioSecond)].filterMap (fun e => jsonUnmarshal e.2)) = _
      simp only [List.filterMap_cons, jsonUnmarshal_encodeRecord, List.filterMap_nil,
        PaperRecord.coerce_valid scenario (by decide),
        PaperRecord.coerce_valid scenarioSecond (by decide)])).2.2 (by decide)

/-- Counterexample to C15 as stated: records created under the hashes `0xFF`
and `0xFE`, two different keys, are both listed with the `paperHash`
U+FFFD. -/
theorem listed_hashes_distinct_counterexample :
    execAll Stub.empty collidingCalls = collidingStub ∧
    (GetAllPaperRecords Env.noFault collidingStub).1
      = .ok [{ scenario with PaperHash := replacement },
             { scenario with PaperHash := replacement }] ∧
    ¬ ([({ scenario with PaperHash := replacement } : PaperRecord),
        { scenario with PaperHash := replacement }].map PaperRecord.PaperHash).Nodup := by
  refine ⟨rfl, ?_, by decide⟩
  rw [getAll_ok Env.noFault collidingStub rfl (fun _ => rfl)]
  show Except.ok ([(([0xFE] : GoString), encodeRecord scenarioOtherHash),
    (([0xFF] : GoString), encodeRecord scenarioBadHash)].filterMap
      (fun e => jsonUnmarshal e.2)) = _
  have h1 : scenarioOtherHash.coerce = { scenario with PaperHash := replacement } := by decide
  simp only [List.filterMap_cons, jsonUnmarshal_encodeRecord, List.filterMap_nil,
    coerce_scenarioBadHash, h1]

/-- `GetPaperRecord` does not fail with Corrupt on a world state whose
values all decode. -/
theorem get_not_corrupt (env : Env) (ctx : Stub) (h text : GoString)
    (hd : Decodable ctx.world) : (GetPaperRecord env ctx h).1 ≠ .error (errCorrupt text) := by
  unfold GetPaperRecord Stub.GetState
  cases hread : env.getStateErr h with
  | some e =>
    intro heq
    simp only [Except.error.injEq] at heq
    have h1 : classify (ascii "failed to read from world state: " ++ e) = .storageFault := rfl
    have h2 : classify (errCorrupt text) = .corrupt := rfl
    rw [heq, h2] at h1
    exact absurd h1 (by decide)
  | none =>
    simp only
    cases hl : lookup h ctx.world with
    | none =>
      intro heq
      simp only [Except.error.injEq] at heq
      exact errCorrupt_ne_errNotFound text h heq.symm
    | some b =>
      obtain ⟨r, hr, _⟩ := hd (h, b) (mem_of_lookup h b _ hl)
      simp only at hr
      simp only [hr]
      intro heq
      exact absurd heq (by simp)

/-- C20: in every ledger state reachable from the empty store by the
store's own operations, under any faults, every stored value decodes, and
the `paperHash` of the decoded record is the key it is stored under coerced
to valid UTF-8, hence the key itself when the hashes given to
`CreatePaperRecord` are valid UTF-8; in such states `GetPaperRecord` never
fails with Corrupt and a listing that succeeds skips no entry. -/
theorem reachable_values_decode (calls : List (Env × Call)) :
    (∀ e ∈ (execAll Stub.empty calls).world,
      ∃ r, jsonUnmarshal e.2 = some r ∧ r.PaperHash = coerceUTF8 e.1) ∧
    ((∀ c ∈ calls, c.2.validHash = true) →
      ∀ e ∈ (execAll Stub.empty calls).world,
        ∃ r, jsonUnmarshal e.2 = some r ∧ r.PaperHash = e.1) ∧
    (∀ (env : Env) (h text : GoString),
      (GetPaperRecord env (execAll Stub.empty calls) h).1 ≠ .error (errCorrupt text)) ∧
    (∀ (env : Env) (recs : List PaperRecord),
      (GetAllPaperRecords env (execAll Stub.empty calls)).1 = .ok recs →
      recs.length = (execAll Stub.empty calls).world.length) := by
  have hd := execAll_decodable calls Stub.empty decodable_nil
  refine ⟨hd, ?_, fun env h text => get_not_corrupt env _ h text hd, ?_⟩
  · intro hvalid e he
    have hk := execAll_keysValid calls Stub.empty hvalid (fun e he => absurd he (List.not_mem_nil e))
    obtain ⟨r, hr, hh⟩ := hd e he
    exact ⟨r, hr, hh.trans (coerceUTF8_valid _ (hk e he))⟩
  · intro env recs hlist
    rw [getAll_inv env _ recs hlist]
    exact listed_length _ hd

/-- Counterexample to C20 as stated: the record created under the hash `0xFF`
is stored under the key `0xFF` and decodes to a record whose `paperHash` is
U+FFFD, not the key. -/
theorem reachable_values_decode_counterexample :
    execAll Stub.empty [(Env.noFault, Call.ofRecord scenarioBadHash)] = badHashStub ∧
    lookup [0xFF] badHashStub.world = some (encodeRecord scenarioBadHash) ∧
    jsonUnmarshal (encodeRecord scenarioBadHash)
      = some { scenario with PaperHash := replacement } ∧
    ({ scenario with PaperHash := replacement } : PaperRecord).PaperHash ≠ [0xFF] := by
  refine ⟨rfl, rfl, ?_, by decide⟩
  rw [jsonUnmarshal_encodeRecord, coerce_scenarioBadHash]

/-! ## Truncated input -/

theorem ok_same (s : Scanner) (c : Byte) (op : Op) (h : s.inside) : stepOk c (s, op) :=
  Or.inl h

theorem ok_set (s : Scanner) (c : Byte) (st : StepFn) (op : Op) (h : s.inside) :
    stepOk c ({ s with step := st }, op) :=
  Or.inl h

theorem ok_setps (s : Scanner) (c : Byte) (st : StepFn) (p : ParseState)
    (below : List ParseState) (op : Op) (h : s.inside) :
    stepOk c ({ s with parseState := p :: below, step := st }, op) :=
  Or.inl ⟨List.cons_ne_nil _ _, h.2.1, h.2.2⟩

theorem ok_error (s : Scanner) (c : Byte) (h : s.inside) : stepOk c s.error :=
  Or.inr (Or.inl ⟨⟨rfl, rfl⟩, h.2.1⟩)

theorem ok_push (s : Scanner) (c : Byte) (p : ParseState) (op : Op) (h : s.inside) :
    stepOk c (s.pushParseState p op) := by
  unfold Scanner.pushParseState
  simp only
  split_ifs
  · exact Or.inl ⟨List.cons_ne_nil _ _, h.2.1, h.2.2⟩
  · exact Or.inr (Or.inl ⟨⟨rfl, rfl⟩, h.2.1⟩)

theorem ok_pop (s : Scanner) (c : Byte) (op : Op) (h : s.inside)
    (hc : c.val = 0x7D ∨ c.val = 0x5D) : stepOk c (s.popParseState, op) := by
  unfold Scanner.popParseState
  simp only
  split_ifs with hl
  · exact Or.inr (Or.inr ⟨⟨rfl, rfl⟩, hc⟩)
  · refine Or.inl ⟨fun hn => hl ?_, h.2.1, h.2.2⟩
    have ht : s.parseState.tail = [] := hn
    rw [ht]
    rfl

theorem ite_ok (c : Byte) (p : Prop) [Decidable p] (r1 r2 : Scanner × Op)
    (h1 : p → stepOk c r1) (h2 : ¬ p → stepOk c r2) : stepOk c (if p then r1 else r2) := by
  by_cases hp : p
  · rw [if_pos hp]; exact h1 hp
  · rw [if_neg hp]; exact h2 hp

theorem stateEndValue_ok (s : Scanner) (c : Byte) (h : s.inside) :
    stepOk c (stateEndValue s c) := by
  unfold stateEndValue
  split
  · rename_i hps
    exact absurd hps h.1
  · rename_i ps below hps
    refine ite_ok c _ _ _ (fun _ => ok_set s c _ _ h) (fun _ => ?_)
    cases ps with
    | parseObjectKey =>
      exact ite_ok c _ _ _ (fun _ => ok_setps s c _ _ _ _ h) (fun _ => ok_error s c h)
    | parseObjectValue =>
      exact ite_ok c _ _ _ (fun _ => ok_setps s c _ _ _ _ h) (fun _ =>
        ite_ok c _ _ _ (fun h2 => ok_pop s c _ h (Or.inl h2)) (fun _ => ok_error s c h))
    | parseArrayValue =>
      exact ite_ok c _ _ _ (fun _ => ok_set s c _ _ h) (fun _ =>
        ite_ok c _ _ _ (fun h2 => ok_pop s c _ h (Or.inr h2)) (fun _ => ok_error s c h))

theorem stateBeginValue_ok (s : Scanner) (c : Byte) (h : s.inside) :
    stepOk c (stateBeginValue s c) := by
  unfold stateBeginValue
  refine ite_ok c _ _ _ (fun _ => ok_same s c _ h) (fun _ => ?_)
  refine ite_ok c _ _ _ (fun _ => ok_push _ c _ _ h) (fun _ => ?_)
  refine ite_ok c _ _ _ (fun _ => ok_push _ c _ _ h) (fun _ => ?_)
  refine ite_ok c _ _ _ (fun _ => ok_set s c _ _ h) (fun _ => ?_)
  refine ite_ok c _ _ _ (fun _ => ok_set s c _ _ h) (fun _ => ?_)
  refine ite_ok c _ _ _ (fun _ => ok_set s c _ _ h) (fun _ => ?_)
  refine ite_ok c _ _ _ (fun _ => ok_set s c _ _ h) (fun _ => ?_)
  refine ite_ok c _ _ _ (fun _ => ok_set s c _ _ h) (fun _ => ?_)
  refine ite_ok c _ _ _ (fun _ => ok_set s c _ _ h) (fun _ => ?_)
  exact ite_ok c _ _ _ (fun _ => ok_set s c _ _ h) (fun _ => ok_error s c h)

theorem stateBeginValueOrEmpty_ok (s : Scanner) (c : Byte) (h : s.inside) :
    stepOk c (stateBeginValueOrEmpty s c) := by
  unfold stateBeginValueOrEmpty
  exact ite_ok c _ _ _ (fun _ => ok_same s c _ h) (fun _ =>
    ite_ok c _ _ _ (fun _ => stateEndValue_ok s c h) (fun _ => stateBeginValue_ok s c h))

theorem stateBeginString_ok (s : Scanner) (c : Byte) (h : s.inside) :
    stepOk c (stateBeginString s c) := by
  unfold stateBeginString
  exact ite_ok c _ _ _ (fun _ => ok_same s c _ h) (fun _ =>
    ite_ok c _ _ _ (fun _ => ok_set s c _ _ h) (fun _ => ok_error s c h))

theorem stateBeginStringOrEmpty_ok (s : Scanner) (c : Byte) (h : s.inside) :
    stepOk c (stateBeginStringOrEmpty s c) := by
  unfold stateBeginStringOrEmpty
  exact ite_ok c _ _ _ (fun _ => ok_same s c _ h) (fun _ =>
    ite_ok c _ _ _
      (fun _ => stateEndValue_ok _ c ⟨List.cons_ne_nil _ _, h.2.1, h.2.2⟩)
      (fun _ => stateBeginString_ok s c h))

theorem state0_ok (s : Scanner) (c : Byte) (h : s.inside) : stepOk c (state0 s c) := by
  unfold state0
  exact ite_ok c _ _ _ (fun _ => ok_set s c _ _ h) (fun _ =>
    ite_ok c _ _ _ (fun _ => ok_set s c _ _ h) (fun _ => stateEndValue_ok s c h))

theorem stateESign_ok (s : Scanner) (c : Byte) (h : s.inside) : stepOk c (stateESign s c) := by
  unfold stateESign
  exact ite_ok c _ _ _ (fun _ => ok_set s c _ _ h) (fun _ => ok_error s c h)

theorem expectByte_ok (s : Scanner) (c : Byte) (want : Nat) (next : StepFn) (h : s.inside) :
    stepOk c (expectByte s c want next) := by
  unfold expectByte
  exact ite_ok c _ _ _ (fun _ => ok_set s c _ _ h) (fun _ => ok_error s c h)

/-- One step of a scanner that is inside an object or array. -/
theorem next_inside (s : Scanner) (c : Byte) (h : s.inside) : stepOk c (s.next c) := by
  have set := fun st op => ok_set s c st op h
  have err := ok_error s c h
  have same := fun op => ok_same s c op h
  unfold Scanner.next
  split
  · exact stateBeginValueOrEmpty_ok s c h
  · exact stateBeginValue_ok s c h
  · exact stateBeginStringOrEmpty_ok s c h
  · exact stateBeginString_ok s c h
  · exact stateEndValue_ok s c h
  · unfold stateEndTop
    exact ite_ok c _ _ _ (fun _ => Or.inr (Or.inl ⟨⟨rfl, rfl⟩, h.2.1⟩)) (fun _ => same _)
  -- stateInString
  · exact ite_ok c _ _ _ (fun _ => set _ _) (fun _ => ite_ok c _ _ _ (fun _ => set _ _)
      (fun _ => ite_ok c _ _ _ (fun _ => err) (fun _ => same _)))
  -- stateInStringEsc
  · exact ite_ok c _ _ _ (fun _ => set _ _) (fun _ => ite_ok c _ _ _ (fun _ => set _ _)
      (fun _ => err))
  · exact ite_ok c _ _ _ (fun _ => set _ _) (fun _ => err)
  · exact ite_ok c _ _ _ (fun _ => set _ _) (fun _ => err)
  · exact ite_ok c _ _ _ (fun _ => set _ _) (fun _ => err)
  · exact ite_ok c _ _ _ (fun _ => set _ _) (fun _ => err)
  -- stateNeg
  · exact ite_ok c _ _ _ (fun _ => set _ _) (fun _ => ite_ok c _ _ _ (fun _ => set _ _)
      (fun _ => err))
  -- state1, state0
  · exact ite_ok c _ _ _ (fun _ => set _ _) (fun _ => state0_ok s c h)
  · exact state0_ok s c h
  -- stateDot, stateDot0
  · exact ite_ok c _ _ _ (fun _ => set _ _) (fun _ => err)
  · exact ite_ok c _ _ _ (fun _ => same _) (fun _ => ite_ok c _ _ _ (fun _ => set _ _)
      (fun _ => stateEndValue_ok s c h))
  -- stateE, stateESign, stateE0
  · exact ite_ok c _ _ _ (fun _ => set _ _) (fun _ => stateESign_ok s c h)
  · exact stateESign_ok s c h
  · exact ite_ok c _ _ _ (fun _ => same _) (fun _ => stateEndValue_ok s c h)
  -- the literals
  · exact expectByte_ok s c _ _ h
  · exact expectByte_ok s c _ _ h
  · exact expectByte_ok s c _ _ h
  · exact expectByte_ok s c _ _ h
  · exact expectByte_ok s c _ _ h
  · exact expectByte_ok s c _ _ h
  · exact expectByte_ok s c _ _ h
  · exact expectByte_ok s c _ _ h
  · exact expectByte_ok s c _ _ h
  · exact expectByte_ok s c _ _ h
  -- stateError
  · exact same _

theorem checkValidLoop_append (q : List Byte) :
    ∀ (p : List Byte) (s : Scanner),
      checkValidLoop s (p ++ q) = (checkValidLoop s p).bind (fun s1 => checkValidLoop s1 q)
  | [], s => rfl
  | c :: p, s => by
    simp only [List.cons_append, checkValidLoop]
    split_ifs
    · rfl
    · exact checkValidLoop_append q p _

/-- One step of a scanner that has seen the end of the top-level value: it
returns `scanEnd`, and the scanner dies unless the byte is space. -/
theorem next_done (s : Scanner) (c : Byte) (h : s.done) :
    (s.next c).2 = .scanEnd ∧ ((s.next c).1.done ∨ (s.next c).1.dead) ∧
    (isSpace c = false → (s.next c).1.err = true) := by
  unfold Scanner.next
  rw [h.2]
  simp only [stateEndTop]
  cases hsp : isSpace c with
  | true => exact ⟨rfl, Or.inl h, fun hf => absurd hf (by simp)⟩
  | false => exact ⟨rfl, Or.inr ⟨rfl, rfl⟩, fun _ => rfl⟩

/-- A dead scanner returns `scanError`. -/
theorem next_dead (s : Scanner) (c : Byte) (h : s.dead) : (s.next c).2 = .scanError := by
  unfold Scanner.next
  rw [h.2]

/-- The scanner stays inside, done or dead along the loop of `checkValid`,
once it is one of them. -/
theorem checkValidLoop_inv :
    ∀ (p : List Byte) (s sp : Scanner), (s.inside ∨ s.done ∨ s.dead) →
      checkValidLoop s p = some sp → (sp.inside ∨ sp.done ∨ sp.dead)
  | [], s, sp, hs, h => by
    simp only [checkValidLoop, Option.some.injEq] at h
    rw [← h]; exact hs
  | c :: p, s, sp, hs, h => by
    simp only [checkValidLoop] at h
    split_ifs at h with hop
    refine checkValidLoop_inv p _ sp ?_ h
    rcases hs with hi | hd | hx
    · rcases next_inside s c hi with h1 | ⟨h1, _⟩ | ⟨h1, _⟩
      · exact Or.inl h1
      · exact Or.inr (Or.inr h1)
      · exact Or.inr (Or.inl h1)
    · rcases (next_done s c hd).2.1 with h1 | h1
      · exact Or.inr (Or.inl h1)
      · exact Or.inr (Or.inr h1)
    · exact absurd (next_dead s c hx) hop

/-- After the end of the top-level value, input whose last byte is not space
leaves the scanner with an error. -/
theorem checkValidLoop_tail (last : Byte) (hl : isSpace last = false) :
    ∀ (q : List Byte) (s sf : Scanner), (s.done ∨ s.dead) →
      checkValidLoop s (q ++ [last]) = some sf → sf.err = true
  | [], s, sf, hs, h => by
    simp only [List.nil_append, checkValidLoop] at h
    split_ifs at h with hop
    simp only [Option.some.injEq] at h
    rcases hs with hd | hx
    · rw [← h]; exact (next_done s last hd).2.2 hl
    · exact absurd (next_dead s last hx) hop
  | c :: q, s, sf, hs, h => by
    simp only [List.cons_append, checkValidLoop] at h
    split_ifs at h with hop
    refine checkValidLoop_tail last hl q _ sf ?_ h
    rcases hs with hd | hx
    · exact (next_done s c hd).2.1
    · exact absurd (next_dead s c hx) hop

/-- A scanner that is inside an object or array reports an error at the end
of the input. -/
theorem eof_inside (s : Scanner) (h : s.inside) : s.eof = .scanError := by
  unfold Scanner.eof
  rw [h.2.2, h.2.1]
  have h20 : ¬ (((0x20 : Byte)).val = 0x7D ∨ ((0x20 : Byte)).val = 0x5D) := by decide
  have hend : (s.next 0x20).1.endTop = false := by
    rcases next_inside s 0x20 h with h1 | ⟨_, h1⟩ | ⟨_, h1⟩
    · exact h1.2.1
    · exact h1
    · exact absurd h1 h20
  rw [hend]
  rfl

/-- A scanner with an error reports it at the end of the input. -/
theorem eof_err (s : Scanner) (h : s.err = true) : s.eof = .scanError := by
  unfold Scanner.eof
  rw [h]
  rfl

theorem encodeRecord_last (r : PaperRecord) : (encodeRecord r).getLast? = some 0x7D := by
  unfold encodeRecord
  exact List.getLast?_concat _

/-- No proper initial part of the encoding of a record is valid JSON. -/
theorem checkValid_truncated (r : PaperRecord) (p q : Bytes) (hq : q ≠ [])
    (h : encodeRecord r = p ++ q) : checkValid p = false := by
  cases p with
  | nil => decide
  | cons c p =>
    have hvalid := checkValid_encodeRecord r
    have htext := encodeRecord_text r
    rw [h, List.cons_append] at htext
    have hc : c = 0x7B := (List.cons.inj htext).1
    subst hc
    have h0 : ∀ X, checkValidLoop Scanner.reset ((0x7B : Byte) :: X)
        = checkValidLoop ⟨.stateBeginStringOrEmpty, false, [.parseObjectKey], false⟩ X :=
      fun X => rfl
    have hin : Scanner.inside ⟨.stateBeginStringOrEmpty, false, [.parseObjectKey], false⟩ :=
      ⟨List.cons_ne_nil _ _, rfl, rfl⟩
    unfold checkValid at hvalid ⊢
    rw [h, List.cons_append, h0, checkValidLoop_append] at hvalid
    rw [h0]
    cases hp : checkValidLoop ⟨.stateBeginStringOrEmpty, false, [.parseObjectKey], false⟩ p with
    | none => rfl
    | some sp =>
      rw [hp, Option.some_bind] at hvalid
      simp only
      rcases checkValidLoop_inv p _ sp (Or.inl hin) hp with hi | hdx
      · rw [eof_inside sp hi]
        rfl
      · exfalso
        have hlast := encodeRecord_last r
        rw [h, List.getLast?_append] at hlast
        obtain ⟨x, hx⟩ := Option.isSome_iff_exists.mp (List.getLast?_isSome.mpr hq)
        rw [hx] at hlast
        have hx7 : x = 0x7D := Option.some.inj hlast
        rw [hx7] at hx
        obtain ⟨q', hq'⟩ := List.getLast?_eq_some_iff.mp hx
        rw [hq'] at hvalid
        cases hf : checkValidLoop sp (q' ++ [0x7D]) with
        | none => rw [hf] at hvalid; simp at hvalid
        | some sf =>
          rw [hf] at hvalid
          have herr := checkValidLoop_tail 0x7D (by decide) q' sp sf hdx hf
          simp only [eof_err sf herr] at hvalid
          simp at hvalid

/-- The encoding of a record is longer than 86 bytes. -/
theorem encodeRecord_long (r : PaperRecord) : 87 ≤ (encodeRecord r).length := by
  simp only [encodeRecord, nameQuoted, appendString, List.length_append, List.length_cons,
    List.length_nil]
  have h1 : nameStudentId.length = 9 := rfl
  have h2 : namePaperHash.length = 9 := rfl
  have h3 : nameTimestamp.length = 9 := rfl
  have h4 : nameAuthor.length = 6 := rfl
  have h5 : nameAuthorId.length = 8 := rfl
  have h6 : namePaperDate.length = 9 := rfl
  omega

/-! ## The scanner accepts JSON texts only -/

theorem spaces_nil : Spaces [] := fun c hc => absurd hc (List.not_mem_nil c)

theorem spaces_snoc (w : List Byte) (c : Byte) (hw : Spaces w) (hc : isSpace c = true) :
    Spaces (w ++ [c]) := by
  intro x hx
  rcases List.mem_append.mp hx with h | h
  · exact hw x h
  · rw [List.mem_singleton.mp h]; exact hc

theorem digits_nil : Digits [] := fun c hc => absurd hc (List.not_mem_nil c)

theorem digits_snoc (d : List Byte) (c : Byte) (hd : Digits d) (hc : isDigit c = true) :
    Digits (d ++ [c]) := by
  intro x hx
  rcases List.mem_append.mp hx with h | h
  · exact hd x h
  · rw [List.mem_singleton.mp h]; exact hc

theorem stringBody_snoc (b : List Byte) (c : Byte) (hb : StringBody b) (hc : isPlain c = true) :
    StringBody (b ++ [c]) :=
  hb.append (StringBody.plain c [] hc StringBody.nil)

/-- Whitespace may follow where a value is expected. -/
theorem open_space (ps : List ParseState) (p : List Byte) (c : Byte) (h : Open ps p)
    (hc : isSpace c = true) : Open ps (p ++ [c]) := by
  cases h with
  | top _ hw => exact Open.top _ (spaces_snoc p c hw hc)
  | arr ps p a w ho ha hw =>
    rw [List.append_assoc]
    exact Open.arr ps p a _ ho ha (spaces_snoc w c hw hc)
  | obj ps p o w1 kb w2 w3 ho hm h1 hk h2 h3 =>
    have := Open.obj ps p o w1 kb w2 (w3 ++ [c]) ho hm h1 hk h2 (spaces_snoc w3 c h3 hc)
    simpa only [List.append_assoc] using this

theorem ite_good (p : List Byte) (q : Prop) [Decidable q] (r1 r2 : Scanner × Op)
    (h1 : q → Good r1 p) (h2 : ¬ q → Good r2 p) : Good (if q then r1 else r2) p := by
  by_cases hq : q
  · rw [if_pos hq]; exact h1 hq
  · rw [if_neg hq]; exact h2 hq

theorem good_error (s : Scanner) (p : List Byte) : Good s.error p := Or.inl ⟨rfl, rfl⟩

theorem byte_of_val {c : Byte} {n : Byte} (h : c.val = n.val) : c = n := Fin.ext h

/-- A token that begins where a value is expected. -/
theorem good_token (st : StepFn) (ps : List ParseState) (p : List Byte) (c : Byte) (op : Op)
    (hst : Inv ⟨st, false, ps, false⟩ (p ++ [c]) = (false = false ∧ false = false ∧
      InToken st ps (p ++ [c])))
    (ho : Open ps p) (ht : StrTok st [c] ∨ NumTok st [c] ∨ LitTok st [c]) :
    Good (⟨st, false, ps, false⟩, op) (p ++ [c]) := by
  right
  rw [hst]
  refine ⟨rfl, rfl, p, [c], rfl, ?_⟩
  rcases ht with h | h | h
  · exact Or.inl ⟨Or.inl ho, h⟩
  · exact Or.inr ⟨ho, Or.inl h⟩
  · exact Or.inr ⟨ho, Or.inr h⟩

/-- The step `stateBeginValue` where a value is expected, from any step
function that calls it; `hsp` covers the byte that is space. -/
theorem good_beginValue (st : StepFn) (ps : List ParseState) (p : List Byte) (c : Byte)
    (h : Open ps p)
    (hsp : isSpace c = true → Good (⟨st, false, ps, false⟩, .scanSkipSpace) (p ++ [c])) :
    Good (stateBeginValue ⟨st, false, ps, false⟩ c) (p ++ [c]) := by
  unfold stateBeginValue
  refine ite_good _ _ _ _ hsp (fun _ => ?_)
  refine ite_good _ _ _ _ (fun hc => ?_) (fun _ => ?_)
  · unfold Scanner.pushParseState
    refine ite_good _ _ _ _ (fun _ => ?_) (fun _ => good_error _ _)
    rw [byte_of_val (n := 0x7B) hc]
    exact Or.inr ⟨rfl, rfl, ps, p, [], rfl, h, spaces_nil, rfl⟩
  refine ite_good _ _ _ _ (fun hc => ?_) (fun _ => ?_)
  · unfold Scanner.pushParseState
    refine ite_good _ _ _ _ (fun _ => ?_) (fun _ => good_error _ _)
    rw [byte_of_val (n := 0x5B) hc]
    exact Or.inr ⟨rfl, rfl, ps, p, [], rfl, h, spaces_nil, rfl⟩
  refine ite_good _ _ _ _ (fun hc => ?_) (fun _ => ?_)
  · rw [byte_of_val (n := 0x22) hc]
    exact good_token _ ps p _ _ rfl h (Or.inl ⟨[], StringBody.nil, rfl⟩)
  refine ite_good _ _ _ _ (fun hc => ?_) (fun _ => ?_)
  · rw [byte_of_val (n := 0x2D) hc]
    exact good_token _ ps p _ _ rfl h (Or.inr (Or.inl rfl))
  refine ite_good _ _ _ _ (fun hc => ?_) (fun _ => ?_)
  · rw [byte_of_val (n := 0x30) hc]
    exact good_token _ ps p _ _ rfl h (Or.inr (Or.inl ⟨[], Or.inl rfl, rfl⟩))
  refine ite_good _ _ _ _ (fun hc => ?_) (fun _ => ?_)
  · rw [byte_of_val (n := 0x74) hc]
    exact good_token _ ps p _ _ rfl h (Or.inr (Or.inr rfl))
  refine ite_good _ _ _ _ (fun hc => ?_) (fun _ => ?_)
  · rw [byte_of_val (n := 0x66) hc]
    exact good_token _ ps p _ _ rfl h (Or.inr (Or.inr rfl))
  refine ite_good _ _ _ _ (fun hc => ?_) (fun _ => ?_)
  · rw [byte_of_val (n := 0x6E) hc]
    exact good_token _ ps p _ _ rfl h (Or.inr (Or.inr rfl))
  refine ite_good _ _ _ _ (fun hc => ?_) (fun _ => good_error _ _)
  exact good_token _ ps p _ _ rfl h (Or.inr (Or.inl ⟨[], c, [], Or.inl rfl, hc, digits_nil, rfl⟩))

/-- What has been read when a value ends where it was expected. -/
theorem done_intro (ps : List ParseState) (p0 v pp : List Byte) (ho : Open ps p0)
    (hv : Gram .value v) (hp : pp = p0 ++ v) : Done ps pp :=
  ⟨p0, v, [], ho, hv, spaces_nil, by rw [hp, List.append_nil]⟩

/-- The scanner after the bracket or brace that closes a value. -/
theorem good_pop (st : StepFn) (top : ParseState) (ps : List ParseState) (p0 v pp : List Byte)
    (op : Op) (ho : Open ps p0) (hv : Gram .value v) (hp : pp = p0 ++ v) :
    Good (Scanner.popParseState ⟨st, false, top :: ps, false⟩, op) pp := by
  unfold Scanner.popParseState
  simp only [List.tail_cons]
  by_cases hl : ps.length = 0
  · rw [if_pos hl]
    have hnil : ps = [] := List.length_eq_zero.mp hl
    subst hnil
    exact Or.inr ⟨rfl, rfl, rfl, done_intro [] p0 v pp ho hv hp⟩
  · rw [if_neg hl]
    exact Or.inr ⟨rfl, rfl, Or.inr (done_intro ps p0 v pp ho hv hp)⟩

/-- The step `stateEndValue` after a value: whatever the step function the
scanner was in. -/
theorem good_endValue_done (st : StepFn) (ps : List ParseState) (p : List Byte) (c : Byte)
    (h : Done ps p) : Good (stateEndValue ⟨st, false, ps, false⟩ c) (p ++ [c]) := by
  obtain ⟨p1, v, w, ho, hv, hw, rfl⟩ := h
  have hsp : isSpace c = true → Done ps (p1 ++ v ++ w ++ [c]) := fun hc =>
    ⟨p1, v, w ++ [c], ho, hv, spaces_snoc w c hw hc, by simp only [List.append_assoc]⟩
  cases ho with
  | top _ hw1 =>
    unfold stateEndValue stateEndTop
    simp only
    refine ite_good _ _ _ _ (fun _ => Or.inl ⟨rfl, rfl⟩) (fun hc => ?_)
    have hc' : isSpace c = true := by
      cases hs : isSpace c with
      | true => rfl
      | false => rw [hs] at hc; exact absurd rfl hc
    exact Or.inr ⟨rfl, rfl, rfl, hsp hc'⟩
  | arr ps p0 a w0 ho ha hw0 =>
    unfold stateEndValue
    simp only
    refine ite_good _ _ _ _ (fun hc => Or.inr ⟨rfl, rfl, Or.inr (hsp hc)⟩) (fun _ => ?_)
    refine ite_good _ _ _ _ (fun hc => ?_) (fun _ => ?_)
    · rw [byte_of_val (n := 0x2C) hc]
      refine Or.inr ⟨rfl, rfl, ?_⟩
      have := Open.arr ps p0 (a ++ (w0 ++ v ++ w) ++ [0x2C]) [] ho
        (Gram.elemsCons a w0 v w ha hw0 hv hw) spaces_nil
      simpa only [List.append_assoc, List.append_nil] using this
    refine ite_good _ _ _ _ (fun hc => ?_) (fun _ => good_error _ _)
    rw [byte_of_val (n := 0x5D) hc]
    exact good_pop _ _ ps p0 (a ++ (w0 ++ v ++ w) ++ [0x5D]) _ _ ho
      (Gram.arr a w0 v w ha hw0 hv hw) (by simp only [List.append_assoc])
  | obj ps p0 o w1 kb w2 w3 ho hm h1 hk h2 h3 =>
    unfold stateEndValue
    simp only
    refine ite_good _ _ _ _ (fun hc => Or.inr ⟨rfl, rfl, Or.inr (hsp hc)⟩) (fun _ => ?_)
    refine ite_good _ _ _ _ (fun hc => ?_) (fun _ => ?_)
    · rw [byte_of_val (n := 0x2C) hc]
      refine Or.inr ⟨rfl, rfl, _, p0, o ++ memberText w1 kb w2 w3 v w ++ [0x2C], [], rfl, ho,
        Gram.membersCons o w1 kb w2 w3 v w hm h1 hk h2 h3 hv hw, spaces_nil, ?_⟩
      simp only [memberText, List.append_assoc, List.append_nil]
    refine ite_good _ _ _ _ (fun hc => ?_) (fun _ => good_error _ _)
    rw [byte_of_val (n := 0x7D) hc]
    exact good_pop _ _ ps p0 (o ++ memberText w1 kb w2 w3 v w ++ [0x7D]) _ _ ho
      (Gram.obj o w1 kb w2 w3 v w hm h1 hk h2 h3 hv hw)
      (by simp only [memberText, List.append_assoc])

/-- The step `stateEndValue` after a key. -/
theorem good_endValue_key (ps : List ParseState) (p : List Byte) (c : Byte)
    (h : AfterKey ps p) : Good (stateEndValue ⟨.stateEndValue, false, ps, false⟩ c) (p ++ [c])
    := by
  obtain ⟨ps1, p0, o, w1, kb, w2, rfl, ho, hm, h1, hk, h2, rfl⟩ := h
  unfold stateEndValue
  simp only
  refine ite_good _ _ _ _ (fun hc => ?_) (fun _ => ?_)
  · refine Or.inr ⟨rfl, rfl, Or.inl ⟨ps1, p0, o, w1, kb, w2 ++ [c], rfl, ho, hm, h1, hk,
      spaces_snoc w2 c h2 hc, ?_⟩⟩
    simp only [List.append_assoc]
  refine ite_good _ _ _ _ (fun hc => ?_) (fun _ => good_error _ _)
  rw [byte_of_val (n := 0x3A) hc]
  refine Or.inr ⟨rfl, rfl, ?_⟩
  have := Open.obj ps1 p0 o w1 kb w2 [] ho hm h1 hk h2 spaces_nil
  simpa only [List.append_assoc, List.append_nil] using this

/-- The step `stateBeginValueOrEmpty`, after an opening bracket. -/
theorem good_beginValueOrEmpty (ps : List ParseState) (p0 w : List Byte) (c : Byte)
    (ho : Open ps p0) (hw : Spaces w) :
    Good (stateBeginValueOrEmpty ⟨.stateBeginValueOrEmpty, false, .parseArrayValue :: ps, false⟩
      c) (p0 ++ ((0x5B : Byte) :: w) ++ [c]) := by
  unfold stateBeginValueOrEmpty
  refine ite_good _ _ _ _ (fun hc => ?_) (fun hsp => ?_)
  · refine Or.inr ⟨rfl, rfl, ps, p0, w ++ [c], rfl, ho, spaces_snoc w c hw hc, ?_⟩
    simp only [List.append_assoc, List.cons_append]
  refine ite_good _ _ _ _ (fun hc => ?_) (fun _ => ?_)
  · rw [byte_of_val (n := 0x5D) hc]
    unfold stateEndValue
    simp only [show isSpace (0x5D : Byte) = true ↔ False from by decide, if_false,
      show ((0x5D : Byte)).val = 0x2C ↔ False from by decide]
    rw [if_pos (show ((0x5D : Byte)).val = 0x5D from rfl)]
    exact good_pop _ _ ps p0 ((0x5B : Byte) :: (w ++ [0x5D])) _ _ ho (Gram.arrEmpty w hw)
      (by simp only [List.append_assoc, List.cons_append])
  have hopen : Open (.parseArrayValue :: ps) (p0 ++ ((0x5B : Byte) :: w)) := by
    have := Open.arr ps p0 [0x5B] w ho Gram.elemsNil hw
    simpa only [List.append_assoc, List.cons_append, List.nil_append] using this
  exact good_beginValue _ (.parseArrayValue :: ps) _ c hopen (fun hc => absurd hc hsp)

/-- The step `stateBeginString` where a key is expected, from any step
function that calls it; `hsp` covers the byte that is space. -/
theorem good_beginString (st : StepFn) (ps : List ParseState) (p : List Byte) (c : Byte)
    (h : KeyOpen ps p)
    (hsp : isSpace c = true → Good (⟨st, false, ps, false⟩, .scanSkipSpace) (p ++ [c])) :
    Good (stateBeginString ⟨st, false, ps, false⟩ c) (p ++ [c]) := by
  unfold stateBeginString
  refine ite_good _ _ _ _ hsp (fun _ => ?_)
  refine ite_good _ _ _ _ (fun hc => ?_) (fun _ => good_error _ _)
  rw [byte_of_val (n := 0x22) hc]
  exact Or.inr ⟨rfl, rfl, p, [0x22], rfl, Or.inl ⟨Or.inr h, [], StringBody.nil, rfl⟩⟩

theorem keyOpen_space (ps : List ParseState) (p : List Byte) (c : Byte) (h : KeyOpen ps p)
    (hc : isSpace c = true) : KeyOpen ps (p ++ [c]) := by
  obtain ⟨ps1, p0, o, w, rfl, ho, hm, hw, rfl⟩ := h
  exact ⟨ps1, p0, o, w ++ [c], rfl, ho, hm, spaces_snoc w c hw hc,
    by simp only [List.append_assoc]⟩

/-- The step `stateBeginStringOrEmpty`, after an opening brace. -/
theorem good_beginStringOrEmpty (ps : List ParseState) (p0 w : List Byte) (c : Byte)
    (ho : Open ps p0) (hw : Spaces w) :
    Good (stateBeginStringOrEmpty
      ⟨.stateBeginStringOrEmpty, false, .parseObjectKey :: ps, false⟩ c)
      (p0 ++ ((0x7B : Byte) :: w) ++ [c]) := by
  unfold stateBeginStringOrEmpty
  refine ite_good _ _ _ _ (fun hc => ?_) (fun hsp => ?_)
  · refine Or.inr ⟨rfl, rfl, ps, p0, w ++ [c], rfl, ho, spaces_snoc w c hw hc, ?_⟩
    simp only [List.append_assoc, List.cons_append]
  refine ite_good _ _ _ _ (fun hc => ?_) (fun _ => ?_)
  · rw [byte_of_val (n := 0x7D) hc]
    unfold stateEndValue
    simp only [show isSpace (0x7D : Byte) = true ↔ False from by decide, if_false,
      show ((0x7D : Byte)).val = 0x2C ↔ False from by decide, List.tail_cons]
    rw [if_pos (show ((0x7D : Byte)).val = 0x7D from rfl)]
    exact good_pop _ _ ps p0 ((0x7B : Byte) :: (w ++ [0x7D])) _ _ ho (Gram.objEmpty w hw)
      (by simp only [List.append_assoc, List.cons_append])
  have hkey : KeyOpen (.parseObjectKey :: ps) (p0 ++ ((0x7B : Byte) :: w)) :=
    ⟨ps, p0, [0x7B], w, rfl, ho, Gram.membersNil, hw,
      by simp only [List.append_assoc, List.cons_append, List.nil_append]⟩
  exact good_beginString _ (.parseObjectKey :: ps) _ c hkey (fun hc => absurd hc hsp)

/-- The step `stateEndTop`, after the top-level value. -/
theorem good_endTop (p : List Byte) (c : Byte) (h : Done [] p) :
    Good (stateEndTop ⟨.stateEndTop, true, [], false⟩ c) (p ++ [c]) := by
  obtain ⟨p1, v, w, ho, hv, hw, rfl⟩ := h
  unfold stateEndTop
  refine ite_good _ _ _ _ (fun _ => Or.inl ⟨rfl, rfl⟩) (fun hc => ?_)
  have hc' : isSpace c = true := by
    cases hs : isSpace c with
    | true => rfl
    | false => rw [hs] at hc; exact absurd rfl hc
  exact Or.inr ⟨rfl, rfl, rfl, p1, v, w ++ [c], ho, hv, spaces_snoc w c hw hc',
    by simp only [List.append_assoc]⟩

/-- One more byte of a token. -/
theorem good_tok (st st1 : StepFn) (ps : List ParseState) (p : List Byte) (c : Byte) (op : Op)
    (h : InToken st ps p)
    (hinv : Inv ⟨st1, false, ps, false⟩ (p ++ [c])
      = (false = false ∧ false = false ∧ InToken st1 ps (p ++ [c])))
    (hs : ∀ tok, StrTok st tok → StrTok st1 (tok ++ [c]))
    (hn : ∀ tok, NumTok st tok → NumTok st1 (tok ++ [c]))
    (hl : ∀ tok, LitTok st tok → LitTok st1 (tok ++ [c])) :
    Good (⟨st1, false, ps, false⟩, op) (p ++ [c]) := by
  right
  rw [hinv]
  obtain ⟨p1, tok, rfl, h⟩ := h
  refine ⟨rfl, rfl, p1, tok ++ [c], by simp only [List.append_assoc], ?_⟩
  rcases h with ⟨h1, h2⟩ | ⟨h1, h2 | h2⟩
  · exact Or.inl ⟨h1, hs tok h2⟩
  · exact Or.inr ⟨h1, Or.inl (hn tok h2)⟩
  · exact Or.inr ⟨h1, Or.inr (hl tok h2)⟩

/-- The closing quote of a string. -/
theorem good_quote (ps : List ParseState) (p : List Byte) (op : Op)
    (h : InToken .stateInString ps p) :
    Good (⟨.stateEndValue, false, ps, false⟩, op) (p ++ [0x22]) := by
  obtain ⟨p1, tok, rfl, h⟩ := h
  rcases h with ⟨h1, b, hb, rfl⟩ | ⟨_, h2 | h2⟩
  · rcases h1 with ho | ⟨ps1, p0, o, w, rfl, ho, hm, hw, rfl⟩
    · exact Or.inr ⟨rfl, rfl, Or.inr (done_intro ps p1 (quoted b) _ ho (Gram.str b hb)
        (by simp only [quoted, List.append_assoc, List.cons_append]))⟩
    · exact Or.inr ⟨rfl, rfl, Or.inl ⟨ps1, p0, o, w, b, [], rfl, ho, hm, hw, hb, spaces_nil,
        by simp only [quoted, List.append_assoc, List.cons_append, List.append_nil]⟩⟩
  · exact h2.elim
  · exact h2.elim

/-- The steps inside a string. -/
theorem good_inString (ps : List ParseState) (p : List Byte) (c : Byte)
    (h : InToken .stateInString ps p) :
    Good (Scanner.next ⟨.stateInString, false, ps, false⟩ c) (p ++ [c]) := by
  simp only [Scanner.next]
  refine ite_good _ _ _ _ (fun hc => ?_) (fun h22 => ?_)
  · rw [byte_of_val (n := 0x22) hc]
    exact good_quote ps p _ h
  refine ite_good _ _ _ _ (fun hc => ?_) (fun h5c => ?_)
  · rw [byte_of_val (n := 0x5C) hc]
    exact good_tok _ _ ps p _ _ h rfl
      (fun tok ⟨b, hb, ht⟩ => ⟨b, hb, by rw [ht]; rfl⟩) (fun _ hx => hx.elim)
      (fun _ hx => hx.elim)
  refine ite_good _ _ _ _ (fun _ => good_error _ _) (fun h20 => ?_)
  have hplain : isPlain c = true := by
    unfold isPlain
    simp only [decide_eq_true_eq]
    omega
  exact good_tok _ _ ps p _ _ h rfl
    (fun tok ⟨b, hb, ht⟩ => ⟨b ++ [c], stringBody_snoc b c hb hplain, by rw [ht]; rfl⟩)
    (fun _ hx => hx.elim) (fun _ hx => hx.elim)

/-- The step after a backslash. -/
theorem good_inStringEsc (ps : List ParseState) (p : List Byte) (c : Byte)
    (h : InToken .stateInStringEsc ps p) :
    Good (Scanner.next ⟨.stateInStringEsc, false, ps, false⟩ c) (p ++ [c]) := by
  simp only [Scanner.next]
  refine ite_good _ _ _ _ (fun hc => ?_) (fun _ => ?_)
  · have hesc : isSimpleEscape c = true := by
      unfold isSimpleEscape
      simp only [decide_eq_true_eq]
      exact hc
    exact good_tok _ _ ps p _ _ h rfl
      (fun tok ⟨b, hb, ht⟩ => ⟨b ++ [0x5C, c],
        hb.append (StringBody.esc c [] hesc StringBody.nil),
        by rw [ht]; simp only [List.append_assoc, List.cons_append, List.nil_append]⟩)
      (fun _ hx => hx.elim) (fun _ hx => hx.elim)
  refine ite_good _ _ _ _ (fun hc => ?_) (fun _ => good_error _ _)
  rw [byte_of_val (n := 0x75) hc]
  exact good_tok _ _ ps p _ _ h rfl
    (fun tok ⟨b, hb, ht⟩ => ⟨b, hb,
      by rw [ht]; simp only [List.append_assoc, List.cons_append, List.nil_append]⟩)
    (fun _ hx => hx.elim) (fun _ hx => hx.elim)

/-- The steps over the four hexadecimal digits of an escape. -/
theorem good_inStringEscU (ps : List ParseState) (p : List Byte) (c : Byte) :
    (InToken .stateInStringEscU ps p →
      Good (Scanner.next ⟨.stateInStringEscU, false, ps, false⟩ c) (p ++ [c])) ∧
    (InToken .stateInStringEscU1 ps p →
      Good (Scanner.next ⟨.stateInStringEscU1, false, ps, false⟩ c) (p ++ [c])) ∧
    (InToken .stateInStringEscU12 ps p →
      Good (Scanner.next ⟨.stateInStringEscU12, false, ps, false⟩ c) (p ++ [c])) ∧
    (InToken .stateInStringEscU123 ps p →
      Good (Scanner.next ⟨.stateInStringEscU123, false, ps, false⟩ c) (p ++ [c])) := by
  refine ⟨fun h => ?_, fun h => ?_, fun h => ?_, fun h => ?_⟩
  · simp only [Scanner.next]
    refine ite_good _ _ _ _ (fun hc => ?_) (fun _ => good_error _ _)
    exact good_tok _ _ ps p _ _ h rfl
      (fun tok ⟨b, hb, ht⟩ => ⟨b, c, hb, hc,
        by rw [ht]; simp only [List.append_assoc, List.cons_append, List.nil_append]⟩)
      (fun _ hx => hx.elim) (fun _ hx => hx.elim)
  · simp only [Scanner.next]
    refine ite_good _ _ _ _ (fun hc => ?_) (fun _ => good_error _ _)
    exact good_tok _ _ ps p _ _ h rfl
      (fun tok ⟨b, h1, hb, hh1, ht⟩ => ⟨b, h1, c, hb, hh1, hc,
        by rw [ht]; simp only [List.append_assoc, List.cons_append, List.nil_append]⟩)
      (fun _ hx => hx.elim) (fun _ hx => hx.elim)
  · simp only [Scanner.next]
    refine ite_good _ _ _ _ (fun hc => ?_) (fun _ => good_error _ _)
    exact good_tok _ _ ps p _ _ h rfl
      (fun tok ⟨b, h1, h2, hb, hh1, hh2, ht⟩ => ⟨b, h1, h2, c, hb, hh1, hh2, hc,
        by rw [ht]; simp only [List.append_assoc, List.cons_append, List.nil_append]⟩)
      (fun _ hx => hx.elim) (fun _ hx => hx.elim)
  · simp only [Scanner.next]
    refine ite_good _ _ _ _ (fun hc => ?_) (fun _ => good_error _ _)
    exact good_tok _ _ ps p _ _ h rfl
      (fun tok ⟨b, h1, h2, h3, hb, hh1, hh2, hh3, ht⟩ => ⟨b ++ [0x5C, 0x75, h1, h2, h3, c],
        hb.append (StringBody.escU h1 h2 h3 c [] hh1 hh2 hh3 hc StringBody.nil),
        by rw [ht]; simp only [List.append_assoc, List.cons_append, List.nil_append]⟩)
      (fun _ hx => hx.elim) (fun _ hx => hx.elim)

/-- The last byte of `true`, `false` or `null`. -/
theorem good_litEnd (st : StepFn) (ps : List ParseState) (p v : List Byte) (c : Byte) (op : Op)
    (h : InToken st ps p) (hv : Gram .value v)
    (hs : ∀ tok, ¬ StrTok st tok) (hn : ∀ tok, ¬ NumTok st tok)
    (hl : ∀ tok, LitTok st tok → tok ++ [c] = v) :
    Good (⟨.stateEndValue, false, ps, false⟩, op) (p ++ [c]) := by
  obtain ⟨p1, tok, rfl, h⟩ := h
  rcases h with ⟨_, h2⟩ | ⟨h1, h2 | h2⟩
  · exact absurd h2 (hs tok)
  · exact absurd h2 (hn tok)
  · exact Or.inr ⟨rfl, rfl, Or.inr (done_intro ps p1 v _ h1 hv
      (by rw [← hl tok h2]; simp only [List.append_assoc]))⟩

/-- The steps inside `true`, `false` and `null`. -/
theorem good_expectByte (st st1 : StepFn) (ps : List ParseState) (p : List Byte) (c : Byte)
    (want : Nat) (hw : want < 256) (h : InToken st ps p)
    (hinv : Inv ⟨st1, false, ps, false⟩ (p ++ [c])
      = (false = false ∧ false = false ∧ InToken st1 ps (p ++ [c])))
    (hs : ∀ tok, ¬ StrTok st tok) (hn : ∀ tok, ¬ NumTok st tok)
    (hl : ∀ tok, LitTok st tok → LitTok st1 (tok ++ [⟨want, hw⟩])) :
    Good (expectByte ⟨st, false, ps, false⟩ c want st1) (p ++ [c]) := by
  unfold expectByte
  refine ite_good _ _ _ _ (fun hc => ?_) (fun _ => good_error _ _)
  have hcw : c = ⟨want, hw⟩ := Fin.ext hc
  exact good_tok st st1 ps p c _ h hinv (fun tok hx => absurd hx (hs tok))
    (fun tok hx => absurd hx (hn tok)) (fun tok hx => by rw [hcw]; exact hl tok hx)

/-- The last step inside `true`, `false` and `null`. -/
theorem good_expectLast (st : StepFn) (ps : List ParseState) (p v : List Byte) (c : Byte)
    (want : Nat) (hw : want < 256) (h : InToken st ps p) (hv : Gram .value v)
    (hs : ∀ tok, ¬ StrTok st tok) (hn : ∀ tok, ¬ NumTok st tok)
    (hl : ∀ tok, LitTok st tok → tok ++ [⟨want, hw⟩] = v) :
    Good (expectByte ⟨st, false, ps, false⟩ c want .stateEndValue) (p ++ [c]) := by
  unfold expectByte
  refine ite_good _ _ _ _ (fun hc => ?_) (fun _ => good_error _ _)
  have hcw : c = ⟨want, hw⟩ := Fin.ext hc
  exact good_litEnd st ps p v c _ h hv hs hn (fun tok hx => by rw [hcw]; exact hl tok hx)

/-- The end of a number: the byte after it goes to `stateEndValue`. -/
theorem good_numEnd (st : StepFn) (ps : List ParseState) (p : List Byte) (c : Byte)
    (h : InToken st ps p)
    (hs : ∀ tok, ¬ StrTok st tok) (hl : ∀ tok, ¬ LitTok st tok)
    (hn : ∀ tok, NumTok st tok → JNumber tok) :
    Good (stateEndValue ⟨st, false, ps, false⟩ c) (p ++ [c]) := by
  obtain ⟨p1, tok, rfl, h⟩ := h
  rcases h with ⟨_, h2⟩ | ⟨h1, h2 | h2⟩
  · exact absurd h2 (hs tok)
  · exact good_endValue_done st ps _ c (done_intro ps p1 tok _ h1 (Gram.num tok (hn tok h2)) rfl)
  · exact absurd h2 (hl tok)

/-- One more byte of a number. -/
theorem good_num (st st1 : StepFn) (ps : List ParseState) (p : List Byte) (c : Byte) (op : Op)
    (h : InToken st ps p)
    (hinv : Inv ⟨st1, false, ps, false⟩ (p ++ [c])
      = (false = false ∧ false = false ∧ InToken st1 ps (p ++ [c])))
    (hs : ∀ tok, ¬ StrTok st tok) (hl : ∀ tok, ¬ LitTok st tok)
    (hn : ∀ tok, NumTok st tok → NumTok st1 (tok ++ [c])) :
    Good (⟨st1, false, ps, false⟩, op) (p ++ [c]) :=
  good_tok st st1 ps p c op h hinv (fun tok hx => absurd hx (hs tok)) hn
    (fun tok hx => absurd hx (hl tok))

/-- The step function `state0`, called in the states `state0` and `state1`:
after the integer part of a number. -/
theorem good_state0 (st : StepFn) (ps : List ParseState) (p : List Byte) (c : Byte)
    (h : InToken st ps p)
    (hs : ∀ tok, ¬ StrTok st tok) (hl : ∀ tok, ¬ LitTok st tok)
    (hn : ∀ tok, NumTok st tok → ∃ sg int, JSign sg ∧ JInt int ∧ tok = sg ++ int) :
    Good (state0 ⟨st, false, ps, false⟩ c) (p ++ [c]) := by
  unfold state0
  refine ite_good _ _ _ _ (fun hc => ?_) (fun _ => ?_)
  · rw [byte_of_val (n := 0x2E) hc]
    refine good_num st _ ps p _ _ h rfl hs hl (fun tok hx => ?_)
    obtain ⟨sg, int, h1, h2, rfl⟩ := hn tok hx
    exact ⟨sg, int, h1, h2, rfl⟩
  refine ite_good _ _ _ _ (fun hc => ?_) (fun _ => ?_)
  · refine good_num st _ ps p _ _ h rfl hs hl (fun tok hx => ?_)
    obtain ⟨sg, int, h1, h2, rfl⟩ := hn tok hx
    exact ⟨sg, int, [], c, h1, h2, Or.inl rfl, hc, by simp only [List.append_nil]⟩
  refine good_numEnd st ps p c h hs hl (fun tok hx => ?_)
  obtain ⟨sg, int, h1, h2, rfl⟩ := hn tok hx
  exact ⟨sg, int, [], [], h1, h2, Or.inl rfl, Or.inl rfl, by simp only [List.append_nil]⟩

/-- The step function `stateESign`, called in the states `stateE` and
`stateESign`: the first digit of an exponent. -/
theorem good_stateESign (st : StepFn) (ps : List ParseState) (p : List Byte) (c : Byte)
    (h : InToken st ps p)
    (hs : ∀ tok, ¬ StrTok st tok) (hl : ∀ tok, ¬ LitTok st tok)
    (hn : ∀ tok, NumTok st tok → isDigit c = true → NumTok .stateE0 (tok ++ [c])) :
    Good (stateESign ⟨st, false, ps, false⟩ c) (p ++ [c]) := by
  unfold stateESign
  refine ite_good _ _ _ _ (fun hc => ?_) (fun _ => good_error _ _)
  exact good_num st _ ps p _ _ h rfl hs hl (fun tok hx => hn tok hx hc)

theorem jint_of_digit19 (c : Byte) (d : List Byte) (hc : isDigit19 c = true) (hd : Digits d) :
    JInt (c :: d) := Or.inr ⟨c, d, hc, hd, rfl⟩

/-- The steps inside a number. -/
theorem good_number (ps : List ParseState) (p : List Byte) (c : Byte) :
    (InToken .stateNeg ps p → Good (Scanner.next ⟨.stateNeg, false, ps, false⟩ c) (p ++ [c])) ∧
    (InToken .state1 ps p → Good (Scanner.next ⟨.state1, false, ps, false⟩ c) (p ++ [c])) ∧
    (InToken .state0 ps p → Good (Scanner.next ⟨.state0, false, ps, false⟩ c) (p ++ [c])) ∧
    (InToken .stateDot ps p → Good (Scanner.next ⟨.stateDot, false, ps, false⟩ c) (p ++ [c])) ∧
    (InToken .stateDot0 ps p →
      Good (Scanner.next ⟨.stateDot0, false, ps, false⟩ c) (p ++ [c])) := by
  refine ⟨fun h => ?_, fun h => ?_, fun h => ?_, fun h => ?_, fun h => ?_⟩
  · simp only [Scanner.next]
    refine ite_good _ _ _ _ (fun hc => ?_) (fun _ => ?_)
    · rw [byte_of_val (n := 0x30) hc]
      exact good_num _ _ ps p _ _ h rfl (fun _ hx => hx) (fun _ hx => hx)
        (fun tok hx => ⟨[0x2D], Or.inr rfl, by rw [show tok = [0x2D] from hx]⟩)
    refine ite_good _ _ _ _ (fun hc => ?_) (fun _ => good_error _ _)
    exact good_num _ _ ps p _ _ h rfl (fun _ hx => hx) (fun _ hx => hx)
      (fun tok hx => ⟨[0x2D], c, [], Or.inr rfl, hc, digits_nil,
        by rw [show tok = [0x2D] from hx]⟩)
  · simp only [Scanner.next]
    refine ite_good _ _ _ _ (fun hc => ?_) (fun _ => ?_)
    · exact good_num _ _ ps p _ _ h rfl (fun _ hx => hx) (fun _ hx => hx)
        (fun tok ⟨sg, c0, d, h1, h2, h3, ht⟩ => ⟨sg, c0, d ++ [c], h1, h2, digits_snoc d c h3 hc,
          by rw [ht]; simp only [List.append_assoc, List.cons_append]⟩)
    exact good_state0 _ ps p c h (fun _ hx => hx) (fun _ hx => hx)
      (fun tok ⟨sg, c0, d, h1, h2, h3, ht⟩ => ⟨sg, c0 :: d, h1, jint_of_digit19 c0 d h2 h3, ht⟩)
  · simp only [Scanner.next]
    exact good_state0 _ ps p c h (fun _ hx => hx) (fun _ hx => hx)
      (fun tok ⟨sg, h1, ht⟩ => ⟨sg, [0x30], h1, Or.inl rfl, ht⟩)
  · simp only [Scanner.next]
    refine ite_good _ _ _ _ (fun hc => ?_) (fun _ => good_error _ _)
    exact good_num _ _ ps p _ _ h rfl (fun _ hx => hx) (fun _ hx => hx)
      (fun tok ⟨sg, int, h1, h2, ht⟩ => ⟨sg, int, c, [], h1, h2, hc, digits_nil,
        by rw [ht]; simp only [List.append_assoc, List.cons_append, List.nil_append]⟩)
  · simp only [Scanner.next]
    refine ite_good _ _ _ _ (fun hc => ?_) (fun _ => ?_)
    · exact good_num _ _ ps p _ _ h rfl (fun _ hx => hx) (fun _ hx => hx)
        (fun tok ⟨sg, int, c0, d, h1, h2, h3, h4, ht⟩ => ⟨sg, int, c0, d ++ [c], h1, h2, h3,
          digits_snoc d c h4 hc,
          by rw [ht]; simp only [List.append_assoc, List.cons_append]⟩)
    refine ite_good _ _ _ _ (fun hc => ?_) (fun _ => ?_)
    · exact good_num _ _ ps p _ _ h rfl (fun _ hx => hx) (fun _ hx => hx)
        (fun tok ⟨sg, int, c0, d, h1, h2, h3, h4, ht⟩ => ⟨sg, int, 0x2E :: c0 :: d, c, h1, h2,
          Or.inr ⟨c0, d, h3, h4, rfl⟩, hc, by rw [ht]⟩)
    exact good_numEnd _ ps p c h (fun _ hx => hx) (fun _ hx => hx)
      (fun tok ⟨sg, int, c0, d, h1, h2, h3, h4, ht⟩ => ⟨sg, int, 0x2E :: c0 :: d, [], h1, h2,
        Or.inr ⟨c0, d, h3, h4, rfl⟩, Or.inl rfl, by rw [ht]; simp only [List.append_nil]⟩)

/-- The steps inside the exponent of a number. -/
theorem good_exponent (ps : List ParseState) (p : List Byte) (c : Byte) :
    (InToken .stateE ps p → Good (Scanner.next ⟨.stateE, false, ps, false⟩ c) (p ++ [c])) ∧
    (InToken .stateESign ps p →
      Good (Scanner.next ⟨.stateESign, false, ps, false⟩ c) (p ++ [c])) ∧
    (InToken .stateE0 ps p → Good (Scanner.next ⟨.stateE0, false, ps, false⟩ c) (p ++ [c])) := by
  refine ⟨fun h => ?_, fun h => ?_, fun h => ?_⟩
  · simp only [Scanner.next]
    refine ite_good _ _ _ _ (fun hc => ?_) (fun _ => ?_)
    · exact good_num _ _ ps p _ _ h rfl (fun _ hx => hx) (fun _ hx => hx)
        (fun tok ⟨sg, int, frac, e, h1, h2, h3, h4, ht⟩ => ⟨sg, int, frac, e, c, h1, h2, h3, h4,
          hc, by rw [ht]; simp only [List.append_assoc, List.cons_append, List.nil_append]⟩)
    exact good_stateESign _ ps p c h (fun _ hx => hx) (fun _ hx => hx)
      (fun tok ⟨sg, int, frac, e, h1, h2, h3, h4, ht⟩ hc => ⟨sg, int, frac, e, [], c, [], h1, h2,
        h3, h4, Or.inl rfl, hc, digits_nil,
        by rw [ht]; simp only [List.append_assoc, List.cons_append, List.nil_append]⟩)
  · simp only [Scanner.next]
    refine good_stateESign _ ps p c h (fun _ hx => hx) (fun _ hx => hx) ?_
    rintro tok ⟨sg, int, frac, e, x, h1, h2, h3, h4, h5, ht⟩ hc
    refine ⟨sg, int, frac, e, [x], c, [], h1, h2, h3, h4, ?_, hc, digits_nil,
      by rw [ht]; simp only [List.append_assoc, List.cons_append, List.nil_append]⟩
    rcases h5 with h5 | h5
    · exact Or.inr (Or.inl (by rw [byte_of_val (n := 0x2B) h5]))
    · exact Or.inr (Or.inr (by rw [byte_of_val (n := 0x2D) h5]))
  · simp only [Scanner.next]
    refine ite_good _ _ _ _ (fun hc => ?_) (fun _ => ?_)
    · exact good_num _ _ ps p _ _ h rfl (fun _ hx => hx) (fun _ hx => hx)
        (fun tok ⟨sg, int, frac, e, x, c0, d, h1, h2, h3, h4, h5, h6, h7, ht⟩ =>
          ⟨sg, int, frac, e, x, c0, d ++ [c], h1, h2, h3, h4, h5, h6, digits_snoc d c h7 hc,
            by rw [ht]; simp only [List.append_assoc, List.cons_append]⟩)
    exact good_numEnd _ ps p c h (fun _ hx => hx) (fun _ hx => hx)
      (fun tok ⟨sg, int, frac, e, x, c0, d, h1, h2, h3, h4, h5, h6, h7, ht⟩ =>
        ⟨sg, int, frac, e :: (x ++ c0 :: d), h1, h2, h3,
          Or.inr ⟨e, x, c0, d, h4, h5, h6, h7, rfl⟩, ht⟩)

/-- One step of the scanner: after it the scanner is dead, or its state
describes the text read. -/
theorem next_good (s : Scanner) (p : List Byte) (c : Byte) (h : Inv s p) :
    Good (s.next c) (p ++ [c]) := by
  obtain ⟨st, et, ps, er⟩ := s
  obtain ⟨herr, h⟩ := h
  simp only at herr
  subst herr
  have hN := good_number ps p c
  have hE := good_exponent ps p c
  have hU := good_inStringEscU ps p c
  have nS : ∀ (st : StepFn), (∀ tok, StrTok st tok → False) → ∀ tok, ¬ StrTok st tok :=
    fun _ hx tok => hx tok
  cases st with
  | stateBeginValueOrEmpty =>
    obtain ⟨het, ps1, p0, w, hps, ho, hw, hp⟩ : et = false ∧ ∃ ps1 p0 w,
      ps = .parseArrayValue :: ps1 ∧ Open ps1 p0 ∧ Spaces w ∧ p = p0 ++ ((0x5B : Byte) :: w) := h
    subst het; subst hps; subst hp
    exact good_beginValueOrEmpty ps1 p0 w c ho hw
  | stateBeginValue =>
    obtain ⟨het, ho⟩ : et = false ∧ Open ps p := h
    subst het
    exact good_beginValue _ ps p c ho (fun hc => Or.inr ⟨rfl, rfl, open_space ps p c ho hc⟩)
  | stateBeginStringOrEmpty =>
    obtain ⟨het, ps1, p0, w, hps, ho, hw, hp⟩ : et = false ∧ ∃ ps1 p0 w,
      ps = .parseObjectKey :: ps1 ∧ Open ps1 p0 ∧ Spaces w ∧ p = p0 ++ ((0x7B : Byte) :: w) := h
    subst het; subst hps; subst hp
    exact good_beginStringOrEmpty ps1 p0 w c ho hw
  | stateBeginString =>
    obtain ⟨het, hk⟩ : et = false ∧ KeyOpen ps p := h
    subst het
    exact good_beginString _ ps p c hk (fun hc => Or.inr ⟨rfl, rfl, keyOpen_space ps p c hk hc⟩)
  | stateEndValue =>
    obtain ⟨het, hk | hd⟩ : et = false ∧ (AfterKey ps p ∨ Done ps p) := h
    · subst het; exact good_endValue_key ps p c hk
    · subst het; exact good_endValue_done _ ps p c hd
  | stateEndTop =>
    obtain ⟨het, hps, hd⟩ : et = true ∧ ps = [] ∧ Done [] p := h
    subst het; subst hps
    exact good_endTop p c hd
  | stateError => exact absurd h id
  | stateInString =>
    obtain ⟨het, ht⟩ : et = false ∧ InToken .stateInString ps p := h
    subst het; exact good_inString ps p c ht
  | stateInStringEsc =>
    obtain ⟨het, ht⟩ : et = false ∧ InToken .stateInStringEsc ps p := h
    subst het; exact good_inStringEsc ps p c ht
  | stateInStringEscU =>
    obtain ⟨het, ht⟩ : et = false ∧ InToken .stateInStringEscU ps p := h
    subst het; exact hU.1 ht
  | stateInStringEscU1 =>
    obtain ⟨het, ht⟩ : et = false ∧ InToken .stateInStringEscU1 ps p := h
    subst het; exact hU.2.1 ht
  | stateInStringEscU12 =>
    obtain ⟨het, ht⟩ : et = false ∧ InToken .stateInStringEscU12 ps p := h
    subst het; exact hU.2.2.1 ht
  | stateInStringEscU123 =>
    obtain ⟨het, ht⟩ : et = false ∧ InToken .stateInStringEscU123 ps p := h
    subst het; exact hU.2.2.2 ht
  | stateNeg =>
    obtain ⟨het, ht⟩ : et = false ∧ InToken .stateNeg ps p := h
    subst het; exact hN.1 ht
  | state1 =>
    obtain ⟨het, ht⟩ : et = false ∧ InToken .state1 ps p := h
    subst het; exact hN.2.1 ht
  | state0 =>
    obtain ⟨het, ht⟩ : et = false ∧ InToken .state0 ps p := h
    subst het; exact hN.2.2.1 ht
  | stateDot =>
    obtain ⟨het, ht⟩ : et = false ∧ InToken .stateDot ps p := h
    subst het; exact hN.2.2.2.1 ht
  | stateDot0 =>
    obtain ⟨het, ht⟩ : et = false ∧ InToken .stateDot0 ps p := h
    subst het; exact hN.2.2.2.2 ht
  | stateE =>
    obtain ⟨het, ht⟩ : et = false ∧ InToken .stateE ps p := h
    subst het; exact hE.1 ht
  | stateESign =>
    obtain ⟨het, ht⟩ : et = false ∧ InToken .stateESign ps p := h
    subst het; exact hE.2.1 ht
  | stateE0 =>
    obtain ⟨het, ht⟩ : et = false ∧ InToken .stateE0 ps p := h
    subst het; exact hE.2.2 ht
  | stateT =>
    obtain ⟨het, ht⟩ : et = false ∧ InToken .stateT ps p := h
    subst het
    exact good_expectByte _ _ ps p c 0x72 (by decide) ht rfl (fun _ hx => hx) (fun _ hx => hx)
      (fun tok hx => by rw [show tok = [0x74] from hx]; rfl)
  | stateTr =>
    obtain ⟨het, ht⟩ : et = false ∧ InToken .stateTr ps p := h
    subst het
    exact good_expectByte _ _ ps p c 0x75 (by decide) ht rfl (fun _ hx => hx) (fun _ hx => hx)
      (fun tok hx => by rw [show tok = [0x74, 0x72] from hx]; rfl)
  | stateTru =>
    obtain ⟨het, ht⟩ : et = false ∧ InToken .stateTru ps p := h
    subst het
    exact good_expectLast _ ps p _ c 0x65 (by decide) ht Gram.litTrue (fun _ hx => hx)
      (fun _ hx => hx) (fun tok hx => by rw [show tok = [0x74, 0x72, 0x75] from hx]; rfl)
  | stateF =>
    obtain ⟨het, ht⟩ : et = false ∧ InToken .stateF ps p := h
    subst het
    exact good_expectByte _ _ ps p c 0x61 (by decide) ht rfl (fun _ hx => hx) (fun _ hx => hx)
      (fun tok hx => by rw [show tok = [0x66] from hx]; rfl)
  | stateFa =>
    obtain ⟨het, ht⟩ : et = false ∧ InToken .stateFa ps p := h
    subst het
    exact good_expectByte _ _ ps p c 0x6C (by decide) ht rfl (fun _ hx => hx) (fun _ hx => hx)
      (fun tok hx => by rw [show tok = [0x66, 0x61] from hx]; rfl)
  | stateFal =>
    obtain ⟨het, ht⟩ : et = false ∧ InToken .stateFal ps p := h
    subst het
    exact good_expectByte _ _ ps p c 0x73 (by decide) ht rfl (fun _ hx => hx) (fun _ hx => hx)
      (fun tok hx => by rw [show tok = [0x66, 0x61, 0x6C] from hx]; rfl)
  | stateFals =>
    obtain ⟨het, ht⟩ : et = false ∧ InToken .stateFals ps p := h
    subst het
    exact good_expectLast _ ps p _ c 0x65 (by decide) ht Gram.litFalse (fun _ hx => hx)
      (fun _ hx => hx) (fun tok hx => by rw [show tok = [0x66, 0x61, 0x6C, 0x73] from hx]; rfl)
  | stateN =>
    obtain ⟨het, ht⟩ : et = false ∧ InToken .stateN ps p := h
    subst het
    exact good_expectByte _ _ ps p c 0x75 (by decide) ht rfl (fun _ hx => hx) (fun _ hx => hx)
      (fun tok hx => by rw [show tok = [0x6E] from hx]; rfl)
  | stateNu =>
    obtain ⟨het, ht⟩ : et = false ∧ InToken .stateNu ps p := h
    subst het
    exact good_expectByte _ _ ps p c 0x6C (by decide) ht rfl (fun _ hx => hx) (fun _ hx => hx)
      (fun tok hx => by rw [show tok = [0x6E, 0x75] from hx]; rfl)
  | stateNul =>
    obtain ⟨het, ht⟩ : et = false ∧ InToken .stateNul ps p := h
    subst het
    exact good_expectLast _ ps p _ c 0x6C (by decide) ht Gram.litNull (fun _ hx => hx)
      (fun _ hx => hx) (fun tok hx => by rw [show tok = [0x6E, 0x75, 0x6C] from hx]; rfl)

/-- A dead scanner leaves the loop of `checkValid` with an error, if it
leaves it at all. -/
theorem checkValidLoop_dead (s sf : Scanner) (x : List Byte) (hd : s.dead)
    (h : checkValidLoop s x = some sf) : sf.err = true := by
  cases x with
  | nil =>
    simp only [checkValidLoop, Option.some.injEq] at h
    rw [← h]; exact hd.1
  | cons c x =>
    simp only [checkValidLoop, next_dead s c hd, if_true] at h
    exact absurd h (by simp)

/-- The state in which the scanner leaves the loop of `checkValid` without
error describes the text read. -/
theorem checkValidLoop_sound :
    ∀ (x : List Byte) (s sf : Scanner) (p : List Byte), Inv s p →
      checkValidLoop s x = some sf → sf.err = false → Inv sf (p ++ x)
  | [], s, sf, p, hi, h, _ => by
    simp only [checkValidLoop, Option.some.injEq] at h
    rw [← h, List.append_nil]; exact hi
  | c :: x, s, sf, p, hi, h, he => by
    simp only [checkValidLoop] at h
    split_ifs at h with hop
    rcases next_good s p c hi with hd | hg
    · have := checkValidLoop_dead _ sf x hd h
      rw [he] at this
      exact absurd this (by simp)
    · have := checkValidLoop_sound x _ sf (p ++ [c]) hg h he
      simpa only [List.append_assoc, List.singleton_append] using this

/-- The text read when the top-level value has ended is a JSON text. -/
theorem jsonText_of_done (p : List Byte) (h : Done [] p) : JsonText p := by
  obtain ⟨p1, v, w, ho, hv, hw, rfl⟩ := h
  cases ho with
  | top _ hw1 => exact ⟨p1, v, w, hw1, hv, hw, rfl⟩

set_option maxHeartbeats 1000000 in
/-- The states in which a space at the end of the input ends the top-level
value. -/
theorem eof_space (st : StepFn) (ps : List ParseState)
    (h : (Scanner.next ⟨st, false, ps, false⟩ 0x20).1.endTop = true) :
    ps = [] ∧ (st = .stateEndValue ∨ st = .state0 ∨ st = .state1 ∨ st = .stateDot0
      ∨ st = .stateE0) := by
  have hsp : isSpace (0x20 : Byte) = true := by decide
  have hd : isDigit (0x20 : Byte) = false := by decide
  have hd19 : isDigit19 (0x20 : Byte) = false := by decide
  have hx : isHex (0x20 : Byte) = false := by decide
  have hv : ((0x20 : Byte)).val = 0x20 := rfl
  cases st <;> cases ps <;>
    simp [Scanner.next, stateBeginValueOrEmpty, stateBeginValue, stateBeginStringOrEmpty,
      stateBeginString, stateEndValue, stateEndTop, state0, stateESign, expectByte,
      Scanner.error, hsp, hd, hd19, hx, hv] at h ⊢

/-- A number is complete in the states `state0`, `state1`, `stateDot0` and
`stateE0`. -/
theorem numTok_complete (tok : List Byte) :
    (NumTok .state0 tok → JNumber tok) ∧ (NumTok .state1 tok → JNumber tok) ∧
    (NumTok .stateDot0 tok → JNumber tok) ∧ (NumTok .stateE0 tok → JNumber tok) := by
  refine ⟨?_, ?_, ?_, ?_⟩
  · rintro ⟨sg, h1, ht⟩
    exact ⟨sg, [0x30], [], [], h1, Or.inl rfl, Or.inl rfl, Or.inl rfl,
      by rw [ht]; simp only [List.append_nil]⟩
  · rintro ⟨sg, c0, d, h1, h2, h3, ht⟩
    exact ⟨sg, c0 :: d, [], [], h1, jint_of_digit19 c0 d h2 h3, Or.inl rfl, Or.inl rfl,
      by rw [ht]; simp only [List.append_nil]⟩
  · rintro ⟨sg, int, c0, d, h1, h2, h3, h4, ht⟩
    exact ⟨sg, int, 0x2E :: c0 :: d, [], h1, h2, Or.inr ⟨c0, d, h3, h4, rfl⟩, Or.inl rfl,
      by rw [ht]; simp only [List.append_nil]⟩
  · rintro ⟨sg, int, frac, e, x, c0, d, h1, h2, h3, h4, h5, h6, h7, ht⟩
    exact ⟨sg, int, frac, e :: (x ++ c0 :: d), h1, h2, h3,
      Or.inr ⟨e, x, c0, d, h4, h5, h6, h7, rfl⟩, ht⟩

/-- The text read so far ends with a complete number. -/
theorem done_of_number (st : StepFn) (ps : List ParseState) (p : List Byte)
    (h : InToken st ps p) (hs : ∀ tok, ¬ StrTok st tok) (hl : ∀ tok, ¬ LitTok st tok)
    (hn : ∀ tok, NumTok st tok → JNumber tok) : Done ps p := by
  obtain ⟨p1, tok, rfl, h⟩ := h
  rcases h with ⟨_, h2⟩ | ⟨h1, h2 | h2⟩
  · exact absurd h2 (hs tok)
  · exact done_intro ps p1 tok _ h1 (Gram.num tok (hn tok h2)) rfl
  · exact absurd h2 (hl tok)

theorem inv_reset : Inv Scanner.reset [] := ⟨rfl, rfl, Open.top [] spaces_nil⟩

/-- The syntax check of the decoder is sound: every text that `checkValid`
accepts is a JSON text by the grammar. -/
theorem checkValid_sound (data : Bytes) (h : checkValid data = true) : JsonText data := by
  unfold checkValid at h
  cases hl : checkValidLoop Scanner.reset data with
  | none => rw [hl] at h; exact absurd h (by simp)
  | some sf =>
    rw [hl] at h
    simp only [decide_eq_true_eq] at h
    have herr : sf.err = false := by
      cases he : sf.err with
      | false => rfl
      | true => exact absurd (eof_err sf he) h
    have hinv := checkValidLoop_sound data Scanner.reset sf [] inv_reset hl herr
    rw [List.nil_append] at hinv
    apply jsonText_of_done
    obtain ⟨st, et, ps, er⟩ := sf
    simp only at herr
    subst herr
    cases et with
    | true =>
      obtain ⟨_, hm⟩ := hinv
      cases st <;> first
        | exact hm.2.2
        | exact False.elim hm
        | exact absurd (show true = false from hm.1) (by decide)
    | false =>
      have hend : (Scanner.next ⟨st, false, ps, false⟩ 0x20).1.endTop = true := by
        cases hx : (Scanner.next ⟨st, false, ps, false⟩ 0x20).1.endTop with
        | true => rfl
        | false =>
          exfalso
          apply h
          simp only [Scanner.eof, hx]
          rfl
      obtain ⟨hps, hst⟩ := eof_space st ps hend
      subst hps
      obtain ⟨_, hm⟩ := hinv
      rcases hst with rfl | rfl | rfl | rfl | rfl
      · rcases hm.2 with ⟨ps1, p0, o, w1, kb, w2, hk, _⟩ | hd
        · exact absurd hk (by simp)
        · exact hd
      · exact done_of_number _ [] data hm.2 (fun _ hx => hx) (fun _ hx => hx)
          (fun tok => (numTok_complete tok).1)
      · exact done_of_number _ [] data hm.2 (fun _ hx => hx) (fun _ hx => hx)
          (fun tok => (numTok_complete tok).2.1)
      · exact done_of_number _ [] data hm.2 (fun _ hx => hx) (fun _ hx => hx)
          (fun tok => (numTok_complete tok).2.2.1)
      · exact done_of_number _ [] data hm.2 (fun _ hx => hx) (fun _ hx => hx)
          (fun tok => (numTok_complete tok).2.2.2)

/-! ## The loop of `skip` on the text of a value -/

theorem passes_refl (depth : Nat) (s : Scanner) : Passes depth s [] s := fun _ => Or.inr rfl

theorem passes_trans (depth : Nat) (s s1 s2 : Scanner) (a b : List Byte)
    (h1 : Passes depth s a s1) (h2 : Passes depth s1 b s2) : Passes depth s (a ++ b) s2 := by
  intro Y
  rw [List.append_assoc]
  rcases h1 (b ++ Y) with h | h
  · exact Or.inl h
  · rw [h]; exact h2 Y

/-- One step of the scanner that leaves the stack as deep as `depth`. -/
theorem passes_step (depth : Nat) (s s1 : Scanner) (c : Byte) (op : Op)
    (h : s.next c = (s1, op)) (hd : depth ≤ s1.parseState.length) :
    Passes depth s [c] s1 := by
  intro Y
  right
  show skipLoop depth s (c :: Y) = _
  rw [skipLoop, h, if_neg (by simp only; omega)]

/-- A dead scanner never leaves the loop of `skip`. -/
theorem skipLoop_dead (depth : Nat) :
    ∀ (Y : List Byte) (s : Scanner), s.dead → depth ≤ s.parseState.length →
      skipLoop depth s Y = none
  | [], _, _, _ => rfl
  | c :: Y, s, hd, hl => by
    have hn : s.next c = (s, .scanError) := by
      unfold Scanner.next
      rw [hd.2]
    rw [skipLoop, hn, if_neg (by simp only; omega)]
    exact skipLoop_dead depth Y s hd hl

/-- One step of the scanner that kills it. -/
theorem passes_dead (depth : Nat) (s s1 s2 : Scanner) (c : Byte) (op : Op) (seg : List Byte)
    (h : s.next c = (s1, op)) (hdead : s1.dead) (hd : depth ≤ s1.parseState.length) :
    Passes depth s (c :: seg) s2 := by
  intro Y
  left
  show skipLoop depth s (c :: (seg ++ Y)) = _
  rw [skipLoop, h, if_neg (by simp only; omega)]
  exact skipLoop_dead depth _ s1 hdead hd

/-- A loop of the scanner on bytes that leave its state as it is. -/
theorem passes_loop (depth : Nat) (s : Scanner) (hd : depth ≤ s.parseState.length)
    (P : Byte → Prop) (hP : ∀ c, P c → ∃ op, s.next c = (s, op)) :
    ∀ w : List Byte, (∀ c ∈ w, P c) → Passes depth s w s
  | [], _ => passes_refl depth s
  | c :: w, hw => by
    obtain ⟨op, hop⟩ := hP c (hw c (List.mem_cons_self _ _))
    exact passes_trans depth s s s [c] w (passes_step depth s s c op hop hd)
      (passes_loop depth s hd P hP w (fun x hx => hw x (List.mem_cons_of_mem _ hx)))

/-- Whitespace where a value or a key is expected. -/
theorem passes_spaces (depth : Nat) (st : StepFn) (ps : List ParseState) (w : List Byte)
    (hd : depth ≤ ps.length) (hw : Spaces w)
    (hst : st = .stateBeginValue ∨ st = .stateBeginValueOrEmpty ∨ st = .stateBeginString
      ∨ st = .stateBeginStringOrEmpty) :
    Passes depth ⟨st, false, ps, false⟩ w ⟨st, false, ps, false⟩ := by
  refine passes_loop depth _ hd (fun c => isSpace c = true) (fun c hc => ?_) w hw
  rcases hst with rfl | rfl | rfl | rfl
  · exact ⟨.scanSkipSpace, by simp only [Scanner.next, stateBeginValue, hc, if_true]⟩
  · exact ⟨.scanSkipSpace, by simp only [Scanner.next, stateBeginValueOrEmpty, hc, if_true]⟩
  · exact ⟨.scanSkipSpace, by simp only [Scanner.next, stateBeginString, hc, if_true]⟩
  · exact ⟨.scanSkipSpace, by simp only [Scanner.next, stateBeginStringOrEmpty, hc, if_true]⟩

/-- Whitespace after a value or a key. -/
theorem passes_spaces_end (depth : Nat) (top : ParseState) (below : List ParseState)
    (w : List Byte) (hd : depth ≤ below.length + 1) (hw : Spaces w) :
    Passes depth ⟨.stateEndValue, false, top :: below, false⟩ w
      ⟨.stateEndValue, false, top :: below, false⟩ := by
  refine passes_loop depth _ (by simp only [List.length_cons]; omega)
    (fun c => isSpace c = true) (fun c hc => ?_) w hw
  exact ⟨.scanSkipSpace, by simp only [Scanner.next, stateEndValue, hc, if_true]⟩

/-- The body of a string. -/
theorem passes_stringBody (depth : Nat) (ps : List ParseState) (hd : depth ≤ ps.length)
    {b : List Byte} (hb : StringBody b) :
    Passes depth ⟨.stateInString, false, ps, false⟩ b ⟨.stateInString, false, ps, false⟩ := by
  induction hb with
  | nil => exact passes_refl depth _
  | plain c q hc _ ih =>
    unfold isPlain at hc
    simp only [decide_eq_true_eq] at hc
    refine passes_trans depth _ _ _ [c] q (passes_step depth _ _ c .scanContinue ?_ hd) ih
    simp only [Scanner.next]
    rw [if_neg hc.2.1, if_neg hc.2.2, if_neg (by omega)]
  | esc e q he _ ih =>
    unfold isSimpleEscape at he
    simp only [decide_eq_true_eq] at he
    refine passes_trans depth _ ⟨.stateInString, false, ps, false⟩ _ [0x5C, e] q ?_ ih
    refine passes_trans depth _ ⟨.stateInStringEsc, false, ps, false⟩ _ [0x5C] [e]
      (passes_step depth _ _ _ .scanContinue rfl hd) (passes_step depth _ _ _ .scanContinue ?_ hd)
    simp only [Scanner.next]
    rw [if_pos he]
  | escU h1 h2 h3 h4 q a1 a2 a3 a4 _ ih =>
    refine passes_trans depth _ ⟨.stateInString, false, ps, false⟩ _ [0x5C, 0x75, h1, h2, h3, h4]
      q ?_ ih
    refine passes_trans depth _ ⟨.stateInStringEsc, false, ps, false⟩ _ [0x5C] _
      (passes_step depth _ _ _ .scanContinue rfl hd) ?_
    refine passes_trans depth _ ⟨.stateInStringEscU, false, ps, false⟩ _ [0x75] _
      (passes_step depth _ _ _ .scanContinue rfl hd) ?_
    refine passes_trans depth _ ⟨.stateInStringEscU1, false, ps, false⟩ _ [h1] _
      (passes_step depth _ _ _ .scanContinue (by simp only [Scanner.next, a1, if_true]) hd) ?_
    refine passes_trans depth _ ⟨.stateInStringEscU12, false, ps, false⟩ _ [h2] _
      (passes_step depth _ _ _ .scanContinue (by simp only [Scanner.next, a2, if_true]) hd) ?_
    refine passes_trans depth _ ⟨.stateInStringEscU123, false, ps, false⟩ _ [h3] [h4]
      (passes_step depth _ _ _ .scanContinue (by simp only [Scanner.next, a3, if_true]) hd)
      (passes_step depth _ _ _ .scanContinue (by simp only [Scanner.next, a4, if_true]) hd)

/-! ## The loop of `skip` on numbers and on the literals -/

/-- Where a value may begin after `[`, a byte other than whitespace and the
closing bracket is read as where a value must begin. -/
theorem next_orEmpty (ps : List ParseState) (c : Byte) (hs : isSpace c = false)
    (h5 : c.val ≠ 0x5D) :
    Scanner.next ⟨.stateBeginValueOrEmpty, false, ps, false⟩ c
      = Scanner.next ⟨.stateBeginValue, false, ps, false⟩ c := by
  simp only [Scanner.next, stateBeginValueOrEmpty, stateBeginValue, hs, h5, if_false,
    Bool.false_eq_true]
  rfl

/-- The first byte of a value is read alike in the two states that expect a
value. -/
theorem passes_begin (depth : Nat) (st : StepFn) (ps : List ParseState) (c : Byte)
    (seg : List Byte) (s1 : Scanner)
    (hst : st = .stateBeginValue ∨ st = .stateBeginValueOrEmpty)
    (hs : isSpace c = false) (h5 : c.val ≠ 0x5D)
    (h : Passes depth ⟨.stateBeginValue, false, ps, false⟩ (c :: seg) s1) :
    Passes depth ⟨st, false, ps, false⟩ (c :: seg) s1 := by
  rcases hst with rfl | rfl
  · exact h
  · intro Y
    have h1 := h Y
    simp only [List.cons_append] at h1 ⊢
    rw [skipLoop] at h1 ⊢
    rw [next_orEmpty ps c hs h5]
    exact h1

theorem space_of_val (c : Byte) (h : ¬ (c.val = 0x20 ∨ c.val = 0x09 ∨ c.val = 0x0D ∨ c.val = 0x0A)) :
    isSpace c = false := by
  unfold isSpace
  simp only [decide_eq_false_iff_not]
  exact fun hh => h hh.2

theorem digit_val (c : Byte) (h : isDigit c = true) : 0x30 ≤ c.val ∧ c.val ≤ 0x39 := by
  unfold isDigit at h
  simpa only [decide_eq_true_eq] using h

theorem digit19_val (c : Byte) (h : isDigit19 c = true) : 0x31 ≤ c.val ∧ c.val ≤ 0x39 := by
  unfold isDigit19 at h
  simpa only [decide_eq_true_eq] using h

/-- The first byte of a number that begins with a digit from one to nine. -/
theorem next_begin_digit19 (ps : List ParseState) (c : Byte) (h : isDigit19 c = true) :
    Scanner.next ⟨.stateBeginValue, false, ps, false⟩ c
      = (⟨.state1, false, ps, false⟩, .scanBeginLiteral) := by
  have hv := digit19_val c h
  simp only [Scanner.next, stateBeginValue]
  rw [space_of_val c (by omega)]
  simp only [Bool.false_eq_true, if_false]
  repeat rw [if_neg (show ¬ _ by omega)]
  rw [if_pos h]

theorem next_neg_digit19 (ps : List ParseState) (c : Byte) (h : isDigit19 c = true) :
    Scanner.next ⟨.stateNeg, false, ps, false⟩ c
      = (⟨.state1, false, ps, false⟩, .scanContinue) := by
  have hv := digit19_val c h
  simp only [Scanner.next]
  rw [if_neg (show ¬ _ by omega), if_pos h]

/-- Digits inside a number. -/
theorem passes_digits (depth : Nat) (st : StepFn) (ps : List ParseState)
    (hd : depth ≤ ps.length) (hst : st = .state1 ∨ st = .stateDot0 ∨ st = .stateE0)
    (d : List Byte) (h : Digits d) :
    Passes depth ⟨st, false, ps, false⟩ d ⟨st, false, ps, false⟩ := by
  refine passes_loop depth _ hd (fun c => isDigit c = true) (fun c hc => ?_) d h
  rcases hst with rfl | rfl | rfl
  · exact ⟨.scanContinue, by simp only [Scanner.next, hc, if_true]⟩
  · exact ⟨.scanContinue, by simp only [Scanner.next, hc, if_true]⟩
  · exact ⟨.scanContinue, by simp only [Scanner.next, hc, if_true]⟩

/-- The sign and the integer part of a number. -/
theorem passes_int (depth : Nat) (ps : List ParseState) (hd : depth ≤ ps.length)
    (sg int : List Byte) (hsg : JSign sg) (hint : JInt int) :
    ∃ st1, (st1 = .state0 ∨ st1 = .state1) ∧
      Passes depth ⟨.stateBeginValue, false, ps, false⟩ (sg ++ int) ⟨st1, false, ps, false⟩ := by
  rcases hsg with rfl | rfl
  · rcases hint with rfl | ⟨c, d, hc, hdd, rfl⟩
    · exact ⟨.state0, Or.inl rfl, passes_step depth _ _ _ .scanBeginLiteral rfl hd⟩
    · exact ⟨.state1, Or.inr rfl, passes_trans depth _ ⟨.state1, false, ps, false⟩ _ [c] d
        (passes_step depth _ _ _ _ (next_begin_digit19 ps c hc) hd)
        (passes_digits depth _ ps hd (Or.inl rfl) d hdd)⟩
  · rcases hint with rfl | ⟨c, d, hc, hdd, rfl⟩
    · exact ⟨.state0, Or.inl rfl, passes_trans depth _ ⟨.stateNeg, false, ps, false⟩ _ [0x2D]
        [0x30] (passes_step depth _ _ _ .scanBeginLiteral rfl hd)
        (passes_step depth _ _ _ .scanContinue rfl hd)⟩
    · refine ⟨.state1, Or.inr rfl, passes_trans depth _ ⟨.stateNeg, false, ps, false⟩ _ [0x2D]
        (c :: d) (passes_step depth _ _ _ .scanBeginLiteral rfl hd) ?_⟩
      exact passes_trans depth _ ⟨.state1, false, ps, false⟩ _ [c] d
        (passes_step depth _ _ _ _ (next_neg_digit19 ps c hc) hd)
        (passes_digits depth _ ps hd (Or.inl rfl) d hdd)

/-- The point after the integer part. -/
theorem next_point (st : StepFn) (ps : List ParseState) (hst : st = .state0 ∨ st = .state1) :
    Scanner.next ⟨st, false, ps, false⟩ 0x2E = (⟨.stateDot, false, ps, false⟩, .scanContinue) := by
  rcases hst with rfl | rfl <;> rfl

/-- The letter that begins the exponent. -/
theorem next_exp (st : StepFn) (ps : List ParseState) (e : Byte)
    (hst : st = .state0 ∨ st = .state1 ∨ st = .stateDot0) (he : e.val = 0x65 ∨ e.val = 0x45) :
    Scanner.next ⟨st, false, ps, false⟩ e = (⟨.stateE, false, ps, false⟩, .scanContinue) := by
  have hnd : isDigit e = false := by
    unfold isDigit
    simp only [decide_eq_false_iff_not]
    omega
  rcases hst with rfl | rfl | rfl
  · simp only [Scanner.next, state0]
    rw [if_neg (show ¬ _ by omega), if_pos he]
  · simp only [Scanner.next, state0, hnd, Bool.false_eq_true, if_false]
    rw [if_neg (show ¬ _ by omega), if_pos he]
  · simp only [Scanner.next, hnd, Bool.false_eq_true, if_false]
    rw [if_pos he]

theorem next_dot_digit (ps : List ParseState) (c : Byte) (h : isDigit c = true) :
    Scanner.next ⟨.stateDot, false, ps, false⟩ c
      = (⟨.stateDot0, false, ps, false⟩, .scanContinue) := by
  simp only [Scanner.next, h, if_true]

/-- The fraction part of a number. -/
theorem passes_frac (depth : Nat) (ps : List ParseState) (hd : depth ≤ ps.length)
    (st : StepFn) (hst : st = .state0 ∨ st = .state1) (frac : List Byte) (h : JFrac frac) :
    ∃ st1, (st1 = .state0 ∨ st1 = .state1 ∨ st1 = .stateDot0) ∧
      Passes depth ⟨st, false, ps, false⟩ frac ⟨st1, false, ps, false⟩ := by
  rcases h with rfl | ⟨c, d, hc, hdd, rfl⟩
  · exact ⟨st, by rcases hst with h | h <;> simp [h], passes_refl depth _⟩
  · refine ⟨.stateDot0, Or.inr (Or.inr rfl), ?_⟩
    refine passes_trans depth _ ⟨.stateDot, false, ps, false⟩ _ [0x2E] (c :: d)
      (passes_step depth _ _ _ _ (next_point st ps hst) hd) ?_
    exact passes_trans depth _ ⟨.stateDot0, false, ps, false⟩ _ [c] d
      (passes_step depth _ _ _ _ (next_dot_digit ps c hc) hd)
      (passes_digits depth _ ps hd (Or.inr (Or.inl rfl)) d hdd)

theorem next_sign_digit (st : StepFn) (ps : List ParseState) (c : Byte)
    (hst : st = .stateE ∨ st = .stateESign) (h : isDigit c = true) :
    Scanner.next ⟨st, false, ps, false⟩ c
      = (⟨.stateE0, false, ps, false⟩, .scanContinue) := by
  have hv := digit_val c h
  rcases hst with rfl | rfl
  · simp only [Scanner.next, stateESign, h, if_true]
    rw [if_neg (show ¬ _ by omega)]
  · simp only [Scanner.next, stateESign, h, if_true]

/-- The exponent part of a number. -/
theorem passes_exp (depth : Nat) (ps : List ParseState) (hd : depth ≤ ps.length)
    (st : StepFn) (hst : st = .state0 ∨ st = .state1 ∨ st = .stateDot0) (exp : List Byte)
    (h : JExp exp) :
    ∃ st1, (st1 = .state0 ∨ st1 = .state1 ∨ st1 = .stateDot0 ∨ st1 = .stateE0) ∧
      Passes depth ⟨st, false, ps, false⟩ exp ⟨st1, false, ps, false⟩ := by
  rcases h with rfl | ⟨e, sg, c, d, he, hsg, hc, hdd, rfl⟩
  · exact ⟨st, by rcases hst with h | h | h <;> simp [h], passes_refl depth _⟩
  · refine ⟨.stateE0, Or.inr (Or.inr (Or.inr rfl)), ?_⟩
    refine passes_trans depth _ ⟨.stateE, false, ps, false⟩ _ [e] (sg ++ c :: d)
      (passes_step depth _ _ _ _ (next_exp st ps e hst he) hd) ?_
    have htail : ∀ st2, st2 = .stateE ∨ st2 = .stateESign →
        Passes depth ⟨st2, false, ps, false⟩ (c :: d) ⟨.stateE0, false, ps, false⟩ :=
      fun st2 h2 => passes_trans depth _ ⟨.stateE0, false, ps, false⟩ _ [c] d
        (passes_step depth _ _ _ _ (next_sign_digit st2 ps c h2 hc) hd)
        (passes_digits depth _ ps hd (Or.inr (Or.inr rfl)) d hdd)
    rcases hsg with rfl | rfl | rfl
    · exact htail _ (Or.inl rfl)
    · exact passes_trans depth _ ⟨.stateESign, false, ps, false⟩ _ [0x2B] (c :: d)
        (passes_step depth _ _ _ .scanContinue rfl hd) (htail _ (Or.inr rfl))
    · exact passes_trans depth _ ⟨.stateESign, false, ps, false⟩ _ [0x2D] (c :: d)
        (passes_step depth _ _ _ .scanContinue rfl hd) (htail _ (Or.inr rfl))

/-- A number, from where a value must begin. -/
theorem passes_number (depth : Nat) (ps : List ParseState) (hd : depth ≤ ps.length)
    (n : List Byte) (h : JNumber n) :
    ∃ st1, (st1 = .state0 ∨ st1 = .state1 ∨ st1 = .stateDot0 ∨ st1 = .stateE0) ∧
      Passes depth ⟨.stateBeginValue, false, ps, false⟩ n ⟨st1, false, ps, false⟩ := by
  obtain ⟨sg, int, frac, exp, hsg, hint, hfrac, hexp, rfl⟩ := h
  obtain ⟨st1, h1, p1⟩ := passes_int depth ps hd sg int hsg hint
  obtain ⟨st2, h2, p2⟩ := passes_frac depth ps hd st1 h1 frac hfrac
  obtain ⟨st3, h3, p3⟩ := passes_exp depth ps hd st2 h2 exp hexp
  exact ⟨st3, h3, passes_trans depth _ _ _ _ _ (passes_trans depth _ _ _ _ _ p1 p2) p3⟩

/-! ## The loop of `skip` on strings, arrays and objects -/

/-- The step function `stateEndValue` does not look at the step function of
the scanner. -/
theorem stateEndValue_step (st : StepFn) (ps : List ParseState) (c : Byte) :
    stateEndValue ⟨st, false, ps, false⟩ c = stateEndValue ⟨.stateEndValue, false, ps, false⟩ c := by
  cases ps with
  | nil => rfl
  | cons top below => cases top <;> rfl

theorem delim_val (c : Byte) (h : Delim c) :
    c.val = 0x20 ∨ c.val = 0x09 ∨ c.val = 0x0D ∨ c.val = 0x0A ∨ c.val = 0x2C ∨ c.val = 0x3A
      ∨ c.val = 0x5D ∨ c.val = 0x7D := by
  rcases h with h | h | h | h | h
  · unfold isSpace at h
    simp only [decide_eq_true_eq] at h
    omega
  · omega
  · omega
  · omega
  · omega

theorem endLike_end (ps : List ParseState) : EndLike ps ⟨.stateEndValue, false, ps, false⟩ :=
  ⟨rfl, rfl, rfl, fun _ _ => rfl⟩

/-- The states in which a number is complete hand a delimiter to
`stateEndValue`. -/
theorem endLike_number (st : StepFn) (ps : List ParseState)
    (hst : st = .state0 ∨ st = .state1 ∨ st = .stateDot0 ∨ st = .stateE0) :
    EndLike ps ⟨st, false, ps, false⟩ := by
  refine ⟨rfl, rfl, rfl, fun c hc => ?_⟩
  have hv := delim_val c hc
  have hnd : isDigit c = false := by
    unfold isDigit
    simp only [decide_eq_false_iff_not]
    omega
  show _ = stateEndValue ⟨.stateEndValue, false, ps, false⟩ c
  rw [← stateEndValue_step st ps c]
  rcases hst with rfl | rfl | rfl | rfl
  · simp only [Scanner.next, state0]
    rw [if_neg (show ¬ _ by omega), if_neg (show ¬ _ by omega)]
  · simp only [Scanner.next, state0, hnd, Bool.false_eq_true, if_false]
    rw [if_neg (show ¬ _ by omega), if_neg (show ¬ _ by omega)]
  · simp only [Scanner.next, hnd, Bool.false_eq_true, if_false]
    rw [if_neg (show ¬ _ by omega)]
  · simp only [Scanner.next, hnd, Bool.false_eq_true, if_false]

/-- Whitespace and a delimiter after a value. -/
theorem passes_close (depth : Nat) (top : ParseState) (below : List ParseState) (s1 s2 : Scanner)
    (w : List Byte) (c : Byte) (op : Op) (h1 : EndLike (top :: below) s1) (hw : Spaces w)
    (hc : Delim c)
    (hn : Scanner.next ⟨.stateEndValue, false, top :: below, false⟩ c = (s2, op))
    (hd : depth ≤ s2.parseState.length) (hd1 : depth ≤ below.length + 1) :
    Passes depth s1 (w ++ [c]) s2 := by
  cases w with
  | nil => exact passes_step depth s1 s2 c op ((h1.2.2.2 c hc).trans hn) hd
  | cons x w =>
    have hx : isSpace x = true := hw x (List.mem_cons_self _ _)
    have hw1 : Spaces w := fun y hy => hw y (List.mem_cons_of_mem _ hy)
    have hnx : s1.next x = (⟨.stateEndValue, false, top :: below, false⟩, .scanSkipSpace) := by
      rw [h1.2.2.2 x (Or.inl hx)]
      simp only [Scanner.next, stateEndValue, hx, if_true]
    refine passes_trans depth s1 ⟨.stateEndValue, false, top :: below, false⟩ s2 [x] (w ++ [c])
      (passes_step depth _ _ x _ hnx (by simp only [List.length_cons]; omega)) ?_
    exact passes_trans depth _ ⟨.stateEndValue, false, top :: below, false⟩ s2 w [c]
      (passes_spaces_end depth top below w hd1 hw1) (passes_step depth _ _ c op hn hd)

/-- A string, from where a value or a key is expected. -/
theorem passes_string (depth : Nat) (st : StepFn) (ps : List ParseState) (b : List Byte)
    (hd : depth ≤ ps.length) (hb : StringBody b)
    (hst : st = .stateBeginValue ∨ st = .stateBeginValueOrEmpty ∨ st = .stateBeginString
      ∨ st = .stateBeginStringOrEmpty) :
    Passes depth ⟨st, false, ps, false⟩ (quoted b) ⟨.stateEndValue, false, ps, false⟩ := by
  have h1 : Passes depth ⟨st, false, ps, false⟩ [0x22] ⟨.stateInString, false, ps, false⟩ := by
    rcases hst with rfl | rfl | rfl | rfl <;>
      exact passes_step depth _ _ _ .scanBeginLiteral rfl hd
  exact passes_trans depth _ ⟨.stateInString, false, ps, false⟩ _ [0x22] (b ++ [0x22]) h1
    (passes_trans depth _ ⟨.stateInString, false, ps, false⟩ _ b [0x22]
      (passes_stringBody depth ps hd hb) (passes_step depth _ _ _ .scanContinue rfl hd))

/-- An opening bracket. -/
theorem passes_bracket (depth : Nat) (st : StepFn) (ps : List ParseState) (seg : List Byte)
    (s2 : Scanner) (hst : st = .stateBeginValue ∨ st = .stateBeginValueOrEmpty)
    (hd : depth ≤ ps.length + 1)
    (h : Passes depth ⟨.stateBeginValueOrEmpty, false, .parseArrayValue :: ps, false⟩ seg s2) :
    Passes depth ⟨st, false, ps, false⟩ (0x5B :: seg) s2 := by
  refine passes_begin depth st ps _ seg s2 hst rfl (by decide) ?_
  have hn : Scanner.next ⟨.stateBeginValue, false, ps, false⟩ 0x5B
      = Scanner.pushParseState ⟨.stateBeginValueOrEmpty, false, ps, false⟩ .parseArrayValue
          .scanBeginArray := rfl
  unfold Scanner.pushParseState at hn
  by_cases hl : (ParseState.parseArrayValue :: ps).length ≤ maxNestingDepth
  · simp only [if_pos hl] at hn
    exact passes_trans depth _ _ s2 [0x5B] seg
      (passes_step depth _ _ _ _ hn (by simp only [List.length_cons]; omega)) h
  · simp only [if_neg hl] at hn
    exact passes_dead depth _ _ s2 _ _ seg hn ⟨rfl, rfl⟩ (by simp only [Scanner.error, List.length_cons]; omega)

/-- An opening brace. -/
theorem passes_brace (depth : Nat) (st : StepFn) (ps : List ParseState) (seg : List Byte)
    (s2 : Scanner) (hst : st = .stateBeginValue ∨ st = .stateBeginValueOrEmpty)
    (hd : depth ≤ ps.length + 1)
    (h : Passes depth ⟨.stateBeginStringOrEmpty, false, .parseObjectKey :: ps, false⟩ seg s2) :
    Passes depth ⟨st, false, ps, false⟩ (0x7B :: seg) s2 := by
  refine passes_begin depth st ps _ seg s2 hst rfl (by decide) ?_
  have hn : Scanner.next ⟨.stateBeginValue, false, ps, false⟩ 0x7B
      = Scanner.pushParseState ⟨.stateBeginStringOrEmpty, false, ps, false⟩ .parseObjectKey
          .scanBeginObject := rfl
  unfold Scanner.pushParseState at hn
  by_cases hl : (ParseState.parseObjectKey :: ps).length ≤ maxNestingDepth
  · simp only [if_pos hl] at hn
    exact passes_trans depth _ _ s2 [0x7B] seg
      (passes_step depth _ _ _ _ hn (by simp only [List.length_cons]; omega)) h
  · simp only [if_neg hl] at hn
    exact passes_dead depth _ _ s2 _ _ seg hn ⟨rfl, rfl⟩ (by simp only [Scanner.error, List.length_cons]; omega)

/-- An element of an array, with the whitespace before it. -/
theorem passes_element (depth : Nat) (st : StepFn) (ps : List ParseState) (w1 v : List Byte)
    (hst : st = .stateBeginValue ∨ st = .stateBeginValueOrEmpty) (hd : depth ≤ ps.length + 1)
    (hw1 : Spaces w1) (ih : SkipSpec .value v) :
    ∃ s1, EndLike (.parseArrayValue :: ps) s1 ∧
      Passes depth ⟨st, false, .parseArrayValue :: ps, false⟩ (w1 ++ v) s1 := by
  obtain ⟨s1, he, hp⟩ := ih depth st .parseArrayValue ps hd hst
  exact ⟨s1, he, passes_trans depth _ _ _ w1 v
    (passes_spaces depth st _ w1 (by simp only [List.length_cons]; omega) hw1
      (by rcases hst with h | h <;> simp [h])) hp⟩

/-- A member of an object without the whitespace after it. -/
theorem passes_member (depth : Nat) (st : StepFn) (ps : List ParseState)
    (w1 kb w2 w3 v : List Byte)
    (hst : st = .stateBeginString ∨ st = .stateBeginStringOrEmpty) (hd : depth ≤ ps.length + 1)
    (hw1 : Spaces w1) (hkb : StringBody kb) (hw2 : Spaces w2) (hw3 : Spaces w3)
    (ih : SkipSpec .value v) :
    ∃ s1, EndLike (.parseObjectValue :: ps) s1 ∧
      Passes depth ⟨st, false, .parseObjectKey :: ps, false⟩
        (w1 ++ quoted kb ++ w2 ++ [0x3A] ++ w3 ++ v) s1 := by
  obtain ⟨s1, he, hp⟩ := ih depth .stateBeginValue .parseObjectValue ps hd (Or.inl rfl)
  have hl : depth ≤ (ParseState.parseObjectKey :: ps).length := by
    simp only [List.length_cons]; omega
  have hl2 : depth ≤ (ParseState.parseObjectValue :: ps).length := by
    simp only [List.length_cons]; omega
  refine ⟨s1, he, ?_⟩
  refine passes_trans depth _ ⟨.stateBeginValue, false, .parseObjectValue :: ps, false⟩ _ _ v ?_ hp
  refine passes_trans depth _ ⟨.stateBeginValue, false, .parseObjectValue :: ps, false⟩ _ _ w3 ?_
    (passes_spaces depth _ _ w3 hl2 hw3 (Or.inl rfl))
  refine passes_trans depth _ ⟨.stateEndValue, false, .parseObjectKey :: ps, false⟩ _ _ [0x3A] ?_
    (passes_step depth _ _ _ .scanObjectKey rfl hl2)
  refine passes_trans depth _ ⟨.stateEndValue, false, .parseObjectKey :: ps, false⟩ _ _ w2 ?_
    (passes_spaces_end depth _ ps w2 hd hw2)
  refine passes_trans depth _ ⟨st, false, .parseObjectKey :: ps, false⟩ _ w1 (quoted kb)
    (passes_spaces depth st _ w1 hl hw1 (by rcases hst with h | h <;> simp [h]))
    (passes_string depth st _ kb hl hkb (by rcases hst with h | h <;> simp [h]))

/-! ## The loop of `skip` on every text of the grammar -/

theorem delim_comma : Delim 0x2C := Or.inr (Or.inl rfl)

theorem delim_bracket : Delim 0x5D := Or.inr (Or.inr (Or.inr (Or.inl rfl)))

theorem delim_brace : Delim 0x7D := Or.inr (Or.inr (Or.inr (Or.inr rfl)))

theorem begin_any (st : StepFn) (hst : st = .stateBeginValue ∨ st = .stateBeginValueOrEmpty) :
    st = .stateBeginValue ∨ st = .stateBeginValueOrEmpty ∨ st = .stateBeginString
      ∨ st = .stateBeginStringOrEmpty := by
  rcases hst with h | h <;> simp [h]

/-- The loop of `skip` on a literal name. -/
theorem passes_literal (depth : Nat) (st : StepFn) (ps : List ParseState) (c : Byte)
    (t : List Byte) (hst : st = .stateBeginValue ∨ st = .stateBeginValueOrEmpty)
    (hd : depth ≤ ps.length)
    (ht : c :: t = [0x74, 0x72, 0x75, 0x65] ∨ c :: t = [0x66, 0x61, 0x6C, 0x73, 0x65]
      ∨ c :: t = [0x6E, 0x75, 0x6C, 0x6C]) :
    Passes depth ⟨st, false, ps, false⟩ (c :: t) ⟨.stateEndValue, false, ps, false⟩ := by
  rcases ht with h | h | h
  · obtain ⟨rfl, rfl⟩ := List.cons.inj h
    refine passes_begin depth st ps _ _ _ hst rfl (by decide) ?_
    exact passes_trans depth _ ⟨.stateT, false, ps, false⟩ _ [0x74] _
      (passes_step depth _ _ _ .scanBeginLiteral rfl hd)
      (passes_trans depth _ ⟨.stateTr, false, ps, false⟩ _ [0x72] _
        (passes_step depth _ _ _ .scanContinue rfl hd)
        (passes_trans depth _ ⟨.stateTru, false, ps, false⟩ _ [0x75] [0x65]
          (passes_step depth _ _ _ .scanContinue rfl hd)
          (passes_step depth _ _ _ .scanContinue rfl hd)))
  · obtain ⟨rfl, rfl⟩ := List.cons.inj h
    refine passes_begin depth st ps _ _ _ hst rfl (by decide) ?_
    exact passes_trans depth _ ⟨.stateF, false, ps, false⟩ _ [0x66] _
      (passes_step depth _ _ _ .scanBeginLiteral rfl hd)
      (passes_trans depth _ ⟨.stateFa, false, ps, false⟩ _ [0x61] _
        (passes_step depth _ _ _ .scanContinue rfl hd)
        (passes_trans depth _ ⟨.stateFal, false, ps, false⟩ _ [0x6C] _
          (passes_step depth _ _ _ .scanContinue rfl hd)
          (passes_trans depth _ ⟨.stateFals, false, ps, false⟩ _ [0x73] [0x65]
            (passes_step depth _ _ _ .scanContinue rfl hd)
            (passes_step depth _ _ _ .scanContinue rfl hd))))
  · obtain ⟨rfl, rfl⟩ := List.cons.inj h
    refine passes_begin depth st ps _ _ _ hst rfl (by decide) ?_
    exact passes_trans depth _ ⟨.stateN, false, ps, false⟩ _ [0x6E] _
      (passes_step depth _ _ _ .scanBeginLiteral rfl hd)
      (passes_trans depth _ ⟨.stateNu, false, ps, false⟩ _ [0x75] _
        (passes_step depth _ _ _ .scanContinue rfl hd)
        (passes_trans depth _ ⟨.stateNul, false, ps, false⟩ _ [0x6C] [0x6C]
          (passes_step depth _ _ _ .scanContinue rfl hd)
          (passes_step depth _ _ _ .scanContinue rfl hd)))

/-- A number begins with a minus sign or a digit. -/
theorem number_first (n : List Byte) (h : JNumber n) :
    ∃ c t, n = c :: t ∧ (c.val = 0x2D ∨ (0x30 ≤ c.val ∧ c.val ≤ 0x39)) := by
  obtain ⟨sg, int, frac, exp, hsg, hint, _, _, rfl⟩ := h
  rcases hsg with rfl | rfl
  · rcases hint with rfl | ⟨c, d, hc, _, rfl⟩
    · exact ⟨0x30, _, rfl, Or.inr (by decide)⟩
    · have := digit19_val c hc
      exact ⟨c, _, rfl, Or.inr (by omega)⟩
  · exact ⟨0x2D, _, rfl, Or.inl rfl⟩

/-- The loop of `skip` on a number, in either of the states that expect a
value. -/
theorem passes_number_any (depth : Nat) (st : StepFn) (ps : List ParseState)
    (hst : st = .stateBeginValue ∨ st = .stateBeginValueOrEmpty) (hd : depth ≤ ps.length)
    (n : List Byte) (h : JNumber n) :
    ∃ s1, EndLike ps s1 ∧ Passes depth ⟨st, false, ps, false⟩ n s1 := by
  obtain ⟨st1, h1, hp⟩ := passes_number depth ps hd n h
  obtain ⟨c, t, rfl, hc⟩ := number_first n h
  exact ⟨_, endLike_number st1 ps h1,
    passes_begin depth st ps c t _ hst (space_of_val c (by omega)) (by omega) hp⟩

/-- The loop of `skip` passes over every text of the grammar. -/
theorem skipSpec (k : Kind) (t : List Byte) (h : Gram k t) : SkipSpec k t := by
  induction h with
  | str b hb =>
    intro depth st top below hd hst
    exact ⟨_, endLike_end _, passes_string depth st _ b (by simp only [List.length_cons]; omega)
      hb (begin_any st hst)⟩
  | num n hn =>
    intro depth st top below hd hst
    exact passes_number_any depth st _ hst (by simp only [List.length_cons]; omega) n hn
  | litTrue =>
    intro depth st top below hd hst
    exact ⟨_, endLike_end _, passes_literal depth st _ _ _ hst
      (by simp only [List.length_cons]; omega) (Or.inl rfl)⟩
  | litFalse =>
    intro depth st top below hd hst
    exact ⟨_, endLike_end _, passes_literal depth st _ _ _ hst
      (by simp only [List.length_cons]; omega) (Or.inr (Or.inl rfl))⟩
  | litNull =>
    intro depth st top below hd hst
    exact ⟨_, endLike_end _, passes_literal depth st _ _ _ hst
      (by simp only [List.length_cons]; omega) (Or.inr (Or.inr rfl))⟩
  | arrEmpty w hw =>
    intro depth st top below hd hst
    refine ⟨_, endLike_end (top :: below), ?_⟩
    refine passes_bracket depth st _ _ _ hst (by simp only [List.length_cons]; omega) ?_
    exact passes_trans depth _ ⟨.stateBeginValueOrEmpty, false, .parseArrayValue :: top :: below,
      false⟩ _ w [0x5D]
      (passes_spaces depth _ _ w (by simp only [List.length_cons]; omega) hw (Or.inr (Or.inl rfl)))
      (passes_step depth _ _ _ .scanEndArray rfl (by simp only [List.length_cons]; omega))
  | arr a w1 v w2 _ hw1 _ hw2 iha ihv =>
    intro depth st top below hd hst
    have hl : depth ≤ (top :: below).length + 1 := by simp only [List.length_cons]; omega
    obtain ⟨st1, hst1, hp1⟩ := iha depth st (top :: below) hl hst
    obtain ⟨s1, he, hp2⟩ := passes_element depth st1 (top :: below) w1 v hst1 hl hw1 ihv
    refine ⟨_, endLike_end (top :: below), ?_⟩
    have h3 := passes_close depth .parseArrayValue (top :: below) s1
      ⟨.stateEndValue, false, top :: below, false⟩ w2 0x5D .scanEndArray he hw2 delim_bracket rfl
      (by simp only [List.length_cons]; omega) hl
    have := passes_trans depth _ _ _ _ _ (passes_trans depth _ _ _ _ _ hp1 hp2) h3
    simpa only [List.append_assoc] using this
  | objEmpty w hw =>
    intro depth st top below hd hst
    refine ⟨_, endLike_end (top :: below), ?_⟩
    refine passes_brace depth st _ _ _ hst (by simp only [List.length_cons]; omega) ?_
    exact passes_trans depth _ ⟨.stateBeginStringOrEmpty, false, .parseObjectKey :: top :: below,
      false⟩ _ w [0x7D]
      (passes_spaces depth _ _ w (by simp only [List.length_cons]; omega) hw
        (Or.inr (Or.inr (Or.inr rfl))))
      (passes_step depth _ _ _ .scanEndObject rfl (by simp only [List.length_cons]; omega))
  | obj o w1 kb w2 w3 v w4 _ hw1 hkb hw2 hw3 _ hw4 iho ihv =>
    intro depth st top below hd hst
    have hl : depth ≤ (top :: below).length + 1 := by simp only [List.length_cons]; omega
    obtain ⟨st1, hst1, hp1⟩ := iho depth st (top :: below) hl hst
    obtain ⟨s1, he, hp2⟩ :=
      passes_member depth st1 (top :: below) w1 kb w2 w3 v hst1 hl hw1 hkb hw2 hw3 ihv
    refine ⟨_, endLike_end (top :: below), ?_⟩
    have h3 := passes_close depth .parseObjectValue (top :: below) s1
      ⟨.stateEndValue, false, top :: below, false⟩ w4 0x7D .scanEndObject he hw4 delim_brace rfl
      (by simp only [List.length_cons]; omega) hl
    have := passes_trans depth _ _ _ _ _ (passes_trans depth _ _ _ _ _ hp1 hp2) h3
    simpa only [memberText, List.append_assoc] using this
  | elemsNil =>
    intro depth st ps hd hst
    exact ⟨.stateBeginValueOrEmpty, Or.inr rfl,
      passes_bracket depth st ps [] _ hst hd (passes_refl depth _)⟩
  | elemsCons a w1 v w2 _ hw1 _ hw2 iha ihv =>
    intro depth st ps hd hst
    obtain ⟨st1, hst1, hp1⟩ := iha depth st ps hd hst
    obtain ⟨s1, he, hp2⟩ := passes_element depth st1 ps w1 v hst1 hd hw1 ihv
    refine ⟨.stateBeginValue, Or.inl rfl, ?_⟩
    have h3 := passes_close depth .parseArrayValue ps s1
      ⟨.stateBeginValue, false, .parseArrayValue :: ps, false⟩ w2 0x2C .scanArrayValue he hw2
      delim_comma rfl (by simp only [List.length_cons]; omega) hd
    have := passes_trans depth _ _ _ _ _ (passes_trans depth _ _ _ _ _ hp1 hp2) h3
    simpa only [List.append_assoc] using this
  | membersNil =>
    intro depth st ps hd hst
    exact ⟨.stateBeginStringOrEmpty, Or.inr rfl,
      passes_brace depth st ps [] _ hst hd (passes_refl depth _)⟩
  | membersCons o w1 kb w2 w3 v w4 _ hw1 hkb hw2 hw3 _ hw4 iho ihv =>
    intro depth st ps hd hst
    obtain ⟨st1, hst1, hp1⟩ := iho depth st ps hd hst
    obtain ⟨s1, he, hp2⟩ := passes_member depth st1 ps w1 kb w2 w3 v hst1 hd hw1 hkb hw2 hw3 ihv
    refine ⟨.stateBeginString, Or.inl rfl, ?_⟩
    have h3 := passes_close depth .parseObjectValue ps s1
      ⟨.stateBeginString, false, .parseObjectKey :: ps, false⟩ w4 0x2C .scanObjectValue he hw4
      delim_comma rfl (by simp only [List.length_cons]; omega) hd
    have := passes_trans depth _ _ _ _ _ (passes_trans depth _ _ _ _ _ hp1 hp2) h3
    simpa only [memberText, List.append_assoc] using this

/-! ## The steps of the decoder -/

theorem ite_prop {α : Type} (P : α → Prop) (p : Prop) [Decidable p] (a b : α)
    (ha : p → P a) (hb : ¬ p → P b) : P (if p then a else b) := by
  by_cases hp : p
  · rw [if_pos hp]; exact ha hp
  · rw [if_neg hp]; exact hb hp

theorem scanWhileLoop_spaces (s : Scanner) (c : Byte) (X : List Byte)
    (hfix : ∀ x, isSpace x = true → s.next x = (s, .scanSkipSpace))
    (hne : (s.next c).2 ≠ .scanSkipSpace) :
    ∀ (w : List Byte) (cur : Byte), Spaces w →
      scanWhileLoop .scanSkipSpace s cur (w ++ c :: X) = ((s.next c).1, c, X, (s.next c).2)
  | [], cur, _ => by
    show scanWhileLoop .scanSkipSpace s cur (c :: X) = _
    rw [scanWhileLoop]
    simp only [ne_eq, hne, not_false_eq_true, if_true]
  | x :: w, cur, hw => by
    have hx : isSpace x = true := hw x (List.mem_cons_self _ _)
    show scanWhileLoop .scanSkipSpace s cur (x :: (w ++ c :: X)) = _
    rw [scanWhileLoop]
    simp only [hfix x hx, ne_eq, not_true_eq_false, if_false]
    exact scanWhileLoop_spaces s c X hfix hne w x (fun y hy => hw y (List.mem_cons_of_mem _ hy))

/-- The method `scanWhile` over whitespace that the scanner skips, up to the
byte after it. -/
theorem scanWhile_spaces (s : Scanner) (w : List Byte) (c : Byte) (X : List Byte) (cur : Byte)
    (op : Op) (se : Bool) (v : PaperRecord) (hw : Spaces w)
    (hfix : ∀ x, isSpace x = true → s.next x = (s, .scanSkipSpace))
    (hne : (s.next c).2 ≠ .scanSkipSpace) :
    DecodeState.scanWhile ⟨cur, w ++ c :: X, s, op, se, v⟩ .scanSkipSpace
      = ⟨c, X, (s.next c).1, (s.next c).2, se, v⟩ := by
  unfold DecodeState.scanWhile
  simp only [scanWhileLoop_spaces s c X hfix hne w cur hw]

/-- The method `rescanLiteral` on a string. -/
theorem rescanLiteral_string (s : Scanner) (b : List Byte) (hb : StringBody b) (c1 : Byte)
    (Y : List Byte) (op : Op) (se : Bool) (v : PaperRecord) :
    DecodeState.rescanLiteral ⟨0x22, b ++ (0x22 : Byte) :: c1 :: Y, s, op, se, v⟩
      = (quoted b, ⟨c1, Y, (stateEndValue s c1).1, (stateEndValue s c1).2, se, v⟩) := by
  unfold DecodeState.rescanLiteral
  simp only [show ((0x22 : Byte)).val = 0x22 from rfl, if_true, rescanString_stringBody hb]
  rfl

/-- A byte that is not whitespace is not skipped after a value. -/
theorem endValue_op (st : StepFn) (top : ParseState) (below : List ParseState) (c : Byte)
    (hs : isSpace c = false) :
    (stateEndValue ⟨st, false, top :: below, false⟩ c).2 ≠ .scanSkipSpace := by
  unfold stateEndValue
  simp only [hs, Bool.false_eq_true, if_false]
  cases top
  · exact ite_prop (fun r : Scanner × Op => r.2 ≠ .scanSkipSpace) _ _ _
      (fun _ => by simp) (fun _ => by simp [Scanner.error])
  · exact ite_prop (fun r : Scanner × Op => r.2 ≠ .scanSkipSpace) _ _ _
      (fun _ => by simp) (fun _ => ite_prop (fun r : Scanner × Op => r.2 ≠ .scanSkipSpace) _ _ _
        (fun _ => by simp) (fun _ => by simp [Scanner.error]))
  · exact ite_prop (fun r : Scanner × Op => r.2 ≠ .scanSkipSpace) _ _ _
      (fun _ => by simp) (fun _ => ite_prop (fun r : Scanner × Op => r.2 ≠ .scanSkipSpace) _ _ _
        (fun _ => by simp) (fun _ => by simp [Scanner.error]))

/-- After a token: the whitespace that follows it is skipped, and the
delimiter after it is read by `stateEndValue`. -/
theorem after_token (st : StepFn) (top : ParseState) (below : List ParseState)
    (w X : List Byte) (delim c1 : Byte) (Y : List Byte) (se : Bool)
    (v : PaperRecord) (hw : Spaces w) (hs : isSpace delim = false)
    (h : c1 :: Y = w ++ delim :: X) :
    (if (⟨c1, Y, (stateEndValue ⟨st, false, top :: below, false⟩ c1).1,
          (stateEndValue ⟨st, false, top :: below, false⟩ c1).2, se, v⟩ : DecodeState).opcode
          = .scanSkipSpace
      then DecodeState.scanWhile ⟨c1, Y, (stateEndValue ⟨st, false, top :: below, false⟩ c1).1,
          (stateEndValue ⟨st, false, top :: below, false⟩ c1).2, se, v⟩ .scanSkipSpace
      else ⟨c1, Y, (stateEndValue ⟨st, false, top :: below, false⟩ c1).1,
          (stateEndValue ⟨st, false, top :: below, false⟩ c1).2, se, v⟩)
      = ⟨delim, X, (stateEndValue ⟨.stateEndValue, false, top :: below, false⟩ delim).1,
          (stateEndValue ⟨.stateEndValue, false, top :: below, false⟩ delim).2, se, v⟩ := by
  rw [stateEndValue_step st (top :: below) c1]
  cases w with
  | nil =>
    obtain ⟨rfl, rfl⟩ := List.cons.inj h
    rw [if_neg (endValue_op .stateEndValue top below c1 hs)]
  | cons x w =>
    obtain ⟨rfl, rfl⟩ := List.cons.inj h
    have hx : isSpace c1 = true := hw c1 (List.mem_cons_self _ _)
    have hw1 : Spaces w := fun y hy => hw y (List.mem_cons_of_mem _ hy)
    have he : stateEndValue ⟨.stateEndValue, false, top :: below, false⟩ c1
        = (⟨.stateEndValue, false, top :: below, false⟩, .scanSkipSpace) := by
      simp only [stateEndValue, hx, if_true]
    rw [he]
    simp only [if_true]
    exact scanWhile_spaces ⟨.stateEndValue, false, top :: below, false⟩ w delim X c1 _ se v hw1
      (fun y hy => by simp only [Scanner.next, stateEndValue, hy, if_true])
      (endValue_op .stateEndValue top below delim hs)

/-- The text after a value begins with a delimiter. -/
theorem after_first (w : List Byte) (delim : Byte) (X : List Byte) (hw : Spaces w)
    (hd : Delim delim) : ∃ c1 Y, c1 :: Y = w ++ delim :: X ∧ Delim c1 := by
  cases w with
  | nil => exact ⟨delim, X, rfl, hd⟩
  | cons x w => exact ⟨x, w ++ delim :: X, rfl, Or.inl (hw x (List.mem_cons_self _ _))⟩

theorem scanWhile_saved (d : DecodeState) (op : Op) :
    (d.scanWhile op).savedError = d.savedError := rfl

theorem scanNext_saved (d : DecodeState) : d.scanNext.savedError = d.savedError := by
  unfold DecodeState.scanNext
  cases d.rest <;> rfl

theorem rescanLiteral_saved (d : DecodeState) : d.rescanLiteral.2.savedError = d.savedError := by
  unfold DecodeState.rescanLiteral
  simp only
  split <;> rfl

theorem skip_saved (d d1 : DecodeState) (h : d.skip = some d1) :
    d1.savedError = d.savedError := by
  unfold DecodeState.skip at h
  cases hs : skipLoop d.scan.parseState.length d.scan d.rest with
  | none => rw [hs] at h; exact absurd h (by simp)
  | some r =>
    rw [hs] at h
    simp only [Option.map_some', Option.some.injEq] at h
    rw [← h]

theorem literalStore_saved (d d1 : DecodeState) (item : List Byte) (f : Option Field)
    (h : d.literalStore item f = some d1) (hd : d.savedError = true) :
    d1.savedError = true := by
  unfold DecodeState.literalStore at h
  cases item with
  | nil =>
    simp only [Option.some.injEq] at h
    rw [← h]; rfl
  | cons c t =>
    simp only at h
    revert h
    refine ite_prop (fun r => r = some d1 → d1.savedError = true) _ _ _ (fun _ h => ?_)
      (fun _ => ite_prop (fun r => r = some d1 → d1.savedError = true) _ _ _ (fun _ h => ?_)
        (fun _ => ite_prop (fun r => r = some d1 → d1.savedError = true) _ _ _ (fun _ h => ?_)
          (fun _ => ite_prop (fun r => r = some d1 → d1.savedError = true) _ _ _
            (fun _ h => ?_) (fun _ h => ?_))))
    · rw [← Option.some.inj h]; exact hd
    · rw [← Option.some.inj h]; rfl
    · cases hu : unquoteBytes (c :: t) with
      | none => rw [hu] at h; exact absurd h (by simp)
      | some s =>
        rw [hu] at h
        cases f with
        | none => rw [← Option.some.inj h]; rfl
        | some fld => rw [← Option.some.inj h]; exact hd
    · exact absurd h (by simp)
    · rw [← Option.some.inj h]; rfl

theorem valueMember_saved (d d1 : DecodeState) (f : Option Field)
    (h : d.valueMember f = some d1) (hd : d.savedError = true) : d1.savedError = true := by
  unfold DecodeState.valueMember at h
  have hskip : ∀ d0 : DecodeState, d0.savedError = true →
      (d0.skip).map DecodeState.scanNext = some d1 → d1.savedError = true := by
    intro d0 h0 hm
    cases hs : d0.skip with
    | none => rw [hs] at hm; exact absurd hm (by simp)
    | some d2 =>
      rw [hs] at hm
      simp only [Option.map_some', Option.some.injEq] at hm
      rw [← hm, scanNext_saved, skip_saved d0 d2 hs, h0]
  have hif : (if f.isSome then d.saveError else d).savedError = true := by
    cases f <;> simp [DecodeState.saveError, hd]
  cases ho : d.opcode <;> rw [ho] at h <;> simp only at h
  all_goals first
    | exact hskip _ hif h
    | exact Option.noConfusion h
    | skip
  revert h
  refine ite_prop (fun r => r = some d1 → d1.savedError = true) _ _ _ (fun _ h => ?_)
    (fun _ h => ?_)
  · exact literalStore_saved _ d1 _ f h (by rw [rescanLiteral_saved]; exact hd)
  · rw [← Option.some.inj h, rescanLiteral_saved]; exact hd

/-! ## A saved error stays, and the literals as the decoder reads them -/

theorem bad_none : Bad none := fun _ h => Option.noConfusion h

theorem bad_some (d : DecodeState) (h : d.savedError = true) : Bad (some d) :=
  fun d1 h1 => by rw [← Option.some.inj h1]; exact h

theorem bad_ite (p : Prop) [Decidable p] (a b : Option DecodeState)
    (ha : p → Bad a) (hb : ¬ p → Bad b) : Bad (if p then a else b) :=
  ite_prop Bad p a b ha hb

theorem skipSpace_saved (d : DecodeState) :
    (if d.opcode = .scanSkipSpace then d.scanWhile .scanSkipSpace else d).savedError
      = d.savedError := by
  split <;> rfl

/-- What follows one member in the loop of `object`. -/
theorem bad_tail (fuel : Nat) (d : DecodeState) (hd : d.savedError = true)
    (ih : ∀ d0 : DecodeState, d0.savedError = true → Bad (objectLoop fuel d0)) :
    Bad (if (if d.opcode = .scanSkipSpace then d.scanWhile .scanSkipSpace else d).opcode
          = .scanEndObject
        then some (if d.opcode = .scanSkipSpace then d.scanWhile .scanSkipSpace else d)
        else if (if d.opcode = .scanSkipSpace then d.scanWhile .scanSkipSpace else d).opcode
          ≠ .scanObjectValue then none
        else objectLoop fuel
          (if d.opcode = .scanSkipSpace then d.scanWhile .scanSkipSpace else d)) :=
  bad_ite _ _ _ (fun _ => bad_some _ (by rw [skipSpace_saved]; exact hd))
    (fun _ => bad_ite _ _ _ (fun _ => bad_none)
      (fun _ => ih _ (by rw [skipSpace_saved]; exact hd)))

/-- Once an error is saved, the loop of `object` ends with the error saved,
or it does not end. -/
theorem objectLoop_saved :
    ∀ (fuel : Nat) (d : DecodeState), d.savedError = true → Bad (objectLoop fuel d)
  | 0, _, _ => bad_none
  | fuel + 1, d, hd => by
    rw [objectLoop_succ]
    dsimp only
    refine bad_ite _ _ _ (fun _ => bad_some _ (by rw [scanWhile_saved]; exact hd))
      (fun _ => bad_ite _ _ _ (fun _ => bad_none) (fun _ => ?_))
    split
    · exact bad_none
    · refine bad_ite _ _ _ (fun _ => bad_none) (fun _ => ?_)
      split
      · exact bad_none
      · rename_i dv hv
        refine bad_tail fuel dv (valueMember_saved _ dv _ hv ?_) (objectLoop_saved fuel)
        rw [scanWhile_saved, skipSpace_saved, rescanLiteral_saved, scanWhile_saved]
        exact hd

/-- The bytes that the number arm of `rescanLiteral` runs over. -/
theorem rescanNumber_run (c1 : Byte) (Y : List Byte)
    (h1 : ¬ (isDigit c1 = true ∨ c1.val = 0x2E ∨ c1.val = 0x65 ∨ c1.val = 0x45 ∨ c1.val = 0x2B
      ∨ c1.val = 0x2D)) :
    ∀ t : List Byte,
      (∀ c ∈ t, isDigit c = true ∨ c.val = 0x2E ∨ c.val = 0x65 ∨ c.val = 0x45 ∨ c.val = 0x2B
        ∨ c.val = 0x2D) →
      rescanNumber (t ++ c1 :: Y) = (t, c1 :: Y)
  | [], _ => by
    show rescanNumber (c1 :: Y) = _
    rw [rescanNumber, if_neg h1]
  | c :: t, h => by
    show rescanNumber (c :: (t ++ c1 :: Y)) = _
    rw [rescanNumber, if_pos (h c (List.mem_cons_self _ _)),
      rescanNumber_run c1 Y h1 t (fun x hx => h x (List.mem_cons_of_mem _ hx))]

/-- A delimiter is no byte of a number. -/
theorem delim_not_number (c1 : Byte) (h : Delim c1) :
    ¬ (isDigit c1 = true ∨ c1.val = 0x2E ∨ c1.val = 0x65 ∨ c1.val = 0x45 ∨ c1.val = 0x2B
      ∨ c1.val = 0x2D) := by
  have hv := delim_val c1 h
  intro hn
  rcases hn with hn | hn | hn | hn | hn | hn
  · have := digit_val c1 hn
    omega
  all_goals omega

/-- Every byte of a number is a digit, a point, an exponent letter or a
sign. -/
theorem number_bytes (n : List Byte) (h : JNumber n) :
    ∀ c ∈ n, isDigit c = true ∨ c.val = 0x2E ∨ c.val = 0x65 ∨ c.val = 0x45 ∨ c.val = 0x2B
      ∨ c.val = 0x2D := by
  obtain ⟨sg, int, frac, exp, hsg, hint, hfrac, hexp, rfl⟩ := h
  have hdig19 : ∀ c : Byte, isDigit19 c = true → isDigit c = true := by
    intro c hc
    have := digit19_val c hc
    unfold isDigit
    simp only [decide_eq_true_eq]
    omega
  intro c hc
  simp only [List.mem_append] at hc
  rcases hc with ((hc | hc) | hc) | hc
  · rcases hsg with rfl | rfl
    · exact absurd hc (List.not_mem_nil _)
    · rw [List.mem_singleton.mp hc]; decide
  · rcases hint with rfl | ⟨c0, d, h0, hd, rfl⟩
    · rw [List.mem_singleton.mp hc]; left; decide
    · rcases List.mem_cons.mp hc with rfl | hc
      · exact Or.inl (hdig19 _ h0)
      · exact Or.inl (hd c hc)
  · rcases hfrac with rfl | ⟨c0, d, h0, hd, rfl⟩
    · exact absurd hc (List.not_mem_nil _)
    · rcases List.mem_cons.mp hc with rfl | hc
      · decide
      · rcases List.mem_cons.mp hc with rfl | hc
        · exact Or.inl h0
        · exact Or.inl (hd c hc)
  · rcases hexp with rfl | ⟨e, sg2, c0, d, he, hsg2, h0, hd, rfl⟩
    · exact absurd hc (List.not_mem_nil _)
    · rcases List.mem_cons.mp hc with rfl | hc
      · rcases he with he | he
        · exact Or.inr (Or.inr (Or.inl he))
        · exact Or.inr (Or.inr (Or.inr (Or.inl he)))
      · rcases List.mem_append.mp hc with hc | hc
        · rcases hsg2 with rfl | rfl | rfl
          · exact absurd hc (List.not_mem_nil _)
          · rw [List.mem_singleton.mp hc]; decide
          · rw [List.mem_singleton.mp hc]; decide
        · rcases List.mem_cons.mp hc with rfl | hc
          · exact Or.inl h0
          · exact Or.inl (hd c hc)

/-- The method `rescanLiteral` on a number that a delimiter follows. -/
theorem rescanLiteral_number (s : Scanner) (cv : Byte) (t : List Byte) (h : JNumber (cv :: t))
    (c1 : Byte) (Y : List Byte) (hc1 : Delim c1) (op : Op) (se : Bool) (v : PaperRecord) :
    DecodeState.rescanLiteral ⟨cv, t ++ c1 :: Y, s, op, se, v⟩
      = (cv :: t, ⟨c1, Y, (stateEndValue s c1).1, (stateEndValue s c1).2, se, v⟩) := by
  obtain ⟨c, t0, hct, hc⟩ := number_first (cv :: t) h
  obtain ⟨rfl, rfl⟩ := List.cons.inj hct
  have hbytes := number_bytes (cv :: t) h
  have hq : ¬ cv.val = 0x22 := by omega
  have hdm : isDigit cv = true ∨ cv.val = 0x2D := by
    rcases hc with hc | hc
    · exact Or.inr hc
    · left
      unfold isDigit
      simp only [decide_eq_true_eq]
      exact hc
  unfold DecodeState.rescanLiteral
  simp only [if_neg hq, if_pos hdm,
    rescanNumber_run c1 Y (delim_not_number c1 hc1) t
      (fun x hx => hbytes x (List.mem_cons_of_mem _ hx))]

/-- The method `rescanLiteral` on a literal name that another byte
follows. -/
theorem rescanLiteral_name (s : Scanner) (cv : Byte) (t : List Byte)
    (h : cv :: t = [0x74, 0x72, 0x75, 0x65] ∨ cv :: t = [0x66, 0x61, 0x6C, 0x73, 0x65]
      ∨ cv :: t = [0x6E, 0x75, 0x6C, 0x6C])
    (c1 : Byte) (Y : List Byte) (op : Op) (se : Bool) (v : PaperRecord) :
    DecodeState.rescanLiteral ⟨cv, t ++ c1 :: Y, s, op, se, v⟩
      = (cv :: t, ⟨c1, Y, (stateEndValue s c1).1, (stateEndValue s c1).2, se, v⟩) := by
  rcases h with h | h | h <;> obtain ⟨rfl, rfl⟩ := List.cons.inj h <;> rfl

/-! ## The method `skip` on an array or an object -/

theorem exits_of_passes (depth : Nat) (s s1 s2 : Scanner) (a b : List Byte)
    (h1 : Passes depth s a s1) (h2 : Exits depth s1 b s2) : Exits depth s (a ++ b) s2 := by
  intro Y
  rw [List.append_assoc]
  rcases h1 (b ++ Y) with h | h
  · exact Or.inl h
  · rw [h]; exact h2 Y

/-- The step of the scanner that makes the stack shorter than `depth`. -/
theorem exits_step (depth : Nat) (s s2 : Scanner) (c : Byte) (op : Op)
    (h : s.next c = (s2, op)) (hd : s2.parseState.length < depth) : Exits depth s [c] s2 := by
  intro Y
  right
  refine ⟨c, op, ?_⟩
  show skipLoop depth s (c :: Y) = _
  rw [skipLoop, h, if_pos (by simpa only using hd)]

/-- The loop of `skip` after the first byte of a text. -/
theorem passes_tail (depth : Nat) (s s1 : Scanner) (c : Byte) (seg : List Byte)
    (h : Passes depth s (c :: seg) s1) (hd : depth ≤ (s.next c).1.parseState.length) :
    Passes depth (s.next c).1 seg s1 := by
  intro Y
  have h1 := h Y
  simp only [List.cons_append] at h1
  rw [skipLoop, if_neg (by omega)] at h1
  exact h1

/-- Whitespace after a value, up to the delimiter. -/
theorem passes_after (depth : Nat) (top : ParseState) (below : List ParseState) (s1 : Scanner)
    (w : List Byte) (h1 : EndLike (top :: below) s1) (hw : Spaces w)
    (hd : depth ≤ below.length + 1) :
    ∃ s2, EndLike (top :: below) s2 ∧ Passes depth s1 w s2 := by
  cases w with
  | nil => exact ⟨s1, h1, passes_refl depth s1⟩
  | cons x w =>
    have hx : isSpace x = true := hw x (List.mem_cons_self _ _)
    have hw1 : Spaces w := fun y hy => hw y (List.mem_cons_of_mem _ hy)
    have hnx : s1.next x = (⟨.stateEndValue, false, top :: below, false⟩, .scanSkipSpace) := by
      rw [h1.2.2.2 x (Or.inl hx)]
      simp only [Scanner.next, stateEndValue, hx, if_true]
    exact ⟨_, endLike_end _, passes_trans depth s1 ⟨.stateEndValue, false, top :: below, false⟩ _
      [x] w (passes_step depth _ _ x _ hnx (by simp only [List.length_cons]; omega))
      (passes_spaces_end depth top below w hd hw1)⟩

theorem elems_first (a : List Byte) (h : Gram .elems a) : ∃ t, a = (0x5B : Byte) :: t := by
  generalize hk : Kind.elems = k at h
  induction h with
  | elemsNil => exact ⟨[], rfl⟩
  | elemsCons a w1 v w2 _ _ _ _ iha _ =>
    obtain ⟨t, rfl⟩ := iha hk
    exact ⟨_, rfl⟩
  | _ => exact Kind.noConfusion hk

theorem members_first (o : List Byte) (h : Gram .members o) : ∃ t, o = (0x7B : Byte) :: t := by
  generalize hk : Kind.members = k at h
  induction h with
  | membersNil => exact ⟨[], rfl⟩
  | membersCons o w1 kb w2 w3 v w4 _ _ _ _ _ _ _ iho _ =>
    obtain ⟨t, rfl⟩ := iho hk
    exact ⟨_, rfl⟩
  | _ => exact Kind.noConfusion hk

/-- The stack after an opening bracket or brace. -/
theorem push_stack (s : Scanner) (m : ParseState) (op : Op) :
    (s.pushParseState m op).1.parseState = m :: s.parseState := by
  unfold Scanner.pushParseState
  simp only
  split <;> rfl

/-- After the opening bracket of an array, the loop of `skip` returns at its
closing bracket. -/
theorem exits_array (top : ParseState) (below : List ParseState) (t : List Byte)
    (h : Gram .value ((0x5B : Byte) :: t)) :
    Exits (below.length + 2) (Scanner.next ⟨.stateBeginValue, false, top :: below, false⟩ 0x5B).1
      t ⟨.stateEndValue, false, top :: below, false⟩ := by
  have hn : Scanner.next ⟨.stateBeginValue, false, top :: below, false⟩ 0x5B
      = Scanner.pushParseState ⟨.stateBeginValueOrEmpty, false, top :: below, false⟩
          .parseArrayValue .scanBeginArray := rfl
  have hlen : (Scanner.next ⟨.stateBeginValue, false, top :: below, false⟩ 0x5B).1.parseState.length
      = below.length + 2 := by
    rw [hn, push_stack]; rfl
  generalize hv : (0x5B : Byte) :: t = v at h
  generalize hk : Kind.value = k at h
  cases h with
  | str b hb => exact absurd (List.cons.inj hv).1 (by decide)
  | num n hnum =>
    obtain ⟨c, t0, hct, hc⟩ := number_first _ hnum
    rw [← hv] at hct
    have := (List.cons.inj hct).1
    subst this
    exact absurd hc (by decide)
  | litTrue => exact absurd (List.cons.inj hv).1 (by decide)
  | litFalse => exact absurd (List.cons.inj hv).1 (by decide)
  | litNull => exact absurd (List.cons.inj hv).1 (by decide)
  | objEmpty w hw => exact absurd (List.cons.inj hv).1 (by decide)
  | obj o w1 kb w2 w3 x w4 ho =>
    obtain ⟨t0, rfl⟩ := members_first o ho
    exact absurd (List.cons.inj hv).1 (by decide)
  | arrEmpty w hw =>
    obtain ⟨_, rfl⟩ := List.cons.inj hv
    rw [hn]
    unfold Scanner.pushParseState
    simp only
    refine ite_prop (fun r : Scanner × Op => Exits (below.length + 2) r.1 (w ++ [0x5D])
      ⟨.stateEndValue, false, top :: below, false⟩) _ _ _ (fun _ => ?_) (fun _ => ?_)
    · exact exits_of_passes _ _ ⟨.stateBeginValueOrEmpty, false, .parseArrayValue :: top :: below,
        false⟩ _ w [0x5D]
        (passes_spaces _ _ _ w (by simp only [List.length_cons]; omega) hw (Or.inr (Or.inl rfl)))
        (exits_step _ _ _ _ .scanEndArray rfl (by simp only [List.length_cons]; omega))
    · intro Y
      exact Or.inl (skipLoop_dead _ _ _ ⟨rfl, rfl⟩ (by simp only [Scanner.error, List.length_cons]; omega))
  | arr a w1 x w2 ha hw1 hx hw2 =>
    obtain ⟨t0, rfl⟩ := elems_first a ha
    obtain ⟨_, rfl⟩ := List.cons.inj hv
    obtain ⟨st1, hst1, hp1⟩ := skipSpec .elems _ ha (below.length + 2) .stateBeginValue
      (top :: below) (by simp only [List.length_cons]; omega) (Or.inl rfl)
    have hp1 := passes_tail _ _ _ _ _ hp1 (by rw [hlen])
    obtain ⟨s1, he, hp2⟩ := passes_element (below.length + 2) st1 (top :: below) w1 x hst1
      (by simp only [List.length_cons]; omega) hw1 (skipSpec .value x hx)
    obtain ⟨s2, he2, hp3⟩ := passes_after (below.length + 2) .parseArrayValue (top :: below) s1 w2
      he hw2 (by simp only [List.length_cons]; omega)
    have hx2 : s2.next 0x5D = (⟨.stateEndValue, false, top :: below, false⟩, .scanEndArray) := by
      rw [he2.2.2.2 _ delim_bracket]; rfl
    have := exits_of_passes _ _ _ _ _ _
      (passes_trans _ _ _ _ _ _ (passes_trans _ _ _ _ _ _ hp1 hp2) hp3)
      (exits_step (below.length + 2) s2 _ 0x5D _ hx2 (by simp only [List.length_cons]; omega))
    simpa only [List.append_eq, List.append_assoc, List.cons_append] using this
  | _ => exact Kind.noConfusion hk

/-- After the opening brace of an object, the loop of `skip` returns at its
closing brace. -/
theorem exits_object (top : ParseState) (below : List ParseState) (t : List Byte)
    (h : Gram .value ((0x7B : Byte) :: t)) :
    Exits (below.length + 2) (Scanner.next ⟨.stateBeginValue, false, top :: below, false⟩ 0x7B).1
      t ⟨.stateEndValue, false, top :: below, false⟩ := by
  have hn : Scanner.next ⟨.stateBeginValue, false, top :: below, false⟩ 0x7B
      = Scanner.pushParseState ⟨.stateBeginStringOrEmpty, false, top :: below, false⟩
          .parseObjectKey .scanBeginObject := rfl
  have hlen : (Scanner.next ⟨.stateBeginValue, false, top :: below, false⟩ 0x7B).1.parseState.length
      = below.length + 2 := by
    rw [hn, push_stack]; rfl
  generalize hv : (0x7B : Byte) :: t = v at h
  generalize hk : Kind.value = k at h
  cases h with
  | str b hb => exact absurd (List.cons.inj hv).1 (by decide)
  | num n hnum =>
    obtain ⟨c, t0, hct, hc⟩ := number_first _ hnum
    rw [← hv] at hct
    have := (List.cons.inj hct).1
    subst this
    exact absurd hc (by decide)
  | litTrue => exact absurd (List.cons.inj hv).1 (by decide)
  | litFalse => exact absurd (List.cons.inj hv).1 (by decide)
  | litNull => exact absurd (List.cons.inj hv).1 (by decide)
  | arrEmpty w hw => exact absurd (List.cons.inj hv).1 (by decide)
  | arr a w1 x w2 ha =>
    obtain ⟨t0, rfl⟩ := elems_first a ha
    exact absurd (List.cons.inj hv).1 (by decide)
  | objEmpty w hw =>
    obtain ⟨_, rfl⟩ := List.cons.inj hv
    rw [hn]
    unfold Scanner.pushParseState
    simp only
    refine ite_prop (fun r : Scanner × Op => Exits (below.length + 2) r.1 (w ++ [0x7D])
      ⟨.stateEndValue, false, top :: below, false⟩) _ _ _ (fun _ => ?_) (fun _ => ?_)
    · exact exits_of_passes _ _ ⟨.stateBeginStringOrEmpty, false, .parseObjectKey :: top :: below,
        false⟩ _ w [0x7D]
        (passes_spaces _ _ _ w (by simp only [List.length_cons]; omega) hw
          (Or.inr (Or.inr (Or.inr rfl))))
        (exits_step _ _ _ _ .scanEndObject rfl (by simp only [List.length_cons]; omega))
    · intro Y
      exact Or.inl (skipLoop_dead _ _ _ ⟨rfl, rfl⟩ (by simp only [Scanner.error, List.length_cons]; omega))
  | obj o w1 kb w2 w3 x w4 ho hw1 hkb hw2 hw3 hx hw4 =>
    obtain ⟨t0, rfl⟩ := members_first o ho
    obtain ⟨_, rfl⟩ := List.cons.inj hv
    obtain ⟨st1, hst1, hp1⟩ := skipSpec .members _ ho (below.length + 2) .stateBeginValue
      (top :: below) (by simp only [List.length_cons]; omega) (Or.inl rfl)
    have hp1 := passes_tail _ _ _ _ _ hp1 (by rw [hlen])
    obtain ⟨s1, he, hp2⟩ := passes_member (below.length + 2) st1 (top :: below) w1 kb w2 w3 x hst1
      (by simp only [List.length_cons]; omega) hw1 hkb hw2 hw3 (skipSpec .value x hx)
    obtain ⟨s2, he2, hp3⟩ := passes_after (below.length + 2) .parseObjectValue (top :: below) s1 w4
      he hw4 (by simp only [List.length_cons]; omega)
    have hx2 : s2.next 0x7D = (⟨.stateEndValue, false, top :: below, false⟩, .scanEndObject) := by
      rw [he2.2.2.2 _ delim_brace]; rfl
    have := exits_of_passes _ _ _ _ _ _
      (passes_trans _ _ _ _ _ _ (passes_trans _ _ _ _ _ _ hp1 hp2) hp3)
      (exits_step (below.length + 2) s2 _ 0x7D _ hx2 (by simp only [List.length_cons]; omega))
    simpa only [memberText, List.append_eq, List.append_assoc, List.cons_append] using this
  | _ => exact Kind.noConfusion hk

/-- The method `skip` and the `scanNext` after it, on an array or object that
is the value of a member and that the byte `c1` follows. -/
theorem skip_container (cv : Byte) (t : List Byte) (hcv : cv = 0x5B ∨ cv = 0x7B)
    (h : Gram .value (cv :: t)) (c1 : Byte) (Y : List Byte) (op : Op) (se : Bool)
    (rec : PaperRecord) (dv : DecodeState)
    (hs : (DecodeState.skip ⟨cv, t ++ c1 :: Y,
        (Scanner.next ⟨.stateBeginValue, false, [.parseObjectValue], false⟩ cv).1, op, se,
        rec⟩).map DecodeState.scanNext = some dv) :
    dv = ⟨c1, Y, (stateEndValue ⟨.stateEndValue, false, [.parseObjectValue], false⟩ c1).1,
      (stateEndValue ⟨.stateEndValue, false, [.parseObjectValue], false⟩ c1).2, se, rec⟩ := by
  have hex : Exits 2 (Scanner.next ⟨.stateBeginValue, false, [.parseObjectValue], false⟩ cv).1 t
      ⟨.stateEndValue, false, [.parseObjectValue], false⟩ := by
    rcases hcv with rfl | rfl
    · exact exits_array .parseObjectValue [] t h
    · exact exits_object .parseObjectValue [] t h
  have hlen : (Scanner.next ⟨.stateBeginValue, false, [.parseObjectValue], false⟩ cv).1.parseState.length
      = 2 := by
    rcases hcv with rfl | rfl <;> rfl
  unfold DecodeState.skip at hs
  simp only [hlen] at hs
  rcases hex (c1 :: Y) with hnone | ⟨last, op1, hsome⟩
  · rw [hnone] at hs
    exact Option.noConfusion hs
  · rw [hsome] at hs
    simp only [Option.map_some', Option.some.injEq] at hs
    rw [← hs]
    rfl

/-! ## The value of a member -/

/-- The value of a member that is a literal: with a key that designates a
field, the literal is stored or an error is saved; with another key the
literal is passed over. -/
theorem member_literal (v : List Byte) (cv : Byte) (t : List Byte) (st : StepFn)
    (hbeg : Scanner.next ⟨.stateBeginValue, false, [.parseObjectValue], false⟩ cv
      = (⟨st, false, [.parseObjectValue], false⟩, .scanBeginLiteral))
    (c1 : Byte) (Y : List Byte)
    (hres : ∀ (s : Scanner) (op : Op) (se : Bool) (rec : PaperRecord),
      DecodeState.rescanLiteral ⟨cv, t ++ c1 :: Y, s, op, se, rec⟩
        = (v, ⟨c1, Y, (stateEndValue s c1).1, (stateEndValue s c1).2, se, rec⟩))
    (hstore : ∀ (d d1 : DecodeState) (fld : Field), d.literalStore v (some fld) = some d1 →
      d1.savedError = true ∨
        (((∃ b, StringBody b ∧ v = quoted b) ∨ v = [0x6E, 0x75, 0x6C, 0x6C]) ∧
          ∃ rec1, d1 = ⟨d.cur, d.rest, d.scan, d.opcode, d.savedError, rec1⟩))
    (f : Option Field) (se : Bool) (rec : PaperRecord) (dv : DecodeState)
    (h : DecodeState.valueMember ⟨cv, t ++ c1 :: Y,
        (Scanner.next ⟨.stateBeginValue, false, [.parseObjectValue], false⟩ cv).1,
        (Scanner.next ⟨.stateBeginValue, false, [.parseObjectValue], false⟩ cv).2, se, rec⟩ f
      = some dv) :
    dv.savedError = true ∨
      ((f.isSome = true → (∃ b, StringBody b ∧ v = quoted b) ∨ v = [0x6E, 0x75, 0x6C, 0x6C]) ∧
        ∃ rec1, dv = ⟨c1, Y,
          (stateEndValue ⟨.stateEndValue, false, [.parseObjectValue], false⟩ c1).1,
          (stateEndValue ⟨.stateEndValue, false, [.parseObjectValue], false⟩ c1).2, se, rec1⟩) := by
  rw [hbeg] at h
  unfold DecodeState.valueMember at h
  simp only [hres, stateEndValue_step st [.parseObjectValue] c1] at h
  cases f with
  | none =>
    simp only [Option.isSome_none, Bool.false_eq_true, if_false, Option.some.injEq] at h
    exact Or.inr ⟨fun hf => absurd hf (by simp), rec, h.symm⟩
  | some fld =>
    simp only [Option.isSome_some, if_true] at h
    rcases hstore _ dv fld h with h1 | ⟨h1, rec1, h2⟩
    · exact Or.inl h1
    · exact Or.inr ⟨fun _ => h1, rec1, h2⟩

/-- Storing a string in a field. -/
theorem store_string (b : List Byte) (hb : StringBody b) (d d1 : DecodeState) (fld : Field)
    (h : d.literalStore (quoted b) (some fld) = some d1) :
    d1.savedError = true ∨
      (((∃ b0, StringBody b0 ∧ quoted b = quoted b0) ∨ quoted b = [0x6E, 0x75, 0x6C, 0x6C]) ∧
        ∃ rec1, d1 = ⟨d.cur, d.rest, d.scan, d.opcode, d.savedError, rec1⟩) := by
  unfold DecodeState.literalStore quoted at h
  simp only [show ((0x22 : Byte)).val = 0x22 from rfl, Nat.reduceEqDiff, if_false, if_true,
    false_or] at h
  cases hu : unquoteBytes ((0x22 : Byte) :: (b ++ [0x22])) with
  | none => rw [hu] at h; exact Option.noConfusion h
  | some s =>
    rw [hu] at h
    simp only [Option.some.injEq] at h
    exact Or.inr ⟨Or.inl ⟨b, hb, rfl⟩, _, h.symm⟩

/-- Storing a number, `true` or `false` in a field saves an error. -/
theorem store_other (c : Byte) (t : List Byte)
    (hc : c.val = 0x2D ∨ (0x30 ≤ c.val ∧ c.val ≤ 0x39) ∨ c.val = 0x74 ∨ c.val = 0x66)
    (d d1 : DecodeState) (fld : Field) (h : d.literalStore (c :: t) (some fld) = some d1) :
    d1.savedError = true := by
  unfold DecodeState.literalStore at h
  simp only at h
  rw [if_neg (show ¬ _ by omega)] at h
  by_cases h1 : c.val = 0x74 ∨ c.val = 0x66
  · rw [if_pos h1] at h
    rw [← Option.some.inj h]; rfl
  · rw [if_neg h1, if_neg (show ¬ _ by omega), if_neg (show ¬ _ by omega)] at h
    rw [← Option.some.inj h]; rfl

/-- Storing `null` in a field leaves the field as it is. -/
theorem store_null (d d1 : DecodeState) (fld : Field)
    (h : d.literalStore [0x6E, 0x75, 0x6C, 0x6C] (some fld) = some d1) : d1 = d := by
  unfold DecodeState.literalStore at h
  simp only [show ((0x6E : Byte)).val = 0x6E from rfl, if_true, Option.some.injEq] at h
  exact h.symm

/-- The first byte of a number, where a value must begin. -/
theorem number_begin (ps : List ParseState) (cv : Byte) (t : List Byte)
    (h : JNumber (cv :: t)) :
    ∃ st, Scanner.next ⟨.stateBeginValue, false, ps, false⟩ cv
      = (⟨st, false, ps, false⟩, .scanBeginLiteral) := by
  obtain ⟨sg, int, frac, exp, hsg, hint, _, _, ht⟩ := h
  rcases hsg with rfl | rfl
  · rcases hint with rfl | ⟨c, d, hc, _, rfl⟩
    · obtain ⟨rfl, _⟩ := List.cons.inj ht
      exact ⟨.state0, rfl⟩
    · obtain ⟨rfl, _⟩ := List.cons.inj ht
      exact ⟨.state1, next_begin_digit19 ps _ hc⟩
  · obtain ⟨rfl, _⟩ := List.cons.inj ht
    exact ⟨.stateNeg, rfl⟩

/-- The method `value` on the value of a member of the object, which the
byte `c1` follows: an error is saved, or the decoder stands after the value
and, if the key designates a field, the value is a string or `null`. -/
theorem valueMember_spec (v : List Byte) (hv : Gram .value v) (cv : Byte) (t : List Byte)
    (hcv : v = cv :: t) (f : Option Field) (c1 : Byte) (Y : List Byte) (hc1 : Delim c1)
    (se : Bool) (rec : PaperRecord) (dv : DecodeState)
    (h : DecodeState.valueMember ⟨cv, t ++ c1 :: Y,
        (Scanner.next ⟨.stateBeginValue, false, [.parseObjectValue], false⟩ cv).1,
        (Scanner.next ⟨.stateBeginValue, false, [.parseObjectValue], false⟩ cv).2, se, rec⟩ f
      = some dv) :
    dv.savedError = true ∨
      ((f.isSome = true → (∃ b, StringBody b ∧ v = quoted b) ∨ v = [0x6E, 0x75, 0x6C, 0x6C]) ∧
        ∃ rec1, dv = ⟨c1, Y,
          (stateEndValue ⟨.stateEndValue, false, [.parseObjectValue], false⟩ c1).1,
          (stateEndValue ⟨.stateEndValue, false, [.parseObjectValue], false⟩ c1).2, se, rec1⟩) := by
  have hcont : cv = 0x5B ∨ cv = 0x7B → Gram .value (cv :: t) →
      dv.savedError = true ∨
      ((f.isSome = true → (∃ b, StringBody b ∧ v = quoted b) ∨ v = [0x6E, 0x75, 0x6C, 0x6C]) ∧
        ∃ rec1, dv = ⟨c1, Y,
          (stateEndValue ⟨.stateEndValue, false, [.parseObjectValue], false⟩ c1).1,
          (stateEndValue ⟨.stateEndValue, false, [.parseObjectValue], false⟩ c1).2, se, rec1⟩) := by
    intro hb hg
    cases f with
    | some fld =>
      left
      refine valueMember_saved ⟨cv, t ++ c1 :: Y,
        (Scanner.next ⟨.stateBeginValue, false, [.parseObjectValue], false⟩ cv).1,
        (Scanner.next ⟨.stateBeginValue, false, [.parseObjectValue], false⟩ cv).2, true, rec⟩ dv
        (some fld) ?_ rfl
      rw [← h]
      rcases hb with rfl | rfl <;> rfl
    | none =>
      right
      refine ⟨fun hf => absurd hf (by simp), rec, ?_⟩
      refine skip_container cv t hb hg c1 Y
        (Scanner.next ⟨.stateBeginValue, false, [.parseObjectValue], false⟩ cv).2 se rec dv ?_
      rw [← h]
      rcases hb with rfl | rfl <;> rfl
  cases hv with
  | str b hb =>
    obtain ⟨rfl, rfl⟩ := List.cons.inj hcv
    exact member_literal (quoted b) 0x22 (b ++ [0x22]) .stateInString rfl c1 Y
      (fun s op se rec => by
        have := rescanLiteral_string s b hb c1 Y op se rec
        simpa only [List.append_assoc, List.singleton_append] using this)
      (store_string b hb) f se rec dv h
  | num n hn =>
    subst hcv
    obtain ⟨st, hst⟩ := number_begin [.parseObjectValue] cv t hn
    obtain ⟨c, t0, hct, hc⟩ := number_first _ hn
    obtain ⟨rfl, rfl⟩ := List.cons.inj hct
    exact member_literal _ _ _ st hst c1 Y
      (fun s op se rec => rescanLiteral_number s cv t hn c1 Y hc1 op se rec)
      (fun d d1 fld hs => Or.inl (store_other cv t (by omega) d d1 fld hs)) f se rec dv h
  | litTrue =>
    obtain ⟨rfl, rfl⟩ := List.cons.inj hcv
    exact member_literal [0x74, 0x72, 0x75, 0x65] 0x74 [0x72, 0x75, 0x65] .stateT rfl c1 Y
      (fun s op se rec => rescanLiteral_name s _ _ (Or.inl rfl) c1 Y op se rec)
      (fun d d1 fld hs => Or.inl (store_other _ _ (by decide) d d1 fld hs)) f se rec dv h
  | litFalse =>
    obtain ⟨rfl, rfl⟩ := List.cons.inj hcv
    exact member_literal [0x66, 0x61, 0x6C, 0x73, 0x65] 0x66 [0x61, 0x6C, 0x73, 0x65] .stateF rfl c1 Y
      (fun s op se rec => rescanLiteral_name s _ _ (Or.inr (Or.inl rfl)) c1 Y op se rec)
      (fun d d1 fld hs => Or.inl (store_other _ _ (by decide) d d1 fld hs)) f se rec dv h
  | litNull =>
    obtain ⟨rfl, rfl⟩ := List.cons.inj hcv
    exact member_literal [0x6E, 0x75, 0x6C, 0x6C] 0x6E [0x75, 0x6C, 0x6C] .stateN rfl c1 Y
      (fun s op se rec => rescanLiteral_name s _ _ (Or.inr (Or.inr rfl)) c1 Y op se rec)
      (fun d d1 fld hs => Or.inr ⟨Or.inr rfl, d.v, store_null d d1 fld hs⟩) f se rec dv h
  | arrEmpty w hw =>
    obtain ⟨rfl, rfl⟩ := List.cons.inj hcv
    exact hcont (Or.inl rfl) (Gram.arrEmpty w hw)
  | arr a w1 x w2 ha hw1 hx hw2 =>
    obtain ⟨t0, rfl⟩ := elems_first a ha
    obtain ⟨rfl, rfl⟩ := List.cons.inj hcv
    exact hcont (Or.inl rfl) (Gram.arr _ w1 x w2 ha hw1 hx hw2)
  | objEmpty w hw =>
    obtain ⟨rfl, rfl⟩ := List.cons.inj hcv
    exact hcont (Or.inr rfl) (Gram.objEmpty w hw)
  | obj o w1 kb w2 w3 x w4 ho hw1 hkb hw2 hw3 hx hw4 =>
    obtain ⟨t0, rfl⟩ := members_first o ho
    obtain ⟨rfl, rfl⟩ := List.cons.inj hcv
    exact hcont (Or.inr rfl) (Gram.obj _ w1 kb w2 w3 x w4 ho hw1 hkb hw2 hw3 hx hw4)

/-! ## One iteration of the loop of `object` -/

/-- The first byte of a value is no whitespace, and the scanner does not
skip it. -/
theorem value_first (ps : List ParseState) (v : List Byte) (h : Gram .value v) :
    ∃ cv t, v = cv :: t ∧ isSpace cv = false ∧
      (Scanner.next ⟨.stateBeginValue, false, ps, false⟩ cv).2 ≠ .scanSkipSpace := by
  have hpush : ∀ (s : Scanner) (m : ParseState) (op : Op), op ≠ .scanSkipSpace →
      (s.pushParseState m op).2 ≠ .scanSkipSpace := by
    intro s m op hop
    unfold Scanner.pushParseState
    simp only
    split
    · exact hop
    · simp [Scanner.error]
  have hlit : ∀ (c : Byte) (st : StepFn),
      Scanner.next ⟨.stateBeginValue, false, ps, false⟩ c
        = (⟨st, false, ps, false⟩, .scanBeginLiteral) →
      (Scanner.next ⟨.stateBeginValue, false, ps, false⟩ c).2 ≠ .scanSkipSpace := by
    intro c st hc
    rw [hc]
    simp
  cases h with
  | str b hb => exact ⟨0x22, b ++ [0x22], rfl, rfl, hlit 0x22 .stateInString rfl⟩
  | num n hn =>
    obtain ⟨c, t, rfl, hc⟩ := number_first _ hn
    obtain ⟨st, hst⟩ := number_begin ps c t hn
    exact ⟨c, t, rfl, space_of_val c (by omega), hlit c st hst⟩
  | litTrue => exact ⟨0x74, _, rfl, rfl, hlit 0x74 .stateT rfl⟩
  | litFalse => exact ⟨0x66, _, rfl, rfl, hlit 0x66 .stateF rfl⟩
  | litNull => exact ⟨0x6E, _, rfl, rfl, hlit 0x6E .stateN rfl⟩
  | arrEmpty w hw =>
    exact ⟨0x5B, _, rfl, rfl, hpush ⟨.stateBeginValueOrEmpty, false, ps, false⟩ .parseArrayValue
      .scanBeginArray (by simp)⟩
  | arr a w1 x w2 ha hw1 hx hw2 =>
    obtain ⟨t0, rfl⟩ := elems_first a ha
    exact ⟨0x5B, _, rfl, rfl, hpush ⟨.stateBeginValueOrEmpty, false, ps, false⟩ .parseArrayValue
      .scanBeginArray (by simp)⟩
  | objEmpty w hw =>
    exact ⟨0x7B, _, rfl, rfl, hpush ⟨.stateBeginStringOrEmpty, false, ps, false⟩ .parseObjectKey
      .scanBeginObject (by simp)⟩
  | obj o w1 kb w2 w3 x w4 ho hw1 hkb hw2 hw3 hx hw4 =>
    obtain ⟨t0, rfl⟩ := members_first o ho
    exact ⟨0x7B, _, rfl, rfl, hpush ⟨.stateBeginStringOrEmpty, false, ps, false⟩ .parseObjectKey
      .scanBeginObject (by simp)⟩

theorem objectLoop_next (fuel : Nat) (d : DecodeState) :
    objectLoop (fuel + 1) d =
      (let d := d.scanWhile .scanSkipSpace
      if d.opcode = .scanEndObject then some d
      else if d.opcode ≠ .scanBeginLiteral then none
      else
        let r := d.rescanLiteral
        match unquoteBytes r.1 with
        | none => none
        | some key =>
          let d := r.2
          let f := findField key
          let d := if d.opcode = .scanSkipSpace then d.scanWhile .scanSkipSpace else d
          if d.opcode ≠ .scanObjectKey then none
          else
            let d := d.scanWhile .scanSkipSpace
            match d.valueMember f with
            | none => none
            | some d => objectNext fuel d) := rfl

/-- The loop of `object` from the key of a member to its value. -/
theorem objectLoop_key (fuel : Nat) (st : StepFn)
    (hst : st = .stateBeginString ∨ st = .stateBeginStringOrEmpty) (w1 kb w2 w3 : List Byte)
    (cv : Byte) (Z : List Byte) (hw1 : Spaces w1) (hkb : StringBody kb) (hw2 : Spaces w2)
    (hw3 : Spaces w3) (hcv : isSpace cv = false)
    (hne : (Scanner.next ⟨.stateBeginValue, false, [.parseObjectValue], false⟩ cv).2
      ≠ .scanSkipSpace)
    (cur : Byte) (op : Op) (se : Bool) (rec : PaperRecord) :
    objectLoop (fuel + 1) ⟨cur, w1 ++ (0x22 : Byte) :: (kb ++ (0x22 : Byte) ::
        (w2 ++ (0x3A : Byte) :: (w3 ++ cv :: Z))), ⟨st, false, [.parseObjectKey], false⟩, op, se,
        rec⟩
      = match unquoteBytes (quoted kb) with
        | none => none
        | some key =>
          match DecodeState.valueMember ⟨cv, Z,
            (Scanner.next ⟨.stateBeginValue, false, [.parseObjectValue], false⟩ cv).1,
            (Scanner.next ⟨.stateBeginValue, false, [.parseObjectValue], false⟩ cv).2, se, rec⟩
            (findField key) with
          | none => none
          | some d => objectNext fuel d := by
  have hfix : ∀ x, isSpace x = true →
      Scanner.next ⟨st, false, [.parseObjectKey], false⟩ x
        = (⟨st, false, [.parseObjectKey], false⟩, .scanSkipSpace) := by
    intro x hx
    rcases hst with rfl | rfl
    · simp only [Scanner.next, stateBeginString, hx, if_true]
    · simp only [Scanner.next, stateBeginStringOrEmpty, hx, if_true]
  have hq : Scanner.next ⟨st, false, [.parseObjectKey], false⟩ 0x22
      = (⟨.stateInString, false, [.parseObjectKey], false⟩, .scanBeginLiteral) := by
    rcases hst with rfl | rfl <;> rfl
  obtain ⟨c2, Y2, h2, _⟩ := after_first w2 0x3A (w3 ++ cv :: Z) hw2 (Or.inr (Or.inr (Or.inl rfl)))
  have h3 := after_token .stateInString .parseObjectKey [] w2 (w3 ++ cv :: Z) 0x3A c2 Y2 se
    rec hw2 rfl h2
  have h4 := scanWhile_spaces ⟨.stateBeginValue, false, [.parseObjectValue], false⟩ w3 cv Z 0x3A
    .scanObjectKey se rec hw3
    (fun x hx => by simp only [Scanner.next, stateBeginValue, hx, if_true]) hne
  rw [objectLoop_next, scanWhile_spaces _ w1 0x22 _ cur op se rec hw1 hfix (by rw [hq]; simp), hq,
    ← h2]
  simp only [reduceCtorEq, if_false, ne_eq, not_true_eq_false, rescanLiteral_string _ kb hkb c2 Y2]
  cases hu : unquoteBytes (quoted kb) with
  | none => rfl
  | some key =>
    simp only [h3]
    have he : stateEndValue ⟨.stateEndValue, false, [.parseObjectKey], false⟩ 0x3A
        = (⟨.stateBeginValue, false, [.parseObjectValue], false⟩, .scanObjectKey) := rfl
    simp only [he, not_true_eq_false, if_false, h4]

/-! ## The loop of `object` on the members of an object -/

theorem bad_next (fuel : Nat) (d : DecodeState) (hd : d.savedError = true) :
    Bad (objectNext fuel d) :=
  bad_tail fuel d hd (objectLoop_saved fuel)

/-- One iteration of the loop of `object`, on a member that a comma or the
closing brace follows: an error is saved or the decoder fails, or the value
of the member fits the record and, after a comma, the loop goes on with the
text after the comma. -/
theorem member_step (fuel : Nat) (st : StepFn)
    (hst : st = .stateBeginString ∨ st = .stateBeginStringOrEmpty)
    (w1 kb w2 w3 v w4 : List Byte) (hw1 : Spaces w1) (hkb : StringBody kb) (hw2 : Spaces w2)
    (hw3 : Spaces w3) (hv : Gram .value v) (hw4 : Spaces w4) (delim : Byte)
    (hdelim : delim = 0x2C ∨ delim = 0x7D) (X : List Byte) (cur : Byte) (op : Op)
    (rec : PaperRecord) :
    Bad (objectLoop fuel ⟨cur, memberText w1 kb w2 w3 v w4 ++ delim :: X,
        ⟨st, false, [.parseObjectKey], false⟩, op, false, rec⟩) ∨
      (FitsField kb v ∧ (delim = 0x2C → ∃ fuel1 rec1,
        objectLoop fuel ⟨cur, memberText w1 kb w2 w3 v w4 ++ delim :: X,
            ⟨st, false, [.parseObjectKey], false⟩, op, false, rec⟩
          = objectLoop fuel1 ⟨0x2C, X, ⟨.stateBeginString, false, [.parseObjectKey], false⟩,
            .scanObjectValue, false, rec1⟩)) := by
  cases fuel with
  | zero => exact Or.inl bad_none
  | succ fuel =>
    obtain ⟨cv, t, rfl, hcv, hne⟩ := value_first [.parseObjectValue] v hv
    have hsd : isSpace delim = false := by rcases hdelim with rfl | rfl <;> rfl
    have hdd : Delim delim := by
      rcases hdelim with rfl | rfl
      · exact delim_comma
      · exact delim_brace
    obtain ⟨c1, Y, h4, hc1⟩ := after_first w4 delim X hw4 hdd
    have htext : memberText w1 kb w2 w3 (cv :: t) w4 ++ delim :: X
        = w1 ++ (0x22 : Byte) :: (kb ++ (0x22 : Byte) ::
          (w2 ++ (0x3A : Byte) :: (w3 ++ cv :: (t ++ c1 :: Y)))) := by
      rw [h4]
      simp only [memberText, quoted, List.append_assoc, List.cons_append, List.nil_append,
        List.singleton_append]
    rw [htext, objectLoop_key fuel st hst w1 kb w2 w3 cv _ hw1 hkb hw2 hw3 hcv hne]
    cases hu : unquoteBytes (quoted kb) with
    | none => exact Or.inl bad_none
    | some key =>
      simp only
      cases hvm : DecodeState.valueMember ⟨cv, t ++ c1 :: Y,
          (Scanner.next ⟨.stateBeginValue, false, [.parseObjectValue], false⟩ cv).1,
          (Scanner.next ⟨.stateBeginValue, false, [.parseObjectValue], false⟩ cv).2, false, rec⟩
          (findField key) with
      | none => exact Or.inl bad_none
      | some dv =>
        simp only
        rcases valueMember_spec (cv :: t) hv cv t rfl (findField key) c1 Y hc1 false rec dv hvm
          with hs | ⟨hfit, rec1, rfl⟩
        · exact Or.inl (bad_next fuel dv hs)
        · right
          have hfits : FitsField kb (cv :: t) := by
            unfold FitsField keyField
            rw [hu]
            exact hfit
          refine ⟨hfits, ?_⟩
          have h5 := after_token .stateEndValue .parseObjectValue [] w4 X delim c1 Y false rec1
            hw4 hsd h4
          unfold objectNext
          simp only [h5]
          rcases hdelim with rfl | rfl
          · intro _
            exact ⟨fuel, rec1, rfl⟩
          · intro hx
            exact absurd hx (by decide)

/-- The loop of `object` on the members of an object that end in a comma: an
error is saved or the decoder fails, or the values of the members fit the
record and the loop goes on with the text after them. -/
theorem members_run (o : List Byte) (h : Gram .members o) :
    ∀ (t : List Byte), o = (0x7B : Byte) :: t → ∀ (fuel : Nat) (X : List Byte) (cur : Byte)
      (op : Op) (rec : PaperRecord),
      Bad (objectLoop fuel ⟨cur, t ++ X, ⟨.stateBeginStringOrEmpty, false, [.parseObjectKey],
          false⟩, op, false, rec⟩) ∨
        (FitMembers o ∧ ∃ st fuel1 cur1 op1 rec1,
          (st = .stateBeginString ∨ st = .stateBeginStringOrEmpty) ∧
          objectLoop fuel ⟨cur, t ++ X, ⟨.stateBeginStringOrEmpty, false, [.parseObjectKey],
              false⟩, op, false, rec⟩
            = objectLoop fuel1 ⟨cur1, X, ⟨st, false, [.parseObjectKey], false⟩, op1, false,
              rec1⟩) := by
  generalize hk : Kind.members = k at h
  induction h with
  | membersNil =>
    intro t ht fuel X cur op rec
    obtain ⟨_, rfl⟩ := List.cons.inj ht
    exact Or.inr ⟨FitMembers.nil, _, fuel, cur, op, rec, Or.inr rfl, rfl⟩
  | membersCons o w1 kb w2 w3 v w4 ho hw1 hkb hw2 hw3 hv hw4 iho _ =>
    intro t ht fuel X cur op rec
    obtain ⟨t0, rfl⟩ := members_first o ho
    have ht2 : t = t0 ++ memberText w1 kb w2 w3 v w4 ++ [0x2C] := (List.cons.inj ht).2.symm
    subst ht2
    have hre : t0 ++ memberText w1 kb w2 w3 v w4 ++ [0x2C] ++ X
        = t0 ++ (memberText w1 kb w2 w3 v w4 ++ (0x2C : Byte) :: X) := by
      simp only [List.append_assoc, List.singleton_append]
    rw [hre]
    rcases iho hk t0 rfl fuel (memberText w1 kb w2 w3 v w4 ++ (0x2C : Byte) :: X) cur op rec with
      hb | ⟨hfm, st, fuel1, cur1, op1, rec1, hst, heq⟩
    · exact Or.inl hb
    · rw [heq]
      rcases member_step fuel1 st hst w1 kb w2 w3 v w4 hw1 hkb hw2 hw3 hv hw4 0x2C (Or.inl rfl) X
        cur1 op1 rec1 with hb | ⟨hfit, hnext⟩
      · exact Or.inl hb
      · obtain ⟨fuel2, rec2, heq2⟩ := hnext rfl
        exact Or.inr ⟨FitMembers.cons _ w1 kb w2 w3 v w4 hfm hw1 hkb hw2 hw3 hv hw4 hfit,
          .stateBeginString, fuel2, 0x2C, .scanObjectValue, rec2, Or.inl rfl, heq2⟩
  | _ => exact Kind.noConfusion hk

/-! ## The decoder on a JSON text -/

theorem rescanLiteral_fst (d : DecodeState) : ∃ t, d.rescanLiteral.1 = d.cur :: t := by
  unfold DecodeState.rescanLiteral
  simp only
  split <;> exact ⟨_, rfl⟩

/-- A literal other than `null` for the record itself saves an error, or the
decoder fails. -/
theorem literalStore_record (d : DecodeState) (c : Byte) (t : List Byte) (hc : c.val ≠ 0x6E) :
    Bad (d.literalStore (c :: t) none) := by
  unfold DecodeState.literalStore
  simp only
  rw [if_neg hc]
  refine bad_ite _ _ _ (fun _ => bad_some _ rfl) (fun _ => bad_ite _ _ _ (fun _ => ?_)
    (fun _ => bad_ite _ _ _ (fun _ => bad_none) (fun _ => bad_some _ rfl)))
  split
  · exact bad_none
  · exact bad_some _ rfl

theorem value_literal (d : DecodeState) (ho : d.opcode = .scanBeginLiteral)
    (hc : d.cur.val ≠ 0x6E) : Bad d.value := by
  unfold DecodeState.value
  rw [ho]
  simp only
  obtain ⟨t, ht⟩ := rescanLiteral_fst d
  rw [ht]
  exact literalStore_record _ d.cur t hc

/-- An array for the record itself saves an error, or the decoder fails. -/
theorem value_array (d : DecodeState) (ho : d.opcode = .scanBeginArray) : Bad d.value := by
  unfold DecodeState.value
  rw [ho]
  simp only
  intro d1 h1
  cases hs : d.saveError.skip with
  | none => rw [hs] at h1; exact Option.noConfusion h1
  | some d2 =>
    rw [hs] at h1
    simp only [Option.map_some', Option.some.injEq] at h1
    rw [← h1, scanNext_saved, skip_saved _ d2 hs]
    rfl

theorem bad_map (r : Option DecodeState) (h : Bad r) : Bad (r.map DecodeState.scanNext) := by
  intro d1 h1
  cases r with
  | none => exact Option.noConfusion h1
  | some d2 =>
    simp only [Option.map_some', Option.some.injEq] at h1
    rw [← h1, scanNext_saved]
    exact h d2 rfl

/-- The method `value` on the first byte of the top-level value `v`: the
value is `null` or an object whose members fit the record, or an error is
saved, or the decoder fails. -/
theorem value_spec (v : List Byte) (hv : Gram .value v) (cv : Byte) (t : List Byte)
    (hcv : v = cv :: t) (w2 : List Byte) :
    (v = [0x6E, 0x75, 0x6C, 0x6C] ∨ FitObject v) ∨
      Bad (DecodeState.value ⟨cv, t ++ w2, (Scanner.next Scanner.reset cv).1,
        (Scanner.next Scanner.reset cv).2, false, PaperRecord.zero⟩) := by
  cases hv with
  | str b hb =>
    obtain ⟨rfl, rfl⟩ := List.cons.inj hcv
    exact Or.inr (value_literal _ rfl (show ((0x22 : Byte)).val ≠ 0x6E by decide))
  | num n hn =>
    subst hcv
    obtain ⟨st, hst⟩ := number_begin [] cv t hn
    obtain ⟨c, t0, hct, hc⟩ := number_first _ hn
    obtain ⟨rfl, rfl⟩ := List.cons.inj hct
    refine Or.inr (value_literal _ ?_ (show cv.val ≠ 0x6E by omega))
    show (Scanner.next ⟨.stateBeginValue, false, [], false⟩ cv).2 = _
    rw [hst]
  | litTrue =>
    obtain ⟨rfl, rfl⟩ := List.cons.inj hcv
    exact Or.inr (value_literal _ rfl (show ((0x74 : Byte)).val ≠ 0x6E by decide))
  | litFalse =>
    obtain ⟨rfl, rfl⟩ := List.cons.inj hcv
    exact Or.inr (value_literal _ rfl (show ((0x66 : Byte)).val ≠ 0x6E by decide))
  | litNull => exact Or.inl (Or.inl rfl)
  | arrEmpty w hw =>
    obtain ⟨rfl, rfl⟩ := List.cons.inj hcv
    exact Or.inr (value_array _ rfl)
  | arr a w1 x w3 ha hw1 hx hw3 =>
    obtain ⟨t0, rfl⟩ := elems_first a ha
    obtain ⟨rfl, rfl⟩ := List.cons.inj hcv
    exact Or.inr (value_array _ rfl)
  | objEmpty w hw => exact Or.inl (Or.inr (Or.inl ⟨w, hw, rfl⟩))
  | obj o w1 kb w3 w4 x w5 ho hw1 hkb hw3 hw4 hx hw5 =>
    obtain ⟨t0, rfl⟩ := members_first o ho
    obtain ⟨rfl, rfl⟩ := List.cons.inj hcv
    have hre : t0 ++ memberText w1 kb w3 w4 x w5 ++ [0x7D] ++ w2
        = t0 ++ (memberText w1 kb w3 w4 x w5 ++ (0x7D : Byte) :: w2) := by
      simp only [List.append_assoc, List.singleton_append]
    have hval : ∀ (rest : List Byte),
        DecodeState.value ⟨0x7B, rest, (Scanner.next Scanner.reset 0x7B).1,
          (Scanner.next Scanner.reset 0x7B).2, false, PaperRecord.zero⟩
        = (objectLoop (rest.length + 1) ⟨0x7B, rest,
            ⟨.stateBeginStringOrEmpty, false, [.parseObjectKey], false⟩, .scanBeginObject, false,
            PaperRecord.zero⟩).map DecodeState.scanNext := fun _ => rfl
    show _ ∨ Bad (DecodeState.value ⟨0x7B, t0 ++ memberText w1 kb w3 w4 x w5 ++ [0x7D] ++ w2, _, _,
      false, PaperRecord.zero⟩)
    rw [hre, hval]
    rcases members_run _ ho t0 rfl
      ((t0 ++ (memberText w1 kb w3 w4 x w5 ++ (0x7D : Byte) :: w2)).length + 1)
      (memberText w1 kb w3 w4 x w5 ++ (0x7D : Byte) :: w2) 0x7B .scanBeginObject PaperRecord.zero
      with hb | ⟨hfm, st, fuel1, cur1, op1, rec1, hst, heq⟩
    · exact Or.inr (bad_map _ hb)
    · rw [heq]
      rcases member_step fuel1 st hst w1 kb w3 w4 x w5 hw1 hkb hw3 hw4 hx hw5 0x7D (Or.inr rfl) w2
        cur1 op1 rec1 with hb | ⟨hfit, _⟩
      · exact Or.inr (bad_map _ hb)
      · exact Or.inl (Or.inr (Or.inr ⟨_, w1, kb, w3, w4, x, w5, hfm, hw1, hkb, hw3, hw4, hx, hw5,
          hfit, rfl⟩))

/-- Every text that decodes to a record is a JSON text, by the grammar, whose
value is `null` or an object in which every member whose key designates a
field of the record holds a string or `null`. -/
theorem decode_recordText (data : Bytes) (r : PaperRecord) (h : jsonUnmarshal data = some r) :
    RecordText data := by
  unfold jsonUnmarshal at h
  cases hc : checkValid data with
  | false =>
    rw [hc] at h
    exact Option.noConfusion h
  | true =>
    rw [hc] at h
    simp only [Bool.not_true, Bool.false_eq_true, if_false] at h
    obtain ⟨w1, v, w2, hw1, hv, hw2, rfl⟩ := checkValid_sound data hc
    obtain ⟨cv, t, rfl, hcv, hne⟩ := value_first [] v hv
    have hsw := scanWhile_spaces Scanner.reset w1 cv (t ++ w2) 0 .scanContinue false
      PaperRecord.zero hw1
      (fun x hx => by
        show stateBeginValue Scanner.reset x = _
        simp only [stateBeginValue, hx, if_true])
      hne
    have hre : w1 ++ cv :: t ++ w2 = w1 ++ cv :: (t ++ w2) := by
      simp only [List.append_assoc, List.cons_append]
    rw [hre, hsw] at h
    rcases value_spec (cv :: t) hv cv t rfl w2 with hfit | hbad
    · exact ⟨w1, cv :: t, w2, hw1, hw2, rfl, hfit⟩
    · cases hd : DecodeState.value ⟨cv, t ++ w2, (Scanner.next Scanner.reset cv).1,
          (Scanner.next Scanner.reset cv).2, false, PaperRecord.zero⟩ with
      | none =>
        rw [hd] at h
        exact Option.noConfusion h
      | some d =>
        rw [hd] at h
        simp only [hbad d hd, if_true] at h
        exact Option.noConfusion h

/-! ## Texts that do not decode to a record -/

theorem fitMembers_first (o : List Byte) (h : FitMembers o) : ∃ t, o = (0x7B : Byte) :: t := by
  induction h with
  | nil => exact ⟨[], rfl⟩
  | cons o w1 kb w2 w3 v w4 _ _ _ _ _ _ _ _ ih =>
    obtain ⟨t, rfl⟩ := ih
    exact ⟨_, rfl⟩

/-- Members that end in a comma: there are none, or the text has a comma. -/
theorem fitMembers_comma (o : List Byte) (h : FitMembers o) :
    o = [0x7B] ∨ (0x2C : Byte) ∈ o := by
  cases h with
  | nil => exact Or.inl rfl
  | cons o w1 kb w2 w3 v w4 => exact Or.inr (by simp)

/-- Whitespace before a byte that is no whitespace: when the text begins
with a byte that is no whitespace, there is none. -/
theorem spaces_cons (w : List Byte) (x : Byte) (X : List Byte) (c : Byte) (L : List Byte)
    (hw : Spaces w) (hc : isSpace c = false) (h : w ++ x :: X = c :: L) :
    w = [] ∧ x = c ∧ X = L := by
  cases w with
  | nil =>
    obtain ⟨h1, h2⟩ := List.cons.inj h
    exact ⟨rfl, h1, h2⟩
  | cons y w =>
    have hy : isSpace y = true := hw y (List.mem_cons_self _ _)
    rw [(List.cons.inj h).1, hc] at hy
    exact absurd hy (by decide)

theorem fitObject_first (v : List Byte) (h : FitObject v) : ∃ t, v = (0x7B : Byte) :: t := by
  rcases h with ⟨w, _, rfl⟩ | ⟨o, w1, kb, w2, w3, x, w4, ho, _, _, _, _, _, _, _, rfl⟩
  · exact ⟨_, rfl⟩
  · obtain ⟨t, rfl⟩ := fitMembers_first o ho
    exact ⟨_, rfl⟩

/-- A text that begins with a byte other than whitespace, `n` and the
opening brace does not decode to a record. -/
theorem not_recordText_first (c : Byte) (L : List Byte) (hc : isSpace c = false)
    (hn : c ≠ 0x6E) (hb : c ≠ 0x7B) : ¬ RecordText (c :: L) := by
  rintro ⟨w1, v, w2, hw1, _, hd, hv⟩
  rcases hv with rfl | hv
  · have h := spaces_cons w1 0x6E ([0x75, 0x6C, 0x6C] ++ w2) c L hw1 hc
      (by rw [hd]; simp only [List.append_assoc, List.cons_append])
    exact hn h.2.1.symm
  · obtain ⟨t, rfl⟩ := fitObject_first v hv
    have h := spaces_cons w1 0x7B (t ++ w2) c L hw1 hc
      (by rw [hd]; simp only [List.append_assoc, List.cons_append])
    exact hb h.2.1.symm

theorem mistypedText_bytes :
    mistypedText = (0x7B : Byte) :: 0x22 :: ([0x73, 0x74, 0x75, 0x64, 0x65, 0x6E, 0x74, 0x49, 0x64]
      ++ (0x22 : Byte) :: 0x3A :: ([0x31] ++ (0x7D : Byte) :: [])) := by
  decide

/-- The object whose member `studentId` holds a number does not decode to a
record. -/
theorem not_recordText_mistyped : ¬ RecordText mistypedText := by
  rintro ⟨w1, v, w2, hw1, hw2, hd, hv⟩
  have hcomma : (0x2C : Byte) ∉ mistypedText := by decide
  rw [mistypedText_bytes] at hd
  rcases hv with rfl | hv
  · have heq : w1 ++ (0x6E : Byte) :: ([0x75, 0x6C, 0x6C] ++ w2)
        = (0x7B : Byte) :: 0x22 :: ([0x73, 0x74, 0x75, 0x64, 0x65, 0x6E, 0x74, 0x49, 0x64]
          ++ (0x22 : Byte) :: 0x3A :: ([0x31] ++ (0x7D : Byte) :: [])) := by
      rw [hd]; simp only [List.append_assoc, List.cons_append]
    exact absurd (spaces_cons _ _ _ 0x7B _ hw1 rfl heq).2.1 (by decide)
  · rcases hv with ⟨w, hw, rfl⟩ | ⟨o, u1, kb, u2, u3, x, u4, ho, hu1, hkb, hu2, hu3, hx, hu4, hfit,
      rfl⟩
    · have heq : w1 ++ (0x7B : Byte) :: (w ++ (0x7D : Byte) :: w2)
          = (0x7B : Byte) :: 0x22 :: ([0x73, 0x74, 0x75, 0x64, 0x65, 0x6E, 0x74, 0x49, 0x64]
            ++ (0x22 : Byte) :: 0x3A :: ([0x31] ++ (0x7D : Byte) :: [])) := by
        rw [hd]; simp only [List.append_assoc, List.cons_append, List.nil_append]
      have h := spaces_cons _ _ _ 0x7B _ hw1 rfl heq
      exact absurd (spaces_cons _ _ _ 0x22 _ hw rfl h.2.2).2.1 (by decide)
    · rcases fitMembers_comma o ho with rfl | hc
      · obtain ⟨cx, tx, rfl, hcx, _⟩ := value_first [] x hx
        have heq : w1 ++ (0x7B : Byte) :: (u1 ++ (0x22 : Byte) :: (kb ++ (0x22 : Byte) ::
            (u2 ++ (0x3A : Byte) :: (u3 ++ cx :: (tx ++ (u4 ++ (0x7D : Byte) :: w2))))))
            = (0x7B : Byte) :: 0x22 :: ([0x73, 0x74, 0x75, 0x64, 0x65, 0x6E, 0x74, 0x49, 0x64]
              ++ (0x22 : Byte) :: 0x3A :: ([0x31] ++ (0x7D : Byte) :: [])) := by
          rw [hd]
          simp only [memberText, quoted, List.append_assoc, List.cons_append, List.nil_append]
        have h := spaces_cons _ _ _ 0x7B _ hw1 rfl heq
        have h2 := spaces_cons _ _ _ 0x22 _ hu1 rfl h.2.2
        obtain ⟨hkb2, _, h4⟩ :=
          (List.append_cons_inj_of_not_mem (by decide) (by decide)).mp h2.2.2.symm
        have h5 := spaces_cons u2 0x3A _ 0x3A _ hu2 rfl h4.symm
        have h6 := spaces_cons u3 cx _ 0x31 [0x7D] hu3 rfl h5.2.2
        have hcx1 : cx = 0x31 := h6.2.1
        have htail : tx ++ (u4 ++ (0x7D : Byte) :: w2) = [0x7D] := h6.2.2
        have htx : tx = [] := by
          cases tx with
          | nil => rfl
          | cons y tx =>
            have h7 := (List.cons.inj htail).2
            simp at h7
        subst htx
        subst hcx1
        subst hkb2
        have hkey : (keyField [0x73, 0x74, 0x75, 0x64, 0x65, 0x6E, 0x74, 0x49, 0x64]).isSome
            = true := by decide
        rcases hfit hkey with ⟨b, _, hb⟩ | hnull
        · exact absurd (List.cons.inj hb).1 (by decide)
        · exact absurd (List.cons.inj hnull).1 (by decide)
      · apply hcomma
        rw [mistypedText_bytes, hd]
        simp only [List.mem_append]
        exact Or.inl (Or.inr (Or.inl (Or.inl hc)))

/-- C11, as amended: for every PaperRecord `r` and every proper initial part
`p` of `encode(r)`, the empty byte string included, `decode(p)` returns an
error; and `decode` returns an error on every byte string that is not a JSON
text, by the grammar of RFC 8259 over bytes (which does not ask the bytes
inside a string to be valid UTF-8), whose value is `null` or an object in
which every member whose key designates a field of the record holds a string
or `null`. -/
theorem decode_rejects_truncated (r : PaperRecord) (p q : Bytes) (hq : q ≠ [])
    (h : encodeRecord r = p ++ q) :
    jsonUnmarshal p = none ∧
    (∀ data : Bytes, ¬ RecordText data → jsonUnmarshal data = none) := by
  have hall : ∀ data : Bytes, ¬ RecordText data → jsonUnmarshal data = none := by
    intro data hd
    cases hj : jsonUnmarshal data with
    | none => rfl
    | some rec => exact absurd (decode_recordText data rec hj) hd
  refine ⟨?_, hall⟩
  unfold jsonUnmarshal
  rw [checkValid_truncated r p q hq h]
  rfl

/-- Witness of C11: the first 40 bytes of the encoding of the scenario's
record return an error, and so do an array, a number, a string and an object
whose member `studentId` holds a number. -/
theorem decode_rejects_truncated_witness :
    jsonUnmarshal ((encodeRecord scenario).take 40) = none ∧
    jsonUnmarshal arrayText = none ∧ jsonUnmarshal numberText = none ∧
    jsonUnmarshal stringText = none ∧ jsonUnmarshal mistypedText = none :=
  have w := decode_rejects_truncated scenario ((encodeRecord scenario).take 40)
    ((encodeRecord scenario).drop 40) (by decide) (List.take_append_drop 40 _).symm
  ⟨w.1, w.2 arrayText (not_recordText_first 0x5B [0x5D] rfl (by decide) (by decide)),
    w.2 numberText (not_recordText_first 0x31 [0x32] rfl (by decide) (by decide)),
    w.2 stringText (not_recordText_first 0x22 [0x78, 0x22] rfl (by decide) (by decide)),
    w.2 mistypedText not_recordText_mistyped⟩

set_option maxRecDepth 1000000 in
/-- Counterexample to C11 as stated: the text `null` and the text of an object
with the member `studentId` alone are not the encoding of any record, and
they decode without error, to the record with empty fields and to a record
of which five fields are empty. -/
theorem decode_rejects_truncated_counterexample :
    (∀ r, encodeRecord r ≠ nullText) ∧ jsonUnmarshal nullText = some PaperRecord.zero ∧
    (∀ r, encodeRecord r ≠ partialText) ∧
    jsonUnmarshal partialText = some { PaperRecord.zero with StudentID := ascii "S1" } := by
  refine ⟨?_, by decide, ?_, by decide⟩
  · intro r heq
    have h1 := encodeRecord_long r
    rw [heq] at h1
    exact absurd h1 (by decide)
  · intro r heq
    have h1 := encodeRecord_long r
    rw [heq] at h1
    exact absurd h1 (by decide)

end PaperChain
